import Mathlib

/-!
# Ring-LWE key exchange (openssl-ringlwe): embedding and verified properties

Shallow embedding of `crypto/ringlwe`:

* `FFT/FFT_includes.h`   : the arithmetic macros and the pointwise ring operations;
* `FFT/FFT_512_25601.c`, `FFT/FFT_1024_40961.c` : the twisted (negacyclic) NTT;
* `FFT/FFT_337_32353.c`, `FFT/FFT_433_35507.c`, `FFT/FFT_739_47297.c` : the Bluestein
  transforms, over the tables and auxiliary transforms they take from elsewhere;
* `ringlwe_kex.c`        : sampling, reconciliation and the three KEM routines;
* `ringlwe_key.c`        : descriptors, parsing and serialisation of keys, key-pair operations
  and key derivation.

Conventions.  A C array is a `List Nat`; a read `x[i]` is `x.getD i 0` and a write
`x[i] = v` is `x.set i v`.  `FFTSHORT` (`uint_fast32_t`) and `RINGELT` (`uint_fast16_t`)
are both 64 bits wide on the LP64 targets the library is built for (the code casts
`RINGELT *` to `FFTSHORT *` throughout, so the two must have one width); unsigned
arithmetic on them is arithmetic modulo `2 ^ 64`.
-/

namespace RingLWE

/-! ## Machine arithmetic and the macros of `FFT_includes.h` -/

/-- Unsigned 64-bit subtraction `a - b`. -/
def USUB (a b : Nat) : Nat := (a + (2 ^ 64 - b % 2 ^ 64)) % 2 ^ 64

/-- The macro `ADD(x, a, b)`: `x = a + b` on 64-bit words. -/
def ADD (a b : Nat) : Nat := (a + b) % 2 ^ 64

/-- The macro `MUL_MOD(x, a, b, q)`: the product is formed in `uint64_t`, then reduced. -/
def MUL_MOD (a b q : Nat) : Nat := ((a * b) % 2 ^ 64) % q

/-- The macro `ADD_MOD(x, a, b, q)`: one addition and one conditional subtraction. -/
def ADD_MOD (a b q : Nat) : Nat :=
  let x := ADD a b
  if x ≥ q then x - q else x

/-- The macro `SUB_MOD(x, a, b, q)`: `x = a + (q - b)`, then one conditional subtraction. -/
def SUB_MOD (a b q : Nat) : Nat :=
  let x := ADD a (USUB q b)
  if x ≥ q then x - q else x

/-- The macro `SUB_MODn(x, a, b, n)`, used for the twiddle index. -/
def SUB_MODn (a b n : Nat) : Nat :=
  let x := ADD a (USUB n b)
  if x ≥ n then x - n else x

/-! ## The radix-2 loop nest of the NTT files -/

/-- Innermost loop `for (i = j; i < n; i += (m<<1)) body`, where `body` is the
butterfly on the pair `(i, i+m)`; `fuel` bounds the number of iterations. -/
def loop_i (body : List Nat → Nat → List Nat) (n m : Nat) :
    Nat → Nat → List Nat → List Nat
  | 0, _, x => x
  | fuel + 1, i, x =>
    if i < n then loop_i body n m fuel (i + (m <<< 1)) (body x i) else x

/-- Middle loop `for (j = 0; j < m; ++j) { inner loop; SUB_MODn(index, index, step, n); }`.
The butterfly receives the table entry `T[index]`. -/
def loop_j (bfly : Nat → Nat → List Nat → Nat → List Nat) (T : List Nat) (n m step : Nat) :
    Nat → Nat → Nat → List Nat → List Nat
  | 0, _, _, x => x
  | fuel + 1, j, index, x =>
    if j < m then
      loop_j bfly T n m step fuel (j + 1) (SUB_MODn index step n)
        (loop_i (bfly (T.getD index 0) m) n m n j x)
    else x

/-- Body of the forward (Gentleman–Sande) butterfly:
`ADD_MOD(t0, x[i], x[i+m], q); ADD(t1, x[i], q - x[i+m]);`
`MUL_MOD(x[i+m], t1, W[index], q); x[i] = t0;`. -/
def GS_butterfly (q w m : Nat) (x : List Nat) (i : Nat) : List Nat :=
  let t0 := ADD_MOD (x.getD i 0) (x.getD (i + m) 0) q
  let t1 := ADD (x.getD i 0) (USUB q (x.getD (i + m) 0))
  let x := x.set (i + m) (MUL_MOD t1 w q)
  x.set i t0

/-- Body of the backward (Cooley–Tukey) butterfly:
`t0 = x[i]; t0 -= (t0 >= q) ? q : 0; MUL_MOD(t1, x[i+m], W_rev[index], q);`
`ADD(x[i], t0, t1); ADD(x[i+m], t0, q - t1);`. -/
def CT_butterfly (q w m : Nat) (x : List Nat) (i : Nat) : List Nat :=
  let t0 := x.getD i 0
  let t0 := if t0 ≥ q then t0 - q else t0
  let t1 := MUL_MOD (x.getD (i + m) 0) w q
  let x := x.set i (ADD t0 t1)
  x.set (i + m) (ADD t0 (USUB q t1))

/-- Outer loop of the forward transform:
`step = 1; for (m = n>>1; m >= 1; m = m>>1) { index = 0; middle loop; step = step << 1; }`. -/
def forward_levels (q n : Nat) (W : List Nat) : Nat → Nat → Nat → List Nat → List Nat
  | 0, _, _, x => x
  | fuel + 1, m, step, x =>
    if m ≥ 1 then
      forward_levels q n W fuel (m >>> 1) (step <<< 1)
        (loop_j (GS_butterfly q) W n m step n 0 0 x)
    else x

/-- Outer loop of the backward transform:
`step = n>>1; for (m = 1; m < n; m = m<<1) { index = 0; middle loop; step = step >> 1; }`. -/
def backward_levels (q n : Nat) (W_rev : List Nat) : Nat → Nat → Nat → List Nat → List Nat
  | 0, _, _, x => x
  | fuel + 1, m, step, x =>
    if m < n then
      backward_levels q n W_rev fuel (m <<< 1) (step >>> 1)
        (loop_j (CT_butterfly q) W_rev n m step n 0 0 x)
    else x

/-- The pre- and post-multiplication loop of the twisted transforms:
`j = 0; for (i = 0; i < n>>1; ++i) { MUL_MOD(x[j], x[j], A[i], q); j++;`
`MUL_MOD(x[j], x[j], B[i], q); j++; }`. -/
def twist (q : Nat) (A B : List Nat) : Nat → Nat → Nat → List Nat → List Nat
  | 0, _, _, x => x
  | cnt + 1, i, j, x =>
    let x := x.set j (MUL_MOD (x.getD j 0) (A.getD i 0) q)
    let j := j + 1
    let x := x.set j (MUL_MOD (x.getD j 0) (B.getD i 0) q)
    let j := j + 1
    twist q A B cnt (i + 1) j x

/-- The function `FFT_forward_<n>_<q>` (plain Gentleman–Sande transform). -/
def FFT_forward (n q : Nat) (W : List Nat) (x : List Nat) : List Nat :=
  forward_levels q n W n (n >>> 1) 1 x

/-- The function `FFT_backward_<n>_<q>` (plain Cooley–Tukey transform with the final
conditional subtraction `x[i] -= (x[i] >= q) ? q : 0`). -/
def FFT_backward (n q : Nat) (W_rev : List Nat) (x : List Nat) : List Nat :=
  let x := backward_levels q n W_rev n 1 (n >>> 1) x
  (List.range n).foldl (fun x i => x.set i (if x.getD i 0 ≥ q then x.getD i 0 - q else x.getD i 0)) x

/-- The function `FFT_twisted_forward_<n>_<q>`. -/
def FFT_twisted_forward (n q : Nat) (W W_sqrt : List Nat) (x : List Nat) : List Nat :=
  let x := twist q W W_sqrt (n >>> 1) 0 0 x
  forward_levels q n W n (n >>> 1) 1 x

/-- The function `FFT_twisted_backward_<n>_<q>`. -/
def FFT_twisted_backward (n q : Nat) (W_rev W_sqrt_rev : List Nat) (x : List Nat) : List Nat :=
  let x := backward_levels q n W_rev n 1 (n >>> 1) x
  twist q W_rev W_sqrt_rev (n >>> 1) 0 0 x

/-- The final scaling loop `for (i=0; i<n; ++i) MUL_MOD(x[i], x[i], ninv, q);`. -/
def scale (n q ninv : Nat) (x : List Nat) : List Nat :=
  (List.range n).foldl (fun x i => x.set i (MUL_MOD (x.getD i 0) ninv q)) x

/-- Twiddle tables of one power-of-two parameter set (`FFT_constants.h`). -/
structure Twiddles where
  W : List Nat
  W_rev : List Nat
  W_sqrt : List Nat
  W_sqrt_rev : List Nat

/-- The entry point `_FFT_forward_512_25601`. -/
def _FFT_forward_512_25601 (T : Twiddles) (x : List Nat) : List Nat :=
  FFT_twisted_forward 512 25601 T.W T.W_sqrt x

/-- The entry point `_FFT_backward_512_25601`. -/
def _FFT_backward_512_25601 (T : Twiddles) (x : List Nat) : List Nat :=
  scale 512 25601 25551 (FFT_twisted_backward 512 25601 T.W_rev T.W_sqrt_rev x)

/-- The entry point `_FFT_forward_1024_40961`. -/
def _FFT_forward_1024_40961 (T : Twiddles) (x : List Nat) : List Nat :=
  FFT_twisted_forward 1024 40961 T.W T.W_sqrt x

/-- The entry point `_FFT_backward_1024_40961`. -/
def _FFT_backward_1024_40961 (T : Twiddles) (x : List Nat) : List Nat :=
  scale 1024 40961 40921 (FFT_twisted_backward 1024 40961 T.W_rev T.W_sqrt_rev x)

/-! ## The pointwise ring operations of `FFT_includes.h`

The loop counter `_i` is a `uint16_t`; every parameter set has `m <= 1024`, so it never
wraps.  Each iteration reads and writes index `_i` only, so the result is given entry by
entry; the lists returned hold the `m` entries the loop writes. -/

/-- The macro `POINTWISE_MUL(v, b, e0, m, q)`: `MUL_MOD(v[i], e0[i], b[i], q)` for `i < m`. -/
def POINTWISE_MUL (b e0 : List Nat) (m q : Nat) : List Nat :=
  (List.range m).map (fun i => MUL_MOD (e0.getD i 0) (b.getD i 0) q)

/-- The macro `POINTWISE_ADD(v, b, e0, m, q)`: `ADD_MOD(v[i], e0[i], b[i], q)` for `i < m`. -/
def POINTWISE_ADD (b e0 : List Nat) (m q : Nat) : List Nat :=
  (List.range m).map (fun i => ADD_MOD (e0.getD i 0) (b.getD i 0) q)

/-- The macro `POINTWISE_MUL_ADD(v, b, e0, e1, m, q)`:
`MUL_MOD(v[i], e0[i], b[i], q); ADD_MOD(v[i], v[i], e1[i], q)` for `i < m`. -/
def POINTWISE_MUL_ADD (b e0 e1 : List Nat) (m q : Nat) : List Nat :=
  (List.range m).map
    (fun i => ADD_MOD (MUL_MOD (e0.getD i 0) (b.getD i 0) q) (e1.getD i 0) q)

/-- The macro `MAPTOCYCLOTOMIC(v, m, q)`:
`for (_i = 0; _i < m-1; ++_i) SUB_MOD(v[_i], v[_i], v[m-1], q); v[m-1] = 0;`. -/
def MAPTOCYCLOTOMIC (v : List Nat) (m q : Nat) : List Nat :=
  let v := (List.range (m - 1)).foldl
    (fun v i => v.set i (SUB_MOD (v.getD i 0) (v.getD (m - 1) 0) q)) v
  v.set (m - 1) 0

/-! ## Parameter sets and randomness (`ringlwe_consts.h`, `rlwe_rand_openssl_aes.h`) -/

/-- Modelled from the spec: the record `RINGLWE_PARAM_DATA`, whose declaration
(`ringlwe_consts.h`) is not among the sources.  The fields are the ones the code reads;
the two function pointers `fft_forward`, `fft_backward` are functions on arrays. -/
structure RINGLWE_PARAM_DATA where
  m : Nat
  q : Nat
  a : List Nat
  BB : Nat
  BMASK : Nat
  LOG2B : Nat
  small_coeff_table : List Nat
  qmod4 : Nat
  q_1_4 : Nat
  q_2_4 : Nat
  q_3_4 : Nat
  r0_l : Nat
  r0_u : Nat
  r1_l : Nat
  r1_u : Nat
  muwords : Nat
  fft_forward : List Nat → List Nat
  fft_backward : List Nat → List Nat

/-- Modelled from the spec: the randomness source behind the macros `RANDOM_VARS` and
`RANDOM64` (`rlwe_rand_openssl_aes.h` is not among the sources): "a stream of independent
uniform random 64-bit words from an externally supplied source".  The state is the stream
and the number of words already consumed. -/
structure RandomSource where
  words : Nat → Nat
  pos : Nat

/-- Modelled from the spec: the macro `RANDOM64`, the next 64-bit word of the stream. -/
def RANDOM64 (rs : RandomSource) : Nat × RandomSource :=
  (rs.words rs.pos % 2 ^ 64, ⟨rs.words, rs.pos + 1⟩)

/-! ## `ringlwe_kex.c` -/

/-- The loop `while (i < loop_limit) { ... }` of `sample_secret`; `fuel` bounds the number of
iterations (rejection sampling has no bound of its own), `none` means the fuel ran out. -/
def sample_secret_loop (p : RINGLWE_PARAM_DATA) (loop_limit : Nat) :
    Nat → Nat → Nat → Nat → List Nat → RandomSource → Option (List Nat × RandomSource)
  | 0, i, _, _, s, rs => if i < loop_limit then none else some (s, rs)
  | fuel + 1, i, r, shifts, s, rs =>
    if i < loop_limit then
      let l := r &&& p.BMASK
      let s := if l < p.BB then s.set i (p.small_coeff_table.getD l 0) else s
      let i := if l < p.BB then i + 1 else i
      let shifts := shifts + 1
      if shifts * p.LOG2B ≥ 64 then
        sample_secret_loop p loop_limit fuel i (RANDOM64 rs).1 0 s (RANDOM64 rs).2
      else
        sample_secret_loop p loop_limit fuel i (r >>> p.LOG2B) shifts s rs
    else some (s, rs)

/-- The function `sample_secret(s, p)`.  The destination `s[m]` is returned; every entry of
it is written when the loop terminates, so its contents before the call do not matter and
are taken to be `0`. -/
def sample_secret (fuel : Nat) (p : RINGLWE_PARAM_DATA) (rs : RandomSource) :
    Option (List Nat × RandomSource) :=
  let r := (RANDOM64 rs).1
  let rs := (RANDOM64 rs).2
  let s := List.replicate p.m 0
  let loop_limit := if p.m % 2 = 1 then p.m - 1 else p.m
  let s := if p.m % 2 = 1 then s.set (p.m - 1) 0 else s
  sample_secret_loop p loop_limit fuel 0 r 0 s rs

/-- Local state of `round_and_cross_round`: the random word `r`, the bit counter `rbit`,
the output position (`word`, `pos`), the two outputs and the randomness source. -/
structure RcrState where
  r : Nat
  rbit : Nat
  word : Nat
  pos : Nat
  modular_rnd : List Nat
  cross_rnd : List Nat
  rs : RandomSource

/-- The statements `rbit++; if (rbit >= 64) { r = RANDOM64; rbit = 0; } else r = (r >> 1);`. -/
def next_rbit (st : RcrState) : RcrState :=
  if st.rbit + 1 ≥ 64 then
    { st with r := (RANDOM64 st.rs).1, rbit := 0, rs := (RANDOM64 st.rs).2 }
  else
    { st with r := st.r >>> 1, rbit := st.rbit + 1 }

/-- The randomized nudge of `round_and_cross_round` applied to `val`: the value used for
the rounding and the state after the random bit (if any) was consumed. -/
def nudge (p : RINGLWE_PARAM_DATA) (val : Nat) (st : RcrState) : Nat × RcrState :=
  if p.qmod4 = 1 then
    if val = 0 then
      ((if st.r &&& 1 ≠ 0 then USUB p.q 1 else val), next_rbit st)
    else if val = USUB p.q_1_4 1 then
      ((if st.r &&& 1 ≠ 0 then p.q_1_4 else val), next_rbit st)
    else (val, st)
  else
    if val = 0 then
      ((if st.r &&& 1 ≠ 0 then USUB p.q 1 else val), next_rbit st)
    else if val = USUB p.q_3_4 1 then
      ((if st.r &&& 1 ≠ 0 then p.q_3_4 else val), next_rbit st)
    else (val, st)

/-- The statement `x[word] |= (1UL << pos)`. -/
def set_bit (x : List Nat) (word pos : Nat) : List Nat :=
  x.set word (x.getD word 0 ||| ((1 <<< pos) % 2 ^ 64))

/-- One iteration of the loop of `round_and_cross_round` on coefficient `v[i]`. -/
def rcr_step (p : RINGLWE_PARAM_DATA) (v : List Nat) (st : RcrState) (i : Nat) : RcrState :=
  let val := (nudge p (v.getD i 0) st).1
  let st := (nudge p (v.getD i 0) st).2
  let mu := if val > p.q_1_4 ∧ val < p.q_3_4 then set_bit st.modular_rnd st.word st.pos
    else st.modular_rnd
  let cr := if (val > p.q_1_4 ∧ val ≤ p.q_2_4) ∨ val ≥ p.q_3_4 then
      set_bit st.cross_rnd st.word st.pos
    else st.cross_rnd
  if st.pos + 1 = 64 then
    { st with word := st.word + 1, pos := 0, modular_rnd := mu, cross_rnd := cr }
  else
    { st with pos := st.pos + 1, modular_rnd := mu, cross_rnd := cr }

/-- Number of coefficients the reconciliation loops visit: `m`, or `m - 1` when `m` is odd. -/
def loop_limit (p : RINGLWE_PARAM_DATA) : Nat := if p.m % 2 = 1 then p.m - 1 else p.m

/-- State of `round_and_cross_round` after the first `cnt` iterations of its loop, starting
from the state after `r = RANDOM64` and the two `memset`s. -/
def rcr_run (p : RINGLWE_PARAM_DATA) (v : List Nat) (rs : RandomSource) (cnt : Nat) : RcrState :=
  (List.range cnt).foldl (rcr_step p v)
    ⟨(RANDOM64 rs).1, 0, 0, 0, List.replicate p.muwords 0, List.replicate p.muwords 0,
      (RANDOM64 rs).2⟩

/-- The function `round_and_cross_round(modular_rnd, cross_rnd, v, p)`; returns
`(modular_rnd, cross_rnd)` and the randomness source after the call. -/
def round_and_cross_round (p : RINGLWE_PARAM_DATA) (v : List Nat) (rs : RandomSource) :
    (List Nat × List Nat) × RandomSource :=
  let st := rcr_run p v rs (loop_limit p)
  ((st.modular_rnd, st.cross_rnd), st.rs)

/-- One iteration of the loop of `ringlwe_rec`; the state is `(word, pos, r)`. -/
def rec_step (p : RINGLWE_PARAM_DATA) (w b : List Nat) (st : Nat × Nat × List Nat) (i : Nat) :
    Nat × Nat × List Nat :=
  let word := st.1
  let pos := st.2.1
  let r := st.2.2
  let r :=
    if (b.getD word 0 >>> pos) &&& 1 ≠ 0 then
      if w.getD i 0 > p.r1_l ∧ w.getD i 0 < p.r1_u then set_bit r word pos else r
    else
      if w.getD i 0 > p.r0_l ∧ w.getD i 0 < p.r0_u then set_bit r word pos else r
  if pos + 1 = 64 then (word + 1, 0, r) else (word, pos + 1, r)

/-- The function `ringlwe_rec(r, w, b, p)`; returns `r`. -/
def ringlwe_rec (p : RINGLWE_PARAM_DATA) (w b : List Nat) : List Nat :=
  ((List.range (loop_limit p)).foldl (rec_step p w b) (0, 0, List.replicate p.muwords 0)).2.2

/-- The function `KEM1_Generate(s, b, p)`; returns `(s, b)` with `s` the `2m` array holding
the two transformed secrets.  `(FFTSHORT *)s+m` addresses `s + m` since `FFTSHORT` and
`RINGELT` have one width. -/
def KEM1_Generate (fuel : Nat) (p : RINGLWE_PARAM_DATA) (rs : RandomSource) :
    Option ((List Nat × List Nat) × RandomSource) :=
  match sample_secret fuel p rs with
  | none => none
  | some (s0, rs) =>
    match sample_secret fuel p rs with
    | none => none
    | some (s1, rs) =>
      let s0 := p.fft_forward s0
      let s1 := p.fft_forward s1
      let b := POINTWISE_MUL_ADD p.a s1 s0 p.m p.q
      some ((s0 ++ s1, b), rs)

/-- The function `KEM1_Encapsulate(u, cr_v, mu, b, p)`; returns `(u, cr_v, mu)`. -/
def KEM1_Encapsulate (fuel : Nat) (p : RINGLWE_PARAM_DATA) (b : List Nat) (rs : RandomSource) :
    Option ((List Nat × List Nat × List Nat) × RandomSource) :=
  match sample_secret fuel p rs with
  | none => none
  | some (e0, rs) =>
    match sample_secret fuel p rs with
    | none => none
    | some (e1, rs) =>
      match sample_secret fuel p rs with
      | none => none
      | some (e2, rs) =>
        let e0 := p.fft_forward e0
        let e1 := p.fft_forward e1
        let u := POINTWISE_MUL_ADD p.a e0 e1 p.m p.q
        let v := POINTWISE_MUL b e0 p.m p.q
        let v := p.fft_backward v
        let v := if p.m % 2 = 1 then MAPTOCYCLOTOMIC v p.m p.q else v
        let v := POINTWISE_ADD v e2 p.m p.q
        let out := round_and_cross_round p v rs
        some ((u, out.1.2, out.1.1), out.2)

/-- The function `KEM1_Decapsulate(mu, u, s_1, cr_v, p)`; returns `mu`. -/
def KEM1_Decapsulate (p : RINGLWE_PARAM_DATA) (u s_1 cr_v : List Nat) : List Nat :=
  let w := POINTWISE_MUL s_1 u p.m p.q
  let w := p.fft_backward w
  let w := if p.m % 2 = 1 then MAPTOCYCLOTOMIC w p.m p.q else w
  ringlwe_rec p w cr_v

/-! ## `ringlwe_key.c`: descriptors, parsing and serialisation -/

/-- The nine supported parameter sets, in the order of `rlwe_nid_list`; a value of this type
stands for a pointer to the corresponding global record `_ringlwe_param_<n>`. -/
inductive ParamSet where
  | s1024_40961
  | s821_49261
  | s739_47297
  | s631_44171
  | s541_41117
  | s512_25601
  | s433_35507
  | s337_32353
  | s256_15361
  deriving DecidableEq, Repr

/-- The list `rlwe_nid_list` of `RLWE_get_nid_from_descriptor`, as parameter sets. -/
def rlwe_set_list : List ParamSet :=
  [.s1024_40961, .s821_49261, .s739_47297, .s631_44171, .s541_41117, .s512_25601,
   .s433_35507, .s337_32353, .s256_15361]

/-- Modelled from the spec: what the missing headers supply to `ringlwe_key.c`: the object
identifiers `NID_ringLearningWithErrors_<n>_<q>` (`openssl/objects.h`), the global parameter
records `_ringlwe_param_<n>` (`ringlwe_consts.h`) and the hash `SHA1` (`openssl/sha.h`),
an uninterpreted function from a byte string to its digest. -/
structure Consts where
  NID : ParamSet → Int
  param : ParamSet → RINGLWE_PARAM_DATA
  SHA1 : List Nat → List Nat

/-- The error reasons pushed by `RINGLWEerr`. -/
inductive RlweError where
  | MALLOC_FAILURE
  | PASSED_NULL_PARAMETER
  | INVALID_FORMAT
  | PARAM_UNKNOWN
  | PARAM_INVALID
  | KDF_FAILED
  deriving DecidableEq, Repr

/-- The struct `rlwe_ctx_st`. -/
structure RLWE_CTX where
  descriptor : List Nat
  nid : Int
  param_data : ParamSet

/-- The struct `rlwe_pub_st`. -/
structure RLWE_PUB where
  descriptor : List Nat
  param_data : Option ParamSet
  b : List Nat

/-- The struct `rlwe_pair_st`. -/
structure RLWE_PAIR where
  descriptor : List Nat
  param_data : Option ParamSet
  pub : Option RLWE_PUB
  s : List Nat
  keys_set : Int

/-- The struct `rlwe_rec_st`. -/
structure RLWE_REC where
  muwords : Nat
  c : List Nat

/-- The function `RINGLWE_PARAM_DATA_set(nid)`: the `switch` over the nine identifiers. -/
def RINGLWE_PARAM_DATA_set (C : Consts) (nid : Int) : Option ParamSet :=
  if nid = C.NID .s1024_40961 then some .s1024_40961
  else if nid = C.NID .s821_49261 then some .s821_49261
  else if nid = C.NID .s739_47297 then some .s739_47297
  else if nid = C.NID .s631_44171 then some .s631_44171
  else if nid = C.NID .s541_41117 then some .s541_41117
  else if nid = C.NID .s512_25601 then some .s512_25601
  else if nid = C.NID .s433_35507 then some .s433_35507
  else if nid = C.NID .s337_32353 then some .s337_32353
  else if nid = C.NID .s256_15361 then some .s256_15361
  else none

/-- Byte image of the first `m` entries of an array of 64-bit words (little-endian), the
input `(void *)a, m * sizeof(RINGELT)` of the hash. -/
def byte_image (a : List Nat) (m : Nat) : List Nat :=
  (List.range (m * 8)).map (fun j => (a.getD (j / 8) 0 >>> (8 * (j % 8))) &&& 0xff)

/-- The 20 bytes `sha_outbuf` copied into a descriptor for the table `a`. -/
def sha_outbuf (C : Consts) (p : RINGLWE_PARAM_DATA) : List Nat :=
  (List.range 20).map (fun i => (C.SHA1 (byte_image p.a p.m)).getD i 0 % 256)

/-- The four bytes `(x>>24) & 0xff, (x>>16) & 0xff, (x>>8) & 0xff, x & 0xff`. -/
def be32 (x : Nat) : List Nat :=
  [(x >>> 24) &&& 0xff, (x >>> 16) &&& 0xff, (x >>> 8) &&& 0xff, x &&& 0xff]

/-- The function `RLWE_CTX_new(nid)` (allocation is taken to succeed); `none` is `NULL`. -/
def RLWE_CTX_new (C : Consts) (nid : Int) : Option RLWE_CTX × List RlweError :=
  match RINGLWE_PARAM_DATA_set C nid with
  | none => (none, [.PARAM_UNKNOWN])
  | some s =>
    let p := C.param s
    (some ⟨[82, 76, 87, 69] ++ be32 p.m ++ be32 p.q ++ sha_outbuf C p, nid, s⟩, [])

/-- The value `(d[k] << 24) | (d[k+1] << 16) | (d[k+2] << 8) | d[k+3]` as a 32-bit pattern. -/
def read_be32 (d : List Nat) (k : Nat) : Nat :=
  ((d.getD k 0 <<< 24) ||| (d.getD (k + 1) 0 <<< 16) ||| (d.getD (k + 2) 0 <<< 8) |||
    d.getD (k + 3) 0) % 2 ^ 32

/-- Conversion of the `int` value with 32-bit pattern `x` to the 64-bit unsigned `RINGELT`
(sign extension). -/
def int_to_RINGELT (x : Nat) : Nat := if x ≥ 2 ^ 31 then x + (2 ^ 64 - 2 ^ 32) else x

/-- The function `RLWE_get_nid_from_descriptor(descriptor)`: the loop keeps the last
identifier whose record matches `m`, `q` and the hash. -/
def RLWE_get_nid_from_descriptor (C : Consts) (descriptor : List Nat) : Int :=
  if (List.range 4).map (fun i => descriptor.getD i 0) ≠ [82, 76, 87, 69] then 0
  else
    let m := read_be32 descriptor 4
    let q := int_to_RINGELT (read_be32 descriptor 8)
    rlwe_set_list.foldl
      (fun nid cand =>
        match RINGLWE_PARAM_DATA_set C (C.NID cand) with
        | none => nid
        | some s =>
          let p := C.param s
          if p.m ≠ m ∨ p.q ≠ q then nid
          else if (List.range 20).map (fun i => descriptor.getD (12 + i) 0) ≠ sha_outbuf C p
            then nid
          else C.NID cand)
      0

/-- The function `RLWE_PUB_new(ctx)` (allocation is taken to succeed; the fresh array `b`
holds `m` words). -/
def RLWE_PUB_new (C : Consts) (ctx : RLWE_CTX) : RLWE_PUB :=
  ⟨ctx.descriptor, some ctx.param_data, List.replicate (C.param ctx.param_data).m 0⟩

/-- The function `RLWE_PAIR_new(ctx)` (allocation is taken to succeed). -/
def RLWE_PAIR_new (C : Consts) (ctx : RLWE_CTX) : RLWE_PAIR :=
  ⟨ctx.descriptor, some ctx.param_data, some (RLWE_PUB_new C ctx),
    List.replicate (2 * (C.param ctx.param_data).m) 0, 0⟩

/-- The function `RLWE_REC_new(muwords)`. -/
def RLWE_REC_new (muwords : Nat) : Option RLWE_REC × List RlweError :=
  if muwords = 0 then (none, [.PASSED_NULL_PARAMETER])
  else (some ⟨muwords, List.replicate muwords 0⟩, [])

/-- Number of bytes per coefficient: `n_ringelt_bytes = 2; if (q >= 0x00010000) ... = 4`. -/
def n_ringelt_bytes (q : Nat) : Nat := if q ≥ 0x00010000 then 4 else 2

/-- Coefficient `i` read from the bytes after the descriptor by the `o2i` loops:
`x = 0; if (nb == 4) { x |= *ptr++ << 24; x |= *ptr++ << 16; } x |= *ptr++ << 8; x |= *ptr++`.
The pointer has advanced by `nb` bytes per coefficient. -/
def read_coeff (inp : List Nat) (nb i : Nat) : Nat :=
  if nb = 4 then
    (inp.getD (32 + 4 * i) 0 <<< 24) ||| (inp.getD (32 + 4 * i + 1) 0 <<< 16) |||
      (inp.getD (32 + 4 * i + 2) 0 <<< 8) ||| inp.getD (32 + 4 * i + 3) 0
  else
    (inp.getD (32 + 2 * i) 0 <<< 8) ||| inp.getD (32 + 2 * i + 1) 0

/-- The bytes written for one coefficient `x` by the `i2o` loops. -/
def write_coeff (nb x : Nat) : List Nat :=
  if nb = 4 then
    [(x >>> 24) &&& 0xff, (x >>> 16) &&& 0xff, (x >>> 8) &&& 0xff, x &&& 0xff]
  else
    [(x >>> 8) &&& 0xff, x &&& 0xff]

/-- The function `o2i_RLWE_PUB(pub, in, len)` for non-null `pub` and `in`; `target` is
`*pub`, the byte string `inp` has `len = inp.length` bytes.  Returns the pointer returned
(`none` for `NULL`; on success it is also stored in `*pub`) and the errors pushed. -/
def o2i_RLWE_PUB (C : Consts) (target : Option RLWE_PUB) (inp : List Nat) :
    Option RLWE_PUB × List RlweError :=
  if inp.length < 32 then (none, [.INVALID_FORMAT])
  else
    let nid := RLWE_get_nid_from_descriptor C inp
    if nid = 0 then (none, [.PARAM_UNKNOWN])
    else
      match RLWE_CTX_new C nid with
      | (none, errs) => (none, errs ++ [.MALLOC_FAILURE])
      | (some ctx, _) =>
        let m := (C.param ctx.param_data).m % 2 ^ 32
        let q := (C.param ctx.param_data).q
        let nb := n_ringelt_bytes q
        if inp.length ≠ (32 + m * nb) % 2 ^ 32 then (none, [.INVALID_FORMAT])
        else
          match target with
          | some old =>
            if some ctx.param_data ≠ old.param_data then (none, [.PARAM_INVALID])
            else
              let b := (List.range m).foldl (fun b i => b.set i (read_coeff inp nb i)) old.b
              (some { old with b := b }, [])
          | none =>
            let pub_key := RLWE_PUB_new C ctx
            let b := (List.range m).foldl (fun b i => b.set i (read_coeff inp nb i)) pub_key.b
            (some { pub_key with b := b }, [])

/-- The function `o2i_RLWE_SEC(pair, in, len)` for non-null `pair` and `in`. -/
def o2i_RLWE_SEC (C : Consts) (target : Option RLWE_PAIR) (inp : List Nat) :
    Option RLWE_PAIR × List RlweError :=
  if inp.length < 32 then (none, [.INVALID_FORMAT])
  else
    let nid := RLWE_get_nid_from_descriptor C inp
    if nid = 0 then (none, [.PARAM_UNKNOWN])
    else
      match RLWE_CTX_new C nid with
      | (none, errs) => (none, errs ++ [.MALLOC_FAILURE])
      | (some ctx, _) =>
        let m := (C.param ctx.param_data).m % 2 ^ 32
        let q := (C.param ctx.param_data).q
        let nb := n_ringelt_bytes q
        if inp.length ≠ (32 + m * nb) % 2 ^ 32 then (none, [.INVALID_FORMAT])
        else
          match target with
          | some old =>
            if some ctx.param_data ≠ old.param_data then (none, [.PARAM_INVALID])
            else
              let s := (List.range m).foldl
                (fun s i => s.set (m + i) (read_coeff inp nb i)) old.s
              (some { old with s := s }, [])
          | none =>
            let key_pair := RLWE_PAIR_new C ctx
            let s := (List.range m).foldl
              (fun s i => s.set (m + i) (read_coeff inp nb i)) key_pair.s
            (some { key_pair with s := s }, [])

/-- The function `i2o_RLWE_PUB(pub, out)` for non-null `pub` and `out`: the value returned
and the bytes written to the output buffer. -/
def i2o_RLWE_PUB (C : Consts) (pub : RLWE_PUB) : Nat × List Nat × List RlweError :=
  match pub.param_data with
  | none => (0, [], [.PASSED_NULL_PARAMETER])
  | some s =>
    let m := (C.param s).m % 2 ^ 32
    let nb := n_ringelt_bytes (C.param s).q
    let buf_len := (32 + m * nb) % 2 ^ 32
    if buf_len = 0 then (buf_len, [], [])
    else
      (buf_len,
        (List.range 32).map (fun i => pub.descriptor.getD i 0) ++
          (List.range m).flatMap (fun i => write_coeff nb (pub.b.getD i 0)), [])

/-- The function `i2o_RLWE_SEC(pair, out)` for non-null `pair` and `out`. -/
def i2o_RLWE_SEC (C : Consts) (pair : RLWE_PAIR) : Nat × List Nat × List RlweError :=
  match pair.param_data with
  | none => (0, [], [.PASSED_NULL_PARAMETER])
  | some s =>
    let m := (C.param s).m % 2 ^ 32
    let nb := n_ringelt_bytes (C.param s).q
    let buf_len := (32 + m * nb) % 2 ^ 32
    if buf_len = 0 then (buf_len, [], [])
    else
      (buf_len,
        (List.range 32).map (fun i => pair.descriptor.getD i 0) ++
          (List.range m).flatMap (fun i => write_coeff nb (pair.s.getD (m + i) 0)), [])

/-- Word `i` read by `o2i_RLWE_REC`:
`c = 0; for (k = 0; k < 8; k++) c |= ((uint64_t)in[4 + 8*i + k]) << (8*k);`. -/
def read_word (inp : List Nat) (i : Nat) : Nat :=
  (List.range 8).foldl (fun c k => c ||| ((inp.getD (4 + 8 * i + k) 0 <<< (8 * k)) % 2 ^ 64)) 0

/-- The function `o2i_RLWE_REC(rec, in, len)`; `target` is `*rec`.  A length mismatch pushes
`INVALID_FORMAT` and execution continues. -/
def o2i_RLWE_REC (target : Option RLWE_REC) (inp : List Nat) :
    Option RLWE_REC × List RlweError :=
  if inp.length < 4 then (none, [.INVALID_FORMAT])
  else
    let muwords := read_be32 inp 0
    let buf_len := (4 + muwords * 8) % 2 ^ 32
    let errs := if buf_len ≠ inp.length then [RlweError.INVALID_FORMAT] else []
    let alloc : Option RLWE_REC × List RlweError :=
      match target with
      | some r => (some r, [])
      | none => RLWE_REC_new muwords
    match alloc with
    | (none, e) => (none, errs ++ e ++ [.MALLOC_FAILURE])
    | (some r, _) =>
      let c := (List.range muwords).foldl (fun c i => c.set i (read_word inp i)) r.c
      (some { r with c := c }, errs)

/-- The function `i2o_RLWE_REC(rec, out)` for non-null `rec` and `out`. -/
def i2o_RLWE_REC (r : RLWE_REC) : Nat × List Nat :=
  let muwords := r.muwords % 2 ^ 32
  let buf_len := (4 + muwords * 8) % 2 ^ 32
  if buf_len = 0 then (buf_len, [])
  else
    (buf_len,
      be32 muwords ++
        (List.range muwords).flatMap
          (fun i => (List.range 8).map (fun k => (r.c.getD i 0 >>> (8 * k)) &&& 0xff)))

/-! ## `ringlwe_key.c`: the shared secret -/

/-- The loops that copy the words of the shared secret into the byte buffer `buf` of `nchars`
bytes: `for (i = 0; i < muwords*8; i += 8)`
`for (k = i; (k < i+8) && (k < nchars); k++) buf[k] = (unsigned char)(ka[i/8] >> (8*(k&7)));`.
The outer loop runs once per word `w` (`i = 8*w`); `k` increases, so the bound `k < nchars`
of the inner loop is a test on each `k = i + d`. -/
def key_to_bytes (muwords nchars : Nat) (ka buf : List Nat) : List Nat :=
  (List.range muwords).foldl
    (fun buf w =>
      (List.range 8).foldl
        (fun buf d =>
          if 8 * w + d < nchars then
            buf.set (8 * w + d) ((ka.getD (8 * w / 8) 0 >>> (8 * ((8 * w + d) &&& 7))) % 256)
          else buf)
        buf)
    buf

/-- The tail shared by `RINGLWE_compute_key_alice` and `RINGLWE_compute_key_bob`: with a `KDF`
the value returned and the output are those of the `KDF` (`none`: it returned `NULL`);
without one, `outlen` is cut down to `nchars` and that many bytes are copied to `out`.
Returns the value returned, the bytes written to `out` and the errors pushed. -/
def derive_key (buf : List Nat) (nchars outlen : Nat)
    (KDF : Option (List Nat → Nat → Option (List Nat × Nat))) : Nat × List Nat × List RlweError :=
  match KDF with
  | some kdf =>
    match kdf buf outlen with
    | none => (0, [], [.KDF_FAILED])
    | some (out, outlen) => (outlen, out, [])
  | none =>
    let outlen := if outlen > nchars then nchars else outlen
    (outlen, buf.take outlen, [])

/-- The function `RINGLWE_compute_key_alice(out, outlen, bob_pub, reconciliation,`
`alice_keypair, KDF)`.  A null pointer argument is `none`; `fresh` is the content of the
buffer `ka_buf` (`nchars` bytes) when it is allocated, which the code does not initialise;
allocation is taken to succeed.  The result is the value returned, the bytes written to `out`
and the errors pushed; it is `none` when the two keys carry the null parameter record, which
the code dereferences. -/
def RINGLWE_compute_key_alice (C : Consts) (fresh : List Nat) (outlen : Nat)
    (bob_pub : Option RLWE_PUB) (reconciliation : Option RLWE_REC)
    (alice_keypair : Option RLWE_PAIR)
    (KDF : Option (List Nat → Nat → Option (List Nat × Nat))) :
    Option (Nat × List Nat × List RlweError) :=
  match bob_pub, alice_keypair, reconciliation with
  | some bob_pub, some alice_keypair, some reconciliation =>
    if bob_pub.param_data ≠ alice_keypair.param_data then some (0, [], [.PARAM_INVALID])
    else
      match alice_keypair.param_data with
      | none => none
      | some s =>
        let p := C.param s
        let alice_s1 := alice_keypair.s.drop p.m
        let ka := KEM1_Decapsulate p bob_pub.b alice_s1 reconciliation.c
        let nchars := (p.m + 7) / 8
        let ka_buf := key_to_bytes p.muwords nchars ka fresh
        some (derive_key ka_buf nchars outlen KDF)
  | _, _, _ => some (0, [], [.PASSED_NULL_PARAMETER])

/-- What `RINGLWE_compute_key_bob` leaves behind: the value returned, the bytes written to
`out`, the errors pushed, the vector `*reconciliation` (`none` when null), Bob's public key
(`none` when the argument is null) and the randomness source. -/
structure BobResult where
  ret : Nat
  out : List Nat
  errs : List RlweError
  reconciliation : Option RLWE_REC
  bob_pub : Option RLWE_PUB
  rs : RandomSource

/-- The function `RINGLWE_compute_key_bob(out, outlen, reconciliation, alice_pub, bob_pub,`
`KDF)`.  The argument `reconciliation` is `none` for a null `RLWE_REC **` and `some none` when
`*reconciliation` is null; `fresh` is the uninitialised content of `kb_buf`; the arrays of Bob's
key and of the vector hold `m` and `muwords` entries, which `KEM1_Encapsulate` overwrites.
The result is `none` when the parameter record is null and dereferenced, or when the fuel of
the sampling loops runs out. -/
def RINGLWE_compute_key_bob (C : Consts) (fuel : Nat) (fresh : List Nat) (outlen : Nat)
    (reconciliation : Option (Option RLWE_REC)) (alice_pub bob_pub : Option RLWE_PUB)
    (KDF : Option (List Nat → Nat → Option (List Nat × Nat))) (rs : RandomSource) :
    Option BobResult :=
  match alice_pub, bob_pub with
  | some alice_pub, some bob_pub =>
    if alice_pub.param_data ≠ bob_pub.param_data then
      some ⟨0, [], [.PARAM_INVALID], reconciliation.join, some bob_pub, rs⟩
    else
      match reconciliation with
      | none => some ⟨0, [], [.PASSED_NULL_PARAMETER], none, some bob_pub, rs⟩
      | some target =>
        match bob_pub.param_data with
        | none => none
        | some s =>
          let p := C.param s
          let alloc : Option RLWE_REC × List RlweError :=
            match target with
            | some r => (some r, [])
            | none => RLWE_REC_new p.muwords
          match alloc with
          | (none, e) => some ⟨0, [], e ++ [.PASSED_NULL_PARAMETER], none, some bob_pub, rs⟩
          | (some r, _) =>
            match KEM1_Encapsulate fuel p alice_pub.b rs with
            | none => none
            | some ((u, cr_v, kb), rs) =>
              let nchars := (p.m + 7) / 8
              let kb_buf := key_to_bytes p.muwords nchars kb fresh
              let res := derive_key kb_buf nchars outlen KDF
              some ⟨res.1, res.2.1, res.2.2, some ⟨r.muwords, cr_v⟩, some ⟨bob_pub.descriptor,
                bob_pub.param_data, u⟩, rs⟩
  | _, _ => some ⟨0, [], [.PASSED_NULL_PARAMETER], reconciliation.join, bob_pub, rs⟩

/-! ## The CRT step of the Bluestein transforms (`FFT_337_32353.c`, `FFT_739_47297.c`) -/

/-- The constant `q0` of the Bluestein transforms. -/
def Bluestein_q0 : Nat := 8816641

/-- The constant `q1` of the Bluestein transforms. -/
def Bluestein_q1 : Nat := 17633281

/-- The constant `h0 = 17633282UL`. -/
def Bluestein_h0 : Nat := 17633282

/-- The constant `h1 = 17633281UL`. -/
def Bluestein_h1 : Nat := 17633281

/-- The constant `q0q1 = 155466308229121UL`. -/
def Bluestein_q0q1 : Nat := 155466308229121

/-- The statements `x_crt[i] = h1*x0[i] % q0q1; x_crt[i] = q0q1 - x_crt[i];`
`x_crt[i] += h0*x1[i]; x_crt[i] = x_crt[i] % q0q1;` of the loop "Apply the CRT", on
`FFTLONG` (64-bit) values. -/
def CRT_combine (x0 x1 : Nat) : Nat :=
  let x_crt := ((Bluestein_h1 * x0) % 2 ^ 64) % Bluestein_q0q1
  let x_crt := USUB Bluestein_q0q1 x_crt
  let x_crt := (x_crt + (Bluestein_h0 * x1) % 2 ^ 64) % 2 ^ 64
  x_crt % Bluestein_q0q1

/-! ## The Bluestein transforms (`FFT_337_32353.c`, `FFT_433_35507.c`, `FFT_739_47297.c`)

The three files are one text up to the constants `n`, `q`, `N`, `Ninvq0`, `Ninvq1` and the
names of the tables and of the auxiliary transforms. -/

/-- Modelled from the spec: what `FFT_constants.h` and the auxiliary transform files, which are
not among the sources, supply to one Bluestein file: the tables `Bluestein_mul_<n>_<q>`,
`Bluestein_mul_inv_<n>_<q>`, `Bluestein_roots_fft_<n>_<q0|q1>`,
`Bluestein_roots_inv_fft_<n>_<q0|q1>`, and the transforms `FFT_forward_<N>_<q0|q1>`,
`FFT_backward_<N>_<q0|q1>`, uninterpreted functions on arrays. -/
structure BluesteinData where
  mul : List Nat
  mul_inv : List Nat
  roots_fft_q0 : List Nat
  roots_fft_q1 : List Nat
  roots_inv_fft_q0 : List Nat
  roots_inv_fft_q1 : List Nat
  FFT_forward_q0 : List Nat → List Nat
  FFT_forward_q1 : List Nat → List Nat
  FFT_backward_q0 : List Nat → List Nat
  FFT_backward_q1 : List Nat → List Nat

/-- The array `x_crt` after the loop "Apply the CRT" of a Bluestein transform: the loop "Setup
Bluestein's method" with the table `mul`, the padding with zeros and the copy to `x1`, the two
auxiliary forward transforms, the pointwise products with the tables `roots0`, `roots1`, the
two auxiliary backward transforms, and for every `i < N` the scaling by `Ninvq0`, `Ninvq1`, the
CRT statements and `x_crt[i] = x_crt[i] % q`. -/
def Bluestein_x_crt (n q N Ninvq0 Ninvq1 : Nat) (mul roots0 roots1 : List Nat)
    (D : BluesteinData) (x : List Nat) : List Nat :=
  let x0 := (List.range N).map (fun i => if i < n then MUL_MOD (x.getD i 0) (mul.getD i 0) q else 0)
  let x1 := x0
  let x0 := D.FFT_forward_q0 x0
  let x1 := D.FFT_forward_q1 x1
  let x0 := (List.range N).map (fun i => MUL_MOD (x0.getD i 0) (roots0.getD i 0) Bluestein_q0)
  let x1 := (List.range N).map (fun i => MUL_MOD (x1.getD i 0) (roots1.getD i 0) Bluestein_q1)
  let x0 := D.FFT_backward_q0 x0
  let x1 := D.FFT_backward_q1 x1
  (List.range N).map (fun i =>
    CRT_combine (MUL_MOD (x0.getD i 0) Ninvq0 Bluestein_q0)
      (MUL_MOD (x1.getD i 0) Ninvq1 Bluestein_q1) % q)

/-- The statements "Complete Bluestein's trick": `x[0] = (FFTSHORT) x_crt[(N>>1)-1];`
`for (i = 0; i < n-1; ++i) MUL_MOD(x[i+1], x_crt[(N>>1)+i], mul[i], q);`. -/
def Bluestein_complete (n q N : Nat) (mul x_crt x : List Nat) : List Nat :=
  let x := x.set 0 (x_crt.getD ((N >>> 1) - 1) 0)
  (List.range (n - 1)).foldl
    (fun x i => x.set (i + 1) (MUL_MOD (x_crt.getD ((N >>> 1) + i) 0) (mul.getD i 0) q)) x

/-- The function `FFT_forward_337_32353` (`N = 1024`, `Ninvq0 = 8808031`,
`Ninvq1 = 17616061`). -/
def FFT_forward_337_32353 (D : BluesteinData) (x : List Nat) : List Nat :=
  Bluestein_complete 337 32353 1024 D.mul
    (Bluestein_x_crt 337 32353 1024 8808031 17616061 D.mul D.roots_fft_q0 D.roots_fft_q1 D x) x

/-- The function `FFT_backward_337_32353`, on the inverse tables. -/
def FFT_backward_337_32353 (D : BluesteinData) (x : List Nat) : List Nat :=
  Bluestein_complete 337 32353 1024 D.mul_inv
    (Bluestein_x_crt 337 32353 1024 8808031 17616061 D.mul_inv D.roots_inv_fft_q0
      D.roots_inv_fft_q1 D x) x

/-- The entry point `_FFT_backward_337_32353`. -/
def _FFT_backward_337_32353 (D : BluesteinData) (x : List Nat) : List Nat :=
  scale 337 32353 32257 (FFT_backward_337_32353 D x)

/-- The function `FFT_forward_433_35507` (`N = 1024`, `Ninvq0 = 8808031`,
`Ninvq1 = 17616061`). -/
def FFT_forward_433_35507 (D : BluesteinData) (x : List Nat) : List Nat :=
  Bluestein_complete 433 35507 1024 D.mul
    (Bluestein_x_crt 433 35507 1024 8808031 17616061 D.mul D.roots_fft_q0 D.roots_fft_q1 D x) x

/-- The function `FFT_backward_433_35507`, on the inverse tables. -/
def FFT_backward_433_35507 (D : BluesteinData) (x : List Nat) : List Nat :=
  Bluestein_complete 433 35507 1024 D.mul_inv
    (Bluestein_x_crt 433 35507 1024 8808031 17616061 D.mul_inv D.roots_inv_fft_q0
      D.roots_inv_fft_q1 D x) x

/-- The entry point `_FFT_backward_433_35507`. -/
def _FFT_backward_433_35507 (D : BluesteinData) (x : List Nat) : List Nat :=
  scale 433 35507 35425 (FFT_backward_433_35507 D x)

/-- The function `FFT_forward_739_47297` (`N = 2048`, `Ninvq0 = 8812336`,
`Ninvq1 = 17624671`). -/
def FFT_forward_739_47297 (D : BluesteinData) (x : List Nat) : List Nat :=
  Bluestein_complete 739 47297 2048 D.mul
    (Bluestein_x_crt 739 47297 2048 8812336 17624671 D.mul D.roots_fft_q0 D.roots_fft_q1 D x) x

/-- The function `FFT_backward_739_47297`, on the inverse tables. -/
def FFT_backward_739_47297 (D : BluesteinData) (x : List Nat) : List Nat :=
  Bluestein_complete 739 47297 2048 D.mul_inv
    (Bluestein_x_crt 739 47297 2048 8812336 17624671 D.mul_inv D.roots_inv_fft_q0
      D.roots_inv_fft_q1 D x) x

/-- The entry point `_FFT_backward_739_47297`. -/
def _FFT_backward_739_47297 (D : BluesteinData) (x : List Nat) : List Nat :=
  scale 739 47297 47233 (FFT_backward_739_47297 D x)

/-! ## `ringlwe_key.c`: key-pair operations and the target of the parsers -/

/-- The function `RLWE_PUB_dup(src)` (allocation is taken to succeed; `src->b` is not null).
The `m` coefficients are copied when the source carries a parameter record; otherwise `dest->b`
is not written, which is rendered as the empty array. -/
def RLWE_PUB_dup (C : Consts) (src : Option RLWE_PUB) : Option RLWE_PUB × List RlweError :=
  match src with
  | none => (none, [.PASSED_NULL_PARAMETER])
  | some src =>
    match src.param_data with
    | some p =>
      (some ⟨src.descriptor, some p, (List.range (C.param p).m).map (fun i => src.b.getD i 0)⟩, [])
    | none => (some ⟨src.descriptor, none, []⟩, [])

/-- The function `RLWE_PAIR_dup(src)` (allocation is taken to succeed; `src->s` is not null). -/
def RLWE_PAIR_dup (C : Consts) (src : Option RLWE_PAIR) : Option RLWE_PAIR × List RlweError :=
  match src with
  | none => (none, [.PASSED_NULL_PARAMETER])
  | some src =>
    match RLWE_PUB_dup C src.pub with
    | (none, errs) => (none, errs)
    | (some pub, errs) =>
      let s :=
        match src.param_data with
        | some p => (List.range (2 * (C.param p).m)).map (fun i => src.s.getD i 0)
        | none => []
      (some ⟨src.descriptor, src.param_data, some pub, s, src.keys_set⟩, errs)

/-- The function `RLWE_PAIR_generate_key(keypair)`: the value returned, the key pair after the
call (`none` for a null argument), the errors pushed and the randomness source after the call.
The result is `none` when the fuel of the sampling loops runs out. -/
def RLWE_PAIR_generate_key (C : Consts) (fuel : Nat) (keypair : Option RLWE_PAIR)
    (rs : RandomSource) : Option (Int × Option RLWE_PAIR × List RlweError × RandomSource) :=
  match keypair with
  | none => some (0, none, [.PASSED_NULL_PARAMETER], rs)
  | some kp =>
    match kp.pub with
    | none => some (0, some kp, [.PASSED_NULL_PARAMETER], rs)
    | some pub =>
      match kp.param_data, pub.param_data with
      | some p, some _ =>
        match KEM1_Generate fuel (C.param p) rs with
        | none => none
        | some ((s, b), rs) =>
          some (1, some { kp with pub := some { pub with b := b }, s := s, keys_set := 1 }, [], rs)
      | _, _ => some (0, some kp, [.PARAM_UNKNOWN], rs)

/-- The function `RLWE_PAIR_get_publickey(pair)`. -/
def RLWE_PAIR_get_publickey (pair : Option RLWE_PAIR) : Option RLWE_PUB :=
  match pair with
  | none => none
  | some pair => if pair.keys_set = 0 then none else pair.pub

/-- The function `RLWE_PAIR_has_privatekey(pair)` for non-null `pair`. -/
def RLWE_PAIR_has_privatekey (pair : RLWE_PAIR) : Int := pair.keys_set

/-- The value of `*pub`, with the key it points to, after a call of `o2i_RLWE_PUB(pub, in, len)`
that started with `*pub = target`: every `return 0` leaves it as it was; the coefficient loop
writes the key `pub_key`, which is `*pub` itself when that was not null, and the last statement
before `return *pub` is `*pub = pub_key`. -/
def o2i_RLWE_PUB_target (C : Consts) (target : Option RLWE_PUB) (inp : List Nat) :
    Option RLWE_PUB :=
  if inp.length < 32 then target
  else
    let nid := RLWE_get_nid_from_descriptor C inp
    if nid = 0 then target
    else
      match RLWE_CTX_new C nid with
      | (none, _) => target
      | (some ctx, _) =>
        let m := (C.param ctx.param_data).m % 2 ^ 32
        let q := (C.param ctx.param_data).q
        let nb := n_ringelt_bytes q
        if inp.length ≠ (32 + m * nb) % 2 ^ 32 then target
        else
          match target with
          | some old =>
            if some ctx.param_data ≠ old.param_data then target
            else
              let b := (List.range m).foldl (fun b i => b.set i (read_coeff inp nb i)) old.b
              some { old with b := b }
          | none =>
            let pub_key := RLWE_PUB_new C ctx
            let b := (List.range m).foldl (fun b i => b.set i (read_coeff inp nb i)) pub_key.b
            some { pub_key with b := b }

/-- The value of `*pair`, with the key pair it points to, after a call of
`o2i_RLWE_SEC(pair, in, len)` that started with `*pair = target`. -/
def o2i_RLWE_SEC_target (C : Consts) (target : Option RLWE_PAIR) (inp : List Nat) :
    Option RLWE_PAIR :=
  if inp.length < 32 then target
  else
    let nid := RLWE_get_nid_from_descriptor C inp
    if nid = 0 then target
    else
      match RLWE_CTX_new C nid with
      | (none, _) => target
      | (some ctx, _) =>
        let m := (C.param ctx.param_data).m % 2 ^ 32
        let q := (C.param ctx.param_data).q
        let nb := n_ringelt_bytes q
        if inp.length ≠ (32 + m * nb) % 2 ^ 32 then target
        else
          match target with
          | some old =>
            if some ctx.param_data ≠ old.param_data then target
            else
              let s := (List.range m).foldl
                (fun s i => s.set (m + i) (read_coeff inp nb i)) old.s
              some { old with s := s }
          | none =>
            let key_pair := RLWE_PAIR_new C ctx
            let s := (List.range m).foldl
              (fun s i => s.set (m + i) (read_coeff inp nb i)) key_pair.s
            some { key_pair with s := s }

/-! ## Definitions used to state and prove the properties -/

/-- Coefficient `k` of the product of `a` and `b` in `Z[x]/(x^n+1)`, computed the schoolbook
way: `sum over i <= k of a[i]*b[k-i]` minus `sum over i > k of a[i]*b[n+k-i]`
(the wrapped terms change sign because `x^n = -1`). -/
def negacyclic_coeff (n : Nat) (a b : List Nat) (k : Nat) : Int :=
  ((List.range n).map (fun i =>
    if i ≤ k then (a.getD i 0 : Int) * (b.getD (k - i) 0 : Int)
    else -((a.getD i 0 : Int) * (b.getD (n + k - i) 0 : Int)))).sum

/-- Schoolbook product of `a` and `b` in `Z_q[x]/(x^n+1)`: the `n` coefficients, each
reduced into `[0, q)`. -/
def schoolbook (n q : Nat) (a b : List Nat) : List Nat :=
  (List.range n).map (fun k => (negacyclic_coeff n a b k % (q : Int)).toNat)

/-- Pointwise product modulo `q` of the first `m` entries of `x` and `y`. -/
def pointwise_product (x y : List Nat) (m q : Nat) : List Nat :=
  (List.range m).map (fun i => (x.getD i 0 * y.getD i 0) % q)

/-- The cyclotomic fold applied when `m` is odd (`if ((m)&1) MAPTOCYCLOTOMIC(v, m, q);`). -/
def fold_if_odd (p : RINGLWE_PARAM_DATA) (v : List Nat) : List Nat :=
  if p.m % 2 = 1 then MAPTOCYCLOTOMIC v p.m p.q else v

/-- Ring dimension of a supported parameter set (the first number in the name of its object
identifier `NID_ringLearningWithErrors_<n>_<q>`). -/
def ParamSet.m : ParamSet → Nat
  | .s1024_40961 => 1024
  | .s821_49261 => 821
  | .s739_47297 => 739
  | .s631_44171 => 631
  | .s541_41117 => 541
  | .s512_25601 => 512
  | .s433_35507 => 433
  | .s337_32353 => 337
  | .s256_15361 => 256

/-- Modulus of a supported parameter set (the second number in the name of its identifier). -/
def ParamSet.q : ParamSet → Nat
  | .s1024_40961 => 40961
  | .s821_49261 => 49261
  | .s739_47297 => 47297
  | .s631_44171 => 44171
  | .s541_41117 => 41117
  | .s512_25601 => 25601
  | .s433_35507 => 35507
  | .s337_32353 => 32353
  | .s256_15361 => 15361

/-- What is assumed of the constants of the missing headers: the nine object identifiers are
distinct (they label the cases of one `switch`) and differ from `NID_undef = 0`, and each
global record carries the `m` and `q` of its name. -/
structure Consts.WF (C : Consts) : Prop where
  nid_inj : ∀ s t, C.NID s = C.NID t → s = t
  nid_ne : ∀ s, C.NID s ≠ 0
  m_eq : ∀ s, (C.param s).m = s.m
  q_eq : ∀ s, (C.param s).q = s.q

/-- Bytes 4..11 of `inp` name the set `s`: `m` then `q`, each as 4 big-endian bytes. -/
def names_set (inp : List Nat) (s : ParamSet) : Prop :=
  (List.range 8).map (fun i => inp.getD (4 + i) 0) = be32 s.m ++ be32 s.q

/-- Bytes per serialized coefficient, in the spec's words: 2 when `q < 2^16`, else 4. -/
def bytesPerCoeff (q : Nat) : Nat := if q < 2 ^ 16 then 2 else 4

/-- A butterfly body reads and writes exactly the pair `(i, i+m)`. -/
structure IsBfly (bf : Nat → Nat → List Nat → Nat → List Nat)
    (f0 f1 : Nat → Nat → Nat → Nat) : Prop where
  len : ∀ w m x i, (bf w m x i).length = x.length
  get : ∀ w m x i k, 0 < m → i + m < x.length →
    (bf w m x i).getD k 0 =
      if k = i then f0 w (x.getD i 0) (x.getD (i + m) 0)
      else if k = i + m then f1 w (x.getD i 0) (x.getD (i + m) 0)
      else x.getD k 0

def GS0 (q : Nat) (_w a b : Nat) : Nat := ADD_MOD a b q
def GS1 (q : Nat) (w a b : Nat) : Nat := MUL_MOD (ADD a (USUB q b)) w q
def CT0 (q : Nat) (w a b : Nat) : Nat := ADD (if a ≥ q then a - q else a) (MUL_MOD b w q)
def CT1 (q : Nat) (w a b : Nat) : Nat :=
  ADD (if a ≥ q then a - q else a) (USUB q (MUL_MOD b w q))

/-- The twiddle index held by `index` when column `j` is processed. -/
def idxAt (step n : Nat) : Nat → Nat
  | 0 => 0
  | j + 1 => SUB_MODn (idxAt step n j) step n

/-- One forward level on residues: twiddle `tw j` for column `j`. -/
def LfK {K : Type} [CommRing K] (tw : Nat → K) (m : Nat) (f : Nat → K) (k : Nat) : K :=
  if k % (2 * m) < m then f k + f (k + m) else (f (k - m) - f k) * tw (k % (2 * m) - m)

/-- One backward level on residues. -/
def LbK {K : Type} [CommRing K] (tw : Nat → K) (m : Nat) (f : Nat → K) (k : Nat) : K :=
  if k % (2 * m) < m then f k + f (k + m) * tw (k % (2 * m))
  else f (k - m) - f k * tw (k % (2 * m) - m)

/-- Residue view of an array. -/
def res (q : Nat) (x : List Nat) (k : Nat) : ZMod q := ((x.getD k 0 : Nat) : ZMod q)

/-- Residue view of the twiddles used at one level. -/
def twK (q : Nat) (T : List Nat) (step n : Nat) (j : Nat) : ZMod q :=
  ((T.getD (idxAt step n j) 0 : Nat) : ZMod q)

/-- Table entry met by position `k` in the twist loop: `A[k/2]` for even `k`, `B[k/2]` for odd. -/
def twistTab (A B : List Nat) (k : Nat) : Nat :=
  if k % 2 = 0 then A.getD (k / 2) 0 else B.getD (k / 2) 0

/-- Sum `∑ j < len, g (base + j) * s ^ j`: a block of an array read as a polynomial in `s`. -/
def blockSum {K : Type} [CommRing K] (g : Nat → K) (base len : Nat) (s : K) : K :=
  ∑ j ∈ Finset.range len, g (base + j) * s ^ j

/-- Evaluation points of the forward transform after `d` levels, for twist `u` and
`v = u⁻¹`: block `b` holds the input polynomial on the coset `pts u v d b * (roots of 1)`. -/
def pts {K : Type} [CommRing K] (u v : K) : Nat → Nat → K
  | 0, _ => u
  | d + 1, b => if b % 2 = 0 then pts u v d (b / 2) else pts u v d (b / 2) * v ^ 2 ^ (d + 1)

/-- The tables hold the powers of `psi` and of its inverse `psiinv` modulo `q`, and
`psi ^ n = -1 mod q`. -/
structure PsiTables (T : Twiddles) (n q psi psiinv : Nat) : Prop where
  inv : (psi * psiinv) % q = 1 % q
  neg : (psi ^ n + 1) % q = 0
  hW : ∀ k, k < n → T.W.getD k 0 = psi ^ (2 * k) % q
  hW_sqrt : ∀ k, k < n / 2 → T.W_sqrt.getD k 0 = psi ^ (2 * k + 1) % q
  hW_rev : ∀ k, k < n → T.W_rev.getD k 0 = psiinv ^ (2 * k) % q
  hW_sqrt_rev : ∀ k, k < n / 2 → T.W_sqrt_rev.getD k 0 = psiinv ^ (2 * k + 1) % q

/-- Tables whose every entry is `1` (they are inverse to each other entry by entry). -/
def unitTwiddles (n : Nat) : Twiddles :=
  ⟨List.replicate n 1, List.replicate n 1, List.replicate n 1, List.replicate n 1⟩

/-- The first `n` entries of `W`, `W_rev` and the first `n/2` of `W_sqrt`, `W_sqrt_rev` are
32-bit values (the range every `FFTSHORT` is guaranteed to have). -/
def Twiddles.fits (T : Twiddles) (n : Nat) : Prop :=
  (∀ k, k < n → T.W.getD k 0 < 2 ^ 32 ∧ T.W_rev.getD k 0 < 2 ^ 32) ∧
  (∀ k, k < n / 2 → T.W_sqrt.getD k 0 < 2 ^ 32 ∧ T.W_sqrt_rev.getD k 0 < 2 ^ 32)

/-- Twiddle tables generated from `psi` and its inverse `psiinv` modulo `q`. -/
def psiTwiddles (n q psi psiinv : Nat) : Twiddles :=
  ⟨(List.range n).map (fun k => psi ^ (2 * k) % q),
   (List.range n).map (fun k => psiinv ^ (2 * k) % q),
   (List.range n).map (fun k => psi ^ (2 * k + 1) % q),
   (List.range n).map (fun k => psiinv ^ (2 * k + 1) % q)⟩

/-- A small parameter set used to instantiate the theorems: `m = 4`, `q = 17`, secrets in
`{-1, 0, 1}`, and reduction modulo `q` in place of the two transforms. -/
def toyParam : RINGLWE_PARAM_DATA where
  m := 4
  q := 17
  a := [1, 2, 3, 4]
  BB := 3
  BMASK := 3
  LOG2B := 2
  small_coeff_table := [16, 0, 1]
  qmod4 := 1
  q_1_4 := 4
  q_2_4 := 8
  q_3_4 := 12
  r0_l := 2
  r0_u := 11
  r1_l := 6
  r1_u := 15
  muwords := 1
  fft_forward := fun x => x.map (fun c => c % 17)
  fft_backward := fun x => x.map (fun c => c % 17)

/-- The random stream whose every word is `0`. -/
def zeroStream (pos : Nat) : RandomSource := ⟨fun _ => 0, pos⟩

/-- The condition under which `ringlwe_rec` sets bit `i`. -/
def rec_cond (p : RINGLWE_PARAM_DATA) (w b : List Nat) (i : Nat) : Prop :=
  ((b.getD (i / 64) 0).testBit (i % 64) = true ∧ p.r1_l < w.getD i 0 ∧ w.getD i 0 < p.r1_u) ∨
  ((b.getD (i / 64) 0).testBit (i % 64) = false ∧ p.r0_l < w.getD i 0 ∧ w.getD i 0 < p.r0_u)

/-- The value `val` that `round_and_cross_round` rounds for coefficient `i`: `v[i]` after the
randomized nudge, which uses the random state left by the first `i` iterations. -/
def nudged (p : RINGLWE_PARAM_DATA) (v : List Nat) (rs : RandomSource) (i : Nat) : Nat :=
  (nudge p (v.getD i 0) (rcr_run p v rs i)).1

/-- The set `cand` matches the descriptor: same `m`, same `q`, same hash bytes. -/
def matches_descriptor (C : Consts) (d : List Nat) (cand : ParamSet) : Prop :=
  (C.param cand).m = read_be32 d 4 ∧ (C.param cand).q = int_to_RINGELT (read_be32 d 8) ∧
  (List.range 20).map (fun i => d.getD (12 + i) 0) = sha_outbuf C (C.param cand)

/-- The descriptor `RLWE_CTX_new` builds for the set `s`. -/
def descriptor_of (C : Consts) (s : ParamSet) : List Nat :=
  [82, 76, 87, 69] ++ be32 (C.param s).m ++ be32 (C.param s).q ++ sha_outbuf C (C.param s)

/-- Sample constants used to instantiate the theorems: identifiers `1..9` in the order of
`rlwe_nid_list`, records that carry the `m` and `q` of their names, and a hash whose digest
is empty (read as twenty `0` bytes). -/
def sampleConsts : Consts where
  NID := fun s =>
    match s with
    | .s1024_40961 => 1
    | .s821_49261 => 2
    | .s739_47297 => 3
    | .s631_44171 => 4
    | .s541_41117 => 5
    | .s512_25601 => 6
    | .s433_35507 => 7
    | .s337_32353 => 8
    | .s256_15361 => 9
  param := fun s => { toyParam with m := s.m, q := s.q }
  SHA1 := fun _ => []

/-- A public key of the set `(256, 15361)`: every coefficient is `5`. -/
def samplePub : RLWE_PUB :=
  ⟨descriptor_of sampleConsts .s256_15361, some .s256_15361, List.replicate 256 5⟩

/-- A key pair of the set `(256, 15361)`: every entry of `s` is `7`. -/
def samplePair : RLWE_PAIR :=
  ⟨descriptor_of sampleConsts .s256_15361, some .s256_15361, none, List.replicate 512 7, 1⟩

/-- A 33-byte input: the valid descriptor of the set `(256, 15361)` and one more byte. -/
def shortInput : List Nat :=
  [82, 76, 87, 69, 0, 0, 1, 0, 0, 0, 60, 1] ++ List.replicate 20 0 ++ [7]

/-- The first 32 bytes of an input: the descriptor the parsers read. -/
def first32 (d : List Nat) : List Nat := (List.range 32).map (fun i => d.getD i 0)

/-- The eight bytes `i2o_RLWE_REC` writes for one word, least significant first. -/
def le64 (x : Nat) : List Nat := (List.range 8).map (fun k => (x >>> (8 * k)) &&& 0xff)

/-- A reconciliation vector of one word. -/
def sampleRec : RLWE_REC := ⟨1, [0x0807060504030201]⟩

/-- A 544-byte input: the descriptor of the set `(256, 15361)` followed by 512 bytes `FF`,
that is 256 coefficients `0xFFFF`. -/
def oversizeInput : List Nat :=
  descriptor_of sampleConsts .s256_15361 ++ List.replicate 512 255

/-- Coefficient of `x^i` in `1 + x + ... + x^(n-1)` (the cyclotomic polynomial `Phi_n` for
prime `n`). -/
def all_ones_coeff (n i : Nat) : Int := if i < n then 1 else 0

/-- The random word of `sample_secret` at its `j`-th draw, as `(r, shifts, source)`: the first
word of the stream, then after each draw either the next word of the stream (when
`shifts * LOG2B >= 64` after the increment) or the old word shifted right by `LOG2B`. -/
def draw_state (p : RINGLWE_PARAM_DATA) (rs : RandomSource) : Nat → Nat × Nat × RandomSource
  | 0 => ((RANDOM64 rs).1, 0, (RANDOM64 rs).2)
  | j + 1 =>
    if ((draw_state p rs j).2.1 + 1) * p.LOG2B ≥ 64 then
      ((RANDOM64 (draw_state p rs j).2.2).1, 0, (RANDOM64 (draw_state p rs j).2.2).2)
    else
      ((draw_state p rs j).1 >>> p.LOG2B, (draw_state p rs j).2.1 + 1, (draw_state p rs j).2.2)

/-- The `j`-th draw `l = r & BMASK`. -/
def draw (p : RINGLWE_PARAM_DATA) (rs : RandomSource) (j : Nat) : Nat :=
  (draw_state p rs j).1 &&& p.BMASK

/-- The accepted draws (`l < BB`) among the first `cnt` draws, in draw order. -/
def accepted (p : RINGLWE_PARAM_DATA) (rs : RandomSource) (cnt : Nat) : List Nat :=
  ((List.range cnt).map (draw p rs)).filter (fun l => l < p.BB)

/-- The random stream whose every word is `0xE4`: with two bits per draw the draws are
`0, 1, 2, 3, 0, 0, ...`. -/
def countingStream (pos : Nat) : RandomSource := ⟨fun _ => 0xE4, pos⟩

/-- Number of one bits of a 64-bit word. -/
def popcount64 (w : Nat) : Nat := ((List.range 64).filter (fun j => w.testBit j)).length

/-- Hamming weight of a sequence of 64-bit words. -/
def hamming_weight (x : List Nat) : Nat := (x.map popcount64).sum

/-- A parameter record for the set `(256, 15361)`: `qmod4 = 1`, `muwords = 4` and the
rounding bounds `q_1_4 = 3840`, `q_2_4 = 7680`, `q_3_4 = 11521`; the other fields are those of
`toyParam`. -/
def param256 : RINGLWE_PARAM_DATA where
  m := 256
  q := 15361
  a := toyParam.a
  BB := toyParam.BB
  BMASK := toyParam.BMASK
  LOG2B := toyParam.LOG2B
  small_coeff_table := toyParam.small_coeff_table
  qmod4 := 1
  q_1_4 := 3840
  q_2_4 := 7680
  q_3_4 := 11521
  r0_l := toyParam.r0_l
  r0_u := toyParam.r0_u
  r1_l := toyParam.r1_l
  r1_u := toyParam.r1_u
  muwords := 4
  fft_forward := toyParam.fft_forward
  fft_backward := toyParam.fft_backward

/-- Bit `i` of a bit string packed into 64-bit words: bit `i mod 64` of word `i / 64`. -/
def mu_bit (mu : List Nat) (i : Nat) : Bool := (mu.getD (i / 64) 0).testBit (i % 64)

/-- Number of bytes of the shared secret, `ceil(n/8)`. -/
def nchars_of (n : Nat) : Nat := (n + 7) / 8

/-- Constants whose every parameter record is `param256` (`m = 256`, `muwords = 4`). -/
def keyConsts : Consts := ⟨sampleConsts.NID, fun _ => param256, sampleConsts.SHA1⟩

/-- A public key of the set `(512, 25601)`: every coefficient is `3`. -/
def samplePub512 : RLWE_PUB :=
  ⟨descriptor_of sampleConsts .s512_25601, some .s512_25601, List.replicate 512 3⟩

/-- A parameter record with three bits per draw: `LOG2B = 3`, `BMASK = 7`, `BB = 2B+1 = 5`,
`m = 4`, `q = 17` and the table of `-2, -1, 0, 1, 2` modulo `17`; the other fields are those
of `toyParam`. -/
def param3bit : RINGLWE_PARAM_DATA where
  m := 4
  q := 17
  a := toyParam.a
  BB := 5
  BMASK := 7
  LOG2B := 3
  small_coeff_table := [15, 16, 0, 1, 2]
  qmod4 := toyParam.qmod4
  q_1_4 := toyParam.q_1_4
  q_2_4 := toyParam.q_2_4
  q_3_4 := toyParam.q_3_4
  r0_l := toyParam.r0_l
  r0_u := toyParam.r0_u
  r1_l := toyParam.r1_l
  r1_u := toyParam.r1_u
  muwords := toyParam.muwords
  fft_forward := toyParam.fft_forward
  fft_backward := toyParam.fft_backward

/-- The random stream whose every word has all 64 bits set. -/
def onesStream (pos : Nat) : RandomSource := ⟨fun _ => 2 ^ 64 - 1, pos⟩

/-- The second boundary of the randomized nudge: `q_1_4 - 1` when `qmod4 = 1`, otherwise
`q_3_4 - 1`. -/
def second_boundary (p : RINGLWE_PARAM_DATA) : Nat :=
  if p.qmod4 = 1 then p.q_1_4 - 1 else p.q_3_4 - 1

/-- Coefficient `i` is at a boundary: `v[i] = 0` or `v[i]` is the second boundary. -/
def at_boundary (p : RINGLWE_PARAM_DATA) (v : List Nat) (i : Nat) : Bool :=
  decide (v.getD i 0 = 0 ∨ v.getD i 0 = second_boundary p)

/-- Number of coefficients at a boundary among the first `i`. -/
def events_before (p : RINGLWE_PARAM_DATA) (v : List Nat) (i : Nat) : Nat :=
  ((List.range i).filter (at_boundary p v)).length

/-- The `w`-th 64-bit word that `RANDOM64` delivers, counted from the state `rs`. -/
def stream_word (rs : RandomSource) (w : Nat) : Nat := rs.words (rs.pos + w) % 2 ^ 64

/-- Bit `k mod 64` of the `floor(k/64)`-th random word. -/
def stream_bit (rs : RandomSource) (k : Nat) : Bool :=
  (stream_word rs (k / 64)).testBit (k % 64)

/-- The values of `i` visited by the innermost loop `for (i = j; i < n; i += (m<<1))`, in
order (same recursion as `loop_i`). -/
def visits_i (n m : Nat) : Nat → Nat → List Nat
  | 0, _ => []
  | fuel + 1, i => if i < n then i :: visits_i n m fuel (i + (m <<< 1)) else []

/-- One butterfly of the loop nest: half-block size `m`, `step`, column `j`, twiddle index
`index` and data index `i`. -/
structure Visit where
  m : Nat
  step : Nat
  j : Nat
  index : Nat
  i : Nat

/-- The butterflies of the middle loop, in order (same recursion as `loop_j`). -/
def visits_j (n m step : Nat) : Nat → Nat → Nat → List Visit
  | 0, _, _ => []
  | fuel + 1, j, index =>
    if j < m then
      (visits_i n m n j).map (fun i => ⟨m, step, j, index, i⟩) ++
        visits_j n m step fuel (j + 1) (SUB_MODn index step n)
    else []

/-- The butterflies of the forward transform, in order (same recursion as
`forward_levels`). -/
def visits_forward (n : Nat) : Nat → Nat → Nat → List Visit
  | 0, _, _ => []
  | fuel + 1, m, step =>
    if m ≥ 1 then visits_j n m step n 0 0 ++ visits_forward n fuel (m >>> 1) (step <<< 1)
    else []

/-- The butterflies of the backward transform, in order (same recursion as
`backward_levels`). -/
def visits_backward (n : Nat) : Nat → Nat → Nat → List Visit
  | 0, _, _ => []
  | fuel + 1, m, step =>
    if m < n then visits_j n m step n 0 0 ++ visits_backward n fuel (m <<< 1) (step >>> 1)
    else []

/-- What the claim says of one butterfly of a transform of length `n`: the step is
`n/(2m)`, the column `j` is below `m`, the twiddle index is `(-j*step) mod n`, that is `0` for
`j = 0` and `n - j*step` otherwise, it is below `n`, and the data index `i + m` is below
`n`. -/
def visit_ok (n : Nat) (t : Visit) : Prop :=
  0 < t.m ∧ t.step = n / (2 * t.m) ∧ t.j < t.m ∧
  t.index = (if t.j = 0 then 0 else n - t.j * t.step) ∧
  (t.index : Int) = (-((t.j : Int) * (t.step : Int))) % (n : Int) ∧
  t.index < n ∧ t.i + t.m < n

/-- State `(word, pos, r)` of `ringlwe_rec` after the first `cnt` iterations of its loop. -/
def rec_run (p : RINGLWE_PARAM_DATA) (w b : List Nat) (cnt : Nat) : Nat × Nat × List Nat :=
  (List.range cnt).foldl (rec_step p w b) (0, 0, List.replicate p.muwords 0)

/-- A parameter record with `m = 337`, `q = 32353` and `muwords = 6 = ceil(337/64)`; the
rounding bounds are the quarters of `q`, the other fields are those of `toyParam`. -/
def param337 : RINGLWE_PARAM_DATA where
  m := 337
  q := 32353
  a := toyParam.a
  BB := toyParam.BB
  BMASK := toyParam.BMASK
  LOG2B := toyParam.LOG2B
  small_coeff_table := toyParam.small_coeff_table
  qmod4 := 1
  q_1_4 := 8088
  q_2_4 := 16176
  q_3_4 := 24265
  r0_l := toyParam.r0_l
  r0_u := toyParam.r0_u
  r1_l := toyParam.r1_l
  r1_u := toyParam.r1_u
  muwords := 6
  fft_forward := toyParam.fft_forward
  fft_backward := toyParam.fft_backward

/-- Constants whose every parameter record is `param337`. -/
def keyConsts337 : Consts := ⟨sampleConsts.NID, fun _ => param337, sampleConsts.SHA1⟩

/-- A public key of the set `(337, 32353)`: every coefficient is `5`. -/
def samplePub337 : RLWE_PUB := ⟨[], some .s337_32353, List.replicate 337 5⟩

/-- A key pair of the set `(337, 32353)`: every entry of `s` is `7`. -/
def samplePair337 : RLWE_PAIR := ⟨[], some .s337_32353, none, List.replicate 674 7, 1⟩

/-- The Bluestein sets `(n, q, N)` of the three source files. -/
def Bluestein_sets : List (Nat × Nat × Nat) :=
  [(337, 32353, 1024), (433, 35507, 1024), (739, 47297, 2048)]

/-- The function `FFT_forward_<n>_<q>` of the Bluestein set with the given `n`. -/
def Bluestein_forward (n : Nat) : BluesteinData → List Nat → List Nat :=
  if n = 337 then FFT_forward_337_32353
  else if n = 433 then FFT_forward_433_35507
  else FFT_forward_739_47297

/-- The function `FFT_backward_<n>_<q>` of the Bluestein set with the given `n`. -/
def Bluestein_backward (n : Nat) : BluesteinData → List Nat → List Nat :=
  if n = 337 then FFT_backward_337_32353
  else if n = 433 then FFT_backward_433_35507
  else FFT_backward_739_47297

/-- Sample data for the Bluestein transforms: every table entry is `1`, the auxiliary
transforms leave their argument as it is. -/
def sampleBluestein : BluesteinData :=
  ⟨List.replicate 2048 1, List.replicate 2048 1, List.replicate 2048 1, List.replicate 2048 1,
    List.replicate 2048 1, List.replicate 2048 1, id, id, id, id⟩

/-- Entry `k` of the cyclic convolution of length `N` of `f` and `g`, over the integers:
the sum of `f[j] * g[(k - j) mod N]` for `j < N`. -/
def cyclic_conv (N : Nat) (f g : List Nat) (k : Nat) : Nat :=
  ((List.range N).map (fun j => f.getD j 0 * g.getD ((k + N - j) % N) 0)).sum

/-- The input `oversizeInput` read as a secret key: accepted, with a fresh key pair. -/
def oversizePair : RLWE_PAIR :=
  ⟨descriptor_of sampleConsts .s256_15361, some .s256_15361,
    some ⟨descriptor_of sampleConsts .s256_15361, some .s256_15361, List.replicate 256 0⟩,
    (List.range 256).foldl (fun x i => x.set (256 + i) (read_coeff oversizeInput 2 i))
      (List.replicate (2 * 256) 0), 0⟩

/-! ## Lemmas and theorems -/

theorem getD_set (x : List Nat) (i k v : Nat) (h : i < x.length) :
    (x.set i v).getD k 0 = if k = i then v else x.getD k 0 := by
  simp only [List.getD_eq_getElem?_getD, List.getElem?_set]
  by_cases hk : i = k
  · subst hk; simp [h]
  · have : ¬ k = i := fun h => hk h.symm
    simp [hk, this]

theorem getD_set_ge (x : List Nat) (i k v : Nat) (h : x.length ≤ i) :
    (x.set i v).getD k 0 = x.getD k 0 := by
  simp only [List.getD_eq_getElem?_getD, List.getElem?_set]
  by_cases hk : i = k
  · subst hk
    have : ¬ i < x.length := by omega
    simp [this, List.getElem?_eq_none h]
  · simp [hk]

theorem GS_isBfly (q : Nat) : IsBfly (GS_butterfly q) (GS0 q) (GS1 q) where
  len := by intro w m x i; simp [GS_butterfly]
  get := by
    intro w m x i k hm hi
    simp only [GS_butterfly, GS0, GS1]
    rw [getD_set _ _ _ _ (by simp; omega), getD_set _ _ _ _ (by omega)]

theorem CT_isBfly (q : Nat) : IsBfly (CT_butterfly q) (CT0 q) (CT1 q) where
  len := by intro w m x i; simp [CT_butterfly]
  get := by
    intro w m x i k hm hi
    simp only [CT_butterfly, CT0, CT1]
    rw [getD_set _ _ _ _ (by simp; omega), getD_set _ _ _ _ (by omega)]
    by_cases h1 : k = i
    · subst h1; have : ¬ k = k + m := by omega
      simp [this]
    · simp [h1]

theorem idx_add_half {m k : Nat} (h : k % (2 * m) < m) :
    (k + m) % (2 * m) = k % (2 * m) + m := by
  have h1 := Nat.div_add_mod k (2 * m)
  have : k + m = 2 * m * (k / (2 * m)) + (k % (2 * m) + m) := by omega
  rw [this, Nat.mul_add_mod, Nat.mod_eq_of_lt (by omega)]

theorem idx_sub_half {m k : Nat} (hm : 0 < m) (h : m ≤ k % (2 * m)) :
    m ≤ k ∧ (k - m) % (2 * m) = k % (2 * m) - m := by
  have h1 := Nat.div_add_mod k (2 * m)
  have h2 : k % (2 * m) < 2 * m := Nat.mod_lt _ (by omega)
  have hk : m ≤ k := le_trans h (Nat.mod_le _ _)
  refine ⟨hk, ?_⟩
  have : k - m = 2 * m * (k / (2 * m)) + (k % (2 * m) - m) := by omega
  rw [this, Nat.mul_add_mod, Nat.mod_eq_of_lt (by omega)]

theorem idx_window (M : Nat) {i k : Nat} (h1 : i ≤ k) (h2 : k < i + M) (h3 : k % M = i % M) :
    k = i := by
  have hk := Nat.div_add_mod k M
  have hi := Nat.div_add_mod i M
  have hle : i / M ≤ k / M := Nat.div_le_div_right h1
  rcases Nat.eq_or_lt_of_le hle with h | h
  · rw [← hk, ← hi, h, h3]
  · exfalso
    have : M * (i / M + 1) ≤ M * (k / M) := Nat.mul_le_mul_left _ h
    rw [Nat.mul_add, Nat.mul_one] at this
    omega

theorem idx_in_range {M m n k : Nat} (hM : M = 2 * m) (hd : M ∣ n) (hk : k < n)
    (h : k % M < m) : k + m < n := by
  subst hM
  obtain ⟨B, rfl⟩ := hd
  have h1 := Nat.div_add_mod k (2 * m)
  have hlt : k / (2 * m) < B := by
    apply Nat.div_lt_of_lt_mul; exact hk
  have : 2 * m * (k / (2 * m) + 1) ≤ 2 * m * B := Nat.mul_le_mul_left _ hlt
  rw [Nat.mul_add, Nat.mul_one] at this
  omega

theorem shl_one (m : Nat) : m <<< 1 = 2 * m := by
  rw [Nat.shiftLeft_eq]; omega

theorem loop_i_spec {bf : Nat → Nat → List Nat → Nat → List Nat} {f0 f1 : Nat → Nat → Nat → Nat}
    (hb : IsBfly bf f0 f1) (w n m j : Nat) (hm : 0 < m) (hd : 2 * m ∣ n) (hj : j < m) :
    ∀ fuel i x, x.length = n → i % (2 * m) = j → n ≤ i + fuel →
      (loop_i (bf w m) n m fuel i x).length = n ∧
      ∀ k, k < n → (loop_i (bf w m) n m fuel i x).getD k 0 =
        if i ≤ k ∧ k % (2 * m) = j then f0 w (x.getD k 0) (x.getD (k + m) 0)
        else if i + m ≤ k ∧ k % (2 * m) = j + m then f1 w (x.getD (k - m) 0) (x.getD k 0)
        else x.getD k 0 := by
  intro fuel
  induction fuel with
  | zero =>
    intro i x hx _ hfuel
    refine ⟨hx, fun k hk => ?_⟩
    have h1 : ¬ (i ≤ k ∧ k % (2 * m) = j) := by omega
    have h2 : ¬ (i + m ≤ k ∧ k % (2 * m) = j + m) := by omega
    simp only [loop_i, h1, h2, if_false]
  | succ fuel ih =>
    intro i x hx hi hfuel
    by_cases hin : i < n
    · have him : i + m < n := idx_in_range rfl hd hin (by omega)
      have hmod : (i + m) % (2 * m) = j + m := by rw [idx_add_half (by omega), hi]
      have hlen : (bf w m x i).length = n := by rw [hb.len, hx]
      have hget := fun k => hb.get w m x i k hm (by omega)
      obtain ⟨ih1, ih2⟩ := ih (i + 2 * m) (bf w m x i) hlen
        (by rw [Nat.add_mod_right, hi]) (by omega)
      simp only [loop_i, hin, if_true, shl_one]
      refine ⟨ih1, fun k hk => ?_⟩
      rw [ih2 k hk]
      by_cases c1 : k % (2 * m) = j
      · have p2 : ¬ (i + 2 * m + m ≤ k ∧ k % (2 * m) = j + m) := by omega
        have q2 : ¬ (i + m ≤ k ∧ k % (2 * m) = j + m) := by omega
        by_cases c2 : i + 2 * m ≤ k
        · have p1 : i + 2 * m ≤ k ∧ k % (2 * m) = j := ⟨c2, c1⟩
          have q1 : i ≤ k ∧ k % (2 * m) = j := ⟨by omega, c1⟩
          rw [if_pos p1, if_pos q1, hget k, hget (k + m), if_neg (by omega), if_neg (by omega),
            if_neg (by omega), if_neg (by omega)]
        · have p1 : ¬ (i + 2 * m ≤ k ∧ k % (2 * m) = j) := by omega
          rw [if_neg p1, if_neg p2, if_neg q2, hget k]
          by_cases c3 : i ≤ k
          · have : k = i := idx_window (2 * m) c3 (by omega) (by rw [c1, hi])
            subst this
            rw [if_pos rfl, if_pos ⟨c3, c1⟩]
          · rw [if_neg (by omega), if_neg (by omega), if_neg (by omega)]
      · have p1 : ¬ (i + 2 * m ≤ k ∧ k % (2 * m) = j) := by omega
        have q1 : ¬ (i ≤ k ∧ k % (2 * m) = j) := by omega
        have e1 : ¬ k = i := by intro h; rw [h] at c1; exact c1 hi
        rw [if_neg p1, if_neg q1]
        by_cases d1 : k % (2 * m) = j + m
        · by_cases d2 : i + 2 * m + m ≤ k
          · rw [if_pos ⟨d2, d1⟩, if_pos ⟨by omega, d1⟩, hget k, hget (k - m), if_neg (by omega),
              if_neg (by omega), if_neg (by omega), if_neg (by omega)]
          · rw [if_neg (by omega), hget k, if_neg e1]
            by_cases d3 : i + m ≤ k
            · have hsub := idx_sub_half hm (by omega : m ≤ k % (2 * m))
              have : k - m = i :=
                idx_window (2 * m) (by omega) (by omega) (by rw [hsub.2, d1, hi]; omega)
              have e0 : k = i + m := by omega
              subst e0
              rw [if_pos rfl, if_pos ⟨d3, d1⟩, Nat.add_sub_cancel]
            · rw [if_neg (by omega), if_neg (by omega)]
        · have e2 : ¬ k = i + m := by intro h; rw [h] at d1; exact d1 hmod
          rw [if_neg (by omega), if_neg (by omega), hget k, if_neg e1, if_neg e2]
    · refine ⟨by simp only [loop_i, hin, if_false]; exact hx, fun k hk => ?_⟩
      have h1 : ¬ (i ≤ k ∧ k % (2 * m) = j) := by omega
      have h2 : ¬ (i + m ≤ k ∧ k % (2 * m) = j + m) := by omega
      simp only [loop_i, hin, h1, h2, if_false]

theorem loop_j_spec {bf : Nat → Nat → List Nat → Nat → List Nat} {f0 f1 : Nat → Nat → Nat → Nat}
    (hb : IsBfly bf f0 f1) (T : List Nat) (n m step : Nat) (hm : 0 < m) (hd : 2 * m ∣ n) :
    ∀ fuel j x, x.length = n → m ≤ j + fuel →
      (loop_j bf T n m step fuel j (idxAt step n j) x).length = n ∧
      ∀ k, k < n → (loop_j bf T n m step fuel j (idxAt step n j) x).getD k 0 =
        if j ≤ k % (2 * m) ∧ k % (2 * m) < m then
          f0 (T.getD (idxAt step n (k % (2 * m))) 0) (x.getD k 0) (x.getD (k + m) 0)
        else if m + j ≤ k % (2 * m) then
          f1 (T.getD (idxAt step n (k % (2 * m) - m)) 0) (x.getD (k - m) 0) (x.getD k 0)
        else x.getD k 0 := by
  intro fuel
  induction fuel with
  | zero =>
    intro j x hx hfuel
    refine ⟨hx, fun k hk => ?_⟩
    have hr : k % (2 * m) < 2 * m := Nat.mod_lt _ (by omega)
    rw [if_neg (by omega), if_neg (by omega)]
    rfl
  | succ fuel ih =>
    intro j x hx hfuel
    by_cases hjm : j < m
    · obtain ⟨l1, g1⟩ := loop_i_spec hb (T.getD (idxAt step n j) 0) n m j hm hd hjm n j x hx
        (Nat.mod_eq_of_lt (by omega)) (by omega)
      obtain ⟨l2, g2⟩ := ih (j + 1) _ l1 (by omega)
      have hunf : loop_j bf T n m step (fuel + 1) j (idxAt step n j) x =
          loop_j bf T n m step fuel (j + 1) (idxAt step n (j + 1))
            (loop_i (bf (T.getD (idxAt step n j) 0) m) n m n j x) := by
        simp only [loop_j, hjm, if_true, idxAt]
      rw [hunf]
      refine ⟨l2, fun k hk => ?_⟩
      rw [g2 k hk]
      have hr : k % (2 * m) < 2 * m := Nat.mod_lt _ (by omega)
      have hrk : k % (2 * m) ≤ k := Nat.mod_le _ _
      by_cases c1 : k % (2 * m) < m
      · have hkm : k + m < n := idx_in_range rfl hd hk c1
        have hadd := idx_add_half c1
        rw [if_neg (by omega : ¬ (m + j ≤ k % (2 * m)))]
        by_cases c2 : j + 1 ≤ k % (2 * m)
        · rw [if_pos ⟨c2, c1⟩, if_pos ⟨by omega, c1⟩, g1 k hk, g1 (k + m) hkm,
            if_neg (by omega), if_neg (by omega), if_neg (by omega), if_neg (by omega)]
        · rw [if_neg (by omega), if_neg (by omega), g1 k hk]
          by_cases c3 : k % (2 * m) = j
          · rw [if_pos ⟨by omega, c3⟩, if_pos ⟨by omega, c1⟩, c3]
          · rw [if_neg (by omega), if_neg (by omega), if_neg (by omega)]
      · have hsub := idx_sub_half hm (by omega : m ≤ k % (2 * m))
        rw [if_neg (by omega : ¬ (j + 1 ≤ k % (2 * m) ∧ k % (2 * m) < m)),
          if_neg (by omega : ¬ (j ≤ k % (2 * m) ∧ k % (2 * m) < m))]
        by_cases c2 : m + (j + 1) ≤ k % (2 * m)
        · rw [if_pos c2, if_pos (by omega), g1 k hk, g1 (k - m) (by omega),
            if_neg (by omega), if_neg (by omega), if_neg (by omega), if_neg (by omega)]
        · rw [if_neg c2, g1 k hk, if_neg (by omega)]
          by_cases c3 : k % (2 * m) = j + m
          · rw [if_pos ⟨by omega, c3⟩, if_pos (by omega), c3, Nat.add_sub_cancel]
          · rw [if_neg (by omega), if_neg (by omega)]
    · refine ⟨by simp only [loop_j, hjm, if_false]; exact hx, fun k hk => ?_⟩
      have hr : k % (2 * m) < 2 * m := Nat.mod_lt _ (by omega)
      rw [if_neg (by omega), if_neg (by omega)]
      simp only [loop_j, hjm, if_false]

/-- One whole level (all columns of one half-block size `m`) in closed form. -/
theorem level_spec {bf : Nat → Nat → List Nat → Nat → List Nat} {f0 f1 : Nat → Nat → Nat → Nat}
    (hb : IsBfly bf f0 f1) (T : List Nat) (n m step : Nat) (hm : 0 < m) (hd : 2 * m ∣ n)
    (x : List Nat) (hx : x.length = n) :
    (loop_j bf T n m step n 0 0 x).length = n ∧
    ∀ k, k < n → (loop_j bf T n m step n 0 0 x).getD k 0 =
      if k % (2 * m) < m then
        f0 (T.getD (idxAt step n (k % (2 * m))) 0) (x.getD k 0) (x.getD (k + m) 0)
      else
        f1 (T.getD (idxAt step n (k % (2 * m) - m)) 0) (x.getD (k - m) 0) (x.getD k 0) := by
  rcases Nat.eq_zero_or_pos n with h0 | hpos
  · subst h0
    refine ⟨by simpa [loop_j] using hx, fun k hk => absurd hk (by omega)⟩
  have hmn : m ≤ n := by have := Nat.le_of_dvd hpos hd; omega
  obtain ⟨l, g⟩ := loop_j_spec hb T n m step hm hd n 0 x hx (by omega)
  refine ⟨l, fun k hk => ?_⟩
  have := g k hk
  simp only [idxAt] at this
  rw [this]
  by_cases c : k % (2 * m) < m
  · rw [if_pos ⟨by omega, c⟩, if_pos c]
  · rw [if_neg (by omega), if_pos (by omega), if_neg c]

/-! ### Meaning of the macros on reduced operands -/

theorem USUB_eq {a b : Nat} (hb : b ≤ a) (ha : a < 2 ^ 64) : USUB a b = a - b := by
  unfold USUB
  rw [Nat.mod_eq_of_lt (by omega : b < 2 ^ 64)]
  have : a + (2 ^ 64 - b) = (a - b) + 2 ^ 64 := by omega
  rw [this, Nat.add_mod_right, Nat.mod_eq_of_lt (by omega)]

theorem ADD_eq {a b : Nat} (h : a + b < 2 ^ 64) : ADD a b = a + b := by
  unfold ADD; exact Nat.mod_eq_of_lt h

theorem MUL_MOD_eq {a b : Nat} (q : Nat) (h : a * b < 2 ^ 64) : MUL_MOD a b q = a * b % q := by
  unfold MUL_MOD; rw [Nat.mod_eq_of_lt h]

theorem MUL_MOD_lt (a b : Nat) {q : Nat} (hq : 0 < q) : MUL_MOD a b q < q :=
  Nat.mod_lt _ hq

theorem MUL_MOD_cast {a b : Nat} (q : Nat) (h : a * b < 2 ^ 64) :
    ((MUL_MOD a b q : Nat) : ZMod q) = (a : ZMod q) * (b : ZMod q) := by
  rw [MUL_MOD_eq q h, ZMod.natCast_mod, Nat.cast_mul]

theorem mul_lt_word {a b q : Nat} (hq : q ≤ 2 ^ 31) (ha : a < 2 * q) (hb : b < 2 ^ 32) :
    a * b < 2 ^ 64 := by
  have h1 : a * b < 2 ^ 32 * 2 ^ 32 := by
    apply Nat.mul_lt_mul'' _ hb
    omega
  simpa using h1

theorem ADD_MOD_lt {a b q : Nat} (hq : q ≤ 2 ^ 31) (ha : a < q) (hb : b < q) :
    ADD_MOD a b q < q := by
  unfold ADD_MOD
  rw [ADD_eq (by omega)]
  simp only
  split <;> omega

theorem ADD_MOD_cast {a b q : Nat} (hq : q ≤ 2 ^ 31) (ha : a < q) (hb : b < q) :
    ((ADD_MOD a b q : Nat) : ZMod q) = (a : ZMod q) + (b : ZMod q) := by
  unfold ADD_MOD
  rw [ADD_eq (by omega)]
  simp only
  split
  · rename_i h
    rw [Nat.cast_sub h, Nat.cast_add, ZMod.natCast_self, sub_zero]
  · rw [Nat.cast_add]

theorem ADD_MOD_eq {a b q : Nat} (hq : q ≤ 2 ^ 31) (ha : a < q) (hb : b < q) :
    ADD_MOD a b q = (a + b) % q := by
  have h1 := ADD_MOD_lt hq ha hb
  have h2 := ADD_MOD_cast hq ha hb
  rw [← Nat.cast_add, ZMod.natCast_eq_natCast_iff', Nat.mod_eq_of_lt h1] at h2
  exact h2

theorem GS0_lt {q w a b : Nat} (hq : q ≤ 2 ^ 31) (ha : a < q) (hb : b < q) :
    GS0 q w a b < q := ADD_MOD_lt hq ha hb

theorem GS0_cast {q w a b : Nat} (hq : q ≤ 2 ^ 31) (ha : a < q) (hb : b < q) :
    ((GS0 q w a b : Nat) : ZMod q) = (a : ZMod q) + (b : ZMod q) := ADD_MOD_cast hq ha hb

theorem GS1_lt {q : Nat} (w a b : Nat) (hq : 0 < q) : GS1 q w a b < q := MUL_MOD_lt _ _ hq

theorem GS1_cast {q w a b : Nat} (hq : q ≤ 2 ^ 31) (ha : a < q) (hb : b < q) (hw : w < 2 ^ 32) :
    ((GS1 q w a b : Nat) : ZMod q) = ((a : ZMod q) - (b : ZMod q)) * (w : ZMod q) := by
  unfold GS1
  rw [USUB_eq (by omega) (by omega), ADD_eq (by omega),
    MUL_MOD_cast q (mul_lt_word hq (by omega) hw)]
  have : a + (q - b) = (a + q) - b := by omega
  rw [this, Nat.cast_sub (by omega), Nat.cast_add, ZMod.natCast_self, add_zero]

theorem CT0_lt {q w a b : Nat} (hq : q ≤ 2 ^ 31) (hq0 : 0 < q) (ha : a < 2 * q) :
    CT0 q w a b < 2 * q := by
  unfold CT0
  have h1 := MUL_MOD_lt b w hq0
  rw [ADD_eq (by split <;> omega)]
  split <;> omega

theorem CT1_lt {q w a b : Nat} (hq : q ≤ 2 ^ 31) (hq0 : 0 < q) (ha : a < 2 * q) :
    CT1 q w a b < 2 * q := by
  unfold CT1
  have h1 := MUL_MOD_lt b w hq0
  rw [USUB_eq (by omega) (by omega), ADD_eq (by split <;> omega)]
  split <;> omega

theorem red_cast {q a : Nat} :
    (((if a ≥ q then a - q else a) : Nat) : ZMod q) = (a : ZMod q) := by
  split
  · rename_i h
    rw [Nat.cast_sub h, ZMod.natCast_self, sub_zero]
  · rfl

theorem CT0_cast {q w a b : Nat} (hq : q ≤ 2 ^ 31) (hq0 : 0 < q) (ha : a < 2 * q)
    (hb : b < 2 * q) (hw : w < 2 ^ 32) :
    ((CT0 q w a b : Nat) : ZMod q) = (a : ZMod q) + (b : ZMod q) * (w : ZMod q) := by
  unfold CT0
  have h1 := MUL_MOD_lt b w hq0
  rw [ADD_eq (by split <;> omega), Nat.cast_add, red_cast, MUL_MOD_cast q (mul_lt_word hq hb hw)]

theorem CT1_cast {q w a b : Nat} (hq : q ≤ 2 ^ 31) (hq0 : 0 < q) (ha : a < 2 * q)
    (hb : b < 2 * q) (hw : w < 2 ^ 32) :
    ((CT1 q w a b : Nat) : ZMod q) = (a : ZMod q) - (b : ZMod q) * (w : ZMod q) := by
  unfold CT1
  have h1 := MUL_MOD_lt b w hq0
  rw [USUB_eq (by omega) (by omega), ADD_eq (by split <;> omega), Nat.cast_add, red_cast,
    Nat.cast_sub (by omega), ZMod.natCast_self, MUL_MOD_cast q (mul_lt_word hq hb hw)]
  ring

/-! ### The levels as maps on residues -/

theorem idxAt_lt {step n : Nat} (hn : 0 < n) (hs : step ≤ n) (hn2 : n < 2 ^ 63) :
    ∀ j, idxAt step n j < n := by
  intro j
  induction j with
  | zero => exact hn
  | succ j ih =>
    simp only [idxAt, SUB_MODn]
    rw [USUB_eq hs (by omega), ADD_eq (by omega)]
    split <;> omega

theorem fwd_level_sem {q n m : Nat} (step : Nat) (W : List Nat) (hq : q ≤ 2 ^ 31) (hq0 : 0 < q)
    (hm : 0 < m) (hd : 2 * m ∣ n) (x : List Nat) (hx : x.length = n)
    (hxb : ∀ k, k < n → x.getD k 0 < q) (hW : ∀ i, i < n → W.getD i 0 < 2 ^ 32)
    (hs : step ≤ n) (hn : n < 2 ^ 63) :
    (loop_j (GS_butterfly q) W n m step n 0 0 x).length = n ∧
    (∀ k, k < n → (loop_j (GS_butterfly q) W n m step n 0 0 x).getD k 0 < q) ∧
    ∀ k, k < n → res q (loop_j (GS_butterfly q) W n m step n 0 0 x) k =
      LfK (twK q W step n) m (res q x) k := by
  obtain ⟨l, g⟩ := level_spec (GS_isBfly q) W n m step hm hd x hx
  refine ⟨l, fun k hk => ?_, fun k hk => ?_⟩
  · rw [g k hk]
    split
    · rename_i c
      exact GS0_lt hq (hxb k hk) (hxb _ (idx_in_range rfl hd hk c))
    · exact GS1_lt _ _ _ hq0
  · unfold res LfK twK
    rw [g k hk]
    by_cases c : k % (2 * m) < m
    · rw [if_pos c, if_pos c]
      exact GS0_cast hq (hxb k hk) (hxb _ (idx_in_range rfl hd hk c))
    · rw [if_neg c, if_neg c]
      exact GS1_cast hq (hxb _ (by omega)) (hxb k hk) (hW _ (idxAt_lt (by omega) hs hn _))

theorem bwd_level_sem {q n m : Nat} (step : Nat) (W : List Nat) (hq : q ≤ 2 ^ 31) (hq0 : 0 < q)
    (hm : 0 < m) (hd : 2 * m ∣ n) (x : List Nat) (hx : x.length = n)
    (hxb : ∀ k, k < n → x.getD k 0 < 2 * q) (hW : ∀ i, i < n → W.getD i 0 < 2 ^ 32)
    (hs : step ≤ n) (hn : n < 2 ^ 63) :
    (loop_j (CT_butterfly q) W n m step n 0 0 x).length = n ∧
    (∀ k, k < n → (loop_j (CT_butterfly q) W n m step n 0 0 x).getD k 0 < 2 * q) ∧
    ∀ k, k < n → res q (loop_j (CT_butterfly q) W n m step n 0 0 x) k =
      LbK (twK q W step n) m (res q x) k := by
  obtain ⟨l, g⟩ := level_spec (CT_isBfly q) W n m step hm hd x hx
  refine ⟨l, fun k hk => ?_, fun k hk => ?_⟩
  · rw [g k hk]
    split
    · exact CT0_lt hq hq0 (hxb k hk)
    · exact CT1_lt hq hq0 (hxb _ (by omega))
  · unfold res LbK twK
    rw [g k hk]
    by_cases c : k % (2 * m) < m
    · rw [if_pos c, if_pos c]
      exact CT0_cast hq hq0 (hxb k hk) (hxb _ (idx_in_range rfl hd hk c)) (hW _ (idxAt_lt (by omega) hs hn _))
    · rw [if_neg c, if_neg c]
      exact CT1_cast hq hq0 (hxb _ (by omega)) (hxb k hk) (hW _ (idxAt_lt (by omega) hs hn _))

/-- A backward level undoes a forward level up to the factor 2 when the twiddles are
inverse to each other. -/
theorem LbK_LfK {K : Type} [CommRing K] (tw tw' : Nat → K) (m : Nat) (hm : 0 < m)
    (h : ∀ j, j < m → tw j * tw' j = 1) (f : Nat → K) (k : Nat) :
    LbK tw' m (LfK tw m f) k = 2 * f k := by
  have hr : k % (2 * m) < 2 * m := Nat.mod_lt _ (by omega)
  unfold LbK
  by_cases c : k % (2 * m) < m
  · rw [if_pos c]
    have h1 : LfK tw m f k = f k + f (k + m) := by unfold LfK; rw [if_pos c]
    have h2 : LfK tw m f (k + m) = (f k - f (k + m)) * tw (k % (2 * m)) := by
      unfold LfK
      rw [idx_add_half c, if_neg (by omega), Nat.add_sub_cancel, Nat.add_sub_cancel]
    rw [h1, h2, mul_assoc, h _ c]
    ring
  · rw [if_neg c]
    obtain ⟨hk, hs⟩ := idx_sub_half hm (by omega : m ≤ k % (2 * m))
    have h1 : LfK tw m f (k - m) = f (k - m) + f k := by
      unfold LfK
      rw [hs, if_pos (by omega), Nat.sub_add_cancel hk]
    have h2 : LfK tw m f k = (f (k - m) - f k) * tw (k % (2 * m) - m) := by
      unfold LfK; rw [if_neg c]
    rw [h1, h2, mul_assoc, h _ (by omega)]
    ring

theorem LbK_congr {K : Type} [CommRing K] (tw : Nat → K) {n m : Nat} (hd : 2 * m ∣ n)
    (hm : 0 < m) (f g : Nat → K) (h : ∀ i, i < n → f i = g i) (k : Nat) (hk : k < n) :
    LbK tw m f k = LbK tw m g k := by
  unfold LbK
  by_cases c : k % (2 * m) < m
  · rw [if_pos c, if_pos c, h k hk, h _ (idx_in_range rfl hd hk c)]
  · rw [if_neg c, if_neg c, h k hk, h (k - m) (by omega)]

theorem LbK_smul {K : Type} [CommRing K] (tw : Nat → K) (m : Nat) (c : K) (f : Nat → K)
    (k : Nat) : LbK tw m (fun i => c * f i) k = c * LbK tw m f k := by
  unfold LbK
  split <;> ring

/-! ### Splitting the level loops -/

theorem shr_succ (m a : Nat) : m >>> (a + 1) = (m >>> 1) >>> a := by
  rw [Nat.add_comm, Nat.shiftRight_add]

theorem shl_succ (m a : Nat) : m <<< (a + 1) = (m <<< 1) <<< a := by
  rw [Nat.add_comm, Nat.shiftLeft_add]

theorem forward_levels_zero (q n : Nat) (W : List Nat) (fuel step : Nat) (x : List Nat) :
    forward_levels q n W fuel 0 step x = x := by
  cases fuel <;> simp [forward_levels]

theorem forward_levels_add (q n : Nat) (W : List Nat) (a b : Nat) :
    ∀ m s x, forward_levels q n W (a + b) m s x =
      forward_levels q n W b (m >>> a) (s <<< a) (forward_levels q n W a m s x) := by
  induction a with
  | zero => intro m s x; simp [forward_levels]
  | succ a ih =>
    intro m s x
    have e : a + 1 + b = (a + b) + 1 := by omega
    rw [e]
    by_cases hm : m ≥ 1
    · rw [shr_succ m a, shl_succ s a]
      simp only [forward_levels, hm, if_true]
      rw [ih]
    · have h0 : m = 0 := by omega
      subst h0
      simp [forward_levels, forward_levels_zero]

theorem backward_levels_ge (q n : Nat) (W : List Nat) (fuel m step : Nat) (x : List Nat)
    (h : n ≤ m) : backward_levels q n W fuel m step x = x := by
  cases fuel
  · simp [backward_levels]
  · have : ¬ m < n := by omega
    simp [backward_levels, this]

theorem backward_levels_add (q n : Nat) (W : List Nat) (a b : Nat) :
    ∀ m s x, backward_levels q n W (a + b) m s x =
      backward_levels q n W b (m <<< a) (s >>> a) (backward_levels q n W a m s x) := by
  induction a with
  | zero => intro m s x; simp [backward_levels]
  | succ a ih =>
    intro m s x
    have e : a + 1 + b = (a + b) + 1 := by omega
    rw [e]
    by_cases hm : m < n
    · rw [shr_succ s a, shl_succ m a]
      simp only [backward_levels, hm, if_true]
      rw [ih]
    · have hle : n ≤ m <<< (a + 1) := by
        rw [Nat.shiftLeft_eq]
        have : 1 ≤ 2 ^ (a + 1) := Nat.one_le_two_pow
        nlinarith
      simp only [backward_levels, hm, if_false]
      rw [backward_levels_ge _ _ _ _ _ _ _ hle]

/-! ### Forward levels followed by backward levels -/

theorem pow_shr_one (e : Nat) : 2 ^ (e + 1) >>> 1 = 2 ^ e := by
  rw [Nat.shiftRight_eq_div_pow, pow_succ]; simp

theorem one_shl (e : Nat) : 1 <<< e = 2 ^ e := by
  rw [Nat.shiftLeft_eq, one_mul]

theorem pow_shr_shr {k e : Nat} (h : e + 1 ≤ k) : (2 ^ k >>> 1) >>> e = 2 ^ (k - e - 1) := by
  rw [← Nat.shiftRight_add, Nat.shiftRight_eq_div_pow]
  have : k = (k - e - 1) + (1 + e) := by omega
  conv_lhs => rw [this, pow_add]
  exact Nat.mul_div_cancel _ (by positivity)

theorem pow_step_shl {k e : Nat} (h : e + 1 ≤ k) : 2 ^ (k - (e + 1)) <<< 1 = 2 ^ (k - e) := by
  rw [shl_one, ← pow_succ']
  congr 1; omega

theorem cast_mul_eq_one {q a b : Nat} (h : (a * b) % q = 1 % q) :
    (a : ZMod q) * (b : ZMod q) = 1 := by
  have h2 := (ZMod.natCast_eq_natCast_iff' (a * b) 1 q).2 h
  rw [Nat.cast_mul, Nat.cast_one] at h2
  exact h2

theorem levels_roundtrip {q k : Nat} (W W_rev : List Nat) (hq : q ≤ 2 ^ 31) (hq0 : 0 < q)
    (hk : k < 63)
    (hW : ∀ i, i < 2 ^ k → W.getD i 0 < 2 ^ 32)
    (hW_rev : ∀ i, i < 2 ^ k → W_rev.getD i 0 < 2 ^ 32)
    (hinv : ∀ i, i < 2 ^ k → (W.getD i 0 * W_rev.getD i 0) % q = 1 % q) :
    ∀ e, e ≤ k → ∀ y : List Nat, y.length = 2 ^ k → (∀ i, i < 2 ^ k → y.getD i 0 < q) →
      (backward_levels q (2 ^ k) W_rev e 1 (2 ^ k >>> 1)
        (forward_levels q (2 ^ k) W e (2 ^ e >>> 1) (2 ^ (k - e)) y)).length = 2 ^ k ∧
      (∀ i, i < 2 ^ k → (backward_levels q (2 ^ k) W_rev e 1 (2 ^ k >>> 1)
        (forward_levels q (2 ^ k) W e (2 ^ e >>> 1) (2 ^ (k - e)) y)).getD i 0 < 2 * q) ∧
      ∀ i, i < 2 ^ k → res q (backward_levels q (2 ^ k) W_rev e 1 (2 ^ k >>> 1)
        (forward_levels q (2 ^ k) W e (2 ^ e >>> 1) (2 ^ (k - e)) y)) i = 2 ^ e * res q y i := by
  intro e
  induction e with
  | zero =>
    intro _ y hy hyb
    simp only [forward_levels, backward_levels, pow_zero, one_mul]
    exact ⟨hy, fun i hi => by have := hyb i hi; omega, fun i _ => trivial⟩
  | succ e ih =>
    intro he y hy hyb
    have hm : 0 < 2 ^ e := by positivity
    have hd : 2 * 2 ^ e ∣ 2 ^ k := by
      rw [← pow_succ']; exact pow_dvd_pow 2 he
    have hlt : 2 ^ e < 2 ^ k := Nat.pow_lt_pow_right (by omega) (by omega)
    have hn63 : 2 ^ k < 2 ^ 63 := Nat.pow_lt_pow_right (by omega) hk
    have hstep : 2 ^ (k - (e + 1)) ≤ 2 ^ k := Nat.pow_le_pow_right (by omega) (by omega)
    obtain ⟨l1, b1, s1⟩ := fwd_level_sem (2 ^ (k - (e + 1))) W hq hq0 hm hd y hy hyb hW
      hstep hn63
    obtain ⟨l2, b2, s2⟩ := ih (by omega) _ l1 b1
    have hf : forward_levels q (2 ^ k) W (e + 1) (2 ^ (e + 1) >>> 1) (2 ^ (k - (e + 1))) y =
        forward_levels q (2 ^ k) W e (2 ^ e >>> 1) (2 ^ (k - e))
          (loop_j (GS_butterfly q) W (2 ^ k) (2 ^ e) (2 ^ (k - (e + 1))) (2 ^ k) 0 0 y) := by
      rw [pow_shr_one]
      have : 2 ^ e ≥ 1 := hm
      simp only [forward_levels, this, if_true]
      rw [pow_step_shl he]
    have hb : ∀ z, backward_levels q (2 ^ k) W_rev (e + 1) 1 (2 ^ k >>> 1) z =
        loop_j (CT_butterfly q) W_rev (2 ^ k) (2 ^ e) (2 ^ (k - (e + 1))) (2 ^ k) 0 0
          (backward_levels q (2 ^ k) W_rev e 1 (2 ^ k >>> 1) z) := by
      intro z
      rw [backward_levels_add, one_shl, pow_shr_shr he]
      simp only [backward_levels, hlt, if_true]
      rfl
    rw [hf, hb]
    obtain ⟨l3, b3, s3⟩ := bwd_level_sem (2 ^ (k - (e + 1))) W_rev hq hq0 hm hd _ l2 b2 hW_rev
      hstep hn63
    refine ⟨l3, b3, fun i hi => ?_⟩
    rw [s3 i hi]
    have hc : ∀ i, i < 2 ^ k →
        res q (backward_levels q (2 ^ k) W_rev e 1 (2 ^ k >>> 1)
          (forward_levels q (2 ^ k) W e (2 ^ e >>> 1) (2 ^ (k - e))
            (loop_j (GS_butterfly q) W (2 ^ k) (2 ^ e) (2 ^ (k - (e + 1))) (2 ^ k) 0 0 y))) i =
        (fun i => 2 ^ e * LfK (twK q W (2 ^ (k - (e + 1))) (2 ^ k)) (2 ^ e) (res q y) i) i := by
      intro i hi
      rw [s2 i hi, s1 i hi]
    rw [LbK_congr _ hd hm _ _ hc i hi, LbK_smul, LbK_LfK _ _ _ hm]
    · rw [pow_succ]; ring
    · intro j _
      unfold twK
      have hidx := idxAt_lt (by positivity : 0 < 2 ^ k) hstep hn63 j
      exact cast_mul_eq_one (hinv _ hidx)

/-! ### The twist and scaling loops in closed form -/

theorem twist_spec (q : Nat) (A B : List Nat) :
    ∀ cnt i j x, j + 2 * cnt ≤ x.length →
      (twist q A B cnt i j x).length = x.length ∧
      ∀ k, (twist q A B cnt i j x).getD k 0 =
        if j ≤ k ∧ k < j + 2 * cnt then
          MUL_MOD (x.getD k 0)
            (if (k - j) % 2 = 0 then A.getD (i + (k - j) / 2) 0 else B.getD (i + (k - j) / 2) 0) q
        else x.getD k 0 := by
  intro cnt
  induction cnt with
  | zero =>
    intro i j x _
    refine ⟨rfl, fun k => ?_⟩
    rw [if_neg (by omega)]; rfl
  | succ cnt ih =>
    intro i j x hlen
    obtain ⟨l, g⟩ := ih (i + 1) (j + 1 + 1)
      ((x.set j (MUL_MOD (x.getD j 0) (A.getD i 0) q)).set (j + 1)
        (MUL_MOD ((x.set j (MUL_MOD (x.getD j 0) (A.getD i 0) q)).getD (j + 1) 0)
          (B.getD i 0) q))
      (by simp only [List.length_set]; omega)
    simp only [twist]
    refine ⟨by rw [l]; simp only [List.length_set], fun k => ?_⟩
    rw [g k]
    have hs1 : ∀ k, (x.set j (MUL_MOD (x.getD j 0) (A.getD i 0) q)).getD k 0 =
        if k = j then MUL_MOD (x.getD j 0) (A.getD i 0) q else x.getD k 0 :=
      fun k => getD_set _ _ _ _ (by omega)
    have hs2 : ∀ k, ((x.set j (MUL_MOD (x.getD j 0) (A.getD i 0) q)).set (j + 1)
        (MUL_MOD ((x.set j (MUL_MOD (x.getD j 0) (A.getD i 0) q)).getD (j + 1) 0)
          (B.getD i 0) q)).getD k 0 =
        if k = j + 1 then MUL_MOD (x.getD (j + 1) 0) (B.getD i 0) q
        else if k = j then MUL_MOD (x.getD j 0) (A.getD i 0) q else x.getD k 0 := by
      intro k
      rw [getD_set _ _ _ _ (by simp only [List.length_set]; omega), hs1, hs1,
        if_neg (by omega : ¬ j + 1 = j)]
    rw [hs2]
    by_cases c1 : j + 1 + 1 ≤ k ∧ k < j + 1 + 1 + 2 * cnt
    · have r1 : j ≤ k ∧ k < j + 2 * (cnt + 1) := by omega
      have r2 : ¬ k = j + 1 := by omega
      have r3 : ¬ k = j := by omega
      have e1 : (k - (j + 1 + 1)) % 2 = (k - j) % 2 := by omega
      have e2 : i + 1 + (k - (j + 1 + 1)) / 2 = i + (k - j) / 2 := by omega
      rw [if_pos c1, if_pos r1, if_neg r2, if_neg r3, e1, e2]
    · rw [if_neg c1]
      by_cases c2 : k = j + 1
      · subst c2
        have r1 : j ≤ j + 1 ∧ j + 1 < j + 2 * (cnt + 1) := by omega
        have e1 : (j + 1 - j) % 2 = 1 := by omega
        have e2 : (j + 1 - j) / 2 = 0 := by omega
        rw [if_pos rfl, if_pos r1, e1, e2]; simp
      · rw [if_neg c2]
        by_cases c3 : k = j
        · subst c3
          have r1 : k ≤ k ∧ k < k + 2 * (cnt + 1) := by omega
          rw [if_pos rfl, if_pos r1]
          simp
        · have r1 : ¬ (j ≤ k ∧ k < j + 2 * (cnt + 1)) := by omega
          rw [if_neg c3, if_neg r1]

theorem twist_top (q : Nat) (A B : List Nat) (n : Nat) (hn : n % 2 = 0) (x : List Nat)
    (hx : x.length = n) :
    (twist q A B (n >>> 1) 0 0 x).length = n ∧
    ∀ k, k < n → (twist q A B (n >>> 1) 0 0 x).getD k 0 =
      MUL_MOD (x.getD k 0) (twistTab A B k) q := by
  have h2 : n >>> 1 = n / 2 := by rw [Nat.shiftRight_eq_div_pow, pow_one]
  obtain ⟨l, g⟩ := twist_spec q A B (n >>> 1) 0 0 x (by rw [h2, hx]; omega)
  refine ⟨by rw [l, hx], fun k hk => ?_⟩
  rw [g k, if_pos (by rw [h2]; omega)]
  simp [twistTab]

theorem foldl_set_spec (g : Nat → Nat) :
    ∀ n (x : List Nat), n ≤ x.length →
      ((List.range n).foldl (fun x i => x.set i (g (x.getD i 0))) x).length = x.length ∧
      ∀ k, ((List.range n).foldl (fun x i => x.set i (g (x.getD i 0))) x).getD k 0 =
        if k < n then g (x.getD k 0) else x.getD k 0 := by
  intro n
  induction n with
  | zero => intro x _; simp
  | succ n ih =>
    intro x hx
    obtain ⟨l, h⟩ := ih x (by omega)
    rw [List.range_succ, List.foldl_append]
    simp only [List.foldl_cons, List.foldl_nil]
    refine ⟨by rw [List.length_set, l], fun k => ?_⟩
    rw [getD_set _ _ _ _ (by omega), h, h]
    by_cases c : k = n
    · subst c; simp
    · rw [if_neg c]
      by_cases c2 : k < n
      · rw [if_pos c2, if_pos (by omega)]
      · rw [if_neg c2, if_neg (by omega)]

theorem scale_spec (n q ninv : Nat) (x : List Nat) (hx : x.length = n) :
    (scale n q ninv x).length = n ∧
    ∀ k, k < n → (scale n q ninv x).getD k 0 = MUL_MOD (x.getD k 0) ninv q := by
  obtain ⟨l, h⟩ := foldl_set_spec (fun a => MUL_MOD a ninv q) n x (by omega)
  refine ⟨by unfold scale; rw [l, hx], fun k hk => ?_⟩
  unfold scale
  rw [h k, if_pos hk]

theorem list_ext_getD {x y : List Nat} (hl : x.length = y.length)
    (h : ∀ k, k < x.length → x.getD k 0 = y.getD k 0) : x = y := by
  apply List.ext_getElem hl
  intro k h1 h2
  have := h k h1
  rw [List.getD_eq_getElem _ _ h1, List.getD_eq_getElem _ _ h2] at this
  exact this

/-! ### Round trip of the twisted transform -/

theorem k_le_two_pow (k : Nat) : k ≤ 2 ^ k := Nat.le_of_lt (Nat.lt_two_pow k)

theorem forward_levels_full (q k : Nat) (W : List Nat) (x : List Nat) :
    forward_levels q (2 ^ k) W (2 ^ k) (2 ^ k >>> 1) 1 x =
      forward_levels q (2 ^ k) W k (2 ^ k >>> 1) (2 ^ (k - k)) x := by
  have h : 2 ^ k = k + (2 ^ k - k) := by have := k_le_two_pow k; omega
  conv_lhs => rw [h, forward_levels_add]
  have h0 : (2 ^ k >>> 1) >>> k = 0 := by
    rw [← Nat.shiftRight_add, Nat.shiftRight_eq_div_pow]
    apply Nat.div_eq_of_lt
    exact Nat.pow_lt_pow_right (by omega) (by omega)
  rw [← h, h0, forward_levels_zero, Nat.sub_self, pow_zero]

theorem backward_levels_full (q k : Nat) (W : List Nat) (x : List Nat) :
    backward_levels q (2 ^ k) W (2 ^ k) 1 (2 ^ k >>> 1) x =
      backward_levels q (2 ^ k) W k 1 (2 ^ k >>> 1) x := by
  have h : 2 ^ k = k + (2 ^ k - k) := by have := k_le_two_pow k; omega
  conv_lhs => rw [h, backward_levels_add]
  rw [← h, backward_levels_ge _ _ _ _ _ _ _ (by rw [one_shl])]

theorem getD_lt_of_forall {T : List Nat} {b : Nat} (hb : 0 < b) (h : ∀ w ∈ T, w < b) (i : Nat) :
    T.getD i 0 < b := by
  rw [List.getD_eq_getElem?_getD]
  rcases hi : T[i]? with _ | v
  · simpa using hb
  · simp only [Option.getD_some]
    exact h v (List.getElem?_mem hi)

/-- Round trip of the twisted transform for `n = 2 ^ k`: inverse tables and the inverse of
`n` are all that is needed. -/
theorem twisted_roundtrip {q k ninv : Nat} (T : Twiddles) (hq : q ≤ 2 ^ 31) (hq0 : 0 < q)
    (hk1 : 1 ≤ k) (hk : k < 63) (hninv : (2 ^ k * ninv) % q = 1 % q) (hnb : ninv < 2 ^ 32)
    (hW : ∀ i, i < 2 ^ k → T.W.getD i 0 < 2 ^ 32)
    (hW_rev : ∀ i, i < 2 ^ k → T.W_rev.getD i 0 < 2 ^ 32)
    (hS : ∀ i, i < 2 ^ k / 2 → T.W_sqrt.getD i 0 < 2 ^ 32)
    (hS_rev : ∀ i, i < 2 ^ k / 2 → T.W_sqrt_rev.getD i 0 < 2 ^ 32)
    (hinv : ∀ i, i < 2 ^ k → (T.W.getD i 0 * T.W_rev.getD i 0) % q = 1 % q)
    (hsinv : ∀ i, i < 2 ^ k / 2 → (T.W_sqrt.getD i 0 * T.W_sqrt_rev.getD i 0) % q = 1 % q)
    (x : List Nat) (hx : x.length = 2 ^ k) (hxb : ∀ i, i < 2 ^ k → x.getD i 0 < q) :
    scale (2 ^ k) q ninv (FFT_twisted_backward (2 ^ k) q T.W_rev T.W_sqrt_rev
      (FFT_twisted_forward (2 ^ k) q T.W T.W_sqrt x)) = x := by
  have heven : 2 ^ k % 2 = 0 := by
    obtain ⟨j, rfl⟩ : ∃ j, k = j + 1 := ⟨k - 1, by omega⟩
    rw [pow_succ]; omega
  have htab : ∀ i, i < 2 ^ k → twistTab T.W T.W_sqrt i < 2 ^ 32 := by
    intro i hi; unfold twistTab; split
    · exact hW _ (by omega)
    · exact hS _ (by omega)
  have htab' : ∀ i, i < 2 ^ k → twistTab T.W_rev T.W_sqrt_rev i < 2 ^ 32 := by
    intro i hi; unfold twistTab; split
    · exact hW_rev _ (by omega)
    · exact hS_rev _ (by omega)
  have htabinv : ∀ i, i < 2 ^ k →
      ((twistTab T.W T.W_sqrt i : Nat) : ZMod q) * (twistTab T.W_rev T.W_sqrt_rev i : Nat) = 1 := by
    intro i hi
    unfold twistTab
    split
    · exact cast_mul_eq_one (hinv _ (by omega))
    · exact cast_mul_eq_one (hsinv _ (by omega))
  unfold FFT_twisted_backward FFT_twisted_forward
  simp only
  -- the pre-multiplication
  obtain ⟨l1, g1⟩ := twist_top q T.W T.W_sqrt (2 ^ k) heven x hx
  have b1 : ∀ i, i < 2 ^ k → (twist q T.W T.W_sqrt (2 ^ k >>> 1) 0 0 x).getD i 0 < q :=
    fun i hi => by rw [g1 i hi]; exact MUL_MOD_lt _ _ hq0
  -- the levels
  rw [forward_levels_full, backward_levels_full]
  obtain ⟨l2, b2, s2⟩ := levels_roundtrip T.W T.W_rev hq hq0 hk hW hW_rev hinv k le_rfl _ l1 b1
  -- the post-multiplication and the scaling
  obtain ⟨l3, g3⟩ := twist_top q T.W_rev T.W_sqrt_rev (2 ^ k) heven _ l2
  obtain ⟨l4, g4⟩ := scale_spec (2 ^ k) q ninv _ l3
  apply list_ext_getD (by rw [l4, hx])
  intro i hi
  rw [l4] at hi
  rw [g4 i hi, g3 i hi]
  have hlt : MUL_MOD (MUL_MOD ((backward_levels q (2 ^ k) T.W_rev k 1 (2 ^ k >>> 1)
      (forward_levels q (2 ^ k) T.W k (2 ^ k >>> 1) (2 ^ (k - k))
        (twist q T.W T.W_sqrt (2 ^ k >>> 1) 0 0 x))).getD i 0)
      (twistTab T.W_rev T.W_sqrt_rev i) q) ninv q < q := MUL_MOD_lt _ _ hq0
  have hinner := MUL_MOD_lt ((backward_levels q (2 ^ k) T.W_rev k 1 (2 ^ k >>> 1)
      (forward_levels q (2 ^ k) T.W k (2 ^ k >>> 1) (2 ^ (k - k))
        (twist q T.W T.W_sqrt (2 ^ k >>> 1) 0 0 x))).getD i 0)
      (twistTab T.W_rev T.W_sqrt_rev i) hq0
  have hcast : ((MUL_MOD (MUL_MOD ((backward_levels q (2 ^ k) T.W_rev k 1 (2 ^ k >>> 1)
      (forward_levels q (2 ^ k) T.W k (2 ^ k >>> 1) (2 ^ (k - k))
        (twist q T.W T.W_sqrt (2 ^ k >>> 1) 0 0 x))).getD i 0)
      (twistTab T.W_rev T.W_sqrt_rev i) q) ninv q : Nat) : ZMod q) = ((x.getD i 0 : Nat) : ZMod q) := by
    rw [MUL_MOD_cast q (mul_lt_word hq (by omega) hnb),
      MUL_MOD_cast q (mul_lt_word hq (b2 i hi) (htab' i hi))]
    have h2 := s2 i hi
    unfold res at h2
    rw [h2, g1 i hi, MUL_MOD_cast q (mul_lt_word hq (by have := hxb i hi; omega) (htab i hi))]
    have hn := cast_mul_eq_one hninv
    rw [Nat.cast_pow, Nat.cast_ofNat] at hn
    calc (2 : ZMod q) ^ k * ((x.getD i 0 : Nat) * (twistTab T.W T.W_sqrt i : Nat)) *
          (twistTab T.W_rev T.W_sqrt_rev i : Nat) * (ninv : Nat)
        = (x.getD i 0 : Nat) * (((twistTab T.W T.W_sqrt i : Nat) : ZMod q) *
          (twistTab T.W_rev T.W_sqrt_rev i : Nat)) * ((2 : ZMod q) ^ k * (ninv : Nat)) := by ring
      _ = (x.getD i 0 : Nat) := by rw [htabinv i hi, hn]; ring
  rw [ZMod.natCast_eq_natCast_iff', Nat.mod_eq_of_lt hlt, Nat.mod_eq_of_lt (hxb i hi)] at hcast
  exact hcast

/-! ### The forward transform evaluates the input polynomial -/

theorem blockSum_split {K : Type} [CommRing K] (g : Nat → K) (base m : Nat) (s : K) :
    blockSum g base (m + m) s = blockSum g base m s + s ^ m * blockSum g (base + m) m s := by
  unfold blockSum
  rw [Finset.sum_range_add, Finset.mul_sum]
  congr 1
  apply Finset.sum_congr rfl
  intro j _
  rw [pow_add, Nat.add_assoc]; ring

theorem blockSum_congr {K : Type} [CommRing K] (g h : Nat → K) (base len : Nat) (s : K)
    (e : ∀ j, j < len → g (base + j) = h (base + j)) :
    blockSum g base len s = blockSum h base len s := by
  unfold blockSum
  apply Finset.sum_congr rfl
  intro j hj
  rw [e j (Finset.mem_range.1 hj)]

/-- Lower half of a block after one forward level. -/
theorem blockSum_LfK_lo {K : Type} [CommRing K] (tw : Nat → K) (m : Nat) (g : Nat → K)
    (b : Nat) (s : K) (hs : s ^ m = 1) :
    blockSum (LfK tw m g) (b * (2 * m)) m s = blockSum g (b * (2 * m)) (m + m) s := by
  rw [blockSum_split, hs, one_mul]
  unfold blockSum
  rw [← Finset.sum_add_distrib]
  apply Finset.sum_congr rfl
  intro j hj
  have hj' := Finset.mem_range.1 hj
  have hmod : (b * (2 * m) + j) % (2 * m) = j := by
    rw [Nat.mul_comm b, Nat.mul_add_mod, Nat.mod_eq_of_lt (by omega)]
  unfold LfK
  rw [hmod, if_pos hj', Nat.add_right_comm]
  ring

/-- Upper half of a block after one forward level, with twiddles `tw j = w ^ j`. -/
theorem blockSum_LfK_hi {K : Type} [CommRing K] (tw : Nat → K) (w : K) (m : Nat) (g : Nat → K)
    (b : Nat) (s : K) (htw : ∀ j, j < m → tw j = w ^ j) (hws : (w * s) ^ m = -1) :
    blockSum (LfK tw m g) (b * (2 * m) + m) m s = blockSum g (b * (2 * m)) (m + m) (w * s) := by
  rw [blockSum_split, hws]
  unfold blockSum
  rw [Finset.mul_sum, ← Finset.sum_add_distrib]
  apply Finset.sum_congr rfl
  intro j hj
  have hj' := Finset.mem_range.1 hj
  have hmod : (b * (2 * m) + m + j) % (2 * m) = m + j := by
    rw [Nat.add_assoc, Nat.mul_comm b, Nat.mul_add_mod, Nat.mod_eq_of_lt (by omega)]
  unfold LfK
  have e1 : b * (2 * m) + m + j - m = b * (2 * m) + j := by omega
  rw [hmod, if_neg (by omega), Nat.add_sub_cancel_left, htw j hj', e1, mul_pow]
  ring

theorem pts_pow {K : Type} [CommRing K] (u v : K) (n : Nat) (hu : u ^ n = -1) (hv : v ^ n = -1) :
    ∀ d b, pts u v d b ^ n = -1 := by
  intro d
  induction d with
  | zero => intro b; exact hu
  | succ d ih =>
    intro b
    unfold pts
    split
    · exact ih _
    · rw [mul_pow, ih, ← pow_mul, Nat.mul_comm, pow_mul, hv, pow_succ, pow_mul, ← pow_mul,
        Nat.mul_comm, pow_mul]
      simp

theorem idxAt_closed {step n : Nat} (hs : 0 < step) (hn : n < 2 ^ 63) :
    ∀ j, j * step ≤ n → idxAt step n j = if j = 0 then 0 else n - j * step := by
  intro j
  induction j with
  | zero => intro _; rfl
  | succ j ih =>
    intro hj
    have e : (j + 1) * step = j * step + step := Nat.succ_mul j step
    rw [e] at hj
    have ih' := ih (by omega)
    have hne : ¬ (j + 1 = 0) := by omega
    have hsn : step ≤ n := by omega
    have hn64 : n < 2 ^ 64 := by omega
    simp only [idxAt, SUB_MODn]
    rw [if_neg hne, e, USUB_eq hsn hn64, ih']
    by_cases h0 : j = 0
    · subst h0
      have h1 : 0 + (n - step) < 2 ^ 64 := by omega
      have h2 : ¬ (0 + (n - step) ≥ n) := by omega
      rw [if_pos rfl, ADD_eq h1, if_neg h2]
      simp
    · have hpos : 0 < j * step := Nat.mul_pos (by omega) hs
      have h1 : n - j * step + (n - step) < 2 ^ 64 := by omega
      have h2 : n - j * step + (n - step) ≥ n := by omega
      rw [if_neg h0, ADD_eq h1, if_pos h2]
      omega

theorem twiddle_pow {K : Type} [CommRing K] (u v : K) (huv : u * v = 1) (n : Nat)
    (hu : u ^ n = -1) (a b : Nat) (hab : a + b = n) : u ^ (2 * a) = v ^ (2 * b) := by
  have h1 : u ^ (2 * a) * (u * v) ^ (2 * b) = v ^ (2 * b) * (u ^ n) ^ 2 := by
    rw [← hab, mul_pow]; ring
  rw [huv, one_pow, mul_one, hu] at h1
  rw [h1]; ring

theorem forward_levels_snoc (q n : Nat) (W : List Nat) (d m s : Nat) (x : List Nat)
    (h : m >>> d ≥ 1) :
    forward_levels q n W (d + 1) m s x =
      loop_j (GS_butterfly q) W n (m >>> d) (s <<< d) n 0 0 (forward_levels q n W d m s x) := by
  rw [forward_levels_add]
  simp only [forward_levels, h, if_true]

theorem PsiTables.u_pow {T : Twiddles} {n q psi psiinv : Nat} (h : PsiTables T n q psi psiinv) :
    ((psi : Nat) : ZMod q) ^ n = -1 := by
  have h1 := (ZMod.natCast_zmod_eq_zero_iff_dvd (psi ^ n + 1) q).2 (Nat.dvd_of_mod_eq_zero h.neg)
  rw [Nat.cast_add, Nat.cast_pow, Nat.cast_one] at h1
  exact eq_neg_of_add_eq_zero_left h1

theorem PsiTables.uv {T : Twiddles} {n q psi psiinv : Nat} (h : PsiTables T n q psi psiinv) :
    ((psi : Nat) : ZMod q) * ((psiinv : Nat) : ZMod q) = 1 := cast_mul_eq_one h.inv

theorem PsiTables.v_pow {T : Twiddles} {n q psi psiinv : Nat} (h : PsiTables T n q psi psiinv) :
    ((psiinv : Nat) : ZMod q) ^ n = -1 := by
  have h1 : (((psi : Nat) : ZMod q) * ((psiinv : Nat) : ZMod q)) ^ n = 1 := by
    rw [h.uv, one_pow]
  rw [mul_pow, h.u_pow] at h1
  have : ((psiinv : Nat) : ZMod q) ^ n = -(-1 * ((psiinv : Nat) : ZMod q) ^ n) := by ring
  rw [this, h1]

/-- The twiddle of column `j` at the level of step `step` is `(psiinv ^ (2 * step)) ^ j`. -/
theorem PsiTables.twK_eq {T : Twiddles} {n q psi psiinv : Nat} (h : PsiTables T n q psi psiinv)
    {step : Nat} (hs : 0 < step) (hn : n < 2 ^ 63) (hn0 : 0 < n) (j : Nat) (hj : j * step < n) :
    twK q T.W step n j = (((psiinv : Nat) : ZMod q) ^ (2 * step)) ^ j := by
  unfold twK
  rw [idxAt_closed hs hn j (by omega)]
  by_cases h0 : j = 0
  · subst h0
    rw [if_pos rfl, h.hW 0 hn0, ZMod.natCast_mod]
    simp
  · have hpos : 0 < j * step := Nat.mul_pos (by omega) hs
    rw [if_neg h0, h.hW _ (by omega), ZMod.natCast_mod, Nat.cast_pow,
      twiddle_pow _ _ h.uv n h.u_pow (n - j * step) (j * step) (by omega), ← pow_mul]
    congr 1
    ring

theorem PsiTables.twist_cast {T : Twiddles} {n q psi psiinv : Nat}
    (h : PsiTables T n q psi psiinv) (i : Nat) (hi : i < n) :
    ((twistTab T.W T.W_sqrt i : Nat) : ZMod q) = ((psi : Nat) : ZMod q) ^ i := by
  unfold twistTab
  split
  · rename_i he
    rw [h.hW _ (by omega), ZMod.natCast_mod, Nat.cast_pow]
    congr 1; omega
  · rw [h.hW_sqrt _ (by omega), ZMod.natCast_mod, Nat.cast_pow]
    congr 1; omega

theorem PsiTables.fit_W {T : Twiddles} {n q psi psiinv : Nat}
    (h : PsiTables T n q psi psiinv) (hq : q ≤ 2 ^ 31) (hq0 : 0 < q) :
    (∀ i, i < n → T.W.getD i 0 < 2 ^ 32) ∧ (∀ i, i < n → T.W_rev.getD i 0 < 2 ^ 32) ∧
    (∀ i, i < n / 2 → T.W_sqrt.getD i 0 < 2 ^ 32) ∧
    (∀ i, i < n / 2 → T.W_sqrt_rev.getD i 0 < 2 ^ 32) := by
  refine ⟨fun i hi => ?_, fun i hi => ?_, fun i hi => ?_, fun i hi => ?_⟩
  · rw [h.hW i hi]; have := Nat.mod_lt (psi ^ (2 * i)) hq0; omega
  · rw [h.hW_rev i hi]; have := Nat.mod_lt (psiinv ^ (2 * i)) hq0; omega
  · rw [h.hW_sqrt i hi]; have := Nat.mod_lt (psi ^ (2 * i + 1)) hq0; omega
  · rw [h.hW_sqrt_rev i hi]; have := Nat.mod_lt (psiinv ^ (2 * i + 1)) hq0; omega

/-- After `d` forward levels every block of length `2 ^ (k - d)` holds the input
polynomial restricted to one coset of evaluation points. -/
theorem forward_levels_eval {q k psi psiinv : Nat} (T : Twiddles) (hq : q ≤ 2 ^ 31)
    (hq0 : 0 < q) (hk : k < 63) (hT : PsiTables T (2 ^ k) q psi psiinv)
    (f : Nat → ZMod q) (x1 : List Nat) (hx1 : x1.length = 2 ^ k)
    (hb1 : ∀ i, i < 2 ^ k → x1.getD i 0 < q)
    (hf : ∀ i, i < 2 ^ k → res q x1 i = f i * ((psi : Nat) : ZMod q) ^ i) :
    ∀ d, d ≤ k →
      (forward_levels q (2 ^ k) T.W d (2 ^ k >>> 1) 1 x1).length = 2 ^ k ∧
      (∀ i, i < 2 ^ k → (forward_levels q (2 ^ k) T.W d (2 ^ k >>> 1) 1 x1).getD i 0 < q) ∧
      ∀ b, b < 2 ^ d → ∀ s : ZMod q, s ^ 2 ^ (k - d) = 1 →
        blockSum (res q (forward_levels q (2 ^ k) T.W d (2 ^ k >>> 1) 1 x1))
            (b * 2 ^ (k - d)) (2 ^ (k - d)) s =
          ∑ j ∈ Finset.range (2 ^ k), f j * (pts (psi : ZMod q) (psiinv : ZMod q) d b * s) ^ j := by
  intro d
  induction d with
  | zero =>
    intro _
    refine ⟨hx1, hb1, fun b hb s _ => ?_⟩
    have hb0 : b = 0 := by simpa using hb
    subst hb0
    simp only [forward_levels, blockSum, Nat.zero_mul, Nat.zero_add, Nat.sub_zero, pts]
    apply Finset.sum_congr rfl
    intro j hj
    rw [hf j (Finset.mem_range.1 hj), mul_pow]; ring
  | succ d ih =>
    intro hd
    obtain ⟨l0, b0, s0⟩ := ih (by omega)
    have hm : 0 < 2 ^ (k - (d + 1)) := by positivity
    have hM : 2 * 2 ^ (k - (d + 1)) = 2 ^ (k - d) := by
      rw [← pow_succ']; congr 1; omega
    have hdvd : 2 * 2 ^ (k - (d + 1)) ∣ 2 ^ k := by
      rw [hM]; exact pow_dvd_pow 2 (by omega)
    have hn63 : 2 ^ k < 2 ^ 63 := Nat.pow_lt_pow_right (by omega) hk
    have hn0 : 0 < 2 ^ k := by positivity
    have hstep : 2 ^ d ≤ 2 ^ k := Nat.pow_le_pow_right (by omega) (by omega)
    have hmd : (2 ^ k >>> 1) >>> d = 2 ^ (k - (d + 1)) := by
      rw [pow_shr_shr hd]; congr 1
    have hsnoc : forward_levels q (2 ^ k) T.W (d + 1) (2 ^ k >>> 1) 1 x1 =
        loop_j (GS_butterfly q) T.W (2 ^ k) (2 ^ (k - (d + 1))) (2 ^ d) (2 ^ k) 0 0
          (forward_levels q (2 ^ k) T.W d (2 ^ k >>> 1) 1 x1) := by
      rw [forward_levels_snoc _ _ _ _ _ _ _ (by rw [hmd]; exact hm), hmd, one_shl]
    rw [hsnoc]
    obtain ⟨l1, b1, s1⟩ := fwd_level_sem (2 ^ d) T.W hq hq0 hm hdvd _ l0 b0
      (hT.fit_W hq hq0).1 hstep hn63
    refine ⟨l1, b1, fun b hb s hs => ?_⟩
    -- the level in closed form on the block
    have hblock : 2 ^ (d + 1) * 2 ^ (k - (d + 1)) = 2 ^ k := by
      rw [← pow_add]; congr 1; omega
    have hcongr : blockSum (res q (loop_j (GS_butterfly q) T.W (2 ^ k) (2 ^ (k - (d + 1)))
          (2 ^ d) (2 ^ k) 0 0 (forward_levels q (2 ^ k) T.W d (2 ^ k >>> 1) 1 x1)))
          (b * 2 ^ (k - (d + 1))) (2 ^ (k - (d + 1))) s =
        blockSum (LfK (twK q T.W (2 ^ d) (2 ^ k)) (2 ^ (k - (d + 1)))
          (res q (forward_levels q (2 ^ k) T.W d (2 ^ k >>> 1) 1 x1)))
          (b * 2 ^ (k - (d + 1))) (2 ^ (k - (d + 1))) s := by
      apply blockSum_congr
      intro j hj
      apply s1
      have : (b + 1) * 2 ^ (k - (d + 1)) ≤ 2 ^ (d + 1) * 2 ^ (k - (d + 1)) :=
        Nat.mul_le_mul_right _ hb
      rw [hblock, Nat.succ_mul] at this
      omega
    rw [hcongr]
    have hsM : s ^ 2 ^ (k - d) = 1 := by
      rw [← hM, pow_mul', hs, one_pow]
    have hbd : b / 2 < 2 ^ d := by
      rw [pow_succ] at hb; omega
    by_cases hpar : b % 2 = 0
    · have hbase : b * 2 ^ (k - (d + 1)) = (b / 2) * (2 * 2 ^ (k - (d + 1))) := by
        have : b = (b / 2) * 2 := by omega
        conv_lhs => rw [this]
        ring
      rw [hbase, blockSum_LfK_lo _ _ _ _ _ hs, ← two_mul, hM, s0 _ hbd s hsM]
      simp only [pts, if_pos hpar]
    · have hbase : b * 2 ^ (k - (d + 1)) =
          (b / 2) * (2 * 2 ^ (k - (d + 1))) + 2 ^ (k - (d + 1)) := by
        have : b = (b / 2) * 2 + 1 := by omega
        conv_lhs => rw [this]
        ring
      have hw : ((psiinv : ZMod q) ^ 2 ^ (d + 1) * s) ^ 2 ^ (k - (d + 1)) = -1 := by
        rw [mul_pow, hs, mul_one, ← pow_mul, ← pow_add]
        have : d + 1 + (k - (d + 1)) = k := by omega
        rw [this]
        exact hT.v_pow
      have hw2 : ((psiinv : ZMod q) ^ 2 ^ (d + 1) * s) ^ 2 ^ (k - d) = 1 := by
        rw [← hM, pow_mul', hw]; ring
      rw [hbase, blockSum_LfK_hi _ ((psiinv : ZMod q) ^ 2 ^ (d + 1)) _ _ _ _ ?_ hw, ← two_mul,
        hM, s0 _ hbd _ hw2]
      · simp only [pts, if_neg hpar]
        apply Finset.sum_congr rfl
        intro j _
        rw [mul_assoc]
      · intro j hj
        have hjs : j * 2 ^ d < 2 ^ k := by
          have h1 : j * 2 ^ d < 2 ^ (k - (d + 1)) * 2 ^ d :=
            Nat.mul_lt_mul_of_pos_right hj (by positivity)
          have h2 : 2 ^ (k - (d + 1)) * 2 ^ d ≤ 2 ^ k := by
            rw [← pow_add]; exact Nat.pow_le_pow_right (by omega) (by omega)
          omega
        rw [hT.twK_eq (by positivity) hn63 hn0 j hjs, ← pow_succ']

/-! ### Negacyclic product -/

theorem getD_map_range (f : Nat → Nat) (n k : Nat) :
    ((List.range n).map f).getD k 0 = if k < n then f k else 0 := by
  rw [List.getD_eq_getElem?_getD, List.getElem?_map]
  by_cases h : k < n
  · rw [List.getElem?_range h, if_pos h]; rfl
  · rw [List.getElem?_eq_none (by simpa using h), if_neg h]; rfl

theorem list_sum_range_eq (f : Nat → Int) (n : Nat) :
    ((List.range n).map f).sum = ∑ i ∈ Finset.range n, f i := by
  induction n with
  | zero => simp
  | succ n ih =>
    rw [List.range_succ, List.map_append, List.sum_append, ih, Finset.sum_range_succ]
    simp

/-- Product of two polynomials of degree `< n` at a point `r` with `r ^ n = -1`: it is the
value of their negacyclic (schoolbook) product. -/
theorem negacyclic_eval {K : Type} [CommRing K] (fa fb : Nat → K) (n : Nat) (r : K)
    (hr : r ^ n = -1) :
    (∑ i ∈ Finset.range n, fa i * r ^ i) * (∑ j ∈ Finset.range n, fb j * r ^ j) =
      ∑ k ∈ Finset.range n, (∑ i ∈ Finset.range n,
        if i ≤ k then fa i * fb (k - i) else -(fa i * fb (n + k - i))) * r ^ k := by
  have key : ∀ i ∈ Finset.range n,
      (∑ k ∈ Finset.range n,
        (if i ≤ k then fa i * fb (k - i) else -(fa i * fb (n + k - i))) * r ^ k) =
      fa i * r ^ i * ∑ j ∈ Finset.range n, fb j * r ^ j := by
    intro i hi
    have hin : i < n := Finset.mem_range.1 hi
    have h1 := Finset.sum_range_add
      (fun k => (if i ≤ k then fa i * fb (k - i) else -(fa i * fb (n + k - i))) * r ^ k)
      i (n - i)
    rw [show i + (n - i) = n by omega] at h1
    have h2 := Finset.sum_range_add (fun j => fb j * r ^ j) (n - i) i
    rw [show n - i + i = n by omega] at h2
    rw [h1, h2, mul_add, Finset.mul_sum, Finset.mul_sum, add_comm]
    congr 1
    · apply Finset.sum_congr rfl
      intro k _
      rw [if_pos (by omega), Nat.add_sub_cancel_left, pow_add]
      ring
    · apply Finset.sum_congr rfl
      intro k hk
      have hki : k < i := Finset.mem_range.1 hk
      rw [if_neg (by omega), show n + k - i = n - i + k by omega]
      have hp : r ^ i * r ^ (n - i + k) = -r ^ k := by
        rw [← pow_add, show i + (n - i + k) = n + k by omega, pow_add, hr]; ring
      calc -(fa i * fb (n - i + k)) * r ^ k = fa i * fb (n - i + k) * (-r ^ k) := by ring
        _ = fa i * fb (n - i + k) * (r ^ i * r ^ (n - i + k)) := by rw [hp]
        _ = fa i * r ^ i * (fb (n - i + k) * r ^ (n - i + k)) := by ring
  rw [Finset.sum_mul]
  simp only [Finset.sum_mul]
  rw [Finset.sum_comm]
  exact Finset.sum_congr rfl (fun i hi => (key i hi).symm)

theorem schoolbook_length (n q : Nat) (a b : List Nat) : (schoolbook n q a b).length = n := by
  simp [schoolbook]

theorem schoolbook_lt {n q : Nat} (hq : 0 < q) (a b : List Nat) (k : Nat) (hk : k < n) :
    (schoolbook n q a b).getD k 0 < q := by
  unfold schoolbook
  rw [getD_map_range, if_pos hk]
  have h1 : (0 : Int) < q := by exact_mod_cast hq
  have h2 := Int.emod_lt_of_pos (negacyclic_coeff n a b k) h1
  have h3 := Int.emod_nonneg (negacyclic_coeff n a b k) (by omega : (q : Int) ≠ 0)
  omega

theorem schoolbook_cast {n q : Nat} (hq : 0 < q) (a b : List Nat) (k : Nat) (hk : k < n) :
    res q (schoolbook n q a b) k =
      ∑ i ∈ Finset.range n,
        if i ≤ k then res q a i * res q b (k - i) else -(res q a i * res q b (n + k - i)) := by
  unfold res schoolbook
  rw [getD_map_range, if_pos hk]
  have h3 := Int.emod_nonneg (negacyclic_coeff n a b k) (by omega : (q : Int) ≠ 0)
  have h4 : ((((negacyclic_coeff n a b k % (q : Int)).toNat : Nat) : Int)) =
      negacyclic_coeff n a b k % (q : Int) := Int.toNat_of_nonneg h3
  have h5 : ((((negacyclic_coeff n a b k % (q : Int)).toNat : Nat) : ZMod q)) =
      ((negacyclic_coeff n a b k % (q : Int) : Int) : ZMod q) := by
    rw [← h4, Int.cast_natCast, h4]
  rw [h5, ZMod.intCast_mod]
  unfold negacyclic_coeff
  rw [list_sum_range_eq, Int.cast_sum]
  apply Finset.sum_congr rfl
  intro i _
  split <;> push_cast <;> rfl

/-! ### The twisted forward transform in closed form, and the product theorem -/

theorem forward_eval {q k psi psiinv : Nat} (T : Twiddles) (hq : q ≤ 2 ^ 31)
    (hq0 : 0 < q) (hk1 : 1 ≤ k) (hk : k < 63) (hT : PsiTables T (2 ^ k) q psi psiinv)
    (x : List Nat) (hx : x.length = 2 ^ k) (hxb : ∀ i, i < 2 ^ k → x.getD i 0 < q) :
    (FFT_twisted_forward (2 ^ k) q T.W T.W_sqrt x).length = 2 ^ k ∧
    (∀ i, i < 2 ^ k → (FFT_twisted_forward (2 ^ k) q T.W T.W_sqrt x).getD i 0 < q) ∧
    ∀ i, i < 2 ^ k → res q (FFT_twisted_forward (2 ^ k) q T.W T.W_sqrt x) i =
      ∑ j ∈ Finset.range (2 ^ k), res q x j * (pts (psi : ZMod q) (psiinv : ZMod q) k i) ^ j := by
  have heven : 2 ^ k % 2 = 0 := by
    obtain ⟨j, rfl⟩ : ∃ j, k = j + 1 := ⟨k - 1, by omega⟩
    rw [pow_succ]; omega
  obtain ⟨fW, _, fS, _⟩ := hT.fit_W hq hq0
  obtain ⟨l1, g1⟩ := twist_top q T.W T.W_sqrt (2 ^ k) heven x hx
  have b1 : ∀ i, i < 2 ^ k → (twist q T.W T.W_sqrt (2 ^ k >>> 1) 0 0 x).getD i 0 < q :=
    fun i hi => by rw [g1 i hi]; exact MUL_MOD_lt _ _ hq0
  have htab : ∀ i, i < 2 ^ k → twistTab T.W T.W_sqrt i < 2 ^ 32 := by
    intro i hi; unfold twistTab; split
    · exact fW _ (by omega)
    · exact fS _ (by omega)
  have hf : ∀ i, i < 2 ^ k → res q (twist q T.W T.W_sqrt (2 ^ k >>> 1) 0 0 x) i =
      res q x i * ((psi : Nat) : ZMod q) ^ i := by
    intro i hi
    unfold res
    rw [g1 i hi, MUL_MOD_cast q (mul_lt_word hq (by have := hxb i hi; omega) (htab i hi)),
      hT.twist_cast i hi]
  obtain ⟨l2, b2, s2⟩ := forward_levels_eval T hq hq0 hk hT (res q x) _ l1 b1 hf k le_rfl
  unfold FFT_twisted_forward
  simp only
  rw [forward_levels_full, Nat.sub_self, pow_zero]
  refine ⟨l2, b2, fun i hi => ?_⟩
  have := s2 i hi 1 (one_pow _)
  simp only [Nat.sub_self, pow_zero, mul_one, blockSum, Finset.range_one, Finset.sum_singleton,
    Nat.add_zero] at this
  exact this

theorem PsiTables.inv_W {T : Twiddles} {n q psi psiinv : Nat}
    (h : PsiTables T n q psi psiinv) :
    (∀ i, i < n → (T.W.getD i 0 * T.W_rev.getD i 0) % q = 1 % q) ∧
    (∀ i, i < n / 2 → (T.W_sqrt.getD i 0 * T.W_sqrt_rev.getD i 0) % q = 1 % q) := by
  constructor
  · intro i hi
    rw [h.hW i hi, h.hW_rev i hi, ← ZMod.natCast_eq_natCast_iff']
    rw [Nat.cast_mul, ZMod.natCast_mod, ZMod.natCast_mod, Nat.cast_pow, Nat.cast_pow,
      ← mul_pow, h.uv, one_pow, Nat.cast_one]
  · intro i hi
    rw [h.hW_sqrt i hi, h.hW_sqrt_rev i hi, ← ZMod.natCast_eq_natCast_iff']
    rw [Nat.cast_mul, ZMod.natCast_mod, ZMod.natCast_mod, Nat.cast_pow, Nat.cast_pow,
      ← mul_pow, h.uv, one_pow, Nat.cast_one]

/-- Multiplication through the transform: for `n = 2 ^ k`, tables of powers of a `psi` with
`psi ^ n = -1`, and the inverse `ninv` of `n`, the backward transform of the pointwise product
of two forward transforms is the schoolbook product in `Z_q[x]/(x^n+1)`. -/
theorem twisted_product {q k ninv psi psiinv : Nat} (T : Twiddles) (hq : q ≤ 2 ^ 31)
    (hq0 : 0 < q) (hk1 : 1 ≤ k) (hk : k < 63) (hninv : (2 ^ k * ninv) % q = 1 % q)
    (hnb : ninv < 2 ^ 32) (hT : PsiTables T (2 ^ k) q psi psiinv)
    (a b : List Nat) (ha : a.length = 2 ^ k) (hb : b.length = 2 ^ k)
    (hab : ∀ i, i < 2 ^ k → a.getD i 0 < q) (hbb : ∀ i, i < 2 ^ k → b.getD i 0 < q) :
    scale (2 ^ k) q ninv (FFT_twisted_backward (2 ^ k) q T.W_rev T.W_sqrt_rev
      (POINTWISE_MUL (FFT_twisted_forward (2 ^ k) q T.W T.W_sqrt b)
        (FFT_twisted_forward (2 ^ k) q T.W T.W_sqrt a) (2 ^ k) q)) =
      schoolbook (2 ^ k) q a b := by
  obtain ⟨fW, fWr, fS, fSr⟩ := hT.fit_W hq hq0
  obtain ⟨iW, iS⟩ := hT.inv_W
  obtain ⟨la, ba, sa⟩ := forward_eval T hq hq0 hk1 hk hT a ha hab
  obtain ⟨lb, bb, sb⟩ := forward_eval T hq hq0 hk1 hk hT b hb hbb
  obtain ⟨lc, bc, sc⟩ := forward_eval T hq hq0 hk1 hk hT (schoolbook (2 ^ k) q a b)
    (schoolbook_length _ _ _ _) (fun i hi => schoolbook_lt hq0 a b i hi)
  have hprod : POINTWISE_MUL (FFT_twisted_forward (2 ^ k) q T.W T.W_sqrt b)
      (FFT_twisted_forward (2 ^ k) q T.W T.W_sqrt a) (2 ^ k) q =
      FFT_twisted_forward (2 ^ k) q T.W T.W_sqrt (schoolbook (2 ^ k) q a b) := by
    apply list_ext_getD (by rw [lc]; simp [POINTWISE_MUL])
    intro i hi
    have hi' : i < 2 ^ k := by simpa [POINTWISE_MUL] using hi
    unfold POINTWISE_MUL
    rw [getD_map_range, if_pos hi']
    have hlt := MUL_MOD_lt ((FFT_twisted_forward (2 ^ k) q T.W T.W_sqrt a).getD i 0)
      ((FFT_twisted_forward (2 ^ k) q T.W T.W_sqrt b).getD i 0) hq0
    have hcast : ((MUL_MOD ((FFT_twisted_forward (2 ^ k) q T.W T.W_sqrt a).getD i 0)
        ((FFT_twisted_forward (2 ^ k) q T.W T.W_sqrt b).getD i 0) q : Nat) : ZMod q) =
        (((FFT_twisted_forward (2 ^ k) q T.W T.W_sqrt (schoolbook (2 ^ k) q a b)).getD i 0 : Nat) :
          ZMod q) := by
      have h1 := sa i hi'
      have h2 := sb i hi'
      have h3 := sc i hi'
      unfold res at h1 h2 h3
      rw [MUL_MOD_cast q (mul_lt_word hq (by have := ba i hi'; omega)
        (by have := bb i hi'; omega)), h1, h2, h3]
      rw [negacyclic_eval _ _ _ _ (pts_pow _ _ _ hT.u_pow hT.v_pow k i)]
      apply Finset.sum_congr rfl
      intro j hj
      have := schoolbook_cast hq0 a b j (Finset.mem_range.1 hj)
      unfold res at this
      rw [this]
    rw [ZMod.natCast_eq_natCast_iff', Nat.mod_eq_of_lt hlt, Nat.mod_eq_of_lt (bc i hi')] at hcast
    exact hcast
  rw [hprod]
  exact twisted_roundtrip T hq hq0 hk1 hk hninv hnb fW fWr fS fSr iW iS _
    (schoolbook_length _ _ _ _) (fun i hi => schoolbook_lt hq0 a b i hi)

/-! ### Claim C2 -/

theorem getD_replicate (n a k : Nat) :
    (List.replicate n a).getD k 0 = if k < n then a else 0 := by
  rw [List.getD_eq_getElem?_getD, List.getElem?_replicate]
  split <;> simp

/-- C2. For n=512, q=25601 and n=1024, q=40961: when the tables hold 32-bit values with
`W[k]*W_rev[k] = 1 mod q` for every `k < n` and `W_sqrt[k]*W_sqrt_rev[k] = 1 mod q` for every
`k < n/2`, `_FFT_backward (_FFT_forward x) = x` for every `x` of `n` coefficients in `[0,q)`
(the backward entry point includes the scaling by the inverse of `n`). -/
theorem fft_backward_forward_identity (T : Twiddles) :
    (T.fits 512 →
      (∀ k, k < 512 → (T.W.getD k 0 * T.W_rev.getD k 0) % 25601 = 1) →
      (∀ k, k < 256 → (T.W_sqrt.getD k 0 * T.W_sqrt_rev.getD k 0) % 25601 = 1) →
      ∀ x : List Nat, x.length = 512 → (∀ c ∈ x, c < 25601) →
        _FFT_backward_512_25601 T (_FFT_forward_512_25601 T x) = x) ∧
    (T.fits 1024 →
      (∀ k, k < 1024 → (T.W.getD k 0 * T.W_rev.getD k 0) % 40961 = 1) →
      (∀ k, k < 512 → (T.W_sqrt.getD k 0 * T.W_sqrt_rev.getD k 0) % 40961 = 1) →
      ∀ x : List Nat, x.length = 1024 → (∀ c ∈ x, c < 40961) →
        _FFT_backward_1024_40961 T (_FFT_forward_1024_40961 T x) = x) := by
  constructor
  · intro hf h1 h2 x hx hxb
    exact twisted_roundtrip (q := 25601) (k := 9) T (by norm_num) (by norm_num) (by norm_num)
      (by norm_num) (by norm_num) (by norm_num) (fun i hi => (hf.1 i hi).1)
      (fun i hi => (hf.1 i hi).2) (fun i hi => (hf.2 i hi).1) (fun i hi => (hf.2 i hi).2)
      (fun i hi => by rw [h1 i hi]) (fun i hi => by rw [h2 i (by omega)]) x hx
      (fun i _ => getD_lt_of_forall (by norm_num) hxb i)
  · intro hf h1 h2 x hx hxb
    exact twisted_roundtrip (q := 40961) (k := 10) T (by norm_num) (by norm_num) (by norm_num)
      (by norm_num) (by norm_num) (by norm_num) (fun i hi => (hf.1 i hi).1)
      (fun i hi => (hf.1 i hi).2) (fun i hi => (hf.2 i hi).1) (fun i hi => (hf.2 i hi).2)
      (fun i hi => by rw [h1 i hi]) (fun i hi => by rw [h2 i (by omega)]) x hx
      (fun i _ => getD_lt_of_forall (by norm_num) hxb i)

theorem unitTwiddles_fits (n : Nat) : (unitTwiddles 1024).fits n := by
  constructor <;> intro k _ <;> simp only [unitTwiddles, getD_replicate] <;>
    constructor <;> split <;> norm_num

theorem fft_backward_forward_identity_witness :
    _FFT_backward_512_25601 (unitTwiddles 1024)
        (_FFT_forward_512_25601 (unitTwiddles 1024) (List.replicate 512 7)) =
      List.replicate 512 7 ∧
    _FFT_backward_1024_40961 (unitTwiddles 1024)
        (_FFT_forward_1024_40961 (unitTwiddles 1024) (List.replicate 1024 7)) =
      List.replicate 1024 7 :=
  ⟨(fft_backward_forward_identity (unitTwiddles 1024)).1 (unitTwiddles_fits _)
      (fun k hk => by simp only [unitTwiddles, getD_replicate]; rw [if_pos (by omega)])
      (fun k hk => by simp only [unitTwiddles, getD_replicate]; rw [if_pos (by omega)])
      (List.replicate 512 7) (List.length_replicate _ _)
      (fun c hc => by rw [List.eq_of_mem_replicate hc]; norm_num),
   (fft_backward_forward_identity (unitTwiddles 1024)).2 (unitTwiddles_fits _)
      (fun k hk => by simp only [unitTwiddles, getD_replicate]; rw [if_pos (by omega)])
      (fun k hk => by simp only [unitTwiddles, getD_replicate]; rw [if_pos (by omega)])
      (List.replicate 1024 7) (List.length_replicate _ _)
      (fun c hc => by rw [List.eq_of_mem_replicate hc]; norm_num)⟩

/-! ### Claim C1 -/

theorem psiTwiddles_tables (n q psi psiinv : Nat) (h1 : (psi * psiinv) % q = 1 % q)
    (h2 : (psi ^ n + 1) % q = 0) : PsiTables (psiTwiddles n q psi psiinv) n q psi psiinv where
  inv := h1
  neg := h2
  hW := fun k hk => by simp only [psiTwiddles, getD_map_range, if_pos hk]
  hW_sqrt := fun k hk => by
    simp only [psiTwiddles, getD_map_range]; rw [if_pos (by omega)]
  hW_rev := fun k hk => by simp only [psiTwiddles, getD_map_range, if_pos hk]
  hW_sqrt_rev := fun k hk => by
    simp only [psiTwiddles, getD_map_range]; rw [if_pos (by omega)]

theorem pow_mod_sq {a q e r : Nat} (h : a ^ e % q = r) : a ^ (2 * e) % q = r * r % q := by
  rw [two_mul, pow_add, Nat.mul_mod, h]

/-- C1. For n=512, q=25601 and n=1024, q=40961, with twiddle tables `W[k] = psi^(2k)`,
`W_sqrt[k] = psi^(2k+1)`, `W_rev[k] = psi^(-2k)`, `W_sqrt_rev[k] = psi^(-(2k+1))` modulo `q`
for a `psi` with `psi^n = -1 mod q` (`psiinv` is its inverse): for all `a`, `b` with `n`
coefficients in `[0,q)`, `_FFT_backward` of the `POINTWISE_MUL` of `_FFT_forward a` and
`_FFT_forward b` is the schoolbook product of `a` and `b` in `Z_q[x]/(x^n+1)`. -/
theorem fft_pointwise_product_is_schoolbook (T : Twiddles) (psi psiinv : Nat) :
    (PsiTables T 512 25601 psi psiinv →
      ∀ a b : List Nat, a.length = 512 → b.length = 512 →
        (∀ c ∈ a, c < 25601) → (∀ c ∈ b, c < 25601) →
        _FFT_backward_512_25601 T (POINTWISE_MUL (_FFT_forward_512_25601 T b)
          (_FFT_forward_512_25601 T a) 512 25601) = schoolbook 512 25601 a b) ∧
    (PsiTables T 1024 40961 psi psiinv →
      ∀ a b : List Nat, a.length = 1024 → b.length = 1024 →
        (∀ c ∈ a, c < 40961) → (∀ c ∈ b, c < 40961) →
        _FFT_backward_1024_40961 T (POINTWISE_MUL (_FFT_forward_1024_40961 T b)
          (_FFT_forward_1024_40961 T a) 1024 40961) = schoolbook 1024 40961 a b) := by
  constructor
  · intro hT a b ha hb hab hbb
    exact twisted_product (q := 25601) (k := 9) T (by norm_num) (by norm_num) (by norm_num)
      (by norm_num) (by norm_num) (by norm_num) hT a b ha hb
      (fun i _ => getD_lt_of_forall (by norm_num) hab i)
      (fun i _ => getD_lt_of_forall (by norm_num) hbb i)
  · intro hT a b ha hb hab hbb
    exact twisted_product (q := 40961) (k := 10) T (by norm_num) (by norm_num) (by norm_num)
      (by norm_num) (by norm_num) (by norm_num) hT a b ha hb
      (fun i _ => getD_lt_of_forall (by norm_num) hab i)
      (fun i _ => getD_lt_of_forall (by norm_num) hbb i)

theorem psi_512 : (12725 ^ 512 + 1) % 25601 = 0 := by
  have h1 : 12725 ^ 1 % 25601 = 12725 := by norm_num
  have h2 := pow_mod_sq h1
  have h4 := pow_mod_sq h2
  have h8 := pow_mod_sq h4
  have h16 := pow_mod_sq h8
  have h32 := pow_mod_sq h16
  have h64 := pow_mod_sq h32
  have h128 := pow_mod_sq h64
  have h256 := pow_mod_sq h128
  have h512 := pow_mod_sq h256
  norm_num at h512
  omega

theorem psi_1024 : (20237 ^ 1024 + 1) % 40961 = 0 := by
  have h1 : 20237 ^ 1 % 40961 = 20237 := by norm_num
  have h2 := pow_mod_sq h1
  have h4 := pow_mod_sq h2
  have h8 := pow_mod_sq h4
  have h16 := pow_mod_sq h8
  have h32 := pow_mod_sq h16
  have h64 := pow_mod_sq h32
  have h128 := pow_mod_sq h64
  have h256 := pow_mod_sq h128
  have h512 := pow_mod_sq h256
  have h1024 := pow_mod_sq h512
  norm_num at h1024
  omega

theorem replicate_lt {n a q : Nat} (h : a < q) : ∀ c ∈ List.replicate n a, c < q := by
  intro c hc; rw [List.eq_of_mem_replicate hc]; exact h

theorem fft_pointwise_product_is_schoolbook_witness :
    _FFT_backward_512_25601 (psiTwiddles 512 25601 12725 11868)
        (POINTWISE_MUL (_FFT_forward_512_25601 (psiTwiddles 512 25601 12725 11868)
            (List.replicate 512 2))
          (_FFT_forward_512_25601 (psiTwiddles 512 25601 12725 11868) (List.replicate 512 1))
          512 25601) =
      schoolbook 512 25601 (List.replicate 512 1) (List.replicate 512 2) ∧
    _FFT_backward_1024_40961 (psiTwiddles 1024 40961 20237 16233)
        (POINTWISE_MUL (_FFT_forward_1024_40961 (psiTwiddles 1024 40961 20237 16233)
            (List.replicate 1024 2))
          (_FFT_forward_1024_40961 (psiTwiddles 1024 40961 20237 16233) (List.replicate 1024 1))
          1024 40961) =
      schoolbook 1024 40961 (List.replicate 1024 1) (List.replicate 1024 2) :=
  ⟨(fft_pointwise_product_is_schoolbook (psiTwiddles 512 25601 12725 11868) 12725 11868).1
      (psiTwiddles_tables 512 25601 12725 11868 (by norm_num) psi_512)
      (List.replicate 512 1) (List.replicate 512 2) (List.length_replicate _ _)
      (List.length_replicate _ _) (replicate_lt (by norm_num)) (replicate_lt (by norm_num)),
   (fft_pointwise_product_is_schoolbook (psiTwiddles 1024 40961 20237 16233) 20237 16233).2
      (psiTwiddles_tables 1024 40961 20237 16233 (by norm_num) psi_1024)
      (List.replicate 1024 1) (List.replicate 1024 2) (List.length_replicate _ _)
      (List.length_replicate _ _) (replicate_lt (by norm_num)) (replicate_lt (by norm_num))⟩

/-! ### The pointwise operations on reduced operands -/

theorem mul_lt_word32 {a b : Nat} (ha : a < 2 ^ 32) (hb : b < 2 ^ 32) : a * b < 2 ^ 64 := by
  have h1 : a * b < 2 ^ 32 * 2 ^ 32 := Nat.mul_lt_mul'' ha hb
  simpa using h1

theorem ADD_MOD_eq_mod {a b q : Nat} (hq : q ≤ 2 ^ 32) (ha : a < q) (hb : b < q) :
    ADD_MOD a b q = (a + b) % q := by
  unfold ADD_MOD
  rw [ADD_eq (by omega)]
  simp only
  split
  · rename_i h
    have h2 : a + b - q < q := by omega
    have h3 : a + b = (a + b - q) + q := by omega
    conv_rhs => rw [h3, Nat.add_mod_right, Nat.mod_eq_of_lt h2]
  · rename_i h
    rw [Nat.mod_eq_of_lt (by omega)]

theorem SUB_MOD_lt {a b q : Nat} (hq : q ≤ 2 ^ 32) (ha : a < q) (hb : b < q) :
    SUB_MOD a b q < q := by
  unfold SUB_MOD
  rw [USUB_eq (by omega) (by omega), ADD_eq (by omega)]
  simp only
  split <;> omega

theorem POINTWISE_MUL_eq (b e0 : List Nat) (m q : Nat)
    (hb : ∀ i, i < m → b.getD i 0 < 2 ^ 32) (he : ∀ i, i < m → e0.getD i 0 < 2 ^ 32) :
    POINTWISE_MUL b e0 m q =
      (List.range m).map (fun i => (e0.getD i 0 * b.getD i 0) % q) := by
  unfold POINTWISE_MUL
  apply List.map_congr_left
  intro i hi
  have hi' := List.mem_range.1 hi
  exact MUL_MOD_eq q (mul_lt_word32 (he i hi') (hb i hi'))

theorem POINTWISE_MUL_ADD_eq (b e0 e1 : List Nat) (m q : Nat) (hq0 : 0 < q) (hq : q ≤ 2 ^ 32)
    (hb : ∀ i, i < m → b.getD i 0 < 2 ^ 32) (he : ∀ i, i < m → e0.getD i 0 < 2 ^ 32)
    (he1 : ∀ i, i < m → e1.getD i 0 < q) :
    POINTWISE_MUL_ADD b e0 e1 m q =
      (List.range m).map (fun i => (b.getD i 0 * e0.getD i 0 + e1.getD i 0) % q) := by
  unfold POINTWISE_MUL_ADD
  apply List.map_congr_left
  intro i hi
  have hi' := List.mem_range.1 hi
  rw [ADD_MOD_eq_mod hq (MUL_MOD_lt _ _ hq0) (he1 i hi'),
    MUL_MOD_eq q (mul_lt_word32 (he i hi') (hb i hi')), Nat.mod_add_mod, Nat.mul_comm]

theorem POINTWISE_ADD_eq (b e0 : List Nat) (m q : Nat) (hq : q ≤ 2 ^ 32)
    (hb : ∀ i, i < m → b.getD i 0 < q) (he : ∀ i, i < m → e0.getD i 0 < q) :
    POINTWISE_ADD b e0 m q =
      (List.range m).map (fun i => (b.getD i 0 + e0.getD i 0) % q) := by
  unfold POINTWISE_ADD
  apply List.map_congr_left
  intro i hi
  have hi' := List.mem_range.1 hi
  rw [ADD_MOD_eq_mod hq (he i hi') (hb i hi'), Nat.add_comm]

/-! ### Claim C3 -/

/-- C3. `KEM1_Generate` samples `s0` and then `s1` from the random stream, replaces each half
by its forward NTT (`S0`, `S1`), returns `b[i] = (a[i]*S1[i] + S0[i]) mod q` for `i < m`, and
the stored secret is `(S0, S1)`.  The parameter set is well formed: `q` fits in 32 bits, `a`
holds 32-bit values and the forward NTT returns coefficients in `[0,q)`. -/
theorem kem1_generate_spec (fuel : Nat) (p : RINGLWE_PARAM_DATA) (rs rs1 rs2 : RandomSource)
    (s0 s1 : List Nat) (hq0 : 0 < p.q) (hq : p.q ≤ 2 ^ 32)
    (ha : ∀ i, i < p.m → p.a.getD i 0 < 2 ^ 32)
    (hfwd : ∀ x i, i < p.m → (p.fft_forward x).getD i 0 < p.q)
    (h0 : sample_secret fuel p rs = some (s0, rs1))
    (h1 : sample_secret fuel p rs1 = some (s1, rs2)) :
    KEM1_Generate fuel p rs =
      some ((p.fft_forward s0 ++ p.fft_forward s1,
        (List.range p.m).map (fun i =>
          (p.a.getD i 0 * (p.fft_forward s1).getD i 0 + (p.fft_forward s0).getD i 0) % p.q)),
        rs2) := by
  unfold KEM1_Generate
  rw [h0]
  simp only
  rw [h1]
  simp only
  rw [POINTWISE_MUL_ADD_eq _ _ _ _ _ hq0 hq ha
    (fun i hi => by have := hfwd s1 i hi; omega) (fun i hi => hfwd s0 i hi)]

theorem toyParam_fft_lt (x : List Nat) : ∀ c ∈ x.map (fun c => c % 17), c < 17 := by
  intro c hc
  obtain ⟨d, _, rfl⟩ := List.mem_map.1 hc
  exact Nat.mod_lt _ (by norm_num)

theorem kem1_generate_spec_witness :
    KEM1_Generate 8 toyParam (zeroStream 0) =
      some (([16, 16, 16, 16] ++ [16, 16, 16, 16], [15, 14, 13, 12]), zeroStream 2) :=
  kem1_generate_spec 8 toyParam (zeroStream 0) (zeroStream 1) (zeroStream 2)
    [16, 16, 16, 16] [16, 16, 16, 16] (by decide) (by decide)
    (fun i hi => getD_lt_of_forall (by norm_num) (by decide) i)
    (fun x i _ => getD_lt_of_forall (by decide) (toyParam_fft_lt x) i) rfl rfl

/-! ### Bounds kept by sampling and by the cyclotomic fold -/

theorem set_bound {x : List Nat} {q v : Nat} (i : Nat) (hx : ∀ c ∈ x, c < q) (hv : v < q) :
    ∀ c ∈ x.set i v, c < q := by
  intro c hc
  rcases List.mem_or_eq_of_mem_set hc with h | h
  · exact hx c h
  · rw [h]; exact hv

theorem sample_secret_loop_bound (p : RINGLWE_PARAM_DATA) (L : Nat) (hq0 : 0 < p.q)
    (ht : ∀ c ∈ p.small_coeff_table, c < p.q) :
    ∀ fuel i r shifts s rs s' rs', (∀ c ∈ s, c < p.q) →
      sample_secret_loop p L fuel i r shifts s rs = some (s', rs') → ∀ c ∈ s', c < p.q := by
  intro fuel
  induction fuel with
  | zero =>
    intro i r shifts s rs s' rs' hs h
    simp only [sample_secret_loop] at h
    split at h
    · exact absurd h (by simp)
    · simp only [Option.some.injEq, Prod.mk.injEq] at h
      rw [← h.1]; exact hs
  | succ fuel ih =>
    intro i r shifts s rs s' rs' hs h
    simp only [sample_secret_loop] at h
    have hs2 : ∀ c ∈ (if r &&& p.BMASK < p.BB then
        s.set i (p.small_coeff_table.getD (r &&& p.BMASK) 0) else s), c < p.q := by
      split
      · exact set_bound i hs (getD_lt_of_forall hq0 ht _)
      · exact hs
    split at h
    · split at h
      · exact ih _ _ _ _ _ _ _ hs2 h
      · exact ih _ _ _ _ _ _ _ hs2 h
    · simp only [Option.some.injEq, Prod.mk.injEq] at h
      rw [← h.1]; exact hs

theorem sample_secret_bound (p : RINGLWE_PARAM_DATA) (hq0 : 0 < p.q)
    (ht : ∀ c ∈ p.small_coeff_table, c < p.q) (fuel : Nat) (rs rs' : RandomSource)
    (s : List Nat) (h : sample_secret fuel p rs = some (s, rs')) : ∀ c ∈ s, c < p.q := by
  unfold sample_secret at h
  refine sample_secret_loop_bound p _ hq0 ht _ _ _ _ _ _ _ _ ?_ h
  have h0 : ∀ c ∈ List.replicate p.m 0, c < p.q := by
    intro c hc; rw [List.eq_of_mem_replicate hc]; exact hq0
  split
  · exact set_bound _ h0 hq0
  · exact h0

theorem foldl_set_bound {q : Nat} (g : List Nat → Nat → Nat)
    (hg : ∀ v i, (∀ c ∈ v, c < q) → g v i < q) :
    ∀ (l : List Nat) (v : List Nat), (∀ c ∈ v, c < q) →
      ∀ c ∈ l.foldl (fun v i => v.set i (g v i)) v, c < q := by
  intro l
  induction l with
  | nil => intro v hv; exact hv
  | cons i l ih =>
    intro v hv
    simp only [List.foldl_cons]
    exact ih _ (set_bound i hv (hg v i hv))

theorem MAPTOCYCLOTOMIC_bound {v : List Nat} {m q : Nat} (hq0 : 0 < q) (hq : q ≤ 2 ^ 32)
    (hv : ∀ c ∈ v, c < q) : ∀ c ∈ MAPTOCYCLOTOMIC v m q, c < q := by
  unfold MAPTOCYCLOTOMIC
  simp only
  apply set_bound _ _ hq0
  exact foldl_set_bound (fun v i => SUB_MOD (v.getD i 0) (v.getD (m - 1) 0) q)
    (fun v i hv => SUB_MOD_lt hq (getD_lt_of_forall hq0 hv _) (getD_lt_of_forall hq0 hv _))
    _ v hv

/-! ### Claims C4 and C5 -/

theorem getD_set_lt (x : List Nat) (i k v q : Nat) (hx : x.getD k 0 < q) (hv : v < q) :
    (x.set i v).getD k 0 < q := by
  by_cases h : i < x.length
  · rw [getD_set _ _ _ _ h]
    split
    · exact hv
    · exact hx
  · rw [List.set_eq_of_length_le (by omega)]
    exact hx

theorem foldl_set_lt {q m : Nat} (g : List Nat → Nat → Nat) :
    ∀ (l : List Nat), (∀ v i, i ∈ l → (∀ k, k < m → v.getD k 0 < q) → g v i < q) →
      ∀ (v : List Nat), (∀ k, k < m → v.getD k 0 < q) →
      ∀ k, k < m → (l.foldl (fun v i => v.set i (g v i)) v).getD k 0 < q := by
  intro l
  induction l with
  | nil => intro _ v hv; exact hv
  | cons i l ih =>
    intro hg v hv
    simp only [List.foldl_cons]
    exact ih (fun v j hj => hg v j (List.mem_cons_of_mem _ hj)) _
      (fun k hk => getD_set_lt v i k _ q (hv k hk) (hg v i (List.mem_cons_self _ _) hv))

theorem MAPTOCYCLOTOMIC_lt {v : List Nat} {m q : Nat} (hq0 : 0 < q) (hq : q ≤ 2 ^ 32)
    (hv : ∀ k, k < m → v.getD k 0 < q) :
    ∀ k, k < m → (MAPTOCYCLOTOMIC v m q).getD k 0 < q := by
  unfold MAPTOCYCLOTOMIC
  simp only
  intro k hk
  apply getD_set_lt _ _ _ _ _ _ hq0
  exact foldl_set_lt (fun v i => SUB_MOD (v.getD i 0) (v.getD (m - 1) 0) q) _
    (fun v i hi hv' => by
      have hi' : i < m - 1 := List.mem_range.1 hi
      exact SUB_MOD_lt hq (hv' i (by omega)) (hv' (m - 1) (by omega)))
    v hv k hk

/-- C4. `KEM1_Encapsulate` samples `e0`, `e1`, `e2` in that order, transforms only `e0` and
`e1` (`E0`, `E1`), returns `u[i] = (a[i]*E0[i] + E1[i]) mod q` and
`(mu, cr) = round_and_cross_round(v)` with `v[i] = (t[i] + e2[i]) mod q`, where `t` is the
inverse NTT of the pointwise product `E0*b mod q`, followed by the cyclotomic fold when `m`
is odd.  The parameter set is well formed: `q` fits in 32 bits, `a` and `b` hold 32-bit
values, the table of small coefficients holds values in `[0,q)`, and the `m` coefficients
returned by either transform are in `[0,q)`. -/
theorem kem1_encapsulate_spec (fuel : Nat) (p : RINGLWE_PARAM_DATA) (b : List Nat)
    (rs rs1 rs2 rs3 : RandomSource) (e0 e1 e2 : List Nat) (hq0 : 0 < p.q) (hq : p.q ≤ 2 ^ 32)
    (ha : ∀ i, i < p.m → p.a.getD i 0 < 2 ^ 32) (hb : ∀ i, i < p.m → b.getD i 0 < 2 ^ 32)
    (ht : ∀ c ∈ p.small_coeff_table, c < p.q)
    (hfwd : ∀ x i, i < p.m → (p.fft_forward x).getD i 0 < p.q)
    (hbwd : ∀ x i, i < p.m → (p.fft_backward x).getD i 0 < p.q)
    (h0 : sample_secret fuel p rs = some (e0, rs1))
    (h1 : sample_secret fuel p rs1 = some (e1, rs2))
    (h2 : sample_secret fuel p rs2 = some (e2, rs3)) :
    let E0 := p.fft_forward e0
    let E1 := p.fft_forward e1
    let t := fold_if_odd p (p.fft_backward (pointwise_product E0 b p.m p.q))
    let v := (List.range p.m).map (fun i => (t.getD i 0 + e2.getD i 0) % p.q)
    KEM1_Encapsulate fuel p b rs =
      some (((List.range p.m).map (fun i => (p.a.getD i 0 * E0.getD i 0 + E1.getD i 0) % p.q),
        (round_and_cross_round p v rs3).1.2, (round_and_cross_round p v rs3).1.1),
        (round_and_cross_round p v rs3).2) := by
  intro E0 E1 t v
  have hE0 : ∀ i, i < p.m → E0.getD i 0 < 2 ^ 32 := fun i hi => by
    have : E0.getD i 0 < p.q := hfwd e0 i hi
    omega
  have hE1 : ∀ i, i < p.m → E1.getD i 0 < p.q := fun i hi => hfwd e1 i hi
  have he2 : ∀ i, i < p.m → e2.getD i 0 < p.q := fun i _ =>
    getD_lt_of_forall hq0 (sample_secret_bound p hq0 ht fuel rs2 rs3 e2 h2) i
  have hv : ∀ i, i < p.m → t.getD i 0 < p.q := by
    intro i hi
    show (fold_if_odd p _).getD i 0 < p.q
    unfold fold_if_odd
    split
    · exact MAPTOCYCLOTOMIC_lt hq0 hq (fun k hk => hbwd _ k hk) i hi
    · exact hbwd _ i hi
  unfold KEM1_Encapsulate
  rw [h0]
  simp only
  rw [h1]
  simp only
  rw [h2]
  simp only
  rw [POINTWISE_MUL_ADD_eq _ _ _ _ _ hq0 hq ha hE0 hE1, POINTWISE_MUL_eq _ _ _ _ hb hE0]
  have hfold : (if p.m % 2 = 1 then
      MAPTOCYCLOTOMIC (p.fft_backward ((List.range p.m).map (fun i =>
        (E0.getD i 0 * b.getD i 0) % p.q))) p.m p.q
      else p.fft_backward ((List.range p.m).map (fun i =>
        (E0.getD i 0 * b.getD i 0) % p.q))) = t := rfl
  rw [hfold, POINTWISE_ADD_eq _ _ _ _ hq hv he2]

theorem kem1_encapsulate_spec_witness :
    KEM1_Encapsulate 8 toyParam [5, 6, 7, 8] (zeroStream 0) =
      some (([15, 14, 13, 12],
        (round_and_cross_round toyParam [11, 10, 9, 8] (zeroStream 3)).1.2,
        (round_and_cross_round toyParam [11, 10, 9, 8] (zeroStream 3)).1.1),
        (round_and_cross_round toyParam [11, 10, 9, 8] (zeroStream 3)).2) :=
  kem1_encapsulate_spec 8 toyParam [5, 6, 7, 8] (zeroStream 0) (zeroStream 1) (zeroStream 2)
    (zeroStream 3) [16, 16, 16, 16] [16, 16, 16, 16] [16, 16, 16, 16] (by decide) (by decide)
    (fun i _ => getD_lt_of_forall (by norm_num) (by decide) i)
    (fun i _ => getD_lt_of_forall (by norm_num) (by decide) i)
    (by decide) (fun x i _ => getD_lt_of_forall (by decide) (toyParam_fft_lt x) i)
    (fun x i _ => getD_lt_of_forall (by decide) (toyParam_fft_lt x) i) rfl rfl rfl

theorem rec_step_length (p : RINGLWE_PARAM_DATA) (w b : List Nat) (st : Nat × Nat × List Nat)
    (i : Nat) : (rec_step p w b st i).2.2.length = st.2.2.length := by
  unfold rec_step set_bit
  simp only
  split <;> split <;> split <;> simp

theorem ringlwe_rec_length (p : RINGLWE_PARAM_DATA) (w b : List Nat) :
    (ringlwe_rec p w b).length = p.muwords := by
  unfold ringlwe_rec
  have h : ∀ (l : List Nat) (st : Nat × Nat × List Nat),
      (l.foldl (rec_step p w b) st).2.2.length = st.2.2.length := by
    intro l
    induction l with
    | nil => intro st; rfl
    | cons i l ih => intro st; rw [List.foldl_cons, ih, rec_step_length]
  rw [h]; simp

/-- C5. `KEM1_Decapsulate(u, s1, cr)` returns a result (`muwords` words) for every input and
uses no randomness; for `u`, `s1` holding 32-bit values it equals `ringlwe_rec(w, cr)` where
`w` is the inverse NTT of the pointwise product `s1*u mod q`, followed by the cyclotomic
fold when `m` is odd. -/
theorem kem1_decapsulate_spec (p : RINGLWE_PARAM_DATA) (u s_1 cr_v : List Nat) :
    (KEM1_Decapsulate p u s_1 cr_v).length = p.muwords ∧
    ((∀ i, i < p.m → u.getD i 0 < 2 ^ 32) → (∀ i, i < p.m → s_1.getD i 0 < 2 ^ 32) →
      KEM1_Decapsulate p u s_1 cr_v =
        ringlwe_rec p (fold_if_odd p (p.fft_backward (pointwise_product u s_1 p.m p.q))) cr_v) := by
  refine ⟨ringlwe_rec_length _ _ _, fun hu hs => ?_⟩
  unfold KEM1_Decapsulate
  simp only
  rw [POINTWISE_MUL_eq _ _ _ _ hs hu]
  rfl

theorem kem1_decapsulate_spec_witness :
    KEM1_Decapsulate toyParam [1, 2, 3, 4] [5, 6, 7, 8] [1] =
      ringlwe_rec toyParam [5, 12, 4, 15] [1] :=
  (kem1_decapsulate_spec toyParam [1, 2, 3, 4] [5, 6, 7, 8] [1]).2
    (fun i _ => getD_lt_of_forall (by norm_num) (by decide) i)
    (fun i _ => getD_lt_of_forall (by norm_num) (by decide) i)

/-! ### Bit packing -/

theorem set_bit_length (x : List Nat) (word pos : Nat) :
    (set_bit x word pos).length = x.length := by
  unfold set_bit; simp

theorem set_bit_testBit (x : List Nat) (word pos : Nat) (hw : word < x.length) (hp : pos < 64)
    (i : Nat) :
    ((set_bit x word pos).getD (i / 64) 0).testBit (i % 64) =
      ((x.getD (i / 64) 0).testBit (i % 64) || decide (i = 64 * word + pos)) := by
  unfold set_bit
  rw [getD_set _ _ _ _ hw, Nat.one_shiftLeft,
    Nat.mod_eq_of_lt (Nat.pow_lt_pow_right (by omega) hp)]
  by_cases h : i / 64 = word
  · rw [if_pos h, Nat.testBit_or, Nat.testBit_two_pow, h]
    congr 1
    exact decide_eq_decide.2 ⟨fun _ => by omega, fun _ => by omega⟩
  · rw [if_neg h]
    have : decide (i = 64 * word + pos) = false := decide_eq_false (by omega)
    rw [this, Bool.or_false]

theorem testBit_getD_replicate (n i : Nat) :
    ((List.replicate n 0).getD (i / 64) 0).testBit (i % 64) = false := by
  rw [getD_replicate]
  split <;> simp

theorem shift_and_one_ne_zero (x pos : Nat) :
    ((x >>> pos) &&& 1 ≠ 0) ↔ x.testBit pos = true := by
  unfold Nat.testBit
  rw [Nat.and_comm]
  simp

/-! ### Claim C7: `ringlwe_rec` -/

theorem rec_step_out (p : RINGLWE_PARAM_DATA) (w b : List Nat) (cnt : Nat) (r : List Nat) :
    (rec_cond p w b cnt →
      (rec_step p w b (cnt / 64, cnt % 64, r) cnt).2.2 = set_bit r (cnt / 64) (cnt % 64)) ∧
    (¬ rec_cond p w b cnt → (rec_step p w b (cnt / 64, cnt % 64, r) cnt).2.2 = r) := by
  have hproj : ∀ (c : Prop) [Decidable c] (x y : Nat × Nat × List Nat),
      (if c then x else y).2.2 = if c then x.2.2 else y.2.2 := by
    intro c _ x y; split <;> rfl
  unfold rec_step rec_cond
  simp only [hproj, ite_self, shift_and_one_ne_zero]
  by_cases hb : (b.getD (cnt / 64) 0).testBit (cnt % 64) = true
  · rw [if_pos hb]
    constructor
    · rintro (⟨_, h1, h2⟩ | ⟨h0, _⟩)
      · rw [if_pos ⟨h1, h2⟩]
      · rw [hb] at h0; exact absurd h0 (by simp)
    · intro hn
      rw [if_neg (fun h => hn (Or.inl ⟨hb, h.1, h.2⟩))]
  · rw [if_neg hb]
    have hb' : (b.getD (cnt / 64) 0).testBit (cnt % 64) = false := by
      cases h : (b.getD (cnt / 64) 0).testBit (cnt % 64)
      · rfl
      · exact absurd h hb
    constructor
    · rintro (⟨h1, _⟩ | ⟨_, h1, h2⟩)
      · exact absurd h1 hb
      · rw [if_pos ⟨h1, h2⟩]
    · intro hn
      rw [if_neg (fun h => hn (Or.inr ⟨hb', h.1, h.2⟩))]

theorem rec_step_pos (p : RINGLWE_PARAM_DATA) (w b : List Nat) (cnt : Nat) (r : List Nat) :
    (rec_step p w b (cnt / 64, cnt % 64, r) cnt).1 = (cnt + 1) / 64 ∧
    (rec_step p w b (cnt / 64, cnt % 64, r) cnt).2.1 = (cnt + 1) % 64 := by
  unfold rec_step
  simp only
  split <;> simp only <;> omega

theorem rec_loop_inv (p : RINGLWE_PARAM_DATA) (w b : List Nat) :
    ∀ cnt, cnt ≤ 64 * p.muwords →
      ((List.range cnt).foldl (rec_step p w b) (0, 0, List.replicate p.muwords 0)).1 = cnt / 64 ∧
      ((List.range cnt).foldl (rec_step p w b) (0, 0, List.replicate p.muwords 0)).2.1 =
        cnt % 64 ∧
      ((List.range cnt).foldl (rec_step p w b) (0, 0, List.replicate p.muwords 0)).2.2.length =
        p.muwords ∧
      ∀ i, ((((List.range cnt).foldl (rec_step p w b)
          (0, 0, List.replicate p.muwords 0)).2.2).getD (i / 64) 0).testBit (i % 64) = true ↔
        (i < cnt ∧ rec_cond p w b i) := by
  intro cnt
  induction cnt with
  | zero =>
    intro _
    refine ⟨rfl, rfl, List.length_replicate _ _, fun i => ?_⟩
    simp only [List.range_zero, List.foldl_nil]
    rw [testBit_getD_replicate]
    constructor
    · intro h; exact absurd h (by simp)
    · intro h; exact absurd h.1 (by omega)
  | succ cnt ih =>
    intro hc
    obtain ⟨h1, h2, h3, h4⟩ := ih (by omega)
    rw [List.range_succ, List.foldl_append]
    simp only [List.foldl_cons, List.foldl_nil]
    generalize (List.range cnt).foldl (rec_step p w b) (0, 0, List.replicate p.muwords 0) = st
      at h1 h2 h3 h4
    obtain ⟨word, pos, r⟩ := st
    simp only at h1 h2 h3 h4
    subst h1 h2
    have hw : cnt / 64 < r.length := by omega
    have hp : cnt % 64 < 64 := Nat.mod_lt _ (by omega)
    have hcnt : 64 * (cnt / 64) + cnt % 64 = cnt := Nat.div_add_mod cnt 64
    obtain ⟨hp1, hp2⟩ := rec_step_pos p w b cnt r
    obtain ⟨hs1, hs2⟩ := rec_step_out p w b cnt r
    refine ⟨hp1, hp2, by rw [rec_step_length]; exact h3, fun i => ?_⟩
    by_cases hcond : rec_cond p w b cnt
    · rw [hs1 hcond, set_bit_testBit _ _ _ hw hp, Bool.or_eq_true, h4, hcnt, decide_eq_true_iff]
      constructor
      · rintro (⟨h, hc'⟩ | h)
        · exact ⟨by omega, hc'⟩
        · subst h; exact ⟨by omega, hcond⟩
      · rintro ⟨h, hc'⟩
        by_cases hi : i = cnt
        · exact Or.inr hi
        · exact Or.inl ⟨by omega, hc'⟩
    · rw [hs2 hcond, h4]
      constructor
      · rintro ⟨h, hc'⟩; exact ⟨by omega, hc'⟩
      · rintro ⟨h, hc'⟩
        by_cases hi : i = cnt
        · subst hi; exact absurd hc' hcond
        · exact ⟨by omega, hc'⟩

/-- C7. In `ringlwe_rec`, for every `i < L` (`L = m`, or `m-1` for odd `m`), bit `i` of the
result (bit position `i mod 64` of word `i / 64`) is 1 iff (bit `i` of `b` is 1 and
`r1_l < w[i] < r1_u`) or (bit `i` of `b` is 0 and `r0_l < w[i] < r0_u`), both interval ends
excluded; `muwords` words hold the `L` bits. -/
theorem ringlwe_rec_bits (p : RINGLWE_PARAM_DATA) (w b : List Nat)
    (hmu : loop_limit p ≤ 64 * p.muwords) (i : Nat) (hi : i < loop_limit p) :
    (((ringlwe_rec p w b).getD (i / 64) 0).testBit (i % 64) = true ↔
      (((b.getD (i / 64) 0).testBit (i % 64) = true ∧ p.r1_l < w.getD i 0 ∧ w.getD i 0 < p.r1_u) ∨
       ((b.getD (i / 64) 0).testBit (i % 64) = false ∧
          p.r0_l < w.getD i 0 ∧ w.getD i 0 < p.r0_u))) := by
  unfold ringlwe_rec
  rw [(rec_loop_inv p w b (loop_limit p) hmu).2.2.2 i]
  unfold rec_cond
  constructor
  · intro h; exact h.2
  · intro h; exact ⟨hi, h⟩

theorem ringlwe_rec_bits_witness :
    (((ringlwe_rec toyParam [5, 12, 4, 15] [1]).getD (0 / 64) 0).testBit (0 % 64) = true ↔
      ((([1] : List Nat).getD (0 / 64) 0).testBit (0 % 64) = true ∧
          toyParam.r1_l < ([5, 12, 4, 15] : List Nat).getD 0 0 ∧
          ([5, 12, 4, 15] : List Nat).getD 0 0 < toyParam.r1_u) ∨
       ((([1] : List Nat).getD (0 / 64) 0).testBit (0 % 64) = false ∧
          toyParam.r0_l < ([5, 12, 4, 15] : List Nat).getD 0 0 ∧
          ([5, 12, 4, 15] : List Nat).getD 0 0 < toyParam.r0_u)) :=
  ringlwe_rec_bits toyParam [5, 12, 4, 15] [1] (by decide) 0 (by decide)

/-! ### Claim C6: `round_and_cross_round` -/

theorem next_rbit_frame (st : RcrState) :
    (next_rbit st).word = st.word ∧ (next_rbit st).pos = st.pos ∧
    (next_rbit st).modular_rnd = st.modular_rnd ∧ (next_rbit st).cross_rnd = st.cross_rnd := by
  unfold next_rbit
  split <;> exact ⟨rfl, rfl, rfl, rfl⟩

theorem nudge_frame (p : RINGLWE_PARAM_DATA) (val : Nat) (st : RcrState) :
    (nudge p val st).2.word = st.word ∧ (nudge p val st).2.pos = st.pos ∧
    (nudge p val st).2.modular_rnd = st.modular_rnd ∧
    (nudge p val st).2.cross_rnd = st.cross_rnd := by
  unfold nudge
  split <;> split <;> try split
  all_goals first | exact next_rbit_frame st | exact ⟨rfl, rfl, rfl, rfl⟩

theorem rcr_run_succ (p : RINGLWE_PARAM_DATA) (v : List Nat) (rs : RandomSource) (cnt : Nat) :
    rcr_run p v rs (cnt + 1) = rcr_step p v (rcr_run p v rs cnt) cnt := by
  unfold rcr_run
  rw [List.range_succ, List.foldl_append]
  rfl

theorem rcr_step_fields (p : RINGLWE_PARAM_DATA) (v : List Nat) (st : RcrState) (i : Nat) :
    (rcr_step p v st i).word = (if st.pos + 1 = 64 then st.word + 1 else st.word) ∧
    (rcr_step p v st i).pos = (if st.pos + 1 = 64 then 0 else st.pos + 1) ∧
    (rcr_step p v st i).modular_rnd =
      (if (nudge p (v.getD i 0) st).1 > p.q_1_4 ∧ (nudge p (v.getD i 0) st).1 < p.q_3_4 then
        set_bit st.modular_rnd st.word st.pos else st.modular_rnd) ∧
    (rcr_step p v st i).cross_rnd =
      (if ((nudge p (v.getD i 0) st).1 > p.q_1_4 ∧ (nudge p (v.getD i 0) st).1 ≤ p.q_2_4) ∨
          (nudge p (v.getD i 0) st).1 ≥ p.q_3_4 then
        set_bit st.cross_rnd st.word st.pos else st.cross_rnd) := by
  obtain ⟨f1, f2, f3, f4⟩ := nudge_frame p (v.getD i 0) st
  unfold rcr_step
  simp only [f1, f2, f3, f4]
  split <;> exact ⟨rfl, rfl, rfl, rfl⟩

theorem rcr_loop_inv (p : RINGLWE_PARAM_DATA) (v : List Nat) (rs : RandomSource) :
    ∀ cnt, cnt ≤ 64 * p.muwords →
      (rcr_run p v rs cnt).word = cnt / 64 ∧ (rcr_run p v rs cnt).pos = cnt % 64 ∧
      (rcr_run p v rs cnt).modular_rnd.length = p.muwords ∧
      (rcr_run p v rs cnt).cross_rnd.length = p.muwords ∧
      (∀ i, (((rcr_run p v rs cnt).modular_rnd).getD (i / 64) 0).testBit (i % 64) = true ↔
        (i < cnt ∧ (nudged p v rs i > p.q_1_4 ∧ nudged p v rs i < p.q_3_4))) ∧
      (∀ i, (((rcr_run p v rs cnt).cross_rnd).getD (i / 64) 0).testBit (i % 64) = true ↔
        (i < cnt ∧ ((nudged p v rs i > p.q_1_4 ∧ nudged p v rs i ≤ p.q_2_4) ∨
          nudged p v rs i ≥ p.q_3_4))) := by
  intro cnt
  induction cnt with
  | zero =>
    intro _
    refine ⟨rfl, rfl, List.length_replicate _ _, List.length_replicate _ _, fun i => ?_,
      fun i => ?_⟩
    all_goals
      show ((List.replicate p.muwords 0).getD (i / 64) 0).testBit (i % 64) = true ↔ _
      rw [testBit_getD_replicate]
      constructor
      · intro h; exact absurd h (by simp)
      · intro h; exact absurd h.1 (by omega)
  | succ cnt ih =>
    intro hc
    obtain ⟨h1, h2, h3, h4, h5, h6⟩ := ih (by omega)
    obtain ⟨g1, g2, g3, g4⟩ := rcr_step_fields p v (rcr_run p v rs cnt) cnt
    have hp : cnt % 64 < 64 := Nat.mod_lt _ (by omega)
    have hcnt : 64 * (cnt / 64) + cnt % 64 = cnt := Nat.div_add_mod cnt 64
    rw [rcr_run_succ]
    refine ⟨?_, ?_, ?_, ?_, fun i => ?_, fun i => ?_⟩
    · rw [g1, h1, h2]; split <;> omega
    · rw [g2, h2]; split <;> omega
    · rw [g3]; split
      · rw [set_bit_length]; exact h3
      · exact h3
    · rw [g4]; split
      · rw [set_bit_length]; exact h4
      · exact h4
    · rw [g3]
      have hval : (nudge p (v.getD cnt 0) (rcr_run p v rs cnt)).1 = nudged p v rs cnt := rfl
      rw [hval]
      by_cases hcond : nudged p v rs cnt > p.q_1_4 ∧ nudged p v rs cnt < p.q_3_4
      · rw [if_pos hcond, h1, h2, set_bit_testBit _ _ _ (by omega) hp, Bool.or_eq_true, h5,
          hcnt, decide_eq_true_iff]
        constructor
        · rintro (⟨h, hc'⟩ | h)
          · exact ⟨by omega, hc'⟩
          · subst h; exact ⟨by omega, hcond⟩
        · rintro ⟨h, hc'⟩
          by_cases hi : i = cnt
          · exact Or.inr hi
          · exact Or.inl ⟨by omega, hc'⟩
      · rw [if_neg hcond, h5]
        constructor
        · rintro ⟨h, hc'⟩; exact ⟨by omega, hc'⟩
        · rintro ⟨h, hc'⟩
          by_cases hi : i = cnt
          · subst hi; exact absurd hc' hcond
          · exact ⟨by omega, hc'⟩
    · rw [g4]
      have hval : (nudge p (v.getD cnt 0) (rcr_run p v rs cnt)).1 = nudged p v rs cnt := rfl
      rw [hval]
      by_cases hcond : (nudged p v rs cnt > p.q_1_4 ∧ nudged p v rs cnt ≤ p.q_2_4) ∨
          nudged p v rs cnt ≥ p.q_3_4
      · rw [if_pos hcond, h1, h2, set_bit_testBit _ _ _ (by omega) hp, Bool.or_eq_true, h6,
          hcnt, decide_eq_true_iff]
        constructor
        · rintro (⟨h, hc'⟩ | h)
          · exact ⟨by omega, hc'⟩
          · subst h; exact ⟨by omega, hcond⟩
        · rintro ⟨h, hc'⟩
          by_cases hi : i = cnt
          · exact Or.inr hi
          · exact Or.inl ⟨by omega, hc'⟩
      · rw [if_neg hcond, h6]
        constructor
        · rintro ⟨h, hc'⟩; exact ⟨by omega, hc'⟩
        · rintro ⟨h, hc'⟩
          by_cases hi : i = cnt
          · subst hi; exact absurd hc' hcond
          · exact ⟨by omega, hc'⟩

/-- C6. In `round_and_cross_round`, for every `i < L` (`L = m`, or `m-1` for odd `m`), with
`val` the coefficient after the randomized nudge: bit `i` of `mu` is 1 iff
`q_1_4 < val < q_3_4`, and bit `i` of `cr` is 1 iff `q_1_4 < val <= q_2_4` or `val >= q_3_4`;
bit `i` is bit position `i mod 64` of word `i / 64` (`muwords` words hold the `L` bits). -/
theorem round_and_cross_round_bits (p : RINGLWE_PARAM_DATA) (v : List Nat) (rs : RandomSource)
    (hmu : loop_limit p ≤ 64 * p.muwords) (i : Nat) (hi : i < loop_limit p) :
    ((((round_and_cross_round p v rs).1.1).getD (i / 64) 0).testBit (i % 64) = true ↔
      (p.q_1_4 < nudged p v rs i ∧ nudged p v rs i < p.q_3_4)) ∧
    ((((round_and_cross_round p v rs).1.2).getD (i / 64) 0).testBit (i % 64) = true ↔
      ((p.q_1_4 < nudged p v rs i ∧ nudged p v rs i ≤ p.q_2_4) ∨ p.q_3_4 ≤ nudged p v rs i)) := by
  obtain ⟨_, _, _, _, h5, h6⟩ := rcr_loop_inv p v rs (loop_limit p) hmu
  unfold round_and_cross_round
  simp only
  rw [h5 i, h6 i]
  exact ⟨⟨fun h => h.2, fun h => ⟨hi, h⟩⟩, ⟨fun h => h.2, fun h => ⟨hi, h⟩⟩⟩

theorem round_and_cross_round_bits_witness :
    ((((round_and_cross_round toyParam [11, 10, 9, 8] (zeroStream 3)).1.1).getD (1 / 64) 0).testBit
        (1 % 64) = true ↔
      (toyParam.q_1_4 < nudged toyParam [11, 10, 9, 8] (zeroStream 3) 1 ∧
        nudged toyParam [11, 10, 9, 8] (zeroStream 3) 1 < toyParam.q_3_4)) ∧
    ((((round_and_cross_round toyParam [11, 10, 9, 8] (zeroStream 3)).1.2).getD (1 / 64) 0).testBit
        (1 % 64) = true ↔
      ((toyParam.q_1_4 < nudged toyParam [11, 10, 9, 8] (zeroStream 3) 1 ∧
        nudged toyParam [11, 10, 9, 8] (zeroStream 3) 1 ≤ toyParam.q_2_4) ∨
        toyParam.q_3_4 ≤ nudged toyParam [11, 10, 9, 8] (zeroStream 3) 1)) :=
  round_and_cross_round_bits toyParam [11, 10, 9, 8] (zeroStream 3) (by decide) 1 (by decide)

/-! ### Descriptors and the identifier lookup -/

theorem ParamSet.dims_inj (s t : ParamSet) (hm : s.m = t.m) (hq : s.q = t.q) : s = t := by
  cases s <;> cases t <;> first | rfl | (exfalso; revert hm hq; decide)

theorem ParamSet.m_lt (s : ParamSet) : s.m ≤ 1024 := by cases s <;> decide

theorem ParamSet.q_lt (s : ParamSet) : s.q < 2 ^ 16 := by cases s <;> decide

theorem ParamSet.q_pos (s : ParamSet) : 0 < s.q := by cases s <;> decide

theorem Consts.WF.nid_iff {C : Consts} (h : C.WF) (s t : ParamSet) :
    C.NID s = C.NID t ↔ s = t :=
  ⟨h.nid_inj s t, fun e => by rw [e]⟩

theorem Consts.WF.param_set {C : Consts} (h : C.WF) (s : ParamSet) :
    RINGLWE_PARAM_DATA_set C (C.NID s) = some s := by
  cases s <;> simp [RINGLWE_PARAM_DATA_set, h.nid_iff]

theorem Consts.WF.ctx_new {C : Consts} (h : C.WF) (s : ParamSet) :
    RLWE_CTX_new C (C.NID s) =
      (some ⟨[82, 76, 87, 69] ++ be32 (C.param s).m ++ be32 (C.param s).q ++
        sha_outbuf C (C.param s), C.NID s, s⟩, []) := by
  unfold RLWE_CTX_new
  rw [h.param_set]

theorem Consts.WF.get_nid_eq {C : Consts} (h : C.WF) (d : List Nat)
    (hmagic : (List.range 4).map (fun i => d.getD i 0) = [82, 76, 87, 69]) :
    RLWE_get_nid_from_descriptor C d =
      rlwe_set_list.foldl (fun nid cand =>
        if (C.param cand).m = read_be32 d 4 ∧
            (C.param cand).q = int_to_RINGELT (read_be32 d 8) ∧
            (List.range 20).map (fun i => d.getD (12 + i) 0) = sha_outbuf C (C.param cand)
        then C.NID cand else nid) 0 := by
  unfold RLWE_get_nid_from_descriptor
  rw [if_neg (by rw [hmagic]; simp)]
  simp only
  congr 1
  funext nid cand
  rw [h.param_set]
  simp only
  by_cases h1 : (C.param cand).m = read_be32 d 4
  · by_cases h2 : (C.param cand).q = int_to_RINGELT (read_be32 d 8)
    · by_cases h3 : (List.range 20).map (fun i => d.getD (12 + i) 0) = sha_outbuf C (C.param cand)
      · rw [if_neg (fun hh => hh.elim (fun a => a h1) (fun a => a h2)),
          if_neg (not_not_intro h3), if_pos ⟨h1, h2, h3⟩]
      · rw [if_neg (fun hh => hh.elim (fun a => a h1) (fun a => a h2)), if_pos h3,
          if_neg (fun hh => h3 hh.2.2)]
    · rw [if_pos (Or.inr h2), if_neg (fun hh => h2 hh.2.1)]
  · rw [if_pos (Or.inl h1), if_neg (fun hh => h1 hh.1)]

theorem foldl_match_cases {α : Type} (P : α → Prop) [DecidablePred P] (g : α → Int) :
    ∀ (l : List α) (init : Int),
      l.foldl (fun nid c => if P c then g c else nid) init = init ∨
      ∃ c, c ∈ l ∧ P c ∧ l.foldl (fun nid c => if P c then g c else nid) init = g c := by
  intro l
  induction l with
  | nil => intro init; exact Or.inl rfl
  | cons a l ih =>
    intro init
    simp only [List.foldl_cons]
    rcases ih (if P a then g a else init) with h | ⟨c, hc, hP, h⟩
    · by_cases ha : P a
      · right; refine ⟨a, List.mem_cons_self _ _, ha, ?_⟩
        rw [h, if_pos ha]
      · left; rw [h, if_neg ha]
    · right; exact ⟨c, List.mem_cons_of_mem _ hc, hP, h⟩

theorem foldl_match_unique {α : Type} (P : α → Prop) [DecidablePred P] (g : α → Int) (s : α)
    (hs : P s) :
    ∀ (l : List α), s ∈ l → (∀ c ∈ l, P c → c = s) → ∀ init : Int,
      l.foldl (fun nid c => if P c then g c else nid) init = g s := by
  intro l
  induction l with
  | nil => intro hmem; exact absurd hmem (List.not_mem_nil _)
  | cons a l ih =>
    intro hmem huniq init
    simp only [List.foldl_cons]
    by_cases hl : s ∈ l
    · exact ih hl (fun c hc => huniq c (List.mem_cons_of_mem _ hc)) _
    · have ha : s = a := by
        rcases List.mem_cons.1 hmem with h | h
        · exact h
        · exact absurd h hl
      subst ha
      rw [if_pos hs]
      rcases foldl_match_cases P g l (g s) with h | ⟨c, hc, hP, h⟩
      · exact h
      · rw [h, huniq c (List.mem_cons_of_mem _ hc) hP]

/-! ### Bytes -/

theorem or_bytes2 (a e : Nat) (he : e < 256) : (a <<< 8) ||| e = 256 * a + e := by
  rw [Nat.shiftLeft_eq, Nat.mul_comm]
  exact (Nat.mul_add_lt_is_or (i := 8) (by simpa using he) a).symm

theorem or_bytes4 (a b c e : Nat) (hb : b < 256) (hc : c < 256) (he : e < 256) :
    (a <<< 24) ||| (b <<< 16) ||| (c <<< 8) ||| e =
      2 ^ 24 * a + 2 ^ 16 * b + 2 ^ 8 * c + e := by
  have h1 : (a <<< 24) ||| (b <<< 16) = 2 ^ 24 * a + 2 ^ 16 * b := by
    rw [Nat.shiftLeft_eq, Nat.shiftLeft_eq, Nat.mul_comm a, Nat.mul_comm b]
    exact (Nat.mul_add_lt_is_or (i := 24) (by omega) a).symm
  have h2 : (2 ^ 24 * a + 2 ^ 16 * b) ||| (c <<< 8) = 2 ^ 24 * a + 2 ^ 16 * b + 2 ^ 8 * c := by
    rw [Nat.shiftLeft_eq, Nat.mul_comm c]
    have e1 : 2 ^ 24 * a + 2 ^ 16 * b = 2 ^ 16 * (2 ^ 8 * a + b) := by ring
    rw [e1]
    exact (Nat.mul_add_lt_is_or (i := 16) (by omega) _).symm
  have h3 : (2 ^ 24 * a + 2 ^ 16 * b + 2 ^ 8 * c) ||| e =
      2 ^ 24 * a + 2 ^ 16 * b + 2 ^ 8 * c + e := by
    have e1 : 2 ^ 24 * a + 2 ^ 16 * b + 2 ^ 8 * c = 2 ^ 8 * (2 ^ 16 * a + 2 ^ 8 * b + c) := by ring
    rw [e1]
    exact (Nat.mul_add_lt_is_or (i := 8) (by simpa using he) _).symm
  rw [h1, h2, h3]

theorem byte_of (x k : Nat) : (x >>> k) &&& 0xff = x / 2 ^ k % 256 := by
  rw [Nat.shiftRight_eq_div_pow]
  exact Nat.and_pow_two_sub_one_eq_mod _ 8

theorem byte_low (x : Nat) : x &&& 0xff = x % 256 := Nat.and_pow_two_sub_one_eq_mod x 8

theorem range_four : List.range 4 = [0, 1, 2, 3] := by decide

theorem read_be32_of_be32 (d : List Nat) (k x : Nat) (hx : x < 2 ^ 32)
    (h : (List.range 4).map (fun i => d.getD (k + i) 0) = be32 x) : read_be32 d k = x := by
  rw [range_four] at h
  simp only [List.map_cons, List.map_nil, be32, List.cons.injEq, and_true, Nat.add_zero] at h
  obtain ⟨h0, h1, h2, h3⟩ := h
  unfold read_be32
  rw [h0, h1, h2, h3, byte_of, byte_of, byte_of, byte_low,
    or_bytes4 _ _ _ _ (Nat.mod_lt _ (by norm_num)) (Nat.mod_lt _ (by norm_num))
      (Nat.mod_lt _ (by norm_num))]
  omega

theorem read_coeff_two (inp : List Nat) (i x : Nat) (hx : x < 2 ^ 16)
    (h0 : inp.getD (32 + 2 * i) 0 = (x >>> 8) &&& 0xff)
    (h1 : inp.getD (32 + 2 * i + 1) 0 = x &&& 0xff) : read_coeff inp 2 i = x := by
  unfold read_coeff
  rw [if_neg (by norm_num), h0, h1, byte_of, byte_low, or_bytes2 _ _ (Nat.mod_lt _ (by norm_num))]
  omega

theorem flatMap_range_chunks (f : Nat → List Nat) (c : Nat) (hf : ∀ i, (f i).length = c) :
    ∀ m, ((List.range m).flatMap f).length = c * m ∧
      ∀ i j, i < m → j < c → ((List.range m).flatMap f).getD (c * i + j) 0 = (f i).getD j 0 := by
  intro m
  induction m with
  | zero => exact ⟨by simp, fun i j hi _ => absurd hi (by omega)⟩
  | succ m ih =>
    obtain ⟨l, g⟩ := ih
    rw [List.range_succ, List.flatMap_append, List.flatMap_singleton]
    refine ⟨by rw [List.length_append, l, hf, Nat.mul_succ], fun i j hi hj => ?_⟩
    by_cases him : i < m
    · rw [List.getD_append _ _ _ _ (by
        rw [l]
        have : c * (i + 1) ≤ c * m := Nat.mul_le_mul_left _ him
        rw [Nat.mul_succ] at this
        omega)]
      exact g i j him hj
    · have e : i = m := by omega
      subst e
      rw [List.getD_append_right _ _ _ _ (by rw [l]; omega), l, Nat.add_sub_cancel_left]

theorem foldl_set_index (g : Nat → Nat) (off : Nat) :
    ∀ n (x : List Nat), off + n ≤ x.length →
      ((List.range n).foldl (fun x i => x.set (off + i) (g i)) x).length = x.length ∧
      ∀ k, ((List.range n).foldl (fun x i => x.set (off + i) (g i)) x).getD k 0 =
        if off ≤ k ∧ k < off + n then g (k - off) else x.getD k 0 := by
  intro n
  induction n with
  | zero =>
    intro x _
    refine ⟨rfl, fun k => ?_⟩
    rw [if_neg (by omega)]; rfl
  | succ n ih =>
    intro x hx
    obtain ⟨l, h⟩ := ih x (by omega)
    rw [List.range_succ, List.foldl_append]
    simp only [List.foldl_cons, List.foldl_nil]
    refine ⟨by rw [List.length_set, l], fun k => ?_⟩
    rw [getD_set _ _ _ _ (by omega), h]
    by_cases c : k = off + n
    · subst c
      rw [if_pos rfl, if_pos (by omega), Nat.add_sub_cancel_left]
    · rw [if_neg c]
      by_cases c2 : off ≤ k ∧ k < off + n
      · rw [if_pos c2, if_pos (by omega)]
      · rw [if_neg c2, if_neg (by omega)]

/-! ### Claim C10: rejected inputs -/

theorem range_eight : List.range 8 = [0, 1, 2, 3, 4, 5, 6, 7] := by decide

theorem names_set_split {inp : List Nat} {s : ParamSet} (h : names_set inp s) :
    (List.range 4).map (fun i => inp.getD (4 + i) 0) = be32 s.m ∧
    (List.range 4).map (fun i => inp.getD (8 + i) 0) = be32 s.q := by
  unfold names_set at h
  rw [range_eight] at h
  rw [range_four]
  simp only [List.map_cons, List.map_nil, be32, List.cons_append, List.nil_append,
    List.cons.injEq, and_true, Nat.add_zero] at h ⊢
  obtain ⟨h0, h1, h2, h3, h4, h5, h6, h7⟩ := h
  exact ⟨⟨h0, h1, h2, h3⟩, ⟨h4, h5, h6, h7⟩⟩

theorem int_to_RINGELT_small {x : Nat} (h : x < 2 ^ 31) : int_to_RINGELT x = x := by
  unfold int_to_RINGELT
  rw [if_neg (by omega)]

/-- When the descriptor names the set `s`, the lookup returns `0` or the identifier of `s`. -/
theorem Consts.WF.get_nid_names {C : Consts} (h : C.WF) (inp : List Nat) (s : ParamSet)
    (hn : names_set inp s) :
    RLWE_get_nid_from_descriptor C inp = 0 ∨ RLWE_get_nid_from_descriptor C inp = C.NID s := by
  by_cases hmagic : (List.range 4).map (fun i => inp.getD i 0) = [82, 76, 87, 69]
  · rw [h.get_nid_eq inp hmagic]
    rcases foldl_match_cases (fun cand => (C.param cand).m = read_be32 inp 4 ∧
        (C.param cand).q = int_to_RINGELT (read_be32 inp 8) ∧
        (List.range 20).map (fun i => inp.getD (12 + i) 0) = sha_outbuf C (C.param cand))
        C.NID rlwe_set_list 0 with h0 | ⟨c, _, hP, hc⟩
    · exact Or.inl h0
    · right
      rw [hc]
      obtain ⟨hm, hq⟩ := names_set_split hn
      have e1 := read_be32_of_be32 inp 4 s.m (by have := s.m_lt; omega) hm
      have e2 := read_be32_of_be32 inp 8 s.q (by have := s.q_lt; omega) hq
      have hcm : c.m = s.m := by rw [← h.m_eq c, hP.1, e1]
      have hcq : c.q = s.q := by
        rw [← h.q_eq c, hP.2.1, e2, int_to_RINGELT_small (by have := s.q_lt; omega)]
      rw [ParamSet.dims_inj c s hcm hcq]
  · left
    unfold RLWE_get_nid_from_descriptor
    rw [if_pos hmagic]

theorem n_ringelt_bytes_eq (s : ParamSet) : n_ringelt_bytes s.q = 2 := by
  unfold n_ringelt_bytes
  rw [if_neg (by have := s.q_lt; omega)]

theorem bytesPerCoeff_eq (s : ParamSet) : bytesPerCoeff s.q = 2 := by
  unfold bytesPerCoeff
  rw [if_pos s.q_lt]

theorem total_len_eq (s : ParamSet) : (32 + s.m % 2 ^ 32 * 2) % 2 ^ 32 = 32 + s.m * 2 := by
  have := s.m_lt
  omega

/-- C10. `o2i_RLWE_PUB` and `o2i_RLWE_SEC` return a null result for every input shorter than
32 bytes, and for every input whose descriptor names a supported set `(n, q)` but whose
total length is not `32 + n*bytesPerCoeff` (2 bytes per coefficient when `q < 2^16`, else
4). -/
theorem o2i_rejects_bad_length (C : Consts) (hC : C.WF) (tpub : Option RLWE_PUB)
    (tsec : Option RLWE_PAIR) (inp : List Nat) :
    (inp.length < 32 →
      (o2i_RLWE_PUB C tpub inp).1 = none ∧ (o2i_RLWE_SEC C tsec inp).1 = none) ∧
    (∀ s : ParamSet, names_set inp s → inp.length ≠ 32 + s.m * bytesPerCoeff s.q →
      (o2i_RLWE_PUB C tpub inp).1 = none ∧ (o2i_RLWE_SEC C tsec inp).1 = none) := by
  constructor
  · intro h
    unfold o2i_RLWE_PUB o2i_RLWE_SEC
    rw [if_pos h, if_pos h]
    exact ⟨rfl, rfl⟩
  · intro s hn hlen
    rw [bytesPerCoeff_eq] at hlen
    constructor
    · unfold o2i_RLWE_PUB
      by_cases h32 : inp.length < 32
      · rw [if_pos h32]
      · rw [if_neg h32]
        simp only
        rcases hC.get_nid_names inp s hn with h0 | h1
        · rw [h0]; rfl
        · rw [h1, if_neg (hC.nid_ne s), hC.ctx_new s]
          simp only
          rw [hC.m_eq, hC.q_eq, n_ringelt_bytes_eq, total_len_eq, if_pos hlen]
    · unfold o2i_RLWE_SEC
      by_cases h32 : inp.length < 32
      · rw [if_pos h32]
      · rw [if_neg h32]
        simp only
        rcases hC.get_nid_names inp s hn with h0 | h1
        · rw [h0]; rfl
        · rw [h1, if_neg (hC.nid_ne s), hC.ctx_new s]
          simp only
          rw [hC.m_eq, hC.q_eq, n_ringelt_bytes_eq, total_len_eq, if_pos hlen]

/-! ### Claim C8: serialise then parse -/

theorem sha_outbuf_length (C : Consts) (p : RINGLWE_PARAM_DATA) : (sha_outbuf C p).length = 20 := by
  simp [sha_outbuf]

theorem descriptor_of_length (C : Consts) (s : ParamSet) : (descriptor_of C s).length = 32 := by
  simp [descriptor_of, be32, sha_outbuf_length]

theorem map_getD_range (l : List Nat) : (List.range l.length).map (fun i => l.getD i 0) = l := by
  apply list_ext_getD (by simp)
  intro k hk
  rw [getD_map_range, if_pos (by simpa using hk)]

theorem map_getD_prefix (l r : List Nat) (n : Nat) (hn : l.length = n) :
    (List.range n).map (fun i => (l ++ r).getD i 0) = l := by
  subst hn
  conv_rhs => rw [← map_getD_range l]
  apply List.map_congr_left
  intro i hi
  rw [List.getD_append _ _ _ _ (List.mem_range.1 hi)]

theorem descriptor_magic (C : Consts) (s : ParamSet) (rest : List Nat) :
    (List.range 4).map (fun i => (descriptor_of C s ++ rest).getD i 0) = [82, 76, 87, 69] := by
  rw [range_four]
  simp only [descriptor_of, be32, List.cons_append, List.nil_append, List.map_cons, List.map_nil]
  rfl

theorem descriptor_m (C : Consts) (s : ParamSet) (rest : List Nat) :
    (List.range 4).map (fun i => (descriptor_of C s ++ rest).getD (4 + i) 0) =
      be32 (C.param s).m := by
  rw [range_four]
  simp only [descriptor_of, be32, List.cons_append, List.nil_append, List.map_cons, List.map_nil]
  rfl

theorem descriptor_q (C : Consts) (s : ParamSet) (rest : List Nat) :
    (List.range 4).map (fun i => (descriptor_of C s ++ rest).getD (8 + i) 0) =
      be32 (C.param s).q := by
  rw [range_four]
  simp only [descriptor_of, be32, List.cons_append, List.nil_append, List.map_cons, List.map_nil]
  rfl

theorem descriptor_hash (C : Consts) (s : ParamSet) (rest : List Nat) :
    (List.range 20).map (fun i => (descriptor_of C s ++ rest).getD (12 + i) 0) =
      sha_outbuf C (C.param s) := by
  have h : descriptor_of C s ++ rest =
      ([82, 76, 87, 69] ++ be32 (C.param s).m ++ be32 (C.param s).q) ++
        (sha_outbuf C (C.param s) ++ rest) := by
    simp [descriptor_of]
  rw [h]
  have hl : ([82, 76, 87, 69] ++ be32 (C.param s).m ++ be32 (C.param s).q).length = 12 := by
    simp [be32]
  conv_rhs => rw [← map_getD_prefix (sha_outbuf C (C.param s)) rest 20 (sha_outbuf_length _ _)]
  apply List.map_congr_left
  intro i _
  rw [List.getD_append_right _ _ _ _ (by rw [hl]; omega), hl, Nat.add_sub_cancel_left]

theorem mem_rlwe_set_list (s : ParamSet) : s ∈ rlwe_set_list := by
  cases s <;> simp [rlwe_set_list]

/-- Lookup of a descriptor built by `RLWE_CTX_new`: the identifier of its set comes back. -/
theorem Consts.WF.get_nid_descriptor {C : Consts} (h : C.WF) (s : ParamSet) (rest : List Nat) :
    RLWE_get_nid_from_descriptor C (descriptor_of C s ++ rest) = C.NID s := by
  rw [h.get_nid_eq _ (descriptor_magic C s rest)]
  have e1 := read_be32_of_be32 _ 4 (C.param s).m
    (by rw [h.m_eq]; have := s.m_lt; omega) (descriptor_m C s rest)
  have e2 := read_be32_of_be32 _ 8 (C.param s).q
    (by rw [h.q_eq]; have := s.q_lt; omega) (descriptor_q C s rest)
  have e3 : int_to_RINGELT (C.param s).q = (C.param s).q :=
    int_to_RINGELT_small (by rw [h.q_eq]; have := s.q_lt; omega)
  apply foldl_match_unique (fun cand =>
      (C.param cand).m = read_be32 (descriptor_of C s ++ rest) 4 ∧
      (C.param cand).q = int_to_RINGELT (read_be32 (descriptor_of C s ++ rest) 8) ∧
      (List.range 20).map (fun i => (descriptor_of C s ++ rest).getD (12 + i) 0) =
        sha_outbuf C (C.param cand)) C.NID s
  · exact ⟨e1.symm, by rw [e2, e3], descriptor_hash C s rest⟩
  · exact mem_rlwe_set_list s
  · intro c _ hP
    apply ParamSet.dims_inj
    · rw [← h.m_eq c, ← h.m_eq s, hP.1, e1]
    · rw [← h.q_eq c, ← h.q_eq s, hP.2.1, e2, e3]

theorem write_coeff_two_length (x : Nat) : (write_coeff 2 x).length = 2 := by
  simp [write_coeff]

/-- Reading back coefficient `i` from a descriptor followed by 2-byte coefficients. -/
theorem read_coeff_serial (d : List Nat) (hd : d.length = 32) (f : Nat → Nat) (m i : Nat)
    (hi : i < m) (hf : f i < 2 ^ 16) :
    read_coeff (d ++ (List.range m).flatMap (fun i => write_coeff 2 (f i))) 2 i = f i := by
  obtain ⟨_, g⟩ := flatMap_range_chunks (fun i => write_coeff 2 (f i)) 2
    (fun i => write_coeff_two_length _) m
  apply read_coeff_two _ _ _ hf
  · rw [List.getD_append_right _ _ _ _ (by omega), hd, Nat.add_sub_cancel_left]
    have := g i 0 hi (by norm_num)
    rw [Nat.add_zero] at this
    rw [this]; rfl
  · rw [List.getD_append_right _ _ _ _ (by omega), hd,
      show 32 + 2 * i + 1 - 32 = 2 * i + 1 by omega, g i 1 hi (by norm_num)]
    rfl

theorem serial_length (d : List Nat) (hd : d.length = 32) (f : Nat → Nat) (m : Nat) :
    (d ++ (List.range m).flatMap (fun i => write_coeff 2 (f i))).length = 32 + m * 2 := by
  obtain ⟨l, _⟩ := flatMap_range_chunks (fun i => write_coeff 2 (f i)) 2
    (fun i => write_coeff_two_length _) m
  rw [List.length_append, hd, l, Nat.mul_comm]

theorem i2o_RLWE_PUB_bytes {C : Consts} (h : C.WF) (s : ParamSet) (pub : RLWE_PUB)
    (hp : pub.param_data = some s) (hd : pub.descriptor = descriptor_of C s) :
    i2o_RLWE_PUB C pub =
      (32 + s.m * 2, descriptor_of C s ++
        (List.range s.m).flatMap (fun i => write_coeff 2 (pub.b.getD i 0)), []) := by
  unfold i2o_RLWE_PUB
  rw [hp]
  simp only
  rw [h.m_eq, h.q_eq, n_ringelt_bytes_eq, total_len_eq, if_neg (by omega), hd,
    Nat.mod_eq_of_lt (by have := s.m_lt; omega)]
  have := map_getD_range (descriptor_of C s)
  rw [descriptor_of_length] at this
  rw [this]

theorem i2o_RLWE_SEC_bytes {C : Consts} (h : C.WF) (s : ParamSet) (pair : RLWE_PAIR)
    (hp : pair.param_data = some s) (hd : pair.descriptor = descriptor_of C s) :
    i2o_RLWE_SEC C pair =
      (32 + s.m * 2, descriptor_of C s ++
        (List.range s.m).flatMap (fun i => write_coeff 2 (pair.s.getD (s.m + i) 0)), []) := by
  unfold i2o_RLWE_SEC
  rw [hp]
  simp only
  rw [h.m_eq, h.q_eq, n_ringelt_bytes_eq, total_len_eq, if_neg (by omega), hd,
    Nat.mod_eq_of_lt (by have := s.m_lt; omega)]
  have := map_getD_range (descriptor_of C s)
  rw [descriptor_of_length] at this
  rw [this]

theorem o2i_RLWE_PUB_serial {C : Consts} (h : C.WF) (s : ParamSet) (f : Nat → Nat)
    (hf : ∀ i, i < s.m → f i < 2 ^ 16) :
    o2i_RLWE_PUB C none
        (descriptor_of C s ++ (List.range s.m).flatMap (fun i => write_coeff 2 (f i))) =
      (some ⟨descriptor_of C s, some s, (List.range s.m).map f⟩, []) := by
  have hlen := serial_length (descriptor_of C s) (descriptor_of_length C s) f s.m
  unfold o2i_RLWE_PUB
  rw [if_neg (by rw [hlen]; omega)]
  simp only
  rw [h.get_nid_descriptor, if_neg (h.nid_ne s), h.ctx_new s]
  simp only
  rw [h.m_eq, h.q_eq, n_ringelt_bytes_eq, total_len_eq, if_neg (by rw [hlen]; exact not_not_intro rfl),
    Nat.mod_eq_of_lt (by have := s.m_lt; omega)]
  simp only [RLWE_PUB_new, h.m_eq]
  have hdesc : [82, 76, 87, 69] ++ be32 s.m ++ be32 s.q ++ sha_outbuf C (C.param s) =
      descriptor_of C s := by
    unfold descriptor_of; rw [h.m_eq, h.q_eq]
  have hb : (List.range s.m).foldl (fun b i => b.set i (read_coeff
      (descriptor_of C s ++ (List.range s.m).flatMap (fun i => write_coeff 2 (f i))) 2 i))
      (List.replicate s.m 0) = (List.range s.m).map f := by
    obtain ⟨l, g⟩ := foldl_set_index (fun i => read_coeff
        (descriptor_of C s ++ (List.range s.m).flatMap (fun i => write_coeff 2 (f i))) 2 i) 0
        s.m (List.replicate s.m 0) (by simp)
    simp only [Nat.zero_add] at l g
    apply list_ext_getD (by rw [l]; simp)
    intro k hk
    have hk' : k < s.m := by rw [l] at hk; simpa using hk
    rw [g k, if_pos ⟨by omega, hk'⟩, getD_map_range, if_pos hk', Nat.sub_zero]
    exact read_coeff_serial _ (descriptor_of_length C s) f s.m k hk' (hf k hk')
  rw [hdesc, hb]

theorem o2i_RLWE_SEC_serial {C : Consts} (h : C.WF) (s : ParamSet) (f : Nat → Nat)
    (hf : ∀ i, i < s.m → f i < 2 ^ 16) :
    ∃ pair, o2i_RLWE_SEC C none
        (descriptor_of C s ++ (List.range s.m).flatMap (fun i => write_coeff 2 (f i))) =
      (some pair, []) ∧ pair.descriptor = descriptor_of C s ∧ pair.param_data = some s ∧
      ∀ i, i < s.m → pair.s.getD (s.m + i) 0 = f i := by
  have hlen := serial_length (descriptor_of C s) (descriptor_of_length C s) f s.m
  unfold o2i_RLWE_SEC
  rw [if_neg (by rw [hlen]; omega)]
  simp only
  rw [h.get_nid_descriptor, if_neg (h.nid_ne s), h.ctx_new s]
  simp only
  rw [h.m_eq, h.q_eq, n_ringelt_bytes_eq, total_len_eq, if_neg (by rw [hlen]; exact not_not_intro rfl),
    Nat.mod_eq_of_lt (by have := s.m_lt; omega)]
  simp only [RLWE_PAIR_new, h.m_eq]
  have hdesc : [82, 76, 87, 69] ++ be32 s.m ++ be32 s.q ++ sha_outbuf C (C.param s) =
      descriptor_of C s := by
    unfold descriptor_of; rw [h.m_eq, h.q_eq]
  refine ⟨_, rfl, hdesc, rfl, fun i hi => ?_⟩
  obtain ⟨_, g⟩ := foldl_set_index (fun i => read_coeff
      (descriptor_of C s ++ (List.range s.m).flatMap (fun i => write_coeff 2 (f i))) 2 i) s.m
      s.m (List.replicate (2 * s.m) 0) (by simp; omega)
  simp only
  rw [g (s.m + i), if_pos ⟨by omega, by omega⟩, Nat.add_sub_cancel_left]
  exact read_coeff_serial _ (descriptor_of_length C s) f s.m i hi (hf i hi)

/-- C8. Serialize then parse is the identity: for every supported parameter set and every
public key of that set (descriptor and parameter record of the context `RLWE_CTX_new`
creates, `n` coefficients in `[0,q)`), `o2i_RLWE_PUB` applied with an empty target to the
bytes written by `i2o_RLWE_PUB` succeeds and returns the same key; likewise `o2i_RLWE_SEC`
applied to the output of `i2o_RLWE_SEC` recovers the secret element `s1 = s[n..2n)`. -/
theorem serialize_parse_identity (C : Consts) (hC : C.WF) (s : ParamSet) (ctx : RLWE_CTX)
    (hctx : (RLWE_CTX_new C (C.NID s)).1 = some ctx) :
    (∀ pub : RLWE_PUB, pub.param_data = some ctx.param_data →
      pub.descriptor = ctx.descriptor → pub.b.length = s.m → (∀ c ∈ pub.b, c < s.q) →
      o2i_RLWE_PUB C none (i2o_RLWE_PUB C pub).2.1 = (some pub, [])) ∧
    (∀ pair : RLWE_PAIR, pair.param_data = some ctx.param_data →
      pair.descriptor = ctx.descriptor → (∀ i, i < s.m → pair.s.getD (s.m + i) 0 < s.q) →
      ∃ pair', o2i_RLWE_SEC C none (i2o_RLWE_SEC C pair).2.1 = (some pair', []) ∧
        pair'.param_data = pair.param_data ∧ pair'.descriptor = pair.descriptor ∧
        ∀ i, i < s.m → pair'.s.getD (s.m + i) 0 = pair.s.getD (s.m + i) 0) := by
  rw [hC.ctx_new s] at hctx
  simp only [Option.some.injEq] at hctx
  subst hctx
  simp only
  have hq16 := s.q_lt
  constructor
  · intro pub hp hd hl hb
    have hd' : pub.descriptor = descriptor_of C s := hd
    rw [i2o_RLWE_PUB_bytes hC s pub hp hd']
    simp only
    rw [o2i_RLWE_PUB_serial hC s (fun i => pub.b.getD i 0)
      (fun i _ => by
        show pub.b.getD i 0 < 2 ^ 16
        have := getD_lt_of_forall s.q_pos hb i; omega)]
    have hbeq : (List.range s.m).map (fun i => pub.b.getD i 0) = pub.b := by
      rw [← hl]; exact map_getD_range pub.b
    rw [hbeq, ← hd', ← hp]
  · intro pair hp hd hb
    have hd' : pair.descriptor = descriptor_of C s := hd
    rw [i2o_RLWE_SEC_bytes hC s pair hp hd']
    simp only
    obtain ⟨pair', h1, h2, h3, h4⟩ := o2i_RLWE_SEC_serial hC s
      (fun i => pair.s.getD (s.m + i) 0) (fun i hi => by
        show pair.s.getD (s.m + i) 0 < 2 ^ 16
        have := hb i hi; omega)
    exact ⟨pair', h1, by rw [h3, hp], by rw [h2, hd'], h4⟩

theorem sampleConsts_wf : sampleConsts.WF where
  nid_inj := by
    intro s t h
    cases s <;> cases t <;> first | rfl | exact absurd h (by decide)
  nid_ne := by intro s; cases s <;> decide
  m_eq := fun _ => rfl
  q_eq := fun _ => rfl

theorem serialize_parse_identity_witness :
    o2i_RLWE_PUB sampleConsts none (i2o_RLWE_PUB sampleConsts samplePub).2.1 =
      (some samplePub, []) ∧
    ∃ pair', o2i_RLWE_SEC sampleConsts none (i2o_RLWE_SEC sampleConsts samplePair).2.1 =
        (some pair', []) ∧
      pair'.param_data = samplePair.param_data ∧ pair'.descriptor = samplePair.descriptor ∧
      ∀ i, i < ParamSet.m .s256_15361 →
        pair'.s.getD (ParamSet.m .s256_15361 + i) 0 =
          samplePair.s.getD (ParamSet.m .s256_15361 + i) 0 :=
  ⟨(serialize_parse_identity sampleConsts sampleConsts_wf .s256_15361
      ⟨descriptor_of sampleConsts .s256_15361, 9, .s256_15361⟩
      (by rw [sampleConsts_wf.ctx_new]; rfl)).1 samplePub rfl rfl (List.length_replicate _ _)
      (replicate_lt (by decide)),
   (serialize_parse_identity sampleConsts sampleConsts_wf .s256_15361
      ⟨descriptor_of sampleConsts .s256_15361, 9, .s256_15361⟩
      (by rw [sampleConsts_wf.ctx_new]; rfl)).2 samplePair rfl rfl
      (fun i _ => getD_lt_of_forall (by decide) (replicate_lt (by decide)) _)⟩

theorem o2i_rejects_bad_length_witness :
    ((o2i_RLWE_PUB sampleConsts none [82, 76, 87, 69]).1 = none ∧
      (o2i_RLWE_SEC sampleConsts none [82, 76, 87, 69]).1 = none) ∧
    ((o2i_RLWE_PUB sampleConsts none shortInput).1 = none ∧
      (o2i_RLWE_SEC sampleConsts none shortInput).1 = none) :=
  ⟨(o2i_rejects_bad_length sampleConsts sampleConsts_wf none none [82, 76, 87, 69]).1
      (by decide),
   (o2i_rejects_bad_length sampleConsts sampleConsts_wf none none shortInput).2 .s256_15361
      (by unfold names_set; decide) (by decide)⟩

/-! ### Claim C9: `o2i_RLWE_REC` and a wrong length -/

/-- C9 (the code departs from the claim). The 13-byte input `00 00 00 01`, eight payload
bytes, `FF` announces `muwords = 1`, so its length should be `4 + 8*1 = 12`.
`o2i_RLWE_REC` pushes `INVALID_FORMAT` and still returns a vector, not `NULL`. -/
theorem o2i_RLWE_REC_wrong_length_accepted :
    o2i_RLWE_REC none [0, 0, 0, 1, 1, 2, 3, 4, 5, 6, 7, 8, 255] =
      (some ⟨1, [0x0807060504030201]⟩, [RlweError.INVALID_FORMAT]) := by
  rfl

/-! ### Claim C11: the lookup accepts exactly the nine descriptors -/

theorem first32_split (d : List Nat) :
    first32 d = (List.range 4).map (fun i => d.getD i 0) ++
      (List.range 4).map (fun i => d.getD (4 + i) 0) ++
      (List.range 4).map (fun i => d.getD (8 + i) 0) ++
      (List.range 20).map (fun i => d.getD (12 + i) 0) := by
  rfl

theorem first32_getD (d : List Nat) (i : Nat) (hi : i < 32) : (first32 d).getD i 0 = d.getD i 0 := by
  unfold first32
  rw [getD_map_range, if_pos hi]

theorem first32_prefix (l r : List Nat) (hl : l.length = 32) : first32 (l ++ r) = l :=
  map_getD_prefix l r 32 hl

theorem get_nid_congr (C : Consts) (d e : List Nat) (h : ∀ i, i < 32 → d.getD i 0 = e.getD i 0) :
    RLWE_get_nid_from_descriptor C d = RLWE_get_nid_from_descriptor C e := by
  have h4 : (List.range 4).map (fun i => d.getD i 0) = (List.range 4).map (fun i => e.getD i 0) :=
    List.map_congr_left (fun i hi => h i (by have := List.mem_range.1 hi; omega))
  have h20 : (List.range 20).map (fun i => d.getD (12 + i) 0) =
      (List.range 20).map (fun i => e.getD (12 + i) 0) :=
    List.map_congr_left (fun i hi => h _ (by have := List.mem_range.1 hi; omega))
  have hm : read_be32 d 4 = read_be32 e 4 := by
    unfold read_be32
    rw [h 4 (by norm_num), h (4 + 1) (by norm_num), h (4 + 2) (by norm_num),
      h (4 + 3) (by norm_num)]
  have hq : read_be32 d 8 = read_be32 e 8 := by
    unfold read_be32
    rw [h 8 (by norm_num), h (8 + 1) (by norm_num), h (8 + 2) (by norm_num),
      h (8 + 3) (by norm_num)]
  unfold RLWE_get_nid_from_descriptor
  rw [h4, h20, hm, hq]

theorem get_nid_first32 (C : Consts) (d : List Nat) :
    RLWE_get_nid_from_descriptor C d = RLWE_get_nid_from_descriptor C (first32 d) :=
  get_nid_congr C d _ (fun i hi => (first32_getD d i hi).symm)

theorem be32_read_be32 (d : List Nat) (k : Nat) (hb : ∀ j, j < 4 → d.getD (k + j) 0 < 256) :
    be32 (read_be32 d k) = (List.range 4).map (fun i => d.getD (k + i) 0) := by
  have h0 := hb 0 (by norm_num)
  have h1 := hb 1 (by norm_num)
  have h2 := hb 2 (by norm_num)
  have h3 := hb 3 (by norm_num)
  rw [Nat.add_zero] at h0
  unfold read_be32 be32
  rw [or_bytes4 _ _ _ _ h1 h2 h3, range_four]
  simp only [byte_of, byte_low, List.map_cons, List.map_nil, Nat.add_zero]
  generalize d.getD k 0 = a at *
  generalize d.getD (k + 1) 0 = b at *
  generalize d.getD (k + 2) 0 = c at *
  generalize d.getD (k + 3) 0 = e at *
  have e0 : (2 ^ 24 * a + 2 ^ 16 * b + 2 ^ 8 * c + e) % 2 ^ 32 =
      2 ^ 24 * a + 2 ^ 16 * b + 2 ^ 8 * c + e := Nat.mod_eq_of_lt (by omega)
  rw [e0]
  congr 1
  · omega
  congr 1
  · omega
  congr 1
  · omega
  congr 1
  omega

theorem read_be32_lt (d : List Nat) (k : Nat) : read_be32 d k < 2 ^ 32 :=
  Nat.mod_lt _ (by norm_num)

/-- A set that matches the descriptor bytes has exactly these bytes as its descriptor. -/
theorem Consts.WF.descriptor_of_match {C : Consts} (h : C.WF) (d : List Nat)
    (hb : ∀ i, 4 ≤ i → i < 12 → d.getD i 0 < 256)
    (hmagic : (List.range 4).map (fun i => d.getD i 0) = [82, 76, 87, 69]) (c : ParamSet)
    (hP : matches_descriptor C d c) : first32 d = descriptor_of C c := by
  obtain ⟨hm, hq, hh⟩ := hP
  have hq2 : read_be32 d 8 < 2 ^ 31 := by
    by_contra hge
    have h1 : int_to_RINGELT (read_be32 d 8) = read_be32 d 8 + (2 ^ 64 - 2 ^ 32) := by
      unfold int_to_RINGELT; rw [if_pos (by omega)]
    have h2 := c.q_lt
    rw [← h.q_eq c, hq, h1] at h2
    omega
  rw [int_to_RINGELT_small hq2] at hq
  rw [first32_split, hmagic, hh, ← be32_read_be32 d 4 (fun j hj => hb _ (by omega) (by omega)),
    ← be32_read_be32 d 8 (fun j hj => hb _ (by omega) (by omega)), ← hm, ← hq]
  rfl

theorem Consts.WF.get_nid_ne_zero {C : Consts} (h : C.WF) (d : List Nat)
    (hb : ∀ i, 4 ≤ i → i < 12 → d.getD i 0 < 256)
    (hne : RLWE_get_nid_from_descriptor C d ≠ 0) : ∃ c, first32 d = descriptor_of C c := by
  by_cases hmagic : (List.range 4).map (fun i => d.getD i 0) = [82, 76, 87, 69]
  · rw [h.get_nid_eq d hmagic] at hne
    rcases foldl_match_cases (fun cand =>
        (C.param cand).m = read_be32 d 4 ∧
        (C.param cand).q = int_to_RINGELT (read_be32 d 8) ∧
        (List.range 20).map (fun i => d.getD (12 + i) 0) = sha_outbuf C (C.param cand))
        C.NID rlwe_set_list 0 with h0 | ⟨c, _, hP, _⟩
    · exact absurd h0 hne
    · exact ⟨c, h.descriptor_of_match d hb hmagic c hP⟩
  · exfalso
    apply hne
    unfold RLWE_get_nid_from_descriptor
    rw [if_pos hmagic]

theorem Consts.WF.get_nid_of_first32 {C : Consts} (h : C.WF) (d : List Nat) (s : ParamSet)
    (hd : first32 d = descriptor_of C s) : RLWE_get_nid_from_descriptor C d = C.NID s := by
  rw [get_nid_first32, hd]
  have := h.get_nid_descriptor s []
  rwa [List.append_nil] at this

theorem o2i_RLWE_PUB_unknown (C : Consts) (target : Option RLWE_PUB) (d : List Nat)
    (hl : 32 ≤ d.length) (h0 : RLWE_get_nid_from_descriptor C d = 0) :
    o2i_RLWE_PUB C target d = (none, [RlweError.PARAM_UNKNOWN]) := by
  unfold o2i_RLWE_PUB
  rw [if_neg (by omega)]
  simp only
  rw [if_pos h0]

theorem Consts.WF.descriptor_of_inj {C : Consts} (h : C.WF) (s t : ParamSet) (k v : Nat)
    (hk : 12 ≤ k) (hk2 : k < 32) (he : (descriptor_of C s).set k v = descriptor_of C t) :
    s = t := by
  have hget : ∀ i, i < 12 → (descriptor_of C s).getD i 0 = (descriptor_of C t).getD i 0 := by
    intro i hi
    rw [← he, getD_set _ _ _ _ (by rw [descriptor_of_length]; exact hk2), if_neg (by omega)]
  have hm : (List.range 4).map (fun i => (descriptor_of C s ++ []).getD (4 + i) 0) =
      be32 (C.param t).m := by
    rw [← descriptor_m C t []]
    apply List.map_congr_left
    intro i hi
    have := List.mem_range.1 hi
    rw [List.append_nil, List.append_nil]
    exact hget _ (by omega)
  have hq : (List.range 4).map (fun i => (descriptor_of C s ++ []).getD (8 + i) 0) =
      be32 (C.param t).q := by
    rw [← descriptor_q C t []]
    apply List.map_congr_left
    intro i hi
    have := List.mem_range.1 hi
    rw [List.append_nil, List.append_nil]
    exact hget _ (by omega)
  have e1 := read_be32_of_be32 _ 4 (C.param s).m
    (by rw [h.m_eq]; have := s.m_lt; omega) (descriptor_m C s [])
  have e2 := read_be32_of_be32 _ 8 (C.param s).q
    (by rw [h.q_eq]; have := s.q_lt; omega) (descriptor_q C s [])
  have e3 := read_be32_of_be32 _ 4 (C.param t).m
    (by rw [h.m_eq]; have := t.m_lt; omega) hm
  have e4 := read_be32_of_be32 _ 8 (C.param t).q
    (by rw [h.q_eq]; have := t.q_lt; omega) hq
  apply ParamSet.dims_inj
  · rw [← h.m_eq s, ← h.m_eq t, ← e1, e3]
  · rw [← h.q_eq s, ← h.q_eq t, ← e2, e4]

theorem be32_lt (x : Nat) : ∀ c ∈ be32 x, c < 256 := by
  intro c hc
  unfold be32 at hc
  simp only [List.mem_cons, List.mem_singleton, List.mem_nil_iff, or_false, byte_of, byte_low] at hc
  rcases hc with h | h | h | h <;> rw [h] <;> exact Nat.mod_lt _ (by norm_num)

theorem descriptor_of_byte (C : Consts) (s : ParamSet) (i : Nat) (h4 : 4 ≤ i) (h12 : i < 12) :
    (descriptor_of C s).getD i 0 < 256 := by
  have key : ∀ c ∈ [82, 76, 87, 69] ++ be32 (C.param s).m ++ be32 (C.param s).q, c < 256 := by
    intro c hc
    rcases List.mem_append.1 hc with h | h
    · rcases List.mem_append.1 h with h | h
      · have h4 : c = 82 ∨ c = 76 ∨ c = 87 ∨ c = 69 := by simpa using h
        omega
      · exact be32_lt _ c h
    · exact be32_lt _ c h
  unfold descriptor_of
  rw [List.getD_append _ _ _ _ (by simp [be32]; omega)]
  exact getD_lt_of_forall (by norm_num) key i

/-- A valid serialized key with one byte of the hash region changed is not recognised. -/
theorem Consts.WF.flip_hash_unknown {C : Consts} (h : C.WF) (s : ParamSet) (rest : List Nat)
    (k v : Nat) (hk : 12 ≤ k) (hk2 : k < 32) (hv : v ≠ (descriptor_of C s ++ rest).getD k 0) :
    RLWE_get_nid_from_descriptor C ((descriptor_of C s ++ rest).set k v) = 0 := by
  have hlen := descriptor_of_length C s
  have hset : (descriptor_of C s ++ rest).set k v = (descriptor_of C s).set k v ++ rest :=
    List.set_append_left _ _ (by omega)
  have hf : first32 ((descriptor_of C s ++ rest).set k v) = (descriptor_of C s).set k v := by
    rw [hset]
    exact first32_prefix _ _ (by rw [List.length_set, hlen])
  by_contra hne
  have hb : ∀ i, 4 ≤ i → i < 12 → ((descriptor_of C s ++ rest).set k v).getD i 0 < 256 := by
    intro i h4 h12
    rw [← first32_getD _ i (by omega), hf, getD_set _ _ _ _ (by omega), if_neg (by omega)]
    exact descriptor_of_byte C s i h4 h12
  obtain ⟨c, hc⟩ := h.get_nid_ne_zero _ hb hne
  rw [hf] at hc
  have hsc := h.descriptor_of_inj s c k v hk hk2 hc
  subst hsc
  apply hv
  have := congrArg (fun l => l.getD k 0) hc
  simp only at this
  rw [getD_set _ _ _ _ (by omega), if_pos rfl] at this
  rw [this, List.getD_append _ _ _ _ (by omega)]

theorem Consts.WF.ctx_fields {C : Consts} (h : C.WF) (s : ParamSet) (ctx : RLWE_CTX)
    (hctx : (RLWE_CTX_new C (C.NID s)).1 = some ctx) :
    ctx.descriptor = descriptor_of C s ∧ ctx.param_data = s := by
  rw [h.ctx_new s] at hctx
  simp only [Option.some.injEq] at hctx
  rw [← hctx]
  exact ⟨rfl, rfl⟩

/-- C11. With the hash an uninterpreted function of the table `a`:
`RLWE_get_nid_from_descriptor` returns a non-zero identifier exactly when the 32 bytes it
reads are the descriptor `RLWE_CTX_new` builds for one of the nine sets, and then it returns
the identifier of that set; so `o2i_RLWE_PUB` returns `NULL` with `PARAM_UNKNOWN` for every
input of at least 32 bytes whose first 32 bytes are no such descriptor, in particular for a
serialized key in which one byte of the hash region `12..31` was changed. -/
theorem descriptor_lookup_exact (C : Consts) (hC : C.WF) :
    (∀ d : List Nat, (∀ i, i < 32 → d.getD i 0 < 256) →
      (RLWE_get_nid_from_descriptor C d ≠ 0 ↔
        ∃ s ctx, (RLWE_CTX_new C (C.NID s)).1 = some ctx ∧ first32 d = ctx.descriptor) ∧
      (∀ s ctx, (RLWE_CTX_new C (C.NID s)).1 = some ctx → first32 d = ctx.descriptor →
        RLWE_get_nid_from_descriptor C d = C.NID s) ∧
      ((∀ s ctx, (RLWE_CTX_new C (C.NID s)).1 = some ctx → first32 d ≠ ctx.descriptor) →
        32 ≤ d.length →
        ∀ target, o2i_RLWE_PUB C target d = (none, [RlweError.PARAM_UNKNOWN]))) ∧
    (∀ (s : ParamSet) (ctx : RLWE_CTX) (pub : RLWE_PUB) (k v : Nat),
      (RLWE_CTX_new C (C.NID s)).1 = some ctx → pub.param_data = some ctx.param_data →
      pub.descriptor = ctx.descriptor → 12 ≤ k → k < 32 →
      v ≠ (i2o_RLWE_PUB C pub).2.1.getD k 0 →
      ∀ target, o2i_RLWE_PUB C target ((i2o_RLWE_PUB C pub).2.1.set k v) =
        (none, [RlweError.PARAM_UNKNOWN])) := by
  constructor
  · intro d hb
    have hfwd : ∀ s ctx, (RLWE_CTX_new C (C.NID s)).1 = some ctx → first32 d = ctx.descriptor →
        RLWE_get_nid_from_descriptor C d = C.NID s := by
      intro s ctx hctx hd
      rw [(hC.ctx_fields s ctx hctx).1] at hd
      exact hC.get_nid_of_first32 d s hd
    refine ⟨⟨fun hne => ?_, fun ⟨s, ctx, hctx, hd⟩ => ?_⟩, hfwd, fun hnone hl target => ?_⟩
    · obtain ⟨c, hc⟩ := hC.get_nid_ne_zero d (fun i _ h12 => hb i (by omega)) hne
      refine ⟨c, ⟨descriptor_of C c, C.NID c, c⟩, ?_, hc⟩
      rw [hC.ctx_new c]
      rfl
    · rw [hfwd s ctx hctx hd]
      exact hC.nid_ne s
    · apply o2i_RLWE_PUB_unknown C target d hl
      by_contra hne
      obtain ⟨c, hc⟩ := hC.get_nid_ne_zero d (fun i _ h12 => hb i (by omega)) hne
      refine hnone c ⟨descriptor_of C c, C.NID c, c⟩ ?_ hc
      rw [hC.ctx_new c]
      rfl
  · intro s ctx pub k v hctx hp hd hk hk2 hv target
    obtain ⟨e1, e2⟩ := hC.ctx_fields s ctx hctx
    rw [e2] at hp
    rw [e1] at hd
    rw [i2o_RLWE_PUB_bytes hC s pub hp hd] at hv ⊢
    simp only at hv ⊢
    apply o2i_RLWE_PUB_unknown
    · rw [List.length_set, serial_length _ (descriptor_of_length C s)]
      omega
    · exact hC.flip_hash_unknown s _ k v hk hk2 hv

theorem descriptor_lookup_exact_witness :
    o2i_RLWE_PUB sampleConsts none ((i2o_RLWE_PUB sampleConsts samplePub).2.1.set 12 1) =
      (none, [RlweError.PARAM_UNKNOWN]) :=
  (descriptor_lookup_exact sampleConsts sampleConsts_wf).2 .s256_15361
    ⟨descriptor_of sampleConsts .s256_15361, 9, .s256_15361⟩ samplePub 12 1 rfl rfl rfl
    (by decide) (by decide) (by decide) none

/-! ### Claim C12: reconciliation vectors, serialise then parse -/

theorem or_byte_step (x k : Nat) (hk : k < 8) :
    (x % 2 ^ (8 * k)) ||| ((((x >>> (8 * k)) &&& 0xff) <<< (8 * k)) % 2 ^ 64) =
      x % 2 ^ (8 * (k + 1)) := by
  have hlt : (x / 2 ^ (8 * k) % 256) * 2 ^ (8 * k) < 2 ^ 64 := by
    have h1 : x / 2 ^ (8 * k) % 256 < 2 ^ 8 := Nat.mod_lt _ (by norm_num)
    have h2 : (x / 2 ^ (8 * k) % 256) * 2 ^ (8 * k) < 2 ^ 8 * 2 ^ (8 * k) :=
      Nat.mul_lt_mul_of_pos_right h1 (Nat.pow_pos (by norm_num))
    have h3 : 2 ^ 8 * 2 ^ (8 * k) ≤ 2 ^ 64 := by
      rw [← pow_add]
      exact Nat.pow_le_pow_right (by norm_num) (by omega)
    omega
  rw [byte_of, Nat.shiftLeft_eq, Nat.mod_eq_of_lt hlt, Nat.lor_comm, Nat.mul_comm,
    ← Nat.mul_add_lt_is_or (Nat.mod_lt _ (Nat.pow_pos (by norm_num)))]
  have e : 2 ^ (8 * (k + 1)) = 2 ^ (8 * k) * 256 := by
    rw [Nat.mul_add, pow_add]; norm_num
  rw [e, Nat.mod_mul, Nat.add_comm]

theorem read_word_bytes (inp : List Nat) (i x : Nat)
    (h : ∀ k, k < 8 → inp.getD (4 + 8 * i + k) 0 = (x >>> (8 * k)) &&& 0xff) :
    ∀ n, n ≤ 8 →
      (List.range n).foldl
        (fun c k => c ||| ((inp.getD (4 + 8 * i + k) 0 <<< (8 * k)) % 2 ^ 64)) 0 =
        x % 2 ^ (8 * n) := by
  intro n
  induction n with
  | zero => intro _; simp [Nat.mod_one]
  | succ n ih =>
    intro hn
    rw [List.range_succ, List.foldl_append, ih (by omega)]
    simp only [List.foldl_cons, List.foldl_nil]
    rw [h n (by omega), or_byte_step x n (by omega)]

theorem read_word_eq (inp : List Nat) (i x : Nat) (hx : x < 2 ^ 64)
    (h : ∀ k, k < 8 → inp.getD (4 + 8 * i + k) 0 = (x >>> (8 * k)) &&& 0xff) :
    read_word inp i = x := by
  unfold read_word
  rw [read_word_bytes inp i x h 8 (le_refl _)]
  exact Nat.mod_eq_of_lt hx

theorem le64_length (x : Nat) : (le64 x).length = 8 := by
  unfold le64; simp

theorem be32_length (x : Nat) : (be32 x).length = 4 := rfl

theorem rec_bytes_getD (mu : Nat) (c : List Nat) (i k : Nat) (hi : i < mu) (hk : k < 8) :
    (be32 mu ++ (List.range mu).flatMap (fun i => le64 (c.getD i 0))).getD (4 + 8 * i + k) 0 =
      (c.getD i 0 >>> (8 * k)) &&& 0xff := by
  rw [List.getD_append_right _ _ _ _ (by rw [be32_length]; omega), be32_length,
    show 4 + 8 * i + k - 4 = 8 * i + k by omega,
    (flatMap_range_chunks (fun i => le64 (c.getD i 0)) 8 (fun i => le64_length _) mu).2 i k hi hk]
  unfold le64
  rw [getD_map_range, if_pos hk]

theorem rec_bytes_length (mu : Nat) (c : List Nat) :
    (be32 mu ++ (List.range mu).flatMap (fun i => le64 (c.getD i 0))).length = 4 + 8 * mu := by
  rw [List.length_append, be32_length,
    (flatMap_range_chunks (fun i => le64 (c.getD i 0)) 8 (fun i => le64_length _) mu).1]

theorem i2o_RLWE_REC_bytes (r : RLWE_REC) (h1 : 1 ≤ r.muwords) (h2 : 4 + 8 * r.muwords < 2 ^ 32) :
    i2o_RLWE_REC r =
      (4 + 8 * r.muwords,
        be32 r.muwords ++ (List.range r.muwords).flatMap (fun i => le64 (r.c.getD i 0))) := by
  unfold i2o_RLWE_REC
  have e1 : r.muwords % 2 ^ 32 = r.muwords := Nat.mod_eq_of_lt (by omega)
  have e2 : (4 + r.muwords * 8) % 2 ^ 32 = 4 + 8 * r.muwords := by
    rw [Nat.mod_eq_of_lt (by omega)]; omega
  simp only [e1, e2]
  rw [if_neg (by omega)]
  rfl

theorem o2i_RLWE_REC_serial (mu : Nat) (c : List Nat) (h1 : 1 ≤ mu) (h2 : 4 + 8 * mu < 2 ^ 32)
    (hl : c.length = mu) (hc : ∀ x ∈ c, x < 2 ^ 64) :
    o2i_RLWE_REC none (be32 mu ++ (List.range mu).flatMap (fun i => le64 (c.getD i 0))) =
      (some ⟨mu, c⟩, []) := by
  have hmu : read_be32 (be32 mu ++ (List.range mu).flatMap (fun i => le64 (c.getD i 0))) 0 = mu :=
    read_be32_of_be32 _ 0 mu (by omega) (by
      simp only [Nat.zero_add]
      exact map_getD_prefix _ _ 4 (be32_length mu))
  have hlen := rec_bytes_length mu c
  unfold o2i_RLWE_REC
  rw [if_neg (by omega)]
  simp only [hmu, hlen]
  have e2 : (4 + mu * 8) % 2 ^ 32 = 4 + 8 * mu := by
    rw [Nat.mod_eq_of_lt (by omega)]; omega
  rw [e2, if_neg (by simp)]
  unfold RLWE_REC_new
  rw [if_neg (by omega)]
  simp only [List.nil_append]
  have hfold := foldl_set_index
    (fun i => read_word (be32 mu ++ (List.range mu).flatMap (fun i => le64 (c.getD i 0))) i) 0 mu
    (List.replicate mu 0) (by simp)
  simp only [Nat.zero_add] at hfold
  have hc2 : (List.range mu).foldl (fun x i => x.set i
      (read_word (be32 mu ++ (List.range mu).flatMap (fun i => le64 (c.getD i 0))) i))
      (List.replicate mu 0) = c := by
    apply list_ext_getD
    · rw [hfold.1, List.length_replicate, hl]
    · intro k hk
      rw [hfold.1, List.length_replicate] at hk
      rw [hfold.2 k, if_pos ⟨Nat.zero_le _, hk⟩, Nat.sub_zero]
      exact read_word_eq _ k _ (getD_lt_of_forall (by norm_num) hc k)
        (fun j hj => rec_bytes_getD mu c k j hk hj)
  rw [hc2]

/-- C12. For every reconciliation vector with `muwords >= 1` and `4 + 8*muwords < 2^32`
(`muwords` words of 64 bits), `i2o_RLWE_REC` returns `4 + 8*muwords` and writes `muwords` as
4 big-endian bytes followed by each word as 8 little-endian bytes, and `o2i_RLWE_REC` applied
with an empty target to these bytes returns the same vector and pushes no error. -/
theorem rec_serialize_parse (r : RLWE_REC) (h1 : 1 ≤ r.muwords) (h2 : 4 + 8 * r.muwords < 2 ^ 32)
    (hl : r.c.length = r.muwords) (hc : ∀ x ∈ r.c, x < 2 ^ 64) :
    (i2o_RLWE_REC r).1 = 4 + 8 * r.muwords ∧
    (i2o_RLWE_REC r).2.length = 4 + 8 * r.muwords ∧
    (List.range 4).map (fun j => (i2o_RLWE_REC r).2.getD j 0) =
      [r.muwords / 2 ^ 24 % 256, r.muwords / 2 ^ 16 % 256, r.muwords / 2 ^ 8 % 256,
        r.muwords % 256] ∧
    (∀ i k, i < r.muwords → k < 8 →
      (i2o_RLWE_REC r).2.getD (4 + 8 * i + k) 0 = r.c.getD i 0 / 2 ^ (8 * k) % 256) ∧
    o2i_RLWE_REC none (i2o_RLWE_REC r).2 = (some r, []) := by
  rw [i2o_RLWE_REC_bytes r h1 h2]
  refine ⟨rfl, rec_bytes_length _ _, ?_, ?_, o2i_RLWE_REC_serial _ _ h1 h2 hl hc⟩
  · rw [ map_getD_prefix _ _ 4 (be32_length _)]
    unfold be32
    simp only [byte_of, byte_low, Nat.shiftRight_eq_div_pow]
  · intro i k hi hk
    simp only
    rw [rec_bytes_getD _ _ i k hi hk, byte_of]

theorem rec_serialize_parse_witness :
    (i2o_RLWE_REC sampleRec).1 = 4 + 8 * 1 ∧
    (i2o_RLWE_REC sampleRec).2.length = 4 + 8 * 1 ∧
    (List.range 4).map (fun j => (i2o_RLWE_REC sampleRec).2.getD j 0) =
      [1 / 2 ^ 24 % 256, 1 / 2 ^ 16 % 256, 1 / 2 ^ 8 % 256, 1 % 256] ∧
    (∀ i k, i < 1 → k < 8 →
      (i2o_RLWE_REC sampleRec).2.getD (4 + 8 * i + k) 0 =
        sampleRec.c.getD i 0 / 2 ^ (8 * k) % 256) ∧
    o2i_RLWE_REC none (i2o_RLWE_REC sampleRec).2 = (some sampleRec, []) :=
  rec_serialize_parse sampleRec (by decide) (by decide) rfl (by decide)

/-! ### Bounds kept by the pointwise macros -/

theorem ADD_MOD_lt_of_lt {a b q : Nat} (ha : a < q) (hb : b < q) : ADD_MOD a b q < q := by
  unfold ADD_MOD ADD
  have h1 : (a + b) % 2 ^ 64 ≤ a + b := Nat.mod_le _ _
  simp only
  split <;> omega

theorem POINTWISE_MUL_ADD_bound (b e0 e1 : List Nat) (m q : Nat) (hq0 : 0 < q)
    (he1 : ∀ c ∈ e1, c < q) : ∀ c ∈ POINTWISE_MUL_ADD b e0 e1 m q, c < q := by
  intro c hc
  unfold POINTWISE_MUL_ADD at hc
  obtain ⟨i, _, rfl⟩ := List.mem_map.1 hc
  exact ADD_MOD_lt_of_lt (MUL_MOD_lt _ _ hq0) (getD_lt_of_forall hq0 he1 i)

theorem Consts.WF.get_nid_cases {C : Consts} (h : C.WF) (d : List Nat) :
    RLWE_get_nid_from_descriptor C d = 0 ∨ ∃ c, RLWE_get_nid_from_descriptor C d = C.NID c := by
  by_cases hmagic : (List.range 4).map (fun i => d.getD i 0) = [82, 76, 87, 69]
  · rw [h.get_nid_eq d hmagic]
    rcases foldl_match_cases (fun cand =>
        (C.param cand).m = read_be32 d 4 ∧
        (C.param cand).q = int_to_RINGELT (read_be32 d 8) ∧
        (List.range 20).map (fun i => d.getD (12 + i) 0) = sha_outbuf C (C.param cand))
        C.NID rlwe_set_list 0 with h0 | ⟨c, _, _, hc⟩
    · exact Or.inl h0
    · exact Or.inr ⟨c, hc⟩
  · left
    unfold RLWE_get_nid_from_descriptor
    rw [if_pos hmagic]

theorem read_coeff_two_bytes (inp : List Nat) (i : Nat) (hb : ∀ k, inp.getD k 0 < 256) :
    read_coeff inp 2 i = 256 * inp.getD (32 + 2 * i) 0 + inp.getD (32 + 2 * i + 1) 0 ∧
    read_coeff inp 2 i < 2 ^ 16 := by
  have h0 := hb (32 + 2 * i)
  have h1 := hb (32 + 2 * i + 1)
  unfold read_coeff
  rw [if_neg (by norm_num), or_bytes2 _ _ h1]
  exact ⟨rfl, by omega⟩

/-- What `o2i_RLWE_PUB` does once the descriptor is recognised as the one of set `s`. -/
theorem Consts.WF.o2i_RLWE_PUB_of_set {C : Consts} (h : C.WF) (s : ParamSet)
    (target : Option RLWE_PUB) (inp : List Nat) (hl : 32 ≤ inp.length)
    (hn : RLWE_get_nid_from_descriptor C inp = C.NID s) :
    o2i_RLWE_PUB C target inp =
      if inp.length ≠ 32 + s.m * 2 then (none, [RlweError.INVALID_FORMAT])
      else
        match target with
        | some old =>
          if some s ≠ old.param_data then (none, [RlweError.PARAM_INVALID])
          else
            (some ⟨old.descriptor, old.param_data,
              (List.range s.m).foldl (fun b i => b.set i (read_coeff inp 2 i)) old.b⟩, [])
        | none =>
          (some ⟨descriptor_of C s, some s,
            (List.range s.m).foldl (fun b i => b.set i (read_coeff inp 2 i))
              (List.replicate s.m 0)⟩, []) := by
  unfold o2i_RLWE_PUB
  rw [if_neg (by omega)]
  simp only
  rw [hn, if_neg (h.nid_ne s), h.ctx_new s]
  simp only
  rw [h.m_eq, h.q_eq, n_ringelt_bytes_eq, total_len_eq,
    Nat.mod_eq_of_lt (by have := s.m_lt; omega)]
  simp only [RLWE_PUB_new, h.m_eq]
  have hdesc : [82, 76, 87, 69] ++ be32 s.m ++ be32 s.q ++ sha_outbuf C (C.param s) =
      descriptor_of C s := by
    unfold descriptor_of; rw [h.m_eq, h.q_eq]
  rw [hdesc]

/-- What `o2i_RLWE_SEC` does once the descriptor is recognised as the one of set `s`. -/
theorem Consts.WF.o2i_RLWE_SEC_of_set {C : Consts} (h : C.WF) (s : ParamSet)
    (target : Option RLWE_PAIR) (inp : List Nat) (hl : 32 ≤ inp.length)
    (hn : RLWE_get_nid_from_descriptor C inp = C.NID s) :
    o2i_RLWE_SEC C target inp =
      if inp.length ≠ 32 + s.m * 2 then (none, [RlweError.INVALID_FORMAT])
      else
        match target with
        | some old =>
          if some s ≠ old.param_data then (none, [RlweError.PARAM_INVALID])
          else
            (some ⟨old.descriptor, old.param_data, old.pub,
              (List.range s.m).foldl (fun x i => x.set (s.m + i) (read_coeff inp 2 i)) old.s,
              old.keys_set⟩, [])
        | none =>
          (some ⟨descriptor_of C s, some s, some ⟨descriptor_of C s, some s, List.replicate s.m 0⟩,
            (List.range s.m).foldl (fun x i => x.set (s.m + i) (read_coeff inp 2 i))
              (List.replicate (2 * s.m) 0), 0⟩, []) := by
  unfold o2i_RLWE_SEC
  rw [if_neg (by omega)]
  simp only
  rw [hn, if_neg (h.nid_ne s), h.ctx_new s]
  simp only
  rw [h.m_eq, h.q_eq, n_ringelt_bytes_eq, total_len_eq,
    Nat.mod_eq_of_lt (by have := s.m_lt; omega)]
  simp only [RLWE_PAIR_new, RLWE_PUB_new, h.m_eq]
  have hdesc : [82, 76, 87, 69] ++ be32 s.m ++ be32 s.q ++ sha_outbuf C (C.param s) =
      descriptor_of C s := by
    unfold descriptor_of; rw [h.m_eq, h.q_eq]
  rw [hdesc]

theorem o2i_RLWE_SEC_unknown (C : Consts) (target : Option RLWE_PAIR) (d : List Nat)
    (hl : 32 ≤ d.length) (h0 : RLWE_get_nid_from_descriptor C d = 0) :
    o2i_RLWE_SEC C target d = (none, [RlweError.PARAM_UNKNOWN]) := by
  unfold o2i_RLWE_SEC
  rw [if_neg (by omega)]
  simp only
  rw [if_pos h0]

theorem bytesPerCoeff_pow (s : ParamSet) : 2 ^ (8 * bytesPerCoeff s.q) = 2 ^ 16 := by
  rw [bytesPerCoeff_eq]

theorem o2i_RLWE_PUB_stored {C : Consts} (hC : C.WF) (inp : List Nat)
    (hb : ∀ k, inp.getD k 0 < 256) (target : Option RLWE_PUB) (pub : RLWE_PUB)
    (hT : ∀ old, target = some old → ∀ s, old.param_data = some s → s.m ≤ old.b.length)
    (h : (o2i_RLWE_PUB C target inp).1 = some pub) :
    ∃ s, pub.param_data = some s ∧ ∀ i, i < s.m →
      pub.b.getD i 0 = 256 * inp.getD (32 + 2 * i) 0 + inp.getD (32 + 2 * i + 1) 0 ∧
      pub.b.getD i 0 < 2 ^ (8 * bytesPerCoeff s.q) := by
  have hl : 32 ≤ inp.length := by
    by_contra hlt
    unfold o2i_RLWE_PUB at h
    rw [if_pos (by omega)] at h
    exact absurd h (by simp)
  rcases hC.get_nid_cases inp with h0 | ⟨s, hs⟩
  · rw [o2i_RLWE_PUB_unknown C target inp hl h0] at h
    exact absurd h (by simp)
  rw [hC.o2i_RLWE_PUB_of_set s target inp hl hs] at h
  split at h
  · exact absurd h (by simp)
  refine ⟨s, ?_⟩
  rw [bytesPerCoeff_pow]
  rcases target with _ | old
  · simp only [Option.some.injEq] at h
    rw [← h]
    refine ⟨rfl, fun i hi => ?_⟩
    have hf := (foldl_set_index (fun i => read_coeff inp 2 i) 0 s.m (List.replicate s.m 0)
      (by simp)).2 i
    simp only [Nat.zero_add] at hf
    simp only
    rw [hf, if_pos ⟨Nat.zero_le _, hi⟩, Nat.sub_zero]
    exact read_coeff_two_bytes inp i hb
  · simp only at h
    split at h
    · exact absurd h (by simp)
    rename_i hp
    have hp2 : old.param_data = some s := (not_not.1 hp).symm
    simp only [Option.some.injEq] at h
    rw [← h]
    refine ⟨hp2, fun i hi => ?_⟩
    have hf := (foldl_set_index (fun i => read_coeff inp 2 i) 0 s.m old.b
      (by have := hT old rfl s hp2; omega)).2 i
    simp only [Nat.zero_add] at hf
    simp only
    rw [hf, if_pos ⟨Nat.zero_le _, hi⟩, Nat.sub_zero]
    exact read_coeff_two_bytes inp i hb

theorem o2i_RLWE_SEC_stored {C : Consts} (hC : C.WF) (inp : List Nat)
    (hb : ∀ k, inp.getD k 0 < 256) (target : Option RLWE_PAIR) (pair : RLWE_PAIR)
    (hT : ∀ old, target = some old → ∀ s, old.param_data = some s → 2 * s.m ≤ old.s.length)
    (h : (o2i_RLWE_SEC C target inp).1 = some pair) :
    ∃ s, pair.param_data = some s ∧ ∀ i, i < s.m →
      pair.s.getD (s.m + i) 0 = 256 * inp.getD (32 + 2 * i) 0 + inp.getD (32 + 2 * i + 1) 0 ∧
      pair.s.getD (s.m + i) 0 < 2 ^ (8 * bytesPerCoeff s.q) := by
  have hl : 32 ≤ inp.length := by
    by_contra hlt
    unfold o2i_RLWE_SEC at h
    rw [if_pos (by omega)] at h
    exact absurd h (by simp)
  rcases hC.get_nid_cases inp with h0 | ⟨s, hs⟩
  · rw [o2i_RLWE_SEC_unknown C target inp hl h0] at h
    exact absurd h (by simp)
  rw [hC.o2i_RLWE_SEC_of_set s target inp hl hs] at h
  split at h
  · exact absurd h (by simp)
  refine ⟨s, ?_⟩
  rw [bytesPerCoeff_pow]
  rcases target with _ | old
  · simp only [Option.some.injEq] at h
    rw [← h]
    refine ⟨rfl, fun i hi => ?_⟩
    have hf := (foldl_set_index (fun i => read_coeff inp 2 i) s.m s.m
      (List.replicate (2 * s.m) 0) (by simp; omega)).2 (s.m + i)
    simp only
    rw [hf, if_pos ⟨by omega, by omega⟩, Nat.add_sub_cancel_left]
    exact read_coeff_two_bytes inp i hb
  · simp only at h
    split at h
    · exact absurd h (by simp)
    rename_i hp
    have hp2 : old.param_data = some s := (not_not.1 hp).symm
    simp only [Option.some.injEq] at h
    rw [← h]
    refine ⟨hp2, fun i hi => ?_⟩
    have hf := (foldl_set_index (fun i => read_coeff inp 2 i) s.m s.m old.s
      (by have := hT old rfl s hp2; omega)).2 (s.m + i)
    simp only
    rw [hf, if_pos ⟨by omega, by omega⟩, Nat.add_sub_cancel_left]
    exact read_coeff_two_bytes inp i hb

/-- C14 (as amended). For every input byte string the parsers accept, every coefficient
stored in the public key returned by `o2i_RLWE_PUB`, and in the secret element `s1` stored
by `o2i_RLWE_SEC`, is the big-endian value of its two input bytes, hence lies in
`[0, 2^(8*bytesPerCoeff))`; the parsers do not compare it with `q`.  A target key passed in
holds the coefficients of its set. -/
theorem o2i_stored_coefficients (C : Consts) (hC : C.WF) (inp : List Nat)
    (hb : ∀ k, inp.getD k 0 < 256) :
    (∀ (target : Option RLWE_PUB) (pub : RLWE_PUB),
      (∀ old, target = some old → ∀ s, old.param_data = some s → s.m ≤ old.b.length) →
      (o2i_RLWE_PUB C target inp).1 = some pub →
      ∃ s, pub.param_data = some s ∧ ∀ i, i < s.m →
        pub.b.getD i 0 = 256 * inp.getD (32 + 2 * i) 0 + inp.getD (32 + 2 * i + 1) 0 ∧
        pub.b.getD i 0 < 2 ^ (8 * bytesPerCoeff s.q)) ∧
    (∀ (target : Option RLWE_PAIR) (pair : RLWE_PAIR),
      (∀ old, target = some old → ∀ s, old.param_data = some s → 2 * s.m ≤ old.s.length) →
      (o2i_RLWE_SEC C target inp).1 = some pair →
      ∃ s, pair.param_data = some s ∧ ∀ i, i < s.m →
        pair.s.getD (s.m + i) 0 =
          256 * inp.getD (32 + 2 * i) 0 + inp.getD (32 + 2 * i + 1) 0 ∧
        pair.s.getD (s.m + i) 0 < 2 ^ (8 * bytesPerCoeff s.q)) :=
  ⟨fun target pub hT h => o2i_RLWE_PUB_stored hC inp hb target pub hT h,
    fun target pair hT h => o2i_RLWE_SEC_stored hC inp hb target pair hT h⟩

theorem descriptor_of_lt (C : Consts) (s : ParamSet) : ∀ c ∈ descriptor_of C s, c < 256 := by
  intro c hc
  unfold descriptor_of at hc
  rcases List.mem_append.1 hc with h | h
  · rcases List.mem_append.1 h with h | h
    · rcases List.mem_append.1 h with h | h
      · have h4 : c = 82 ∨ c = 76 ∨ c = 87 ∨ c = 69 := by simpa using h
        omega
      · exact be32_lt _ c h
    · exact be32_lt _ c h
  · unfold sha_outbuf at h
    obtain ⟨i, _, rfl⟩ := List.mem_map.1 h
    exact Nat.mod_lt _ (by norm_num)

theorem flatMap_const_pair (a n : Nat) :
    (List.range n).flatMap (fun _ => [a, a]) = List.replicate (2 * n) a := by
  obtain ⟨hl, hg⟩ := flatMap_range_chunks (fun _ => [a, a]) 2 (fun _ => rfl) n
  apply list_ext_getD
  · rw [hl, List.length_replicate]
  · intro k hk
    rw [hl] at hk
    have hk2 : k = 2 * (k / 2) + k % 2 := by omega
    rw [getD_replicate, if_pos hk, hk2, hg (k / 2) (k % 2) (by omega) (by omega)]
    rcases Nat.mod_two_eq_zero_or_one k with h | h <;> rw [h] <;> rfl

theorem oversizeInput_bytes : ∀ k, oversizeInput.getD k 0 < 256 := by
  intro k
  apply getD_lt_of_forall (by norm_num)
  intro c hc
  unfold oversizeInput at hc
  rcases List.mem_append.1 hc with h | h
  · exact descriptor_of_lt _ _ c h
  · rw [List.eq_of_mem_replicate h]
    norm_num

theorem oversizeInput_parse :
    o2i_RLWE_PUB sampleConsts none oversizeInput =
      (some ⟨descriptor_of sampleConsts .s256_15361, some .s256_15361,
        List.replicate 256 65535⟩, []) := by
  have h := o2i_RLWE_PUB_serial sampleConsts_wf .s256_15361 (fun _ => 65535)
    (fun _ _ => by norm_num)
  have e1 : (List.range (ParamSet.m .s256_15361)).flatMap (fun _ => write_coeff 2 65535) =
      List.replicate 512 255 := flatMap_const_pair 255 256
  have e2 : (List.range (ParamSet.m .s256_15361)).map (fun _ => 65535) =
      List.replicate 256 65535 := by
    rw [List.map_const', List.length_range]; rfl
  rw [e1, e2] at h
  exact h

theorem o2i_stored_coefficients_witness :
    ∃ s, (some ParamSet.s256_15361 : Option ParamSet) = some s ∧ ∀ i, i < s.m →
      (List.replicate 256 65535).getD i 0 =
        256 * oversizeInput.getD (32 + 2 * i) 0 + oversizeInput.getD (32 + 2 * i + 1) 0 ∧
      (List.replicate 256 65535).getD i 0 < 2 ^ (8 * bytesPerCoeff s.q) :=
  (o2i_stored_coefficients sampleConsts sampleConsts_wf oversizeInput oversizeInput_bytes).1
    none ⟨descriptor_of sampleConsts .s256_15361, some .s256_15361, List.replicate 256 65535⟩
    (fun _ h => absurd h (by simp)) (by rw [oversizeInput_parse])

/-- C14 (counterexample). The 544-byte input made of the descriptor of the set
`(256, 15361)` and 512 bytes `FF` is accepted by `o2i_RLWE_PUB`, and every coefficient of the
key returned is `65535`, which is not below `q = 15361`. -/
theorem o2i_RLWE_PUB_stores_unreduced :
    o2i_RLWE_PUB sampleConsts none oversizeInput =
      (some ⟨descriptor_of sampleConsts .s256_15361, some .s256_15361,
        List.replicate 256 65535⟩, []) ∧
    (List.replicate 256 65535).getD 0 0 = 65535 ∧
    ¬ (65535 < (sampleConsts.param .s256_15361).q) :=
  ⟨oversizeInput_parse, by decide, by decide⟩

/-! ### Claim C15: the cyclotomic fold -/

theorem SUB_MOD_eq {a b q : Nat} (hq : q ≤ 2 ^ 63) (ha : a < q) (hb : b < q) :
    SUB_MOD a b q = if b ≤ a then a - b else a + q - b := by
  unfold SUB_MOD
  rw [USUB_eq (by omega) (by omega), ADD_eq (by omega)]
  simp only
  split <;> split <;> omega

theorem SUB_MOD_int {a b q : Nat} (hq : q ≤ 2 ^ 63) (ha : a < q) (hb : b < q) :
    ((SUB_MOD a b q : Nat) : Int) = ((a : Int) - (b : Int)) % (q : Int) := by
  rw [SUB_MOD_eq hq ha hb]
  split
  · rename_i h
    rw [Int.emod_eq_of_lt (by omega) (by omega)]
    omega
  · rename_i h
    have e : ((a : Int) - (b : Int)) % (q : Int) = ((a : Int) - (b : Int) + (q : Int)) % (q : Int) := by
      rw [Int.add_emod_self]
    rw [e, Int.emod_eq_of_lt (by omega) (by omega)]
    omega

theorem fold_loop_spec (q last : Nat) :
    ∀ k (v : List Nat), k ≤ last → last < v.length →
      ((List.range k).foldl
        (fun v i => v.set i (SUB_MOD (v.getD i 0) (v.getD last 0) q)) v).length = v.length ∧
      ∀ j, ((List.range k).foldl
        (fun v i => v.set i (SUB_MOD (v.getD i 0) (v.getD last 0) q)) v).getD j 0 =
          if j < k then SUB_MOD (v.getD j 0) (v.getD last 0) q else v.getD j 0 := by
  intro k
  induction k with
  | zero => intro v _ _; simp
  | succ k ih =>
    intro v hk hl
    obtain ⟨l, g⟩ := ih v (by omega) hl
    rw [List.range_succ, List.foldl_append]
    simp only [List.foldl_cons, List.foldl_nil]
    refine ⟨by rw [List.length_set, l], fun j => ?_⟩
    have e1 := g k
    rw [if_neg (by omega)] at e1
    have e2 := g last
    rw [if_neg (by omega)] at e2
    have hlen : k < ((List.range k).foldl
        (fun v i => v.set i (SUB_MOD (v.getD i 0) (v.getD last 0) q)) v).length := by
      rw [l]; omega
    rw [getD_set _ _ _ _ hlen, e1, e2, g j]
    by_cases hj : j = k
    · rw [if_pos hj, if_pos (by omega), hj]
    · rw [if_neg hj]
      by_cases hj2 : j < k
      · rw [if_pos hj2, if_pos (by omega)]
      · rw [if_neg hj2, if_neg (by omega)]

theorem MAPTOCYCLOTOMIC_getD (v : List Nat) (n q : Nat) (hn : 0 < n) (hl : v.length = n) :
    (MAPTOCYCLOTOMIC v n q).length = n ∧
    ∀ j, (MAPTOCYCLOTOMIC v n q).getD j 0 =
      if j = n - 1 then 0
      else if j < n - 1 then SUB_MOD (v.getD j 0) (v.getD (n - 1) 0) q else v.getD j 0 := by
  obtain ⟨l, g⟩ := fold_loop_spec q (n - 1) (n - 1) v (le_refl _) (by omega)
  unfold MAPTOCYCLOTOMIC
  simp only
  refine ⟨by rw [List.length_set, l, hl], fun j => ?_⟩
  rw [getD_set _ _ _ _ (by rw [l]; omega), g j]

/-- C15. For every odd `n` (up to `2^16`, the range of the loop counter), every `q` with
`0 < q <= 2^63` (so that `a + (q - b)` does not leave the 64-bit word) and every `v` of `n`
coefficients in `[0,q)`, `MAPTOCYCLOTOMIC` returns `v'` with `v'[n-1] = 0` and, for `i < n-1`,
`v'[i] = (v[i] - v[n-1]) mod q` in `[0,q)`; so `v - v'` is `v[n-1] * (1 + x + ... + x^(n-1))`
coefficient by coefficient modulo `q`. -/
theorem maptocyclotomic_spec (v : List Nat) (n q : Nat) (hodd : n % 2 = 1) (hn : n ≤ 2 ^ 16)
    (hq0 : 0 < q) (hq : q ≤ 2 ^ 63) (hl : v.length = n) (hv : ∀ c ∈ v, c < q) :
    (MAPTOCYCLOTOMIC v n q).length = n ∧
    (MAPTOCYCLOTOMIC v n q).getD (n - 1) 0 = 0 ∧
    (∀ i, i < n - 1 →
      (((MAPTOCYCLOTOMIC v n q).getD i 0 : Nat) : Int) =
        ((v.getD i 0 : Int) - (v.getD (n - 1) 0 : Int)) % (q : Int) ∧
      (MAPTOCYCLOTOMIC v n q).getD i 0 < q) ∧
    (∀ i, i < n →
      ((v.getD i 0 : Int) - ((MAPTOCYCLOTOMIC v n q).getD i 0 : Int)) % (q : Int) =
        ((v.getD (n - 1) 0 : Int) * all_ones_coeff n i) % (q : Int)) := by
  have hn0 : 0 < n := by omega
  obtain ⟨l, g⟩ := MAPTOCYCLOTOMIC_getD v n q hn0 hl
  have hb : ∀ j, v.getD j 0 < q := fun j => getD_lt_of_forall hq0 hv j
  have hsub : ∀ i, i < n - 1 →
      (((MAPTOCYCLOTOMIC v n q).getD i 0 : Nat) : Int) =
        ((v.getD i 0 : Int) - (v.getD (n - 1) 0 : Int)) % (q : Int) := by
    intro i hi
    rw [g i, if_neg (by omega), if_pos hi]
    exact SUB_MOD_int hq (hb i) (hb _)
  refine ⟨l, by rw [g, if_pos rfl], fun i hi => ⟨hsub i hi, ?_⟩, fun i hi => ?_⟩
  · have h1 := hsub i hi
    have h2 : ((v.getD i 0 : Int) - (v.getD (n - 1) 0 : Int)) % (q : Int) < (q : Int) :=
      Int.emod_lt_of_pos _ (by omega)
    omega
  · unfold all_ones_coeff
    rw [if_pos hi, mul_one]
    by_cases hi2 : i = n - 1
    · subst hi2
      rw [g, if_pos rfl]
      simp
    · rw [hsub i (by omega), Int.sub_emod, Int.emod_emod, ← Int.sub_emod]
      congr 1
      omega

theorem maptocyclotomic_spec_witness :
    (MAPTOCYCLOTOMIC [5, 2, 4] 3 7).length = 3 ∧
    (MAPTOCYCLOTOMIC [5, 2, 4] 3 7).getD (3 - 1) 0 = 0 ∧
    (∀ i, i < 3 - 1 →
      (((MAPTOCYCLOTOMIC [5, 2, 4] 3 7).getD i 0 : Nat) : Int) =
        ((([5, 2, 4] : List Nat).getD i 0 : Int) - (([5, 2, 4] : List Nat).getD (3 - 1) 0 : Int)) %
          ((7 : Nat) : Int) ∧
      (MAPTOCYCLOTOMIC [5, 2, 4] 3 7).getD i 0 < 7) ∧
    (∀ i, i < 3 →
      ((([5, 2, 4] : List Nat).getD i 0 : Int) - ((MAPTOCYCLOTOMIC [5, 2, 4] 3 7).getD i 0 : Int)) %
          ((7 : Nat) : Int) =
        ((([5, 2, 4] : List Nat).getD (3 - 1) 0 : Int) * all_ones_coeff 3 i) % ((7 : Nat) : Int)) :=
  maptocyclotomic_spec [5, 2, 4] 3 7 (by decide) (by decide) (by decide) (by decide) rfl
    (by decide)

/-! ### Claim C16: what `sample_secret` writes -/

theorem accepted_succ (p : RINGLWE_PARAM_DATA) (rs : RandomSource) (j : Nat) :
    accepted p rs (j + 1) =
      accepted p rs j ++ (if draw p rs j < p.BB then [draw p rs j] else []) := by
  unfold accepted
  rw [List.range_succ, List.map_append, List.filter_append]
  congr 1
  by_cases h : draw p rs j < p.BB
  · rw [if_pos h]; simp [h]
  · rw [if_neg h]; simp [h]

theorem accepted_prefix (p : RINGLWE_PARAM_DATA) (rs : RandomSource) (j : Nat) :
    ∀ d, ∃ rest, accepted p rs (j + d) = accepted p rs j ++ rest := by
  intro d
  induction d with
  | zero => exact ⟨[], by simp⟩
  | succ d ih =>
    obtain ⟨rest, h⟩ := ih
    refine ⟨rest ++ (if draw p rs (j + d) < p.BB then [draw p rs (j + d)] else []), ?_⟩
    rw [← Nat.add_assoc, accepted_succ, h, List.append_assoc]

theorem accepted_getD (p : RINGLWE_PARAM_DATA) (rs : RandomSource) (j cnt k : Nat) (h : j ≤ cnt)
    (hk : k < (accepted p rs j).length) :
    (accepted p rs cnt).getD k 0 = (accepted p rs j).getD k 0 := by
  obtain ⟨rest, e⟩ := accepted_prefix p rs j (cnt - j)
  rw [Nat.add_sub_cancel' h] at e
  rw [e, List.getD_append _ _ _ _ hk]

theorem sample_secret_loop_step (p : RINGLWE_PARAM_DATA) (L fuel i j : Nat) (s : List Nat)
    (rs0 : RandomSource) (hi : i < L) :
    sample_secret_loop p L (fuel + 1) i (draw_state p rs0 j).1 (draw_state p rs0 j).2.1 s
        (draw_state p rs0 j).2.2 =
      sample_secret_loop p L fuel (if draw p rs0 j < p.BB then i + 1 else i)
        (draw_state p rs0 (j + 1)).1 (draw_state p rs0 (j + 1)).2.1
        (if draw p rs0 j < p.BB then s.set i (p.small_coeff_table.getD (draw p rs0 j) 0) else s)
        (draw_state p rs0 (j + 1)).2.2 := by
  rw [sample_secret_loop, if_pos hi]
  simp only [draw_state, draw]
  split <;> rfl

theorem sample_secret_loop_spec (p : RINGLWE_PARAM_DATA) (L : Nat) (rs0 : RandomSource) :
    ∀ fuel j i s s' rs', i ≤ L → L ≤ s.length → (accepted p rs0 j).length = i →
      sample_secret_loop p L fuel i (draw_state p rs0 j).1 (draw_state p rs0 j).2.1 s
        (draw_state p rs0 j).2.2 = some (s', rs') →
      ∃ cnt, j ≤ cnt ∧ (accepted p rs0 cnt).length = L ∧ s'.length = s.length ∧
        (∀ k, s'.getD k 0 =
          if i ≤ k ∧ k < L then p.small_coeff_table.getD ((accepted p rs0 cnt).getD k 0) 0
          else s.getD k 0) ∧
        rs' = (draw_state p rs0 cnt).2.2 ∧
        (i < L → j < cnt ∧ draw p rs0 (cnt - 1) < p.BB) ∧ (L ≤ i → cnt = j) := by
  intro fuel
  induction fuel with
  | zero =>
    intro j i s s' rs' hiL hLs hacc h
    rw [sample_secret_loop] at h
    split at h
    · exact absurd h (by simp)
    · rename_i hi
      simp only [Option.some.injEq, Prod.mk.injEq] at h
      refine ⟨j, le_refl _, by omega, by rw [← h.1], fun k => ?_, h.2.symm,
        fun hlt => absurd hlt hi, fun _ => rfl⟩
      rw [if_neg (by omega), h.1]
  | succ fuel ih =>
    intro j i s s' rs' hiL hLs hacc h
    by_cases hi : i < L
    · rw [sample_secret_loop_step p L fuel i j s rs0 hi] at h
      by_cases ha : draw p rs0 j < p.BB
      · rw [if_pos ha, if_pos ha] at h
        have hacc2 : (accepted p rs0 (j + 1)).length = i + 1 := by
          rw [accepted_succ, if_pos ha, List.length_append, hacc]; rfl
        obtain ⟨cnt, hj, hL, hlen, hget, hrs, hlast, hstop⟩ :=
          ih (j + 1) (i + 1) _ s' rs' (by omega) (by rw [List.length_set]; exact hLs) hacc2 h
        refine ⟨cnt, by omega, hL, by rw [hlen, List.length_set], fun k => ?_, hrs,
          fun _ => ⟨by omega, ?_⟩, fun hle => absurd hle (by omega)⟩
        · rw [hget k]
          by_cases hk : i + 1 ≤ k ∧ k < L
          · rw [if_pos hk, if_pos ⟨by omega, hk.2⟩]
          · rw [if_neg hk, getD_set _ _ _ _ (by omega)]
            by_cases hki : k = i
            · rw [if_pos hki, if_pos ⟨by omega, by omega⟩, hki,
                accepted_getD p rs0 (j + 1) cnt i hj (by omega), accepted_succ, if_pos ha,
                List.getD_append_right _ _ _ _ (by omega), hacc, Nat.sub_self]
              rfl
            · rw [if_neg hki, if_neg (by omega)]
        · by_cases hi2 : i + 1 < L
          · exact (hlast hi2).2
          · rw [hstop (by omega), Nat.add_sub_cancel]
            exact ha
      · rw [if_neg ha, if_neg ha] at h
        have hacc2 : (accepted p rs0 (j + 1)).length = i := by
          rw [accepted_succ, if_neg ha, List.append_nil, hacc]
        obtain ⟨cnt, hj, hL, hlen, hget, hrs, hlast, _⟩ :=
          ih (j + 1) i s s' rs' hiL hLs hacc2 h
        exact ⟨cnt, by omega, hL, hlen, hget, hrs,
          fun hlt => ⟨by omega, (hlast hlt).2⟩, fun hle => absurd hle (by omega)⟩
    · rw [sample_secret_loop, if_neg hi] at h
      simp only [Option.some.injEq, Prod.mk.injEq] at h
      refine ⟨j, le_refl _, by omega, by rw [← h.1], fun k => ?_, h.2.symm,
        fun hlt => absurd hlt hi, fun _ => rfl⟩
      rw [if_neg (by omega), h.1]

/-- C16. For every random stream on which `sample_secret` terminates, with `L = n - 1` for
odd `n` and `L = n` for even `n`: exactly `L` draws are accepted (`l < BB`, where
`l = r & BMASK` for the current random word `r`), the last draw made is an accepted one,
coefficient `i < L` is `small_coeff_table[l]` for the `i`-th accepted draw `l` in draw order
(rejected draws produce no coefficient), and `s[n-1] = 0` when `n` is odd. -/
theorem sample_secret_spec (fuel : Nat) (p : RINGLWE_PARAM_DATA) (rs rs' : RandomSource)
    (s : List Nat) (h : sample_secret fuel p rs = some (s, rs')) :
    ∃ cnt, s.length = p.m ∧ (accepted p rs cnt).length = loop_limit p ∧
      (∀ l ∈ accepted p rs cnt, l < p.BB) ∧
      (∀ i, i < loop_limit p →
        s.getD i 0 = p.small_coeff_table.getD ((accepted p rs cnt).getD i 0) 0) ∧
      (p.m % 2 = 1 → s.getD (p.m - 1) 0 = 0) ∧
      rs' = (draw_state p rs cnt).2.2 ∧
      (0 < loop_limit p → 0 < cnt ∧ draw p rs (cnt - 1) < p.BB) := by
  unfold sample_secret at h
  simp only at h
  have hlen0 : (if p.m % 2 = 1 then (List.replicate p.m 0).set (p.m - 1) 0
      else List.replicate p.m 0).length = p.m := by
    split <;> simp
  have hLm : loop_limit p ≤ p.m := by
    unfold loop_limit; split <;> omega
  obtain ⟨cnt, _, hL, hlen, hget, hrs, hlast, _⟩ :=
    sample_secret_loop_spec p (loop_limit p) rs fuel 0 0 _ s rs' (Nat.zero_le _)
      (by rw [hlen0]; exact hLm) rfl h
  refine ⟨cnt, by rw [hlen, hlen0], hL, fun l hl => ?_, fun i hi => ?_, fun hodd => ?_, hrs,
    hlast⟩
  · unfold accepted at hl
    simpa using (List.mem_filter.1 hl).2
  · rw [hget i, if_pos ⟨Nat.zero_le _, hi⟩]
  · have hLo : loop_limit p = p.m - 1 := by unfold loop_limit; rw [if_pos hodd]
    rw [hget, if_neg (by omega), if_pos hodd,
      getD_set _ _ _ _ (by rw [List.length_replicate]; omega), if_pos rfl]

theorem sample_secret_spec_witness :
    ∃ cnt, ([16, 0, 1, 16] : List Nat).length = toyParam.m ∧
      (accepted toyParam (countingStream 0) cnt).length = loop_limit toyParam ∧
      (∀ l ∈ accepted toyParam (countingStream 0) cnt, l < toyParam.BB) ∧
      (∀ i, i < loop_limit toyParam →
        ([16, 0, 1, 16] : List Nat).getD i 0 =
          toyParam.small_coeff_table.getD ((accepted toyParam (countingStream 0) cnt).getD i 0) 0) ∧
      (toyParam.m % 2 = 1 → ([16, 0, 1, 16] : List Nat).getD (toyParam.m - 1) 0 = 0) ∧
      countingStream 1 = (draw_state toyParam (countingStream 0) cnt).2.2 ∧
      (0 < loop_limit toyParam →
        0 < cnt ∧ draw toyParam (countingStream 0) (cnt - 1) < toyParam.BB) :=
  sample_secret_spec 8 toyParam (countingStream 0) (countingStream 1) [16, 0, 1, 16] rfl

/-! ### Claim C17: sampling from the all-zero stream -/

theorem sample_secret_loop_zero (p : RINGLWE_PARAM_DATA) (L : Nat) (hB : 0 < p.BB) :
    ∀ fuel i shifts pos (s : List Nat), L - i ≤ fuel → i ≤ L → L ≤ s.length →
      ∃ s' rs', sample_secret_loop p L fuel i 0 shifts s (zeroStream pos) = some (s', rs') ∧
        s'.length = s.length ∧
        ∀ k, s'.getD k 0 =
          if i ≤ k ∧ k < L then p.small_coeff_table.getD 0 0 else s.getD k 0 := by
  intro fuel
  induction fuel with
  | zero =>
    intro i shifts pos s hf hi hs
    refine ⟨s, zeroStream pos, ?_, rfl, fun k => ?_⟩
    · rw [sample_secret_loop, if_neg (by omega)]
    · rw [if_neg (by omega)]
  | succ fuel ih =>
    intro i shifts pos s hf hi hs
    by_cases hlt : i < L
    · have hstep : sample_secret_loop p L (fuel + 1) i 0 shifts s (zeroStream pos) =
          sample_secret_loop p L fuel (i + 1) 0
            (if (shifts + 1) * p.LOG2B ≥ 64 then 0 else shifts + 1)
            (s.set i (p.small_coeff_table.getD 0 0))
            (zeroStream (if (shifts + 1) * p.LOG2B ≥ 64 then pos + 1 else pos)) := by
        rw [sample_secret_loop, if_pos hlt]
        simp only [Nat.zero_and, if_pos hB, Nat.zero_shiftRight]
        split <;> rfl
      obtain ⟨s', rs', h, hl, hg⟩ := ih (i + 1)
        (if (shifts + 1) * p.LOG2B ≥ 64 then 0 else shifts + 1)
        (if (shifts + 1) * p.LOG2B ≥ 64 then pos + 1 else pos)
        (s.set i (p.small_coeff_table.getD 0 0)) (by omega) (by omega)
        (by rw [List.length_set]; exact hs)
      refine ⟨s', rs', by rw [hstep, h], by rw [hl, List.length_set], fun k => ?_⟩
      rw [hg k, getD_set _ _ _ _ (by omega)]
      by_cases hk : i + 1 ≤ k ∧ k < L
      · rw [if_pos hk, if_pos ⟨by omega, hk.2⟩]
      · rw [if_neg hk]
        by_cases hki : k = i
        · rw [if_pos hki, if_pos ⟨by omega, by omega⟩]
        · rw [if_neg hki, if_neg (by omega)]
    · refine ⟨s, zeroStream pos, ?_, rfl, fun k => ?_⟩
      · rw [sample_secret_loop, if_neg hlt]
      · rw [if_neg (by omega)]

/-- C17. With a random stream of all-zero words and `BB = 2B+1 >= 1`, `sample_secret`
terminates (within `L` iterations, `L = n` for even `n` and `n - 1` for odd `n`) and writes
`small_coeff_table[0]` to every sampled coefficient `i < L`; for odd `n` the last coefficient
is `0`. -/
theorem sample_secret_zero_stream (p : RINGLWE_PARAM_DATA) (hB : 1 ≤ p.BB) (pos fuel : Nat)
    (hf : loop_limit p ≤ fuel) :
    ∃ s rs', sample_secret fuel p (zeroStream pos) = some (s, rs') ∧ s.length = p.m ∧
      (∀ i, i < loop_limit p → s.getD i 0 = p.small_coeff_table.getD 0 0) ∧
      (p.m % 2 = 1 → s.getD (p.m - 1) 0 = 0) := by
  have hlen0 : (if p.m % 2 = 1 then (List.replicate p.m 0).set (p.m - 1) 0
      else List.replicate p.m 0).length = p.m := by
    split <;> simp
  have hLm : loop_limit p ≤ p.m := by
    unfold loop_limit; split <;> omega
  obtain ⟨s, rs', h, hl, hg⟩ := sample_secret_loop_zero p (loop_limit p) hB fuel 0 0 (pos + 1)
    (if p.m % 2 = 1 then (List.replicate p.m 0).set (p.m - 1) 0 else List.replicate p.m 0)
    (by omega) (Nat.zero_le _) (by rw [hlen0]; exact hLm)
  refine ⟨s, rs', h, by rw [hl, hlen0], fun i hi => ?_, fun hodd => ?_⟩
  · rw [hg i, if_pos ⟨Nat.zero_le _, hi⟩]
  · have hLo : loop_limit p = p.m - 1 := by unfold loop_limit; rw [if_pos hodd]
    rw [hg, if_neg (by omega), if_pos hodd,
      getD_set _ _ _ _ (by rw [List.length_replicate]; omega), if_pos rfl]

theorem sample_secret_zero_stream_witness :
    ∃ s rs', sample_secret 4 toyParam (zeroStream 0) = some (s, rs') ∧ s.length = toyParam.m ∧
      (∀ i, i < loop_limit toyParam → s.getD i 0 = toyParam.small_coeff_table.getD 0 0) ∧
      (toyParam.m % 2 = 1 → s.getD (toyParam.m - 1) 0 = 0) :=
  sample_secret_zero_stream toyParam (by decide) 0 4 (by decide)

/-! ### Claim C18: Hamming weight of `mu` for `n = 256` -/

theorem nudge_mu_iff (p : RINGLWE_PARAM_DATA) (val : Nat) (st : RcrState) (hqm : p.qmod4 = 1)
    (hq0 : 0 < p.q) (hq : p.q < 2 ^ 64) (hval : val < p.q) (h13 : p.q_1_4 < p.q_3_4)
    (h3 : p.q_3_4 ≤ p.q - 1) :
    (p.q_1_4 < (nudge p val st).1 ∧ (nudge p val st).1 < p.q_3_4) ↔
      (p.q_1_4 < val ∧ val < p.q_3_4) := by
  unfold nudge
  rw [if_pos hqm]
  by_cases h0 : val = 0
  · rw [if_pos h0]
    simp only
    have e : USUB p.q 1 = p.q - 1 := USUB_eq (by omega) hq
    split
    · rw [e]; omega
    · rfl
  · rw [if_neg h0]
    by_cases h1 : val = USUB p.q_1_4 1
    · rw [if_pos h1]
      simp only
      split
      · have hpos : 1 ≤ p.q_1_4 := by
          by_contra hz
          have hz0 : p.q_1_4 = 0 := by omega
          rw [hz0] at h1
          have : USUB 0 1 = 2 ^ 64 - 1 := by decide
          omega
        rw [USUB_eq hpos (by omega)] at h1
        omega
      · rfl
    · rw [if_neg h1]

theorem count_blocks (g : Nat → Nat → Bool) :
    ∀ n, ((List.range n).map (fun w => ((List.range 64).filter (fun j => g w j)).length)).sum =
      ((List.range (64 * n)).filter (fun i => g (i / 64) (i % 64))).length := by
  intro n
  induction n with
  | zero => simp
  | succ n ih =>
    have hr : List.range (n + 1) = List.range n ++ [n] := List.range_succ n
    rw [hr, List.map_append, List.sum_append, ih, Nat.mul_succ, List.range_add,
      List.filter_append, List.length_append, List.filter_map, List.length_map]
    simp only [List.map_cons, List.map_nil, List.sum_cons, List.sum_nil, Nat.add_zero]
    congr 2
    apply List.filter_congr
    intro j hj
    have hj' := List.mem_range.1 hj
    simp only [Function.comp]
    rw [show (64 * n + j) / 64 = n by omega, show (64 * n + j) % 64 = j by omega]

theorem hamming_weight_eq (x : List Nat) :
    hamming_weight x =
      ((List.range (64 * x.length)).filter
        (fun i => (x.getD (i / 64) 0).testBit (i % 64))).length := by
  unfold hamming_weight
  rw [← count_blocks (fun w j => (x.getD w 0).testBit j) x.length]
  conv_lhs => rw [← map_getD_range x, List.map_map]
  rfl

theorem set_bit_word_bound (x : List Nat) (word pos : Nat) (hx : ∀ w ∈ x, w < 2 ^ 64) :
    ∀ w ∈ set_bit x word pos, w < 2 ^ 64 := by
  unfold set_bit
  apply set_bound _ hx
  exact Nat.or_lt_two_pow (getD_lt_of_forall (by norm_num) hx _) (Nat.mod_lt _ (by norm_num))

theorem rcr_run_word_bound (p : RINGLWE_PARAM_DATA) (v : List Nat) (rs : RandomSource) :
    ∀ cnt, ∀ w ∈ (rcr_run p v rs cnt).modular_rnd, w < 2 ^ 64 := by
  intro cnt
  induction cnt with
  | zero =>
    intro w hw
    have hw2 : w ∈ List.replicate p.muwords 0 := hw
    rw [List.eq_of_mem_replicate hw2]
    norm_num
  | succ cnt ih =>
    rw [rcr_run_succ, (rcr_step_fields p v (rcr_run p v rs cnt) cnt).2.2.1]
    split
    · exact set_bit_word_bound _ _ _ ih
    · exact ih

/-- C18. For `n = 256` (`q = 15361`, `qmod4 = 1`, `muwords = 4`) with
`0 <= q_1_4 < q_3_4 <= q-1`, for every `v` with coefficients in `[0,q)` and every random
stream: the `mu` output of `round_and_cross_round` is exactly 4 words of 64 bits, and the
number of one bits in them is the number of `i < 256` with `q_1_4 < v[i] < q_3_4`. -/
theorem mu_hamming_weight_256 (p : RINGLWE_PARAM_DATA) (hm : p.m = 256) (hq : p.q = 15361)
    (hqm : p.qmod4 = 1) (hmu : p.muwords = 4) (h13 : p.q_1_4 < p.q_3_4)
    (h3 : p.q_3_4 ≤ p.q - 1) (v : List Nat) (hv : ∀ i, i < 256 → v.getD i 0 < p.q)
    (rs : RandomSource) :
    (round_and_cross_round p v rs).1.1.length = 4 ∧
    (∀ w ∈ (round_and_cross_round p v rs).1.1, w < 2 ^ 64) ∧
    hamming_weight (round_and_cross_round p v rs).1.1 =
      ((List.range 256).filter
        (fun i => decide (p.q_1_4 < v.getD i 0 ∧ v.getD i 0 < p.q_3_4))).length := by
  have hL : loop_limit p = 256 := by unfold loop_limit; rw [hm]; rfl
  obtain ⟨_, _, hlen, _, hbits, _⟩ := rcr_loop_inv p v rs 256 (by rw [hmu])
  have hmuv : (round_and_cross_round p v rs).1.1 = (rcr_run p v rs 256).modular_rnd := by
    unfold round_and_cross_round
    simp only
    rw [hL]
  rw [hmuv]
  refine ⟨by rw [hlen, hmu], rcr_run_word_bound p v rs 256, ?_⟩
  rw [hamming_weight_eq, hlen, hmu]
  congr 1
  apply List.filter_congr
  intro i hi
  have hi' : i < 256 := List.mem_range.1 hi
  rw [Bool.eq_iff_iff, hbits i, decide_eq_true_iff]
  have hn := nudge_mu_iff p (v.getD i 0) (rcr_run p v rs i) hqm (by omega) (by omega)
    (hv i hi') h13 h3
  constructor
  · intro h; exact hn.1 h.2
  · intro h; exact ⟨hi', hn.2 h⟩

theorem mu_hamming_weight_256_witness :
    (round_and_cross_round param256 (List.replicate 256 5000) (zeroStream 0)).1.1.length = 4 ∧
    (∀ w ∈ (round_and_cross_round param256 (List.replicate 256 5000) (zeroStream 0)).1.1,
      w < 2 ^ 64) ∧
    hamming_weight (round_and_cross_round param256 (List.replicate 256 5000) (zeroStream 0)).1.1 =
      ((List.range 256).filter
        (fun i => decide (param256.q_1_4 < (List.replicate 256 5000).getD i 0 ∧
          (List.replicate 256 5000).getD i 0 < param256.q_3_4))).length :=
  mu_hamming_weight_256 param256 rfl rfl rfl rfl (by decide) (by decide)
    (List.replicate 256 5000)
    (fun i _ => getD_lt_of_forall (by decide)
      (fun c hc => by rw [List.eq_of_mem_replicate hc]; decide) i)
    (zeroStream 0)

/-! ### Claim C19: the bytes of the shared secret -/

theorem key_inner_spec (nchars w : Nat) (ka : List Nat) :
    ∀ n (buf : List Nat), nchars ≤ buf.length →
      ((List.range n).foldl
        (fun buf d =>
          if 8 * w + d < nchars then
            buf.set (8 * w + d) ((ka.getD (8 * w / 8) 0 >>> (8 * ((8 * w + d) &&& 7))) % 256)
          else buf) buf).length = buf.length ∧
      ∀ k, ((List.range n).foldl
        (fun buf d =>
          if 8 * w + d < nchars then
            buf.set (8 * w + d) ((ka.getD (8 * w / 8) 0 >>> (8 * ((8 * w + d) &&& 7))) % 256)
          else buf) buf).getD k 0 =
        if 8 * w ≤ k ∧ k < 8 * w + n ∧ k < nchars then
          (ka.getD (8 * w / 8) 0 >>> (8 * (k &&& 7))) % 256
        else buf.getD k 0 := by
  intro n
  induction n with
  | zero =>
    intro buf _
    refine ⟨rfl, fun k => ?_⟩
    rw [if_neg (by omega)]; rfl
  | succ n ih =>
    intro buf hb
    obtain ⟨l, g⟩ := ih buf hb
    rw [List.range_succ, List.foldl_append]
    simp only [List.foldl_cons, List.foldl_nil]
    by_cases hc : 8 * w + n < nchars
    · rw [if_pos hc]
      refine ⟨by rw [List.length_set, l], fun k => ?_⟩
      rw [getD_set _ _ _ _ (by rw [l]; omega), g k]
      by_cases hk : k = 8 * w + n
      · rw [if_pos hk, if_pos ⟨by omega, by omega, by omega⟩, hk]
      · rw [if_neg hk]
        by_cases h2 : 8 * w ≤ k ∧ k < 8 * w + n ∧ k < nchars
        · rw [if_pos h2, if_pos ⟨h2.1, by omega, h2.2.2⟩]
        · rw [if_neg h2, if_neg (by omega)]
    · rw [if_neg hc]
      refine ⟨l, fun k => ?_⟩
      rw [g k]
      by_cases h2 : 8 * w ≤ k ∧ k < 8 * w + n ∧ k < nchars
      · rw [if_pos h2, if_pos ⟨h2.1, by omega, h2.2.2⟩]
      · rw [if_neg h2, if_neg (by omega)]

theorem key_to_bytes_succ (W nchars : Nat) (ka buf : List Nat) :
    key_to_bytes (W + 1) nchars ka buf =
      (List.range 8).foldl
        (fun buf d =>
          if 8 * W + d < nchars then
            buf.set (8 * W + d) ((ka.getD (8 * W / 8) 0 >>> (8 * ((8 * W + d) &&& 7))) % 256)
          else buf) (key_to_bytes W nchars ka buf) := by
  unfold key_to_bytes
  have hr : List.range (W + 1) = List.range W ++ [W] := List.range_succ W
  rw [hr, List.foldl_append]
  rfl

theorem key_to_bytes_spec (nchars : Nat) (ka : List Nat) :
    ∀ muwords (buf : List Nat), nchars ≤ buf.length →
      (key_to_bytes muwords nchars ka buf).length = buf.length ∧
      ∀ k, (key_to_bytes muwords nchars ka buf).getD k 0 =
        if k < 8 * muwords ∧ k < nchars then (ka.getD (k / 8) 0 >>> (8 * (k % 8))) % 256
        else buf.getD k 0 := by
  intro muwords
  induction muwords with
  | zero =>
    intro buf _
    refine ⟨rfl, fun k => ?_⟩
    rw [if_neg (by omega)]; rfl
  | succ W ih =>
    intro buf hb
    obtain ⟨l, g⟩ := ih buf hb
    rw [key_to_bytes_succ]
    obtain ⟨l2, g2⟩ := key_inner_spec nchars W ka 8 _ (by rw [l]; exact hb)
    refine ⟨by rw [l2, l], fun k => ?_⟩
    rw [g2 k, g k]
    have hand : k &&& 7 = k % 8 := Nat.and_pow_two_sub_one_eq_mod k 3
    by_cases h1 : 8 * W ≤ k ∧ k < 8 * W + 8 ∧ k < nchars
    · rw [if_pos h1, if_pos ⟨by omega, h1.2.2⟩, hand,
        show 8 * W / 8 = k / 8 by omega]
    · rw [if_neg h1]
      by_cases h2 : k < 8 * W ∧ k < nchars
      · rw [if_pos h2, if_pos ⟨by omega, h2.2⟩]
      · rw [if_neg h2, if_neg (by omega)]

theorem key_byte_bits (x k j : Nat) (hj : j < 8) :
    ((x >>> (8 * (k % 8))) % 256).testBit j = x.testBit (8 * (k % 8) + j) := by
  rw [show (256 : Nat) = 2 ^ 8 by norm_num, Nat.testBit_mod_two_pow, Nat.testBit_shiftRight]
  simp [hj]

theorem derive_key_none (buf : List Nat) (nchars outlen : Nat) :
    derive_key buf nchars outlen none =
      (min outlen nchars, buf.take (min outlen nchars), []) := by
  unfold derive_key
  simp only
  have e : (if outlen > nchars then nchars else outlen) = min outlen nchars := by
    split <;> omega
  rw [e]

/-- The bytes copied to `out` when no `KDF` is given. -/
theorem shared_bytes_spec (muwords n outlen : Nat) (mu fresh : List Nat)
    (hn : nchars_of n ≤ 8 * muwords) (hf : fresh.length = nchars_of n) :
    ((key_to_bytes muwords (nchars_of n) mu fresh).take (min outlen (nchars_of n))).length =
      min outlen (nchars_of n) ∧
    ∀ k, k < min outlen (nchars_of n) →
      ((key_to_bytes muwords (nchars_of n) mu fresh).take (min outlen (nchars_of n))).getD k 0
        < 256 ∧
      ∀ j, j < 8 →
        (((key_to_bytes muwords (nchars_of n) mu fresh).take
          (min outlen (nchars_of n))).getD k 0).testBit j = mu_bit mu (8 * k + j) := by
  obtain ⟨l, g⟩ := key_to_bytes_spec (nchars_of n) mu muwords fresh (by omega)
  refine ⟨by rw [List.length_take, l, hf]; omega, fun k hk => ?_⟩
  have hget : ((key_to_bytes muwords (nchars_of n) mu fresh).take
      (min outlen (nchars_of n))).getD k 0 =
      (mu.getD (k / 8) 0 >>> (8 * (k % 8))) % 256 := by
    rw [List.getD_eq_getElem?_getD, List.getElem?_take_of_lt hk, ← List.getD_eq_getElem?_getD,
      g k, if_pos ⟨by omega, by omega⟩]
  rw [hget]
  refine ⟨Nat.mod_lt _ (by norm_num), fun j hj => ?_⟩
  rw [key_byte_bits _ _ _ hj]
  unfold mu_bit
  rw [show (8 * k + j) / 64 = k / 8 by omega, show (8 * k + j) % 64 = 8 * (k % 8) + j by omega]

/-- C19. With no KDF, for keys of one parameter set whose `muwords` words hold the
`ceil(n/8)` bytes: `RINGLWE_compute_key_alice` and `RINGLWE_compute_key_bob` return
`min(outlen, ceil(n/8))` (so `ceil(n/8)`, 43 for `n = 337`, when `outlen >= ceil(n/8)`, and
`outlen` otherwise) and write that many bytes, where bit `j` of output byte `k` is bit
`8k + j` of `mu`, the result of `KEM1_Decapsulate` for Alice and of `KEM1_Encapsulate` for
Bob. -/
theorem compute_key_no_kdf (C : Consts) (s : ParamSet) (fresh : List Nat) (outlen : Nat)
    (hn : nchars_of (C.param s).m ≤ 8 * (C.param s).muwords) (hmu : 1 ≤ (C.param s).muwords)
    (hf : fresh.length = nchars_of (C.param s).m) :
    nchars_of 337 = 43 ∧
    (∀ (bob_pub : RLWE_PUB) (r : RLWE_REC) (alice : RLWE_PAIR),
      bob_pub.param_data = some s → alice.param_data = some s →
      ∃ out, RINGLWE_compute_key_alice C fresh outlen (some bob_pub) (some r) (some alice) none =
          some (min outlen (nchars_of (C.param s).m), out, []) ∧
        out.length = min outlen (nchars_of (C.param s).m) ∧
        ∀ k, k < min outlen (nchars_of (C.param s).m) → out.getD k 0 < 256 ∧
          ∀ j, j < 8 → (out.getD k 0).testBit j =
            mu_bit (KEM1_Decapsulate (C.param s) bob_pub.b (alice.s.drop (C.param s).m) r.c)
              (8 * k + j)) ∧
    (∀ (fuel : Nat) (target : Option RLWE_REC) (alice_pub bob_pub : RLWE_PUB)
      (rs rs' : RandomSource) (u cr mu : List Nat),
      alice_pub.param_data = some s → bob_pub.param_data = some s →
      KEM1_Encapsulate fuel (C.param s) alice_pub.b rs = some ((u, cr, mu), rs') →
      ∃ res, RINGLWE_compute_key_bob C fuel fresh outlen (some target) (some alice_pub)
          (some bob_pub) none rs = some res ∧
        res.ret = min outlen (nchars_of (C.param s).m) ∧ res.errs = [] ∧
        res.out.length = min outlen (nchars_of (C.param s).m) ∧
        ∀ k, k < min outlen (nchars_of (C.param s).m) → res.out.getD k 0 < 256 ∧
          ∀ j, j < 8 → (res.out.getD k 0).testBit j = mu_bit mu (8 * k + j)) := by
  refine ⟨rfl, fun bob_pub r alice hb ha => ?_, ?_⟩
  · obtain ⟨l, g⟩ := shared_bytes_spec (C.param s).muwords (C.param s).m outlen
      (KEM1_Decapsulate (C.param s) bob_pub.b (alice.s.drop (C.param s).m) r.c) fresh hn hf
    refine ⟨_, ?_, l, g⟩
    unfold RINGLWE_compute_key_alice
    simp only
    rw [if_neg (by rw [hb, ha]; exact not_not_intro rfl), ha]
    simp only
    rw [derive_key_none]
    rfl
  · intro fuel target alice_pub bob_pub rs rs' u cr mu ha hb henc
    obtain ⟨l, g⟩ := shared_bytes_spec (C.param s).muwords (C.param s).m outlen mu fresh hn hf
    have halloc : ∃ r, (match target with
        | some r => (some r, [])
        | none => RLWE_REC_new (C.param s).muwords : Option RLWE_REC × List RlweError) =
          (some r, []) := by
      rcases target with _ | r
      · refine ⟨⟨(C.param s).muwords, List.replicate (C.param s).muwords 0⟩, ?_⟩
        simp only [RLWE_REC_new]
        rw [if_neg (by omega)]
      · exact ⟨r, rfl⟩
    obtain ⟨r, hr⟩ := halloc
    refine ⟨⟨min outlen (nchars_of (C.param s).m),
      (key_to_bytes (C.param s).muwords (nchars_of (C.param s).m) mu fresh).take
        (min outlen (nchars_of (C.param s).m)), [], some ⟨r.muwords, cr⟩,
      some ⟨bob_pub.descriptor, bob_pub.param_data, u⟩, rs'⟩, ?_, rfl, rfl, l, g⟩
    unfold RINGLWE_compute_key_bob
    simp only
    rw [if_neg (by rw [hb, ha]; exact not_not_intro rfl), hb]
    simp only
    rw [hr]
    simp only
    rw [henc]
    simp only
    rw [derive_key_none]
    rfl

theorem compute_key_no_kdf_witness :
    ∃ out, RINGLWE_compute_key_alice keyConsts (List.replicate 32 0) 16 (some samplePub)
        (some ⟨4, [0, 0, 0, 0]⟩) (some samplePair) none =
        some (min 16 (nchars_of (keyConsts.param .s256_15361).m), out, []) ∧
      out.length = min 16 (nchars_of (keyConsts.param .s256_15361).m) ∧
      ∀ k, k < min 16 (nchars_of (keyConsts.param .s256_15361).m) → out.getD k 0 < 256 ∧
        ∀ j, j < 8 → (out.getD k 0).testBit j =
          mu_bit (KEM1_Decapsulate (keyConsts.param .s256_15361) samplePub.b
            (samplePair.s.drop (keyConsts.param .s256_15361).m) [0, 0, 0, 0]) (8 * k + j) :=
  (compute_key_no_kdf keyConsts .s256_15361 (List.replicate 32 0) 16 (by decide) (by decide)
    (by decide)).2.1 samplePub ⟨4, [0, 0, 0, 0]⟩ samplePair rfl rfl

/-! ### Claim C20: the bytes of a serialized public key -/

theorem write_coeff_two_getD (x j : Nat) (hj : j < 2) :
    (write_coeff 2 x).getD j 0 = x / 256 ^ (2 - 1 - j) % 256 := by
  unfold write_coeff
  rw [if_neg (by norm_num)]
  rcases Nat.lt_succ_iff_lt_or_eq.1 hj with h | h
  · have h0 : j = 0 := by omega
    subst h0
    simp only [List.getD_cons_zero, byte_of]
    norm_num
  · subst h
    simp only [List.getD_cons_succ, List.getD_cons_zero, byte_low]
    norm_num

theorem descriptor_head (C : Consts) (s : ParamSet) :
    (List.range 12).map (fun i => (descriptor_of C s).getD i 0) =
      [82, 76, 87, 69] ++ be32 (C.param s).m ++ be32 (C.param s).q := by
  unfold descriptor_of
  exact map_getD_prefix _ _ 12 rfl

theorem be32_div (x : Nat) :
    be32 x = [x / 2 ^ 24 % 256, x / 2 ^ 16 % 256, x / 2 ^ 8 % 256, x % 256] := by
  unfold be32
  simp only [byte_of, byte_low, Nat.shiftRight_eq_div_pow]

/-- C20. For every supported parameter set and every public key of that set (parameter record
and descriptor of the context `RLWE_CTX_new` creates), `i2o_RLWE_PUB` returns
`32 + n*bytesPerCoeff` (544 for `n = 256`, `q = 15361`) and writes that many bytes: the 32
bytes of the descriptor, then coefficient `i` big-endian in the `bytesPerCoeff` bytes from
`32 + bytesPerCoeff*i`; the descriptor starts with `"RLWE"` (`52 4C 57 45`), then `n` and `q`
as 4 big-endian bytes each (`00 00 01 00 00 00 3C 01` for `n = 256`, `q = 15361`). -/
theorem i2o_RLWE_PUB_layout (C : Consts) (hC : C.WF) (s : ParamSet) (ctx : RLWE_CTX)
    (hctx : (RLWE_CTX_new C (C.NID s)).1 = some ctx) (pub : RLWE_PUB)
    (hp : pub.param_data = some ctx.param_data) (hd : pub.descriptor = ctx.descriptor) :
    (i2o_RLWE_PUB C pub).1 = 32 + s.m * bytesPerCoeff s.q ∧
    (i2o_RLWE_PUB C pub).2.1.length = 32 + s.m * bytesPerCoeff s.q ∧
    (i2o_RLWE_PUB C pub).2.2 = [] ∧
    first32 (i2o_RLWE_PUB C pub).2.1 = ctx.descriptor ∧
    (∀ i j, i < s.m → j < bytesPerCoeff s.q →
      (i2o_RLWE_PUB C pub).2.1.getD (32 + bytesPerCoeff s.q * i + j) 0 =
        pub.b.getD i 0 / 256 ^ (bytesPerCoeff s.q - 1 - j) % 256) ∧
    (List.range 12).map (fun i => ctx.descriptor.getD i 0) =
      [0x52, 0x4C, 0x57, 0x45, s.m / 2 ^ 24 % 256, s.m / 2 ^ 16 % 256, s.m / 2 ^ 8 % 256,
        s.m % 256, s.q / 2 ^ 24 % 256, s.q / 2 ^ 16 % 256, s.q / 2 ^ 8 % 256, s.q % 256] ∧
    (s = .s256_15361 → (i2o_RLWE_PUB C pub).1 = 544 ∧
      (List.range 12).map (fun i => ctx.descriptor.getD i 0) =
        [0x52, 0x4C, 0x57, 0x45, 0x00, 0x00, 0x01, 0x00, 0x00, 0x00, 0x3C, 0x01]) := by
  obtain ⟨e1, e2⟩ := hC.ctx_fields s ctx hctx
  rw [e2] at hp
  rw [e1] at hd
  have hhead : (List.range 12).map (fun i => ctx.descriptor.getD i 0) =
      [0x52, 0x4C, 0x57, 0x45, s.m / 2 ^ 24 % 256, s.m / 2 ^ 16 % 256, s.m / 2 ^ 8 % 256,
        s.m % 256, s.q / 2 ^ 24 % 256, s.q / 2 ^ 16 % 256, s.q / 2 ^ 8 % 256, s.q % 256] := by
    rw [e1, descriptor_head, hC.m_eq, hC.q_eq, be32_div, be32_div]
    rfl
  rw [i2o_RLWE_PUB_bytes hC s pub hp hd, bytesPerCoeff_eq, e1]
  obtain ⟨_, hg⟩ := flatMap_range_chunks (fun i => write_coeff 2 (pub.b.getD i 0)) 2
    (fun i => write_coeff_two_length _) s.m
  refine ⟨rfl, serial_length _ (descriptor_of_length C s) _ _, rfl,
    first32_prefix _ _ (descriptor_of_length C s), fun i j hi hj => ?_, ?_, fun hs => ?_⟩
  · simp only
    rw [List.getD_append_right _ _ _ _ (by rw [descriptor_of_length]; omega),
      descriptor_of_length, show 32 + 2 * i + j - 32 = 2 * i + j by omega, hg i j hi hj]
    exact write_coeff_two_getD _ j hj
  · rw [← e1]; exact hhead
  · rw [← e1, hhead, hs]
    exact ⟨rfl, rfl⟩

theorem i2o_RLWE_PUB_layout_witness :
    (i2o_RLWE_PUB sampleConsts samplePub).1 = 544 ∧
      (List.range 12).map (fun i => (descriptor_of sampleConsts .s256_15361).getD i 0) =
        [0x52, 0x4C, 0x57, 0x45, 0x00, 0x00, 0x01, 0x00, 0x00, 0x00, 0x3C, 0x01] :=
  (i2o_RLWE_PUB_layout sampleConsts sampleConsts_wf .s256_15361
    ⟨descriptor_of sampleConsts .s256_15361, 9, .s256_15361⟩ rfl samplePub rfl rfl).2.2.2.2.2.2
    rfl

/-! ### Claim C21: keys of different parameter sets -/

/-- C21. When the two keys carry different parameter records, `RINGLWE_compute_key_alice`
and `RINGLWE_compute_key_bob` push `PARAM_INVALID` and return `0`; no byte of `out` is
written, and for Bob neither the public key nor `*reconciliation` is modified and no
randomness is used. -/
theorem compute_key_param_mismatch (C : Consts) (fresh : List Nat) (outlen : Nat)
    (KDF : Option (List Nat → Nat → Option (List Nat × Nat))) :
    (∀ (bob_pub : RLWE_PUB) (r : RLWE_REC) (alice : RLWE_PAIR),
      bob_pub.param_data ≠ alice.param_data →
      RINGLWE_compute_key_alice C fresh outlen (some bob_pub) (some r) (some alice) KDF =
        some (0, [], [RlweError.PARAM_INVALID])) ∧
    (∀ (fuel : Nat) (target : Option RLWE_REC) (alice_pub bob_pub : RLWE_PUB)
      (rs : RandomSource), alice_pub.param_data ≠ bob_pub.param_data →
      RINGLWE_compute_key_bob C fuel fresh outlen (some target) (some alice_pub) (some bob_pub)
          KDF rs =
        some ⟨0, [], [RlweError.PARAM_INVALID], target, some bob_pub, rs⟩) := by
  constructor
  · intro bob_pub r alice h
    unfold RINGLWE_compute_key_alice
    simp only
    rw [if_pos h]
  · intro fuel target alice_pub bob_pub rs h
    unfold RINGLWE_compute_key_bob
    simp only
    rw [if_pos h]
    rfl

theorem compute_key_param_mismatch_witness :
    RINGLWE_compute_key_alice sampleConsts [] 16 (some samplePub512) (some sampleRec)
        (some samplePair) none =
      some (0, [], [RlweError.PARAM_INVALID]) :=
  (compute_key_param_mismatch sampleConsts [] 16 none).1 samplePub512 sampleRec samplePair
    (by decide)

/-! ### Claim C23: the CRT step of the Bluestein transforms -/

theorem CRT_combine_eq (r0 r1 : Nat) (h0 : r0 < Bluestein_q0) (h1 : r1 < Bluestein_q1) :
    CRT_combine r0 r1 =
      ((Bluestein_q0q1 - (Bluestein_h1 * r0) % Bluestein_q0q1) + Bluestein_h0 * r1) %
        Bluestein_q0q1 := by
  unfold CRT_combine
  simp only [Bluestein_q0, Bluestein_q1, Bluestein_h0, Bluestein_h1, Bluestein_q0q1] at *
  have e1 : (17633281 * r0) % 2 ^ 64 = 17633281 * r0 := Nat.mod_eq_of_lt (by omega)
  have e2 : (17633282 * r1) % 2 ^ 64 = 17633282 * r1 := Nat.mod_eq_of_lt (by omega)
  have e3 : (17633281 * r0) % 155466308229121 = 17633281 * r0 := Nat.mod_eq_of_lt (by omega)
  have e4 : (155466308229121 - 17633281 * r0 + 17633282 * r1) % 2 ^ 64 =
      155466308229121 - 17633281 * r0 + 17633282 * r1 := Nat.mod_eq_of_lt (by omega)
  rw [e1, e2, e3, USUB_eq (by omega) (by norm_num), e4]

theorem CRT_combine_mod (r0 r1 : Nat) (h0 : r0 < Bluestein_q0) (h1 : r1 < Bluestein_q1) :
    CRT_combine r0 r1 < Bluestein_q0 * Bluestein_q1 ∧
    CRT_combine r0 r1 % Bluestein_q0 = r0 ∧ CRT_combine r0 r1 % Bluestein_q1 = r1 := by
  rw [CRT_combine_eq r0 r1 h0 h1]
  simp only [Bluestein_q0, Bluestein_q1, Bluestein_h0, Bluestein_h1, Bluestein_q0q1] at *
  have e3 : (17633281 * r0) % 155466308229121 = 17633281 * r0 := Nat.mod_eq_of_lt (by omega)
  rw [e3]
  refine ⟨by omega, ?_, ?_⟩
  · omega
  · omega

theorem Bluestein_coprime : Nat.Coprime Bluestein_q0 Bluestein_q1 := by
  unfold Bluestein_q0 Bluestein_q1
  norm_num

/-- C23. For `q0 = 8816641`, `q1 = 17633281`, `h0 = q1 + 1`, `h1 = q1` and
`q0q1 = q0*q1 = 155466308229121`: for every `r0 < q0` and `r1 < q1` the combine step computes
`y = ((q0q1 - (h1*r0 mod q0q1)) + h0*r1) mod q0q1`, which is the unique `y < q0*q1` with
`y = r0 (mod q0)` and `y = r1 (mod q1)`, and every intermediate value is below `2^63`. -/
theorem CRT_combine_spec (r0 r1 : Nat) (h0 : r0 < Bluestein_q0) (h1 : r1 < Bluestein_q1) :
    Bluestein_q0q1 = Bluestein_q0 * Bluestein_q1 ∧ Bluestein_h0 = Bluestein_q1 + 1 ∧
    Bluestein_h1 = Bluestein_q1 ∧
    CRT_combine r0 r1 =
      ((Bluestein_q0q1 - (Bluestein_h1 * r0) % Bluestein_q0q1) + Bluestein_h0 * r1) %
        Bluestein_q0q1 ∧
    CRT_combine r0 r1 < Bluestein_q0 * Bluestein_q1 ∧
    CRT_combine r0 r1 % Bluestein_q0 = r0 ∧ CRT_combine r0 r1 % Bluestein_q1 = r1 ∧
    (∀ y, y < Bluestein_q0 * Bluestein_q1 → y % Bluestein_q0 = r0 → y % Bluestein_q1 = r1 →
      y = CRT_combine r0 r1) ∧
    Bluestein_h1 * r0 < 2 ^ 63 ∧ Bluestein_h0 * r1 < 2 ^ 63 ∧
    (Bluestein_q0q1 - (Bluestein_h1 * r0) % Bluestein_q0q1) + Bluestein_h0 * r1 < 2 ^ 63 := by
  obtain ⟨hlt, hm0, hm1⟩ := CRT_combine_mod r0 r1 h0 h1
  refine ⟨by decide, rfl, rfl, CRT_combine_eq r0 r1 h0 h1, hlt, hm0, hm1, fun y hy hy0 hy1 => ?_,
    ?_, ?_, ?_⟩
  · have e0 : y ≡ CRT_combine r0 r1 [MOD Bluestein_q0] := by
      unfold Nat.ModEq; rw [hy0, hm0]
    have e1 : y ≡ CRT_combine r0 r1 [MOD Bluestein_q1] := by
      unfold Nat.ModEq; rw [hy1, hm1]
    exact Nat.ModEq.eq_of_lt_of_lt
      ((Nat.modEq_and_modEq_iff_modEq_mul Bluestein_coprime).1 ⟨e0, e1⟩) hy hlt
  · simp only [Bluestein_q0, Bluestein_h1] at *; omega
  · simp only [Bluestein_q1, Bluestein_h0] at *; omega
  · simp only [Bluestein_q0, Bluestein_q1, Bluestein_h0, Bluestein_h1, Bluestein_q0q1] at *
    omega

theorem CRT_combine_spec_witness :
    CRT_combine 5 7 % Bluestein_q0 = 5 ∧ CRT_combine 5 7 % Bluestein_q1 = 7 :=
  ⟨(CRT_combine_spec 5 7 (by decide) (by decide)).2.2.2.2.2.1,
    (CRT_combine_spec 5 7 (by decide) (by decide)).2.2.2.2.2.2.1⟩

/-! ### Claim C24: operand sizes for the two auxiliary primes -/

/-- C24 (as amended). For `q0 = 8816641` every operand reduced modulo `q0` is below `2^24`
and every product of two such operands is below `2^48`; for `q1 = 17633281`, which is above
`2^24`, every reduced operand is below `2^25` and every product of two is below `2^49`.  In
both cases the product fits the 64-bit variable of `MUL_MOD`, which so returns the product
modulo the prime. -/
theorem aux_prime_operand_bounds (a b : Nat) :
    (a < Bluestein_q0 → b < Bluestein_q0 →
      a < 2 ^ 24 ∧ a * b < 2 ^ 48 ∧ MUL_MOD a b Bluestein_q0 = (a * b) % Bluestein_q0 ∧
      MUL_MOD a b Bluestein_q0 < 2 ^ 24) ∧
    (a < Bluestein_q1 → b < Bluestein_q1 →
      a < 2 ^ 25 ∧ a * b < 2 ^ 49 ∧ MUL_MOD a b Bluestein_q1 = (a * b) % Bluestein_q1 ∧
      MUL_MOD a b Bluestein_q1 < 2 ^ 25) := by
  constructor
  · intro ha hb
    unfold Bluestein_q0 at *
    have hab : a * b < 2 ^ 24 * 2 ^ 24 := Nat.mul_lt_mul'' (by omega) (by omega)
    have h48 : a * b < 2 ^ 48 := by
      have e : (2 : Nat) ^ 24 * 2 ^ 24 = 2 ^ 48 := by norm_num
      omega
    have hm : MUL_MOD a b 8816641 < 8816641 := MUL_MOD_lt a b (by norm_num)
    exact ⟨by omega, h48, MUL_MOD_eq _ (by omega), by omega⟩
  · intro ha hb
    unfold Bluestein_q1 at *
    have hab : a * b < 17633281 * 17633281 := Nat.mul_lt_mul'' ha hb
    have h49 : a * b < 2 ^ 49 := by
      have e : (17633281 : Nat) * 17633281 < 2 ^ 49 := by norm_num
      omega
    have hm : MUL_MOD a b 17633281 < 17633281 := MUL_MOD_lt a b (by norm_num)
    exact ⟨by omega, h49, MUL_MOD_eq _ (by omega), by omega⟩

theorem aux_prime_operand_bounds_witness :
    (17633280 : Nat) < 2 ^ 25 ∧ 17633280 * 17633280 < 2 ^ 49 ∧
      MUL_MOD 17633280 17633280 Bluestein_q1 = (17633280 * 17633280) % Bluestein_q1 ∧
      MUL_MOD 17633280 17633280 Bluestein_q1 < 2 ^ 25 :=
  (aux_prime_operand_bounds 17633280 17633280).2 (by decide) (by decide)

/-- C24 (counterexample). `17633280 = q1 - 1` is reduced modulo `q1 = 17633281` but is not
below `2^24`, and its square, the product `MUL_MOD` forms for the two operands, is not below
`2^48`. -/
theorem aux_prime_q1_exceeds_24_bits :
    17633280 < Bluestein_q1 ∧ ¬ (17633280 < 2 ^ 24) ∧ ¬ (17633280 * 17633280 < 2 ^ 48) ∧
      MUL_MOD 17633280 17633280 Bluestein_q1 = 1 := by
  decide

/-! ### Claim C25: the twisted inverse returns reduced coefficients -/

theorem CT_butterfly_bound {q : Nat} (hq0 : 0 < q) (hq : q < 2 ^ 63) (w m : Nat) (x : List Nat)
    (i : Nat) (hx : ∀ c ∈ x, c < 2 * q) : ∀ c ∈ CT_butterfly q w m x i, c < 2 * q := by
  have ha : x.getD i 0 < 2 * q := getD_lt_of_forall (by omega) hx i
  have ht1 : MUL_MOD (x.getD (i + m) 0) w q < q := MUL_MOD_lt _ _ hq0
  have ht0 : (if x.getD i 0 ≥ q then x.getD i 0 - q else x.getD i 0) < q := by
    split <;> omega
  unfold CT_butterfly
  simp only
  apply set_bound
  · apply set_bound _ hx
    rw [ADD_eq (by omega)]
    omega
  · rw [USUB_eq (by omega) (by omega), ADD_eq (by omega)]
    omega

theorem loop_i_bound {q : Nat} (hq0 : 0 < q) (hq : q < 2 ^ 63) (w n m : Nat) :
    ∀ fuel i (x : List Nat), (∀ c ∈ x, c < 2 * q) →
      ∀ c ∈ loop_i (CT_butterfly q w m) n m fuel i x, c < 2 * q := by
  intro fuel
  induction fuel with
  | zero => intro i x hx; exact hx
  | succ fuel ih =>
    intro i x hx
    rw [loop_i]
    split
    · exact ih _ _ (CT_butterfly_bound hq0 hq w m x i hx)
    · exact hx

theorem loop_j_bound {q : Nat} (hq0 : 0 < q) (hq : q < 2 ^ 63) (T : List Nat) (n m step : Nat) :
    ∀ fuel j index (x : List Nat), (∀ c ∈ x, c < 2 * q) →
      ∀ c ∈ loop_j (CT_butterfly q) T n m step fuel j index x, c < 2 * q := by
  intro fuel
  induction fuel with
  | zero => intro j index x hx; exact hx
  | succ fuel ih =>
    intro j index x hx
    rw [loop_j]
    split
    · exact ih _ _ _ (loop_i_bound hq0 hq _ n m n j x hx)
    · exact hx

theorem backward_levels_bound {q : Nat} (hq0 : 0 < q) (hq : q < 2 ^ 63) (n : Nat) (T : List Nat) :
    ∀ fuel m step (x : List Nat), (∀ c ∈ x, c < 2 * q) →
      ∀ c ∈ backward_levels q n T fuel m step x, c < 2 * q := by
  intro fuel
  induction fuel with
  | zero => intro m step x hx; exact hx
  | succ fuel ih =>
    intro m step x hx
    rw [backward_levels]
    split
    · exact ih _ _ _ (loop_j_bound hq0 hq T n m step n 0 0 x hx)
    · exact hx

theorem loop_i_length (q w n m : Nat) :
    ∀ fuel i (x : List Nat), (loop_i (CT_butterfly q w m) n m fuel i x).length = x.length := by
  intro fuel
  induction fuel with
  | zero => intro i x; rfl
  | succ fuel ih =>
    intro i x
    rw [loop_i]
    split
    · rw [ih, (CT_isBfly q).len]
    · rfl

theorem loop_j_length (q : Nat) (T : List Nat) (n m step : Nat) :
    ∀ fuel j index (x : List Nat),
      (loop_j (CT_butterfly q) T n m step fuel j index x).length = x.length := by
  intro fuel
  induction fuel with
  | zero => intro j index x; rfl
  | succ fuel ih =>
    intro j index x
    rw [loop_j]
    split
    · rw [ih, loop_i_length]
    · rfl

theorem backward_levels_length (q n : Nat) (T : List Nat) :
    ∀ fuel m step (x : List Nat), (backward_levels q n T fuel m step x).length = x.length := by
  intro fuel
  induction fuel with
  | zero => intro m step x; rfl
  | succ fuel ih =>
    intro m step x
    rw [backward_levels]
    split
    · rw [ih, loop_j_length]
    · rfl

theorem twisted_backward_lt {n q : Nat} (hq0 : 0 < q) (hn : n % 2 = 0) (A B : List Nat)
    (x : List Nat) (hx : x.length = n) (i : Nat) (hi : i < n) :
    (FFT_twisted_backward n q A B x).getD i 0 < q := by
  unfold FFT_twisted_backward
  simp only
  rw [(twist_top q A B n hn _ (by rw [backward_levels_length, hx])).2 i hi]
  exact MUL_MOD_lt _ _ hq0

/-- C25. For every input `x` with all coefficients in `[0,q)` and any table contents, every
coefficient returned by `FFT_twisted_backward_512_25601` and `FFT_twisted_backward_1024_40961`
lies in `[0,q)`, although the twisted inverse has no final conditional subtraction; after any
number of butterfly levels every stored value is below `2q`, each butterfly keeps this bound,
and its conditional subtraction on `t0` yields a value below `q`. -/
theorem twisted_backward_reduced (T : Twiddles) (x : List Nat) :
    (x.length = 512 → (∀ c ∈ x, c < 25601) →
      (∀ i, i < 512 →
        (FFT_twisted_backward 512 25601 T.W_rev T.W_sqrt_rev x).getD i 0 < 25601) ∧
      (∀ fuel m step, ∀ c ∈ backward_levels 25601 512 T.W_rev fuel m step x, c < 2 * 25601)) ∧
    (x.length = 1024 → (∀ c ∈ x, c < 40961) →
      (∀ i, i < 1024 →
        (FFT_twisted_backward 1024 40961 T.W_rev T.W_sqrt_rev x).getD i 0 < 40961) ∧
      (∀ fuel m step, ∀ c ∈ backward_levels 40961 1024 T.W_rev fuel m step x, c < 2 * 40961)) ∧
    (∀ q, q = 25601 ∨ q = 40961 → ∀ (w m i : Nat) (y : List Nat), (∀ c ∈ y, c < 2 * q) →
      (if y.getD i 0 ≥ q then y.getD i 0 - q else y.getD i 0) < q ∧
      ∀ c ∈ CT_butterfly q w m y i, c < 2 * q) := by
  refine ⟨fun hl hx => ⟨fun i hi => ?_, fun fuel m step => ?_⟩,
    fun hl hx => ⟨fun i hi => ?_, fun fuel m step => ?_⟩, fun q hq w m i y hy => ⟨?_, ?_⟩⟩
  · exact twisted_backward_lt (by norm_num) (by norm_num) _ _ x hl i hi
  · exact backward_levels_bound (by norm_num) (by norm_num) 512 T.W_rev fuel m step x
      (fun c hc => by have := hx c hc; omega)
  · exact twisted_backward_lt (by norm_num) (by norm_num) _ _ x hl i hi
  · exact backward_levels_bound (by norm_num) (by norm_num) 1024 T.W_rev fuel m step x
      (fun c hc => by have := hx c hc; omega)
  · have ha : y.getD i 0 < 2 * q := getD_lt_of_forall (by omega) hy i
    split <;> omega
  · exact CT_butterfly_bound (by omega) (by omega) w m y i hy

theorem twisted_backward_reduced_witness :
    (∀ i, i < 512 →
      (FFT_twisted_backward 512 25601 (unitTwiddles 512).W_rev (unitTwiddles 512).W_sqrt_rev
        (List.replicate 512 7)).getD i 0 < 25601) ∧
    (∀ fuel m step, ∀ c ∈ backward_levels 25601 512 (unitTwiddles 512).W_rev fuel m step
      (List.replicate 512 7), c < 2 * 25601) :=
  (twisted_backward_reduced (unitTwiddles 512) (List.replicate 512 7)).1
    (List.length_replicate _ _)
    (fun c hc => by rw [List.eq_of_mem_replicate hc]; norm_num)

/-! ### Claim C26: how many draws `sample_secret` takes from one random word -/

set_option maxRecDepth 100000 in
/-- C26 (the code departs from the claim). With `LOG2B = 3` the random word is replaced when
`shifts * 3 >= 64`, that is after 22 draws, not after `64/3 = 21`: draw number 21 is still
taken from the first word, at bit offset 63, where one bit is left.  On the stream of
all-ones words every draw at a full offset is `7` (rejected, as `7 >= BB = 5`) and the 22nd
draw of each word is `1` (accepted), so `sample_secret` returns four times
`small_coeff_table[1]` and has then fetched five words. -/
theorem sample_secret_short_last_draw :
    draw param3bit (onesStream 0) 20 = 7 ∧ draw param3bit (onesStream 0) 21 = 1 ∧
    (draw_state param3bit (onesStream 0) 21).2.1 = 21 ∧
    (draw_state param3bit (onesStream 0) 21).2.2 = onesStream 1 ∧
    (draw_state param3bit (onesStream 0) 22).2.2 = onesStream 2 ∧
    sample_secret 88 param3bit (onesStream 0) = some ([16, 16, 16, 16], onesStream 5) := by
  refine ⟨?_, ?_, ?_, ?_, ?_, ?_⟩ <;> rfl

/-! ### Claim C27: the random bits used by `round_and_cross_round` -/

theorem nudge_cases (p : RINGLWE_PARAM_DATA) (val : Nat) (st : RcrState) (hq0 : 1 ≤ p.q)
    (hq : p.q < 2 ^ 64) (h1 : 1 ≤ p.q_1_4) (h1b : p.q_1_4 < 2 ^ 64) (h3 : 1 ≤ p.q_3_4)
    (h3b : p.q_3_4 < 2 ^ 64) :
    nudge p val st =
      if val = 0 then ((if st.r &&& 1 ≠ 0 then p.q - 1 else 0), next_rbit st)
      else if val = second_boundary p then
        ((if st.r &&& 1 ≠ 0 then second_boundary p + 1 else val), next_rbit st)
      else (val, st) := by
  have eq : USUB p.q 1 = p.q - 1 := USUB_eq hq0 hq
  have e1 : USUB p.q_1_4 1 = p.q_1_4 - 1 := USUB_eq h1 h1b
  have e3 : USUB p.q_3_4 1 = p.q_3_4 - 1 := USUB_eq h3 h3b
  unfold nudge second_boundary
  rw [eq, e1, e3]
  by_cases hm : p.qmod4 = 1
  · rw [if_pos hm, if_pos hm]
    by_cases h0 : val = 0
    · rw [if_pos h0, if_pos h0, h0]
    · rw [if_neg h0, if_neg h0, show p.q_1_4 - 1 + 1 = p.q_1_4 by omega]
  · rw [if_neg hm, if_neg hm]
    by_cases h0 : val = 0
    · rw [if_pos h0, if_pos h0, h0]
    · rw [if_neg h0, if_neg h0, show p.q_3_4 - 1 + 1 = p.q_3_4 by omega]

theorem rcr_step_random (p : RINGLWE_PARAM_DATA) (v : List Nat) (st : RcrState) (i : Nat) :
    (rcr_step p v st i).r = (nudge p (v.getD i 0) st).2.r ∧
    (rcr_step p v st i).rbit = (nudge p (v.getD i 0) st).2.rbit ∧
    (rcr_step p v st i).rs = (nudge p (v.getD i 0) st).2.rs := by
  unfold rcr_step
  simp only
  split <;> exact ⟨rfl, rfl, rfl⟩

theorem events_before_succ (p : RINGLWE_PARAM_DATA) (v : List Nat) (i : Nat) :
    events_before p v (i + 1) =
      events_before p v i + (if at_boundary p v i = true then 1 else 0) := by
  unfold events_before
  have hr : List.range (i + 1) = List.range i ++ [i] := List.range_succ i
  rw [hr, List.filter_append, List.length_append]
  congr 1
  by_cases h : at_boundary p v i = true
  · rw [if_pos h]; simp [h]
  · rw [if_neg h]; simp [h]

theorem next_rbit_inv (rs : RandomSource) (st : RcrState) (K : Nat)
    (h1 : st.rbit = K % 64) (h2 : st.r = stream_word rs (K / 64) >>> (K % 64))
    (h3 : st.rs = ⟨rs.words, rs.pos + 1 + K / 64⟩) :
    (next_rbit st).rbit = (K + 1) % 64 ∧
    (next_rbit st).r = stream_word rs ((K + 1) / 64) >>> ((K + 1) % 64) ∧
    (next_rbit st).rs = ⟨rs.words, rs.pos + 1 + (K + 1) / 64⟩ := by
  unfold next_rbit
  by_cases h : st.rbit + 1 ≥ 64
  · rw [if_pos h]
    have hk : K % 64 = 63 := by have := Nat.mod_lt K (show 64 > 0 by norm_num); omega
    have e1 : (K + 1) % 64 = 0 := by omega
    have e2 : (K + 1) / 64 = K / 64 + 1 := by omega
    rw [e1, e2, h3]
    refine ⟨rfl, ?_, rfl⟩
    show (RANDOM64 ⟨rs.words, rs.pos + 1 + K / 64⟩).1 = _
    unfold RANDOM64 stream_word
    simp only [Nat.shiftRight_zero]
    rw [show rs.pos + 1 + K / 64 = rs.pos + (K / 64 + 1) by omega]
  · rw [if_neg h]
    have hk : K % 64 < 63 := by omega
    have e1 : (K + 1) % 64 = K % 64 + 1 := by omega
    have e2 : (K + 1) / 64 = K / 64 := by omega
    rw [e1, e2]
    refine ⟨by show st.rbit + 1 = _; rw [h1], ?_, h3⟩
    show st.r >>> 1 = _
    rw [h2, Nat.shiftRight_add]

theorem rcr_random_inv (p : RINGLWE_PARAM_DATA) (v : List Nat) (rs : RandomSource)
    (hq0 : 1 ≤ p.q) (hq : p.q < 2 ^ 64) (h1 : 1 ≤ p.q_1_4) (h1b : p.q_1_4 < 2 ^ 64)
    (h3 : 1 ≤ p.q_3_4) (h3b : p.q_3_4 < 2 ^ 64) :
    ∀ i, (rcr_run p v rs i).rbit = events_before p v i % 64 ∧
      (rcr_run p v rs i).r =
        stream_word rs (events_before p v i / 64) >>> (events_before p v i % 64) ∧
      (rcr_run p v rs i).rs = ⟨rs.words, rs.pos + 1 + events_before p v i / 64⟩ := by
  intro i
  induction i with
  | zero =>
    have e0 : events_before p v 0 = 0 := rfl
    rw [e0]
    refine ⟨rfl, ?_, rfl⟩
    show (RANDOM64 rs).1 = _
    unfold RANDOM64 stream_word
    simp
  | succ i ih =>
    obtain ⟨g1, g2, g3⟩ := ih
    obtain ⟨f1, f2, f3⟩ := rcr_step_random p v (rcr_run p v rs i) i
    rw [rcr_run_succ, f1, f2, f3, nudge_cases p _ _ hq0 hq h1 h1b h3 h3b, events_before_succ]
    by_cases hb : at_boundary p v i = true
    · rw [if_pos hb]
      have hb2 : v.getD i 0 = 0 ∨ v.getD i 0 = second_boundary p := by
        unfold at_boundary at hb; exact of_decide_eq_true hb
      by_cases h0 : v.getD i 0 = 0
      · rw [if_pos h0]
        exact next_rbit_inv rs _ _ g1 g2 g3
      · rw [if_neg h0, if_pos (hb2.resolve_left h0)]
        exact next_rbit_inv rs _ _ g1 g2 g3
    · rw [if_neg hb, Nat.add_zero]
      have hb2 : ¬ (v.getD i 0 = 0 ∨ v.getD i 0 = second_boundary p) := by
        unfold at_boundary at hb
        intro hh; exact hb (decide_eq_true hh)
      rw [if_neg (fun hh => hb2 (Or.inl hh)), if_neg (fun hh => hb2 (Or.inr hh))]
      exact ⟨g1, g2, g3⟩

/-- C27. In `round_and_cross_round`, with `K` the number of coefficients among `v[0..i)` that
equal `0` or the second boundary (`q_1_4 - 1` when `qmod4 = 1`, otherwise `q_3_4 - 1`): after
`i` coefficients exactly `K` random bits have been consumed (the bit counter is `K mod 64` and
`1 + floor(K/64)` words have been fetched); a coefficient at a boundary uses bit `K mod 64` of
the `floor(K/64)`-th random word and is moved (`0` to `q-1`, the boundary to the boundary
plus one) iff that bit is 1; every other coefficient is used unchanged and leaves the random
state as it is.  The fields `q`, `q_1_4`, `q_3_4` are positive 64-bit values. -/
theorem rcr_random_bits (p : RINGLWE_PARAM_DATA) (v : List Nat) (rs : RandomSource)
    (hq0 : 1 ≤ p.q) (hq : p.q < 2 ^ 64) (h1 : 1 ≤ p.q_1_4) (h1b : p.q_1_4 < 2 ^ 64)
    (h3 : 1 ≤ p.q_3_4) (h3b : p.q_3_4 < 2 ^ 64) (i : Nat) :
    (rcr_run p v rs i).rbit = events_before p v i % 64 ∧
    (rcr_run p v rs i).rs = ⟨rs.words, rs.pos + 1 + events_before p v i / 64⟩ ∧
    events_before p v (i + 1) =
      events_before p v i +
        (if v.getD i 0 = 0 ∨ v.getD i 0 = second_boundary p then 1 else 0) ∧
    nudged p v rs i =
      (if v.getD i 0 = 0 then (if stream_bit rs (events_before p v i) = true then p.q - 1 else 0)
       else if v.getD i 0 = second_boundary p then
        (if stream_bit rs (events_before p v i) = true then second_boundary p + 1
          else v.getD i 0)
       else v.getD i 0) := by
  obtain ⟨g1, g2, g3⟩ := rcr_random_inv p v rs hq0 hq h1 h1b h3 h3b i
  refine ⟨g1, g3, ?_, ?_⟩
  · rw [events_before_succ]
    congr 1
    unfold at_boundary
    by_cases h : v.getD i 0 = 0 ∨ v.getD i 0 = second_boundary p
    · rw [if_pos (decide_eq_true h), if_pos h]
    · rw [if_neg (by simpa using h), if_neg h]
  · have hbit : ((rcr_run p v rs i).r &&& 1 ≠ 0) ↔ stream_bit rs (events_before p v i) = true := by
      rw [g2]
      exact shift_and_one_ne_zero _ _
    unfold nudged
    rw [nudge_cases p _ _ hq0 hq h1 h1b h3 h3b]
    by_cases h0 : v.getD i 0 = 0
    · rw [if_pos h0, if_pos h0]
      simp only
      by_cases hb : stream_bit rs (events_before p v i) = true
      · rw [if_pos (hbit.2 hb), if_pos hb]
      · rw [if_neg (fun hh => hb (hbit.1 hh)), if_neg hb]
    · rw [if_neg h0, if_neg h0]
      by_cases h2 : v.getD i 0 = second_boundary p
      · rw [if_pos h2, if_pos h2]
        simp only
        by_cases hb : stream_bit rs (events_before p v i) = true
        · rw [if_pos (hbit.2 hb), if_pos hb]
        · rw [if_neg (fun hh => hb (hbit.1 hh)), if_neg hb]
      · rw [if_neg h2, if_neg h2]

theorem rcr_random_bits_witness :
    (rcr_run toyParam [0, 3, 9, 8] (countingStream 0) 1).rbit =
      events_before toyParam [0, 3, 9, 8] 1 % 64 ∧
    (rcr_run toyParam [0, 3, 9, 8] (countingStream 0) 1).rs =
      ⟨(countingStream 0).words,
        (countingStream 0).pos + 1 + events_before toyParam [0, 3, 9, 8] 1 / 64⟩ ∧
    events_before toyParam [0, 3, 9, 8] (1 + 1) =
      events_before toyParam [0, 3, 9, 8] 1 +
        (if ([0, 3, 9, 8] : List Nat).getD 1 0 = 0 ∨
            ([0, 3, 9, 8] : List Nat).getD 1 0 = second_boundary toyParam then 1 else 0) ∧
    nudged toyParam [0, 3, 9, 8] (countingStream 0) 1 =
      (if ([0, 3, 9, 8] : List Nat).getD 1 0 = 0 then
        (if stream_bit (countingStream 0) (events_before toyParam [0, 3, 9, 8] 1) = true then
          toyParam.q - 1 else 0)
       else if ([0, 3, 9, 8] : List Nat).getD 1 0 = second_boundary toyParam then
        (if stream_bit (countingStream 0) (events_before toyParam [0, 3, 9, 8] 1) = true then
          second_boundary toyParam + 1 else ([0, 3, 9, 8] : List Nat).getD 1 0)
       else ([0, 3, 9, 8] : List Nat).getD 1 0) :=
  rcr_random_bits toyParam [0, 3, 9, 8] (countingStream 0) (by decide) (by decide) (by decide)
    (by decide) (by decide) (by decide) 1

/-! ### Claim C28: the nudge at `q_1_4 - 1` -/

/-- C28. When `qmod4 = 1` and `q_1_4 < q_3_4`, for a coefficient `v[i] = q_1_4 - 1` that is
not `0` (so the nudge up to `q_1_4` applies), with `muwords` words holding the `L` bits:
the value rounded is `q_1_4` when the random bit
is 1 and `q_1_4 - 1` when it is 0, and in both cases bit `i` of `mu` and bit `i` of `cr` are
0. -/
theorem nudge_at_first_quarter (p : RINGLWE_PARAM_DATA) (v : List Nat) (rs : RandomSource)
    (hqm : p.qmod4 = 1) (h13 : p.q_1_4 < p.q_3_4) (h1b : p.q_1_4 < 2 ^ 64)
    (hmu : loop_limit p ≤ 64 * p.muwords) (i : Nat)
    (hv : v.getD i 0 = p.q_1_4 - 1) (hv0 : v.getD i 0 ≠ 0) :
    nudged p v rs i = (if (rcr_run p v rs i).r &&& 1 ≠ 0 then p.q_1_4 else p.q_1_4 - 1) ∧
    (((round_and_cross_round p v rs).1.1).getD (i / 64) 0).testBit (i % 64) = false ∧
    (((round_and_cross_round p v rs).1.2).getD (i / 64) 0).testBit (i % 64) = false := by
  have hn : nudged p v rs i =
      (if (rcr_run p v rs i).r &&& 1 ≠ 0 then p.q_1_4 else p.q_1_4 - 1) := by
    unfold nudged nudge
    rw [if_pos hqm, if_neg hv0, USUB_eq (by omega) h1b, if_pos hv, hv]
  have hle : nudged p v rs i ≤ p.q_1_4 := by
    rw [hn]; split <;> omega
  obtain ⟨_, _, _, _, h5, h6⟩ := rcr_loop_inv p v rs (loop_limit p) hmu
  refine ⟨hn, ?_, ?_⟩
  · unfold round_and_cross_round
    simp only
    rw [Bool.eq_false_iff]
    intro hbit
    have := (h5 i).1 hbit
    omega
  · unfold round_and_cross_round
    simp only
    rw [Bool.eq_false_iff]
    intro hbit
    have := (h6 i).1 hbit
    omega

theorem nudge_at_first_quarter_witness :
    nudged toyParam [3, 3, 9, 8] (countingStream 0) 1 =
      (if (rcr_run toyParam [3, 3, 9, 8] (countingStream 0) 1).r &&& 1 ≠ 0 then toyParam.q_1_4
        else toyParam.q_1_4 - 1) ∧
    (((round_and_cross_round toyParam [3, 3, 9, 8] (countingStream 0)).1.1).getD (1 / 64)
      0).testBit (1 % 64) = false ∧
    (((round_and_cross_round toyParam [3, 3, 9, 8] (countingStream 0)).1.2).getD (1 / 64)
      0).testBit (1 % 64) = false :=
  nudge_at_first_quarter toyParam [3, 3, 9, 8] (countingStream 0) rfl (by decide) (by decide)
    (by decide) 1 rfl (by decide)

/-! ### Claim C29: the terms in `a` cancel -/

/-- C29. For vectors `a`, `s0`, `s1`, `e0`, `e1` with entries in `[0,q)` (`q` a 32-bit
modulus), with `b = s1*a + s0` computed by `POINTWISE_MUL_ADD` as in `KEM1_Generate` and
`u = e0*a + e1` as in `KEM1_Encapsulate`: for every `i < m`, the entry of
`POINTWISE_MUL(s1, u)` (Alice, in `KEM1_Decapsulate`) minus the entry of
`POINTWISE_MUL(e0, b)` (Bob, in `KEM1_Encapsulate`) is `s1[i]*e1[i] - e0[i]*s0[i]` modulo
`q`: the terms in `a` cancel. -/
theorem pointwise_difference (a s0 s1 e0 e1 : List Nat) (m q : Nat) (hq0 : 0 < q)
    (hq : q ≤ 2 ^ 32) (ha : ∀ i, i < m → a.getD i 0 < q) (hs0 : ∀ i, i < m → s0.getD i 0 < q)
    (hs1 : ∀ i, i < m → s1.getD i 0 < q) (he0 : ∀ i, i < m → e0.getD i 0 < q)
    (he1 : ∀ i, i < m → e1.getD i 0 < q) (i : Nat) (hi : i < m) :
    (((POINTWISE_MUL s1 (POINTWISE_MUL_ADD a e0 e1 m q) m q).getD i 0 : Nat) : ZMod q) -
      (((POINTWISE_MUL (POINTWISE_MUL_ADD a s1 s0 m q) e0 m q).getD i 0 : Nat) : ZMod q) =
      ((s1.getD i 0 : Nat) : ZMod q) * ((e1.getD i 0 : Nat) : ZMod q) -
        ((e0.getD i 0 : Nat) : ZMod q) * ((s0.getD i 0 : Nat) : ZMod q) := by
  have h32 : ∀ (x : List Nat), (∀ i, i < m → x.getD i 0 < q) → ∀ i, i < m → x.getD i 0 < 2 ^ 32 :=
    fun x hx i hi => by have := hx i hi; omega
  have hb : POINTWISE_MUL_ADD a s1 s0 m q =
      (List.range m).map (fun i => (a.getD i 0 * s1.getD i 0 + s0.getD i 0) % q) :=
    POINTWISE_MUL_ADD_eq _ _ _ _ _ hq0 hq (h32 a ha) (h32 s1 hs1) hs0
  have hu : POINTWISE_MUL_ADD a e0 e1 m q =
      (List.range m).map (fun i => (a.getD i 0 * e0.getD i 0 + e1.getD i 0) % q) :=
    POINTWISE_MUL_ADD_eq _ _ _ _ _ hq0 hq (h32 a ha) (h32 e0 he0) he1
  have hub : ∀ i, i < m → (POINTWISE_MUL_ADD a e0 e1 m q).getD i 0 < 2 ^ 32 := by
    intro j hj
    rw [hu, getD_map_range, if_pos hj]
    have := Nat.mod_lt (a.getD j 0 * e0.getD j 0 + e1.getD j 0) hq0
    omega
  have hbb : ∀ i, i < m → (POINTWISE_MUL_ADD a s1 s0 m q).getD i 0 < 2 ^ 32 := by
    intro j hj
    rw [hb, getD_map_range, if_pos hj]
    have := Nat.mod_lt (a.getD j 0 * s1.getD j 0 + s0.getD j 0) hq0
    omega
  rw [POINTWISE_MUL_eq _ _ _ _ (h32 s1 hs1) hub, POINTWISE_MUL_eq _ _ _ _ hbb (h32 e0 he0),
    getD_map_range, if_pos hi, getD_map_range, if_pos hi, hu, hb, getD_map_range, if_pos hi,
    getD_map_range, if_pos hi]
  simp only [ZMod.natCast_mod, Nat.cast_mul, Nat.cast_add]
  ring

theorem pointwise_difference_witness :
    (((POINTWISE_MUL [4, 5] (POINTWISE_MUL_ADD [1, 2] [6, 7] [8, 9] 2 17) 2 17).getD 0 0 :
        Nat) : ZMod 17) -
      (((POINTWISE_MUL (POINTWISE_MUL_ADD [1, 2] [4, 5] [2, 3] 2 17) [6, 7] 2 17).getD 0 0 :
        Nat) : ZMod 17) =
      (((([4, 5] : List Nat).getD 0 0 : Nat) : ZMod 17)) *
          (((([8, 9] : List Nat).getD 0 0 : Nat) : ZMod 17)) -
        (((([6, 7] : List Nat).getD 0 0 : Nat) : ZMod 17)) *
          (((([2, 3] : List Nat).getD 0 0 : Nat) : ZMod 17)) :=
  pointwise_difference [1, 2] [2, 3] [4, 5] [6, 7] [8, 9] 2 17 (by decide) (by decide)
    (fun i _ => getD_lt_of_forall (by decide) (by decide) i)
    (fun i _ => getD_lt_of_forall (by decide) (by decide) i)
    (fun i _ => getD_lt_of_forall (by decide) (by decide) i)
    (fun i _ => getD_lt_of_forall (by decide) (by decide) i)
    (fun i _ => getD_lt_of_forall (by decide) (by decide) i) 0 (by decide)

/-! ### Claim C30: twiddle and data indices of the radix-2 loops -/

theorem loop_i_visits (body : List Nat → Nat → List Nat) (n m : Nat) :
    ∀ fuel i x, loop_i body n m fuel i x = (visits_i n m fuel i).foldl body x := by
  intro fuel
  induction fuel with
  | zero => intro i x; rfl
  | succ fuel ih =>
    intro i x
    rw [loop_i, visits_i]
    split
    · rw [ih, List.foldl_cons]
    · rfl

theorem loop_j_visits (bfly : Nat → Nat → List Nat → Nat → List Nat) (T : List Nat)
    (n m step : Nat) :
    ∀ fuel j index x, loop_j bfly T n m step fuel j index x =
      (visits_j n m step fuel j index).foldl
        (fun x t => bfly (T.getD t.index 0) t.m x t.i) x := by
  intro fuel
  induction fuel with
  | zero => intro j index x; rfl
  | succ fuel ih =>
    intro j index x
    rw [loop_j, visits_j]
    split
    · rw [ih, List.foldl_append, List.foldl_map, loop_i_visits]
    · rfl

theorem forward_levels_visits (q n : Nat) (W : List Nat) :
    ∀ fuel m step x, forward_levels q n W fuel m step x =
      (visits_forward n fuel m step).foldl
        (fun x t => GS_butterfly q (W.getD t.index 0) t.m x t.i) x := by
  intro fuel
  induction fuel with
  | zero => intro m step x; rfl
  | succ fuel ih =>
    intro m step x
    rw [forward_levels, visits_forward]
    split
    · rw [ih, List.foldl_append, loop_j_visits]
    · rfl

theorem backward_levels_visits (q n : Nat) (W : List Nat) :
    ∀ fuel m step x, backward_levels q n W fuel m step x =
      (visits_backward n fuel m step).foldl
        (fun x t => CT_butterfly q (W.getD t.index 0) t.m x t.i) x := by
  intro fuel
  induction fuel with
  | zero => intro m step x; rfl
  | succ fuel ih =>
    intro m step x
    rw [backward_levels, visits_backward]
    split
    · rw [ih, List.foldl_append, loop_j_visits]
    · rfl

theorem visits_i_mem (n m : Nat) :
    ∀ fuel i i', i' ∈ visits_i n m fuel i → i' < n ∧ i' % (2 * m) = i % (2 * m) := by
  intro fuel
  induction fuel with
  | zero => intro i i' h; exact absurd h (List.not_mem_nil _)
  | succ fuel ih =>
    intro i i' h
    rw [visits_i] at h
    split at h
    · rename_i hlt
      rcases List.mem_cons.1 h with h1 | h1
      · rw [h1]; exact ⟨hlt, rfl⟩
      · obtain ⟨g1, g2⟩ := ih _ _ h1
        rw [shl_one, Nat.add_mod_right] at g2
        exact ⟨g1, g2⟩
    · exact absurd h (List.not_mem_nil _)

theorem visits_j_mem (n m step : Nat) :
    ∀ fuel j t, t ∈ visits_j n m step fuel j (idxAt step n j) →
      t.m = m ∧ t.step = step ∧ t.j < m ∧ t.index = idxAt step n t.j ∧ t.i < n ∧
      t.i % (2 * m) = t.j := by
  intro fuel
  induction fuel with
  | zero => intro j t h; exact absurd h (List.not_mem_nil _)
  | succ fuel ih =>
    intro j t h
    rw [visits_j] at h
    split at h
    · rename_i hlt
      rcases List.mem_append.1 h with h1 | h1
      · obtain ⟨i, hi, rfl⟩ := List.mem_map.1 h1
        obtain ⟨g1, g2⟩ := visits_i_mem n m n j i hi
        refine ⟨rfl, rfl, hlt, rfl, g1, ?_⟩
        show i % (2 * m) = j
        rw [g2, Nat.mod_eq_of_lt (by omega)]
      · exact ih (j + 1) t h1
    · exact absurd h (List.not_mem_nil _)

theorem level_visit_ok {n m step : Nat} (hm : 0 < m) (hn : n < 2 ^ 63)
    (hprod : step * (2 * m) = n) (t : Visit) (h : t ∈ visits_j n m step n 0 0) :
    visit_ok n t := by
  obtain ⟨g1, g2, g3, g4, g5, g6⟩ := visits_j_mem n m step n 0 t h
  have hs : 0 < step := by
    rcases Nat.eq_zero_or_pos step with h0 | h0
    · rw [h0, Nat.zero_mul] at hprod
      rw [← hprod] at g5
      exact absurd g5 (Nat.not_lt_zero _)
    · exact h0
  have hjs : t.j * step < m * step := Nat.mul_lt_mul_of_pos_right g3 hs
  have hms : m * step + m * step = n := by rw [← hprod]; ring
  have hidx : t.index = if t.j = 0 then 0 else n - t.j * step := by
    rw [g4]
    exact idxAt_closed hs hn t.j (by omega)
  have hpos : t.j ≠ 0 → 0 < t.j * step := fun h0 => Nat.mul_pos (Nat.pos_of_ne_zero h0) hs
  unfold visit_ok
  rw [g1, g2]
  refine ⟨hm, ?_, g3, hidx, ?_, ?_, ?_⟩
  · rw [← hprod, Nat.mul_div_cancel _ (by omega)]
  · rw [hidx]
    by_cases h0 : t.j = 0
    · rw [if_pos h0, h0]
      simp
    · rw [if_neg h0]
      have hp := hpos h0
      have e : (-((t.j : Int) * (step : Int))) % (n : Int) =
          (-((t.j : Int) * (step : Int)) + (n : Int)) % (n : Int) := by
        rw [Int.add_emod_self]
      have hc : ((t.j * step : Nat) : Int) = (t.j : Int) * (step : Int) := by push_cast; rfl
      rw [e, Int.emod_eq_of_lt (by rw [← hc]; omega) (by rw [← hc]; omega), ← hc]
      omega
  · rw [hidx]
    by_cases h0 : t.j = 0
    · rw [if_pos h0]; omega
    · rw [if_neg h0]
      have hp := hpos h0
      omega
  · exact idx_in_range rfl (Dvd.intro_left step hprod) g5 (by rw [g6]; exact g3)

theorem pow_prod {k a b : Nat} (h : a + b + 1 = k) : 2 ^ b * (2 * 2 ^ a) = 2 ^ k := by
  rw [← h, pow_succ, pow_add]; ring

theorem visits_forward_ok (k : Nat) (hk : k < 63) :
    ∀ fuel a b, a + b + 1 = k →
      ∀ t ∈ visits_forward (2 ^ k) fuel (2 ^ a) (2 ^ b), visit_ok (2 ^ k) t := by
  have hn : 2 ^ k < 2 ^ 63 := Nat.pow_lt_pow_right (by norm_num) hk
  intro fuel
  induction fuel with
  | zero => intro a b _ t h; exact absurd h (List.not_mem_nil _)
  | succ fuel ih =>
    intro a b hab t h
    have hge : 2 ^ a ≥ 1 := Nat.pow_pos (by norm_num)
    rw [visits_forward, if_pos hge] at h
    rcases List.mem_append.1 h with h1 | h1
    · exact level_visit_ok (Nat.pow_pos (by norm_num)) hn (pow_prod hab) t h1
    · rcases a with _ | a
      · have h0 : (2 ^ 0 >>> 1 : Nat) = 0 := by decide
        rw [h0] at h1
        cases fuel with
        | zero => exact absurd h1 (List.not_mem_nil _)
        | succ fuel =>
          rw [visits_forward, if_neg (by omega)] at h1
          exact absurd h1 (List.not_mem_nil _)
      · rw [pow_shr_one, shl_one, ← pow_succ'] at h1
        exact ih a (b + 1) (by omega) t h1

theorem visits_backward_ok (k : Nat) (hk : k < 63) :
    ∀ fuel a b, a + b + 1 = k →
      ∀ t ∈ visits_backward (2 ^ k) fuel (2 ^ a) (2 ^ b), visit_ok (2 ^ k) t := by
  have hn : 2 ^ k < 2 ^ 63 := Nat.pow_lt_pow_right (by norm_num) hk
  intro fuel
  induction fuel with
  | zero => intro a b _ t h; exact absurd h (List.not_mem_nil _)
  | succ fuel ih =>
    intro a b hab t h
    have hlt : 2 ^ a < 2 ^ k := Nat.pow_lt_pow_right (by norm_num) (by omega)
    rw [visits_backward, if_pos hlt] at h
    rcases List.mem_append.1 h with h1 | h1
    · exact level_visit_ok (Nat.pow_pos (by norm_num)) hn (pow_prod hab) t h1
    · rw [shl_one, ← pow_succ'] at h1
      rcases b with _ | b
      · have e : a + 1 = k := by omega
        rw [e] at h1
        cases fuel with
        | zero => exact absurd h1 (List.not_mem_nil _)
        | succ fuel =>
          rw [visits_backward, if_neg (by omega)] at h1
          exact absurd h1 (List.not_mem_nil _)
      · rw [pow_shr_one] at h1
        exact ih (a + 1) b (by omega) t h1

/-- C30. In the forward and inverse radix-2 loops of length `n = 2^k` (`1 <= k < 63`), which
run the butterflies listed by `visits_forward` and `visits_backward`: for every butterfly, at
the level with half-block size `m` the step equals `n/(2m)`, the twiddle index used for column
`j < m` equals `(-j*step) mod n`, that is `0` for `j = 0` and `n - j*step` otherwise; this
index is below `n` and the data index `i + m` is below `n`. -/
theorem radix2_indices (k : Nat) (hk1 : 1 ≤ k) (hk : k < 63) (q : Nat) (W x : List Nat) :
    (forward_levels q (2 ^ k) W (2 ^ k) (2 ^ k >>> 1) 1 x =
        (visits_forward (2 ^ k) (2 ^ k) (2 ^ k >>> 1) 1).foldl
          (fun x t => GS_butterfly q (W.getD t.index 0) t.m x t.i) x ∧
      ∀ t ∈ visits_forward (2 ^ k) (2 ^ k) (2 ^ k >>> 1) 1, visit_ok (2 ^ k) t) ∧
    (backward_levels q (2 ^ k) W (2 ^ k) 1 (2 ^ k >>> 1) x =
        (visits_backward (2 ^ k) (2 ^ k) 1 (2 ^ k >>> 1)).foldl
          (fun x t => CT_butterfly q (W.getD t.index 0) t.m x t.i) x ∧
      ∀ t ∈ visits_backward (2 ^ k) (2 ^ k) 1 (2 ^ k >>> 1), visit_ok (2 ^ k) t) := by
  obtain ⟨e, rfl⟩ : ∃ e, k = e + 1 := ⟨k - 1, by omega⟩
  refine ⟨⟨forward_levels_visits _ _ _ _ _ _ _, fun t ht => ?_⟩,
    ⟨backward_levels_visits _ _ _ _ _ _ _, fun t ht => ?_⟩⟩
  · rw [pow_shr_one] at ht
    exact visits_forward_ok (e + 1) hk (2 ^ (e + 1)) e 0 (by omega) t ht
  · rw [pow_shr_one] at ht
    exact visits_backward_ok (e + 1) hk (2 ^ (e + 1)) 0 e (by omega) t ht

theorem radix2_indices_witness :
    (forward_levels 40961 (2 ^ 10) (unitTwiddles 1024).W (2 ^ 10) (2 ^ 10 >>> 1) 1
          (List.replicate 1024 7) =
        (visits_forward (2 ^ 10) (2 ^ 10) (2 ^ 10 >>> 1) 1).foldl
          (fun x t => GS_butterfly 40961 ((unitTwiddles 1024).W.getD t.index 0) t.m x t.i)
          (List.replicate 1024 7) ∧
      ∀ t ∈ visits_forward (2 ^ 10) (2 ^ 10) (2 ^ 10 >>> 1) 1, visit_ok (2 ^ 10) t) ∧
    (backward_levels 40961 (2 ^ 10) (unitTwiddles 1024).W (2 ^ 10) 1 (2 ^ 10 >>> 1)
          (List.replicate 1024 7) =
        (visits_backward (2 ^ 10) (2 ^ 10) 1 (2 ^ 10 >>> 1)).foldl
          (fun x t => CT_butterfly 40961 ((unitTwiddles 1024).W.getD t.index 0) t.m x t.i)
          (List.replicate 1024 7) ∧
      ∀ t ∈ visits_backward (2 ^ 10) (2 ^ 10) 1 (2 ^ 10 >>> 1), visit_ok (2 ^ 10) t) :=
  radix2_indices 10 (by decide) (by decide) 40961 (unitTwiddles 1024).W (List.replicate 1024 7)

theorem ADD_MOD_cases {a b q : Nat} (hq : q ≤ 2 ^ 63) (ha : a < q) (hb : b < q) :
    ADD_MOD a b q = if q ≤ a + b then a + b - q else a + b := by
  unfold ADD_MOD
  rw [ADD_eq (by omega)]

theorem SUB_MOD_lt_of_lt {a b q : Nat} (hq : q < 2 ^ 64) (ha : a < q) (hb : b < q) :
    SUB_MOD a b q < q := by
  unfold SUB_MOD ADD
  rw [USUB_eq (by omega) hq]
  have h1 : (a + (q - b)) % 2 ^ 64 ≤ a + (q - b) := Nat.mod_le _ _
  simp only
  split <;> omega

/-- C39. For `a, b` in `[0,q)` with `0 < q < 2^64`, `ADD_MOD` and `SUB_MOD` return values in
`[0,q)`; when moreover `q <= 2^63`, so that the 64-bit sums `a + b` and `a + (q - b)` do not
wrap, `ADD_MOD(a,b,q)` is `a + b` with `q` subtracted once when `a + b >= q`, which is
`(a + b) mod q`, and `SUB_MOD(a,b,q)` is `a + (q - b)` with `q` subtracted once when it is
`>= q`, which is `(a + (q - b)) mod q` and the residue of `a - b` modulo `q`. -/
theorem ADD_MOD_SUB_MOD_spec (a b q : Nat) (hq0 : 0 < q) (hq : q < 2 ^ 64) (ha : a < q)
    (hb : b < q) :
    ADD_MOD a b q < q ∧ SUB_MOD a b q < q ∧
    (q ≤ 2 ^ 63 →
      ADD_MOD a b q = (if q ≤ a + b then a + b - q else a + b) ∧
      ADD_MOD a b q = (a + b) % q ∧
      SUB_MOD a b q = (if q ≤ a + (q - b) then a + (q - b) - q else a + (q - b)) ∧
      SUB_MOD a b q = (a + (q - b)) % q ∧
      ((SUB_MOD a b q : Nat) : Int) = ((a : Int) - (b : Int)) % (q : Int)) := by
  refine ⟨ADD_MOD_lt_of_lt ha hb, SUB_MOD_lt_of_lt hq ha hb, ?_⟩
  intro h63
  have hadd := ADD_MOD_cases h63 ha hb
  have hsub := SUB_MOD_eq h63 ha hb
  refine ⟨hadd, ?_, ?_, ?_, SUB_MOD_int h63 ha hb⟩
  · rw [hadd]
    split
    · rename_i h
      rw [Nat.mod_eq_sub_mod h, Nat.mod_eq_of_lt (by omega)]
    · rw [Nat.mod_eq_of_lt (by omega)]
  · rw [hsub]
    split <;> split <;> omega
  · rw [hsub]
    by_cases h : b ≤ a
    · rw [if_pos h]
      have h2 : q ≤ a + (q - b) := by omega
      rw [Nat.mod_eq_sub_mod h2, Nat.mod_eq_of_lt (by omega)]
      omega
    · rw [if_neg h, Nat.mod_eq_of_lt (by omega)]
      omega

theorem ADD_MOD_SUB_MOD_spec_witness :
    ADD_MOD 40000 30000 40961 < 40961 ∧ SUB_MOD 40000 30000 40961 < 40961 ∧
    ADD_MOD 40000 30000 40961
      = (if 40961 ≤ 40000 + 30000 then 40000 + 30000 - 40961 else 40000 + 30000) ∧
    ADD_MOD 40000 30000 40961 = (40000 + 30000) % 40961 ∧
    SUB_MOD 40000 30000 40961
      = (if 40961 ≤ 40000 + (40961 - 30000) then 40000 + (40961 - 30000) - 40961
          else 40000 + (40961 - 30000)) ∧
    SUB_MOD 40000 30000 40961 = (40000 + (40961 - 30000)) % 40961 ∧
    ((SUB_MOD 40000 30000 40961 : Nat) : Int) = ((40000 : Nat) - (30000 : Nat) : Int) % (40961 : Nat) :=
  have h := ADD_MOD_SUB_MOD_spec 40000 30000 40961 (by norm_num) (by norm_num) (by norm_num)
    (by norm_num)
  ⟨h.1, h.2.1, h.2.2 (by norm_num)⟩

/-- C40. For every `q > 0` and all `a, b` below `2^32`, the product `a*b` is below `2^64`, so
the 64-bit product of `MUL_MOD` does not wrap; `MUL_MOD(a,b,q)` is the true remainder
`(a*b) mod q` and lies in `[0,q)`. -/
theorem MUL_MOD_true_remainder (a b q : Nat) (hq : 0 < q) (ha : a < 2 ^ 32) (hb : b < 2 ^ 32) :
    a * b < 2 ^ 64 ∧ (a * b) % 2 ^ 64 = a * b ∧ MUL_MOD a b q = (a * b) % q ∧
    MUL_MOD a b q < q :=
  ⟨mul_lt_word32 ha hb, Nat.mod_eq_of_lt (mul_lt_word32 ha hb),
    MUL_MOD_eq q (mul_lt_word32 ha hb), MUL_MOD_lt a b hq⟩

theorem MUL_MOD_true_remainder_witness :
    (4294967295 : Nat) * 4294967295 < 2 ^ 64 ∧
    (4294967295 * 4294967295) % 2 ^ 64 = 4294967295 * 4294967295 ∧
    MUL_MOD 4294967295 4294967295 40961 = (4294967295 * 4294967295) % 40961 ∧
    MUL_MOD 4294967295 4294967295 40961 < 40961 :=
  MUL_MOD_true_remainder 4294967295 4294967295 40961 (by norm_num) (by norm_num) (by norm_num)

theorem SUB_MOD_zero {a q : Nat} (hq0 : 0 < q) (hq : q ≤ 2 ^ 63) (ha : a < q) :
    SUB_MOD a 0 q = a := by
  rw [SUB_MOD_eq hq ha hq0, if_pos (Nat.zero_le _)]
  rfl

theorem SUB_MOD_shift {a b c q : Nat} (hq0 : 0 < q) (hq : q ≤ 2 ^ 63) (ha : a < q)
    (hb : b < q) :
    SUB_MOD ((a + c) % q) ((b + c) % q) q = SUB_MOD a b q := by
  have h1 := SUB_MOD_int hq (Nat.mod_lt (a + c) hq0) (Nat.mod_lt (b + c) hq0)
  have h2 := SUB_MOD_int hq ha hb
  have h3 : (((a + c) % q : Nat) : Int) - (((b + c) % q : Nat) : Int) =
      ((a : Int) + c) % q - ((b : Int) + c) % q := by
    push_cast
    rfl
  rw [h3, ← Int.sub_emod] at h1
  have h4 : (a : Int) + c - (b + c) = a - b := by ring
  rw [h4, ← h2] at h1
  exact_mod_cast h1

/-- C35. For every odd `n` (within the range `n <= 2^16` of the loop counter), every `q > 0`
(within `q <= 2^63`, where the 64-bit sum of `SUB_MOD` does not wrap), every `v` of `n`
coefficients in `[0,q)` and every `c` (in particular every `c` in `[0,q)`): `MAPTOCYCLOTOMIC`
applied twice gives the same array as applied once, and applied to `v + c*(1,1,...,1) mod q`
it gives the same array as applied to `v`. -/
theorem maptocyclotomic_canonical (v : List Nat) (n q c : Nat) (hodd : n % 2 = 1)
    (hn : n ≤ 2 ^ 16) (hq0 : 0 < q) (hq : q ≤ 2 ^ 63) (hl : v.length = n)
    (hv : ∀ x ∈ v, x < q) :
    MAPTOCYCLOTOMIC (MAPTOCYCLOTOMIC v n q) n q = MAPTOCYCLOTOMIC v n q ∧
    MAPTOCYCLOTOMIC (v.map (fun x => (x + c) % q)) n q = MAPTOCYCLOTOMIC v n q := by
  have hn0 : 0 < n := by omega
  obtain ⟨l, g⟩ := MAPTOCYCLOTOMIC_getD v n q hn0 hl
  obtain ⟨l2, g2⟩ := MAPTOCYCLOTOMIC_getD (MAPTOCYCLOTOMIC v n q) n q hn0 l
  have hl3 : (v.map (fun x => (x + c) % q)).length = n := by rw [List.length_map, hl]
  obtain ⟨l3, g3⟩ := MAPTOCYCLOTOMIC_getD (v.map (fun x => (x + c) % q)) n q hn0 hl3
  have hb : ∀ j, v.getD j 0 < q := fun j => getD_lt_of_forall hq0 hv j
  have hm : ∀ j, j < n → (v.map (fun x => (x + c) % q)).getD j 0 = (v.getD j 0 + c) % q := by
    intro j hj
    rw [List.getD_eq_getElem _ _ (by rw [hl3]; exact hj), List.getElem_map,
      List.getD_eq_getElem _ _ (by rw [hl]; exact hj)]
  constructor
  · apply list_ext_getD (by rw [l2, l])
    intro k hk
    rw [l2] at hk
    rw [g2 k, g k]
    by_cases h1 : k = n - 1
    · rw [if_pos h1, if_pos h1]
    · have h2 : k < n - 1 := by omega
      rw [if_neg h1, if_neg h1, if_pos h2, if_pos h2, g (n - 1), if_pos rfl]
      exact SUB_MOD_zero hq0 hq (SUB_MOD_lt_of_lt (by omega) (hb _) (hb _))
  · apply list_ext_getD (by rw [l3, l])
    intro k hk
    rw [l3] at hk
    rw [g3 k, g k]
    by_cases h1 : k = n - 1
    · rw [if_pos h1, if_pos h1]
    · have h2 : k < n - 1 := by omega
      rw [if_neg h1, if_neg h1, if_pos h2, if_pos h2, hm k hk, hm (n - 1) (by omega)]
      exact SUB_MOD_shift hq0 hq (hb _) (hb _)

theorem maptocyclotomic_canonical_witness :
    MAPTOCYCLOTOMIC (MAPTOCYCLOTOMIC [5, 2, 4] 3 7) 3 7 = MAPTOCYCLOTOMIC [5, 2, 4] 3 7 ∧
    MAPTOCYCLOTOMIC (([5, 2, 4] : List Nat).map (fun x => (x + 6) % 7)) 3 7 =
      MAPTOCYCLOTOMIC [5, 2, 4] 3 7 :=
  maptocyclotomic_canonical [5, 2, 4] 3 7 6 (by decide) (by decide) (by decide) (by decide) rfl
    (by decide)

theorem rec_run_succ (p : RINGLWE_PARAM_DATA) (w b : List Nat) (cnt : Nat) :
    rec_run p w b (cnt + 1) = rec_step p w b (rec_run p w b cnt) cnt := by
  unfold rec_run
  rw [List.range_succ, List.foldl_append]
  rfl

theorem rec_step_write (p : RINGLWE_PARAM_DATA) (w b : List Nat) (st : Nat × Nat × List Nat)
    (i : Nat) :
    (rec_step p w b st i).2.2 = st.2.2 ∨ (rec_step p w b st i).2.2 = set_bit st.2.2 st.1 st.2.1 := by
  unfold rec_step
  simp only
  split <;> split <;> split <;> simp

theorem rcr_high_bits (p : RINGLWE_PARAM_DATA) (v : List Nat) (rs : RandomSource)
    (hmu : loop_limit p ≤ 64 * p.muwords) (i : Nat) (hi : loop_limit p ≤ i) :
    mu_bit (round_and_cross_round p v rs).1.1 i = false ∧
    mu_bit (round_and_cross_round p v rs).1.2 i = false := by
  obtain ⟨_, _, _, _, h5, h6⟩ := rcr_loop_inv p v rs (loop_limit p) hmu
  unfold round_and_cross_round mu_bit
  simp only
  constructor
  · cases h : ((rcr_run p v rs (loop_limit p)).modular_rnd.getD (i / 64) 0).testBit (i % 64)
    · rfl
    · exact absurd ((h5 i).1 h).1 (by omega)
  · cases h : ((rcr_run p v rs (loop_limit p)).cross_rnd.getD (i / 64) 0).testBit (i % 64)
    · rfl
    · exact absurd ((h6 i).1 h).1 (by omega)

theorem rec_high_bits (p : RINGLWE_PARAM_DATA) (w b : List Nat)
    (hmu : loop_limit p ≤ 64 * p.muwords) (i : Nat) (hi : loop_limit p ≤ i) :
    mu_bit (ringlwe_rec p w b) i = false := by
  obtain ⟨_, _, _, h4⟩ := rec_loop_inv p w b (loop_limit p) hmu
  unfold ringlwe_rec mu_bit
  cases h : ((((List.range (loop_limit p)).foldl (rec_step p w b)
      (0, 0, List.replicate p.muwords 0)).2.2).getD (i / 64) 0).testBit (i % 64)
  · rfl
  · exact absurd ((h4 i).1 h).1 (by omega)

theorem byte_eq_zero (x : Nat) (hx : x < 256) (h : ∀ j, j < 8 → x.testBit j = false) : x = 0 := by
  apply Nat.eq_of_testBit_eq
  intro j
  rw [Nat.zero_testBit]
  by_cases hj : j < 8
  · exact h j hj
  · apply Nat.testBit_eq_false_of_lt
    have : 2 ^ 8 ≤ 2 ^ j := Nat.pow_le_pow_right (by omega) (by omega)
    omega

theorem encapsulate_mu (fuel : Nat) (p : RINGLWE_PARAM_DATA) (b : List Nat)
    (rs rs' : RandomSource) (u cr mu : List Nat)
    (h : KEM1_Encapsulate fuel p b rs = some ((u, cr, mu), rs')) :
    ∃ v rs0, mu = (round_and_cross_round p v rs0).1.1 ∧
      cr = (round_and_cross_round p v rs0).1.2 := by
  unfold KEM1_Encapsulate at h
  split at h
  · exact absurd h (by simp)
  · split at h
    · exact absurd h (by simp)
    · split at h
      · exact absurd h (by simp)
      · simp only [Option.some.injEq, Prod.mk.injEq] at h
        exact ⟨_, _, h.1.2.2.symm, h.1.2.1.symm⟩

theorem alice_raw_secret (C : Consts) (s : ParamSet) (fresh : List Nat) (outlen : Nat)
    (bob_pub : RLWE_PUB) (r : RLWE_REC) (alice : RLWE_PAIR)
    (hb : bob_pub.param_data = some s) (ha : alice.param_data = some s) :
    RINGLWE_compute_key_alice C fresh outlen (some bob_pub) (some r) (some alice) none =
      some (min outlen (nchars_of (C.param s).m),
        (key_to_bytes (C.param s).muwords (nchars_of (C.param s).m)
          (KEM1_Decapsulate (C.param s) bob_pub.b (alice.s.drop (C.param s).m) r.c) fresh).take
          (min outlen (nchars_of (C.param s).m)), []) := by
  unfold RINGLWE_compute_key_alice
  simp only
  rw [if_neg (by rw [hb, ha]; exact not_not_intro rfl), ha]
  simp only
  rw [derive_key_none]
  rfl

theorem bob_raw_secret (C : Consts) (s : ParamSet) (fresh : List Nat) (outlen fuel : Nat)
    (target : Option RLWE_REC) (alice_pub bob_pub : RLWE_PUB) (rs rs' : RandomSource)
    (u cr mu : List Nat) (hmu : 1 ≤ (C.param s).muwords)
    (ha : alice_pub.param_data = some s) (hb : bob_pub.param_data = some s)
    (henc : KEM1_Encapsulate fuel (C.param s) alice_pub.b rs = some ((u, cr, mu), rs')) :
    ∃ res, RINGLWE_compute_key_bob C fuel fresh outlen (some target) (some alice_pub)
        (some bob_pub) none rs = some res ∧
      res.ret = min outlen (nchars_of (C.param s).m) ∧
      res.out = (key_to_bytes (C.param s).muwords (nchars_of (C.param s).m) mu fresh).take
        (min outlen (nchars_of (C.param s).m)) := by
  have hne : ¬ (C.param s).muwords = 0 := by omega
  rcases target with _ | r0
  · unfold RINGLWE_compute_key_bob
    simp only [RLWE_REC_new]
    rw [if_neg (by rw [hb, ha]; exact not_not_intro rfl), hb]
    simp only
    rw [if_neg hne]
    simp only
    rw [henc]
    simp only
    rw [derive_key_none]
    exact ⟨_, rfl, rfl, rfl⟩
  · unfold RINGLWE_compute_key_bob
    simp only
    rw [if_neg (by rw [hb, ha]; exact not_not_intro rfl), hb]
    simp only
    rw [henc]
    simp only
    rw [derive_key_none]
    exact ⟨_, rfl, rfl, rfl⟩

theorem last_byte_zero (p : RINGLWE_PARAM_DATA) (hm : p.m = 337) (hmw : 6 ≤ p.muwords)
    (fresh mu : List Nat) (outlen : Nat) (hf : fresh.length = 43) (ho : 43 ≤ outlen)
    (hbits : ∀ i, loop_limit p ≤ i → mu_bit mu i = false) :
    ((key_to_bytes p.muwords (nchars_of p.m) mu fresh).take
      (min outlen (nchars_of p.m))).length = 43 ∧
    ((key_to_bytes p.muwords (nchars_of p.m) mu fresh).take
      (min outlen (nchars_of p.m))).getD 42 0 = 0 := by
  have hL : loop_limit p = 336 := by unfold loop_limit; rw [hm]; rfl
  have hn : nchars_of p.m = 43 := by rw [hm]; rfl
  obtain ⟨l, g⟩ := shared_bytes_spec p.muwords p.m outlen mu fresh (by rw [hn]; omega)
    (by rw [hn]; exact hf)
  rw [hn] at l g ⊢
  have hmin : min outlen 43 = 43 := by omega
  rw [hmin] at l g ⊢
  obtain ⟨g1, g2⟩ := g 42 (by omega)
  refine ⟨l, byte_eq_zero _ g1 (fun j hj => ?_)⟩
  rw [g2 j hj]
  exact hbits _ (by rw [hL]; omega)

/-- C38. If `muwords >= ceil(L/64)` (`L = n` for even `n`, `n - 1` for odd `n`), then in every
iteration `i < L` of the loop of `round_and_cross_round` the word counter is `i / 64 < muwords`
and the bit position is `i mod 64 < 64`, and `mu` and `cr` are either left as they are or get
the bit at that word and position set; the same holds for the word of `b` read and the word of
`r` written by `ringlwe_rec`.  After `cnt <= L` iterations the word counter is at most
`muwords`, and it is `muwords` only when `cnt = L`, after the last coefficient. -/
theorem reconciliation_indices_in_range (p : RINGLWE_PARAM_DATA) (v w b : List Nat)
    (rs : RandomSource) (hmu : (loop_limit p + 63) / 64 ≤ p.muwords) :
    (∀ i, i < loop_limit p →
      (rcr_run p v rs i).word = i / 64 ∧ (rcr_run p v rs i).pos = i % 64 ∧
      (rcr_run p v rs i).word < p.muwords ∧ (rcr_run p v rs i).pos < 64 ∧
      (rcr_run p v rs i).modular_rnd.length = p.muwords ∧
      (rcr_run p v rs i).cross_rnd.length = p.muwords ∧
      ((rcr_run p v rs (i + 1)).modular_rnd = (rcr_run p v rs i).modular_rnd ∨
        (rcr_run p v rs (i + 1)).modular_rnd =
          set_bit (rcr_run p v rs i).modular_rnd (rcr_run p v rs i).word (rcr_run p v rs i).pos) ∧
      ((rcr_run p v rs (i + 1)).cross_rnd = (rcr_run p v rs i).cross_rnd ∨
        (rcr_run p v rs (i + 1)).cross_rnd =
          set_bit (rcr_run p v rs i).cross_rnd (rcr_run p v rs i).word (rcr_run p v rs i).pos) ∧
      (rec_run p w b i).1 = i / 64 ∧ (rec_run p w b i).2.1 = i % 64 ∧
      (rec_run p w b i).1 < p.muwords ∧ (rec_run p w b i).2.1 < 64 ∧
      (rec_run p w b i).2.2.length = p.muwords ∧
      ((rec_run p w b (i + 1)).2.2 = (rec_run p w b i).2.2 ∨
        (rec_run p w b (i + 1)).2.2 =
          set_bit (rec_run p w b i).2.2 (rec_run p w b i).1 (rec_run p w b i).2.1)) ∧
    (∀ cnt, cnt ≤ loop_limit p →
      (rcr_run p v rs cnt).word ≤ p.muwords ∧
      ((rcr_run p v rs cnt).word = p.muwords → cnt = loop_limit p) ∧
      (rec_run p w b cnt).1 ≤ p.muwords ∧
      ((rec_run p w b cnt).1 = p.muwords → cnt = loop_limit p)) ∧
    ringlwe_rec p w b = (rec_run p w b (loop_limit p)).2.2 ∧
    (round_and_cross_round p v rs).1 =
      ((rcr_run p v rs (loop_limit p)).modular_rnd, (rcr_run p v rs (loop_limit p)).cross_rnd) := by
  have hL : loop_limit p ≤ 64 * p.muwords := by omega
  refine ⟨fun i hi => ?_, fun cnt hc => ?_, rfl, rfl⟩
  · obtain ⟨h1, h2, h3, h4, _, _⟩ := rcr_loop_inv p v rs i (by omega)
    obtain ⟨k1, k2, k3, _⟩ := rec_loop_inv p w b i (by omega)
    obtain ⟨_, _, g3, g4⟩ := rcr_step_fields p v (rcr_run p v rs i) i
    have hp : i % 64 < 64 := Nat.mod_lt _ (by omega)
    have hw : i / 64 < p.muwords := by omega
    refine ⟨h1, h2, by rw [h1]; exact hw, by rw [h2]; exact hp, h3, h4, ?_, ?_, k1, k2,
      by rw [show (rec_run p w b i).1 = i / 64 from k1]; exact hw,
      by rw [show (rec_run p w b i).2.1 = i % 64 from k2]; exact hp, k3, ?_⟩
    · rw [rcr_run_succ, g3]
      split
      · exact Or.inr rfl
      · exact Or.inl rfl
    · rw [rcr_run_succ, g4]
      split
      · exact Or.inr rfl
      · exact Or.inl rfl
    · rw [rec_run_succ]
      exact rec_step_write p w b _ i
  · obtain ⟨h1, _⟩ := rcr_loop_inv p v rs cnt (by omega)
    obtain ⟨k1, _⟩ := rec_loop_inv p w b cnt (by omega)
    have k1' : (rec_run p w b cnt).1 = cnt / 64 := k1
    rw [h1, k1']
    refine ⟨by omega, fun h => by omega, by omega, fun h => by omega⟩

theorem reconciliation_indices_in_range_witness :
    (∀ i, i < loop_limit toyParam →
      (rcr_run toyParam [11, 10, 9, 8] (zeroStream 3) i).word = i / 64 ∧
      (rcr_run toyParam [11, 10, 9, 8] (zeroStream 3) i).pos = i % 64 ∧
      (rcr_run toyParam [11, 10, 9, 8] (zeroStream 3) i).word < toyParam.muwords ∧
      (rcr_run toyParam [11, 10, 9, 8] (zeroStream 3) i).pos < 64) ∧
    (∀ cnt, cnt ≤ loop_limit toyParam →
      (rec_run toyParam [5, 12, 4, 15] [1] cnt).1 ≤ toyParam.muwords ∧
      ((rec_run toyParam [5, 12, 4, 15] [1] cnt).1 = toyParam.muwords →
        cnt = loop_limit toyParam)) :=
  have h := reconciliation_indices_in_range toyParam [11, 10, 9, 8] [5, 12, 4, 15] [1]
    (zeroStream 3) (by decide)
  ⟨fun i hi => ⟨(h.1 i hi).1, (h.1 i hi).2.1, (h.1 i hi).2.2.1, (h.1 i hi).2.2.2.1⟩,
    fun cnt hc => ⟨(h.2.1 cnt hc).2.2.1, (h.2.1 cnt hc).2.2.2⟩⟩

/-- C34. When the `muwords` words hold the `L` bits (`L = n` for even `n`, `n - 1` for odd
`n`), every bit at a position `>= L` of the `mu` and `cr` outputs of `round_and_cross_round`
and of the output of `ringlwe_rec` is 0, for every input.  Hence for `n = 337` (`muwords >= 6`,
no KDF, `outlen >= 43`) `RINGLWE_compute_key_alice` and `RINGLWE_compute_key_bob` return 43
bytes of which the last, byte 42, is 0. -/
theorem high_bits_zero (p : RINGLWE_PARAM_DATA) (hmu : loop_limit p ≤ 64 * p.muwords) :
    (∀ (v w b : List Nat) (rs : RandomSource) (i : Nat), loop_limit p ≤ i →
      mu_bit (round_and_cross_round p v rs).1.1 i = false ∧
      mu_bit (round_and_cross_round p v rs).1.2 i = false ∧
      mu_bit (ringlwe_rec p w b) i = false) ∧
    (p.m = 337 → 6 ≤ p.muwords →
      ∀ (C : Consts) (s : ParamSet) (fresh : List Nat) (outlen : Nat),
        C.param s = p → fresh.length = 43 → 43 ≤ outlen →
        (∀ (bob_pub : RLWE_PUB) (r : RLWE_REC) (alice : RLWE_PAIR),
          bob_pub.param_data = some s → alice.param_data = some s →
          ∃ out, RINGLWE_compute_key_alice C fresh outlen (some bob_pub) (some r) (some alice)
              none = some (43, out, []) ∧
            out.length = 43 ∧ out.getD 42 0 = 0) ∧
        (∀ (fuel : Nat) (target : Option RLWE_REC) (alice_pub bob_pub : RLWE_PUB)
          (rs rs' : RandomSource) (u cr mu : List Nat),
          alice_pub.param_data = some s → bob_pub.param_data = some s →
          KEM1_Encapsulate fuel (C.param s) alice_pub.b rs = some ((u, cr, mu), rs') →
          ∃ res, RINGLWE_compute_key_bob C fuel fresh outlen (some target) (some alice_pub)
              (some bob_pub) none rs = some res ∧
            res.ret = 43 ∧ res.out.length = 43 ∧ res.out.getD 42 0 = 0)) := by
  refine ⟨fun v w b rs i hi => ⟨(rcr_high_bits p v rs hmu i hi).1, (rcr_high_bits p v rs hmu i hi).2,
    rec_high_bits p w b hmu i hi⟩, ?_⟩
  intro hm hmw C s fresh outlen hp hf ho
  have hn : nchars_of p.m = 43 := by rw [hm]; rfl
  have hmin : min outlen 43 = 43 := by omega
  constructor
  · intro bob_pub r alice hb ha
    have h := alice_raw_secret C s fresh outlen bob_pub r alice hb ha
    rw [hp] at h
    obtain ⟨l, z⟩ := last_byte_zero p hm hmw fresh
      (KEM1_Decapsulate p bob_pub.b (alice.s.drop p.m) r.c) outlen hf ho
      (fun i hi => by unfold KEM1_Decapsulate; exact rec_high_bits p _ _ hmu i hi)
    refine ⟨_, ?_, l, z⟩
    rw [h, hn, hmin]
  · intro fuel target alice_pub bob_pub rs rs' u cr mu ha hb henc
    obtain ⟨res, h1, h2, h3⟩ := bob_raw_secret C s fresh outlen fuel target alice_pub bob_pub rs
      rs' u cr mu (by rw [hp]; omega) ha hb henc
    rw [hp] at h2 h3 henc
    obtain ⟨v, rs0, hv, _⟩ := encapsulate_mu fuel p alice_pub.b rs rs' u cr mu henc
    obtain ⟨l, z⟩ := last_byte_zero p hm hmw fresh mu outlen hf ho
      (fun i hi => by rw [hv]; exact (rcr_high_bits p v rs0 hmu i hi).1)
    rw [← h3] at l z
    exact ⟨res, h1, by rw [h2, hn, hmin], l, z⟩

theorem high_bits_zero_witness :
    (∀ (v w b : List Nat) (rs : RandomSource) (i : Nat), loop_limit param337 ≤ i →
      mu_bit (round_and_cross_round param337 v rs).1.1 i = false ∧
      mu_bit (round_and_cross_round param337 v rs).1.2 i = false ∧
      mu_bit (ringlwe_rec param337 w b) i = false) ∧
    ∃ out, RINGLWE_compute_key_alice keyConsts337 (List.replicate 43 255) 64 (some samplePub337)
        (some ⟨6, [0, 0, 0, 0, 0, 0]⟩) (some samplePair337) none = some (43, out, []) ∧
      out.length = 43 ∧ out.getD 42 0 = 0 :=
  have h := high_bits_zero param337 (by decide)
  ⟨h.1, ((h.2 rfl (by decide) keyConsts337 .s337_32353 (List.replicate 43 255) 64 rfl
    (List.length_replicate _ _) (by decide)).1 samplePub337 ⟨6, [0, 0, 0, 0, 0, 0]⟩ samplePair337
    rfl rfl)⟩

/-! ### Claims C31 to C33: the Bluestein transforms -/

theorem pow2_least (a N m : Nat) (hN : N = 2 ^ (m + 1)) (ha : 2 ^ m < a) :
    ∀ k, a ≤ 2 ^ k → N ≤ 2 ^ k := by
  intro k hk
  by_cases h : k ≤ m
  · have : 2 ^ k ≤ 2 ^ m := Nat.pow_le_pow_right (by omega) h
    omega
  · rw [hN]
    exact Nat.pow_le_pow_right (by omega) (by omega)

theorem Bluestein_x_crt_lt (n q N Ninvq0 Ninvq1 : Nat) (mul roots0 roots1 : List Nat)
    (D : BluesteinData) (x : List Nat) (hq : 0 < q) (k : Nat) :
    (Bluestein_x_crt n q N Ninvq0 Ninvq1 mul roots0 roots1 D x).getD k 0 < q := by
  unfold Bluestein_x_crt
  simp only
  rw [getD_map_range]
  split
  · exact Nat.mod_lt _ hq
  · exact hq

theorem Bluestein_complete_spec (n q N : Nat) (mul y x : List Nat) (hn : 1 ≤ n)
    (hl : x.length = n) :
    (Bluestein_complete n q N mul y x).length = n ∧
    ∀ k, (Bluestein_complete n q N mul y x).getD k 0 =
      if k = 0 then y.getD ((N >>> 1) - 1) 0
      else if k < n then MUL_MOD (y.getD ((N >>> 1) + (k - 1)) 0) (mul.getD (k - 1) 0) q
      else x.getD k 0 := by
  have hf : (fun (x : List Nat) (i : Nat) =>
      x.set (i + 1) (MUL_MOD (y.getD ((N >>> 1) + i) 0) (mul.getD i 0) q)) =
      (fun (x : List Nat) (i : Nat) =>
      x.set (1 + i) ((fun i => MUL_MOD (y.getD ((N >>> 1) + i) 0) (mul.getD i 0) q) i)) := by
    funext x i
    rw [Nat.add_comm]
  have hl0 : (x.set 0 (y.getD ((N >>> 1) - 1) 0)).length = n := by
    rw [List.length_set]; exact hl
  obtain ⟨l, g⟩ := foldl_set_index
    (fun i => MUL_MOD (y.getD ((N >>> 1) + i) 0) (mul.getD i 0) q) 1 (n - 1)
    (x.set 0 (y.getD ((N >>> 1) - 1) 0)) (by omega)
  unfold Bluestein_complete
  simp only
  rw [hf]
  refine ⟨by rw [l, hl0], fun k => ?_⟩
  rw [g k, getD_set _ _ _ _ (by omega)]
  by_cases h0 : k = 0
  · rw [if_neg (by omega), if_pos h0, if_pos h0]
  · by_cases h1 : k < n
    · rw [if_pos ⟨by omega, by omega⟩, if_neg h0, if_pos h1]
    · rw [if_neg (by omega), if_neg h0, if_neg h0, if_neg h1]

theorem Bluestein_complete_lt (n q N : Nat) (mul y x : List Nat) (hn : 1 ≤ n)
    (hl : x.length = n) (hq : 0 < q) (hy : y.getD ((N >>> 1) - 1) 0 < q) :
    ∀ c ∈ Bluestein_complete n q N mul y x, c < q := by
  obtain ⟨l, g⟩ := Bluestein_complete_spec n q N mul y x hn hl
  intro c hc
  obtain ⟨k, hk, rfl⟩ := List.getElem_of_mem hc
  rw [← List.getD_eq_getElem _ 0 hk, g k]
  split
  · exact hy
  · rw [if_pos (by omega)]
    exact MUL_MOD_lt _ _ hq

theorem Bluestein_complete_reads (n q N : Nat) (mul y y' x : List Nat) (hn : 1 ≤ n)
    (hl : x.length = n)
    (h : ∀ k, (N >>> 1) - 1 ≤ k → k ≤ (N >>> 1) + n - 2 → y'.getD k 0 = y.getD k 0) :
    Bluestein_complete n q N mul y' x = Bluestein_complete n q N mul y x := by
  obtain ⟨l, g⟩ := Bluestein_complete_spec n q N mul y x hn hl
  obtain ⟨l', g'⟩ := Bluestein_complete_spec n q N mul y' x hn hl
  apply list_ext_getD (by rw [l, l'])
  intro k hk
  rw [g k, g' k]
  by_cases h0 : k = 0
  · rw [if_pos h0, if_pos h0]
    exact h _ (le_refl _) (by omega)
  · rw [if_neg h0, if_neg h0]
    by_cases h1 : k < n
    · rw [if_pos h1, if_pos h1, h _ (by omega) (by omega)]
    · rw [if_neg h1, if_neg h1]

/-- C31. For each Bluestein set `(n, q, N)` of the source, `(337, 32353, 1024)`,
`(433, 35507, 1024)` and `(739, 47297, 2048)`: `N` is a power of two, `2n <= N`, and every
power of two `>= 2n` is `>= N`; the indices `N/2 - 1 .. N/2 + n - 2` are below `N`; the step
"Complete Bluestein's trick" gives the same result for two arrays `y` that agree at these
indices; on an array `x` of `n` entries it writes all `n` entries, `x[0] = y[N/2 - 1]` and
`x[i+1] = MUL_MOD(y[N/2 + i], chirp[i], q)` for `i < n - 1`, which is `(y[N/2+i]*chirp[i]) mod q`
when the 64-bit product does not wrap; and every coefficient returned by `FFT_forward_<n>_<q>`
and `FFT_backward_<n>_<q>` is below `q`, whatever the input, the tables and the auxiliary
transforms are. -/
theorem bluestein_complete_step (n q N : Nat) (hset : (n, q, N) ∈ Bluestein_sets)
    (chirp y x : List Nat) (hl : x.length = n) :
    ((∃ k, N = 2 ^ k) ∧ 2 * n ≤ N ∧ ∀ k, 2 * n ≤ 2 ^ k → N ≤ 2 ^ k) ∧
    (N >>> 1 = N / 2 ∧ N / 2 + n - 2 < N) ∧
    (∀ y' : List Nat, (∀ k, N / 2 - 1 ≤ k → k ≤ N / 2 + n - 2 → y'.getD k 0 = y.getD k 0) →
      Bluestein_complete n q N chirp y' x = Bluestein_complete n q N chirp y x) ∧
    (Bluestein_complete n q N chirp y x).length = n ∧
    (Bluestein_complete n q N chirp y x).getD 0 0 = y.getD (N / 2 - 1) 0 ∧
    (∀ i, i < n - 1 →
      (Bluestein_complete n q N chirp y x).getD (i + 1) 0 =
        MUL_MOD (y.getD (N / 2 + i) 0) (chirp.getD i 0) q ∧
      (y.getD (N / 2 + i) 0 * chirp.getD i 0 < 2 ^ 64 →
        (Bluestein_complete n q N chirp y x).getD (i + 1) 0 =
          (y.getD (N / 2 + i) 0 * chirp.getD i 0) % q)) ∧
    (∀ D : BluesteinData,
      (∃ Ninvq0 Ninvq1, Bluestein_forward n D x = Bluestein_complete n q N D.mul
        (Bluestein_x_crt n q N Ninvq0 Ninvq1 D.mul D.roots_fft_q0 D.roots_fft_q1 D x) x ∧
        Bluestein_backward n D x = Bluestein_complete n q N D.mul_inv
          (Bluestein_x_crt n q N Ninvq0 Ninvq1 D.mul_inv D.roots_inv_fft_q0 D.roots_inv_fft_q1
            D x) x) ∧
      (Bluestein_forward n D x).length = n ∧ (Bluestein_backward n D x).length = n ∧
      (∀ c ∈ Bluestein_forward n D x, c < q) ∧ (∀ c ∈ Bluestein_backward n D x, c < q)) := by
  have facts : ∃ m, N = 2 ^ (m + 1) ∧ 2 ^ m < 2 * n ∧ 2 * n ≤ N ∧ 0 < q ∧
      (∀ D : BluesteinData, ∃ Ninvq0 Ninvq1,
        Bluestein_forward n D x = Bluestein_complete n q N D.mul
          (Bluestein_x_crt n q N Ninvq0 Ninvq1 D.mul D.roots_fft_q0 D.roots_fft_q1 D x) x ∧
        Bluestein_backward n D x = Bluestein_complete n q N D.mul_inv
          (Bluestein_x_crt n q N Ninvq0 Ninvq1 D.mul_inv D.roots_inv_fft_q0 D.roots_inv_fft_q1
            D x) x) := by
    simp only [Bluestein_sets, List.mem_cons, Prod.mk.injEq, List.mem_singleton,
      List.not_mem_nil, or_false] at hset
    rcases hset with ⟨rfl, rfl, rfl⟩ | ⟨rfl, rfl, rfl⟩ | ⟨rfl, rfl, rfl⟩
    · exact ⟨9, by norm_num, by norm_num, by norm_num, by norm_num,
        fun D => ⟨8808031, 17616061, rfl, rfl⟩⟩
    · exact ⟨9, by norm_num, by norm_num, by norm_num, by norm_num,
        fun D => ⟨8808031, 17616061, rfl, rfl⟩⟩
    · exact ⟨10, by norm_num, by norm_num, by norm_num, by norm_num,
        fun D => ⟨8812336, 17624671, rfl, rfl⟩⟩
  obtain ⟨m, hN, hm, h2n, hq, hD⟩ := facts
  have hn : 1 ≤ n := by
    have : 1 ≤ 2 ^ m := Nat.one_le_two_pow
    omega
  have hhalf : N >>> 1 = N / 2 := by rw [Nat.shiftRight_eq_div_pow]
  have hN2 : N / 2 = 2 ^ m := by rw [hN, Nat.pow_succ]; omega
  obtain ⟨l, g⟩ := Bluestein_complete_spec n q N chirp y x hn hl
  rw [hhalf] at g
  refine ⟨⟨⟨m + 1, hN⟩, h2n, pow2_least (2 * n) N m hN hm⟩, ⟨hhalf, by omega⟩, ?_, l, ?_, ?_, ?_⟩
  · intro y' h
    exact Bluestein_complete_reads n q N chirp y y' x hn hl (by rw [hhalf]; exact h)
  · rw [g 0, if_pos rfl]
  · intro i hi
    have e : (Bluestein_complete n q N chirp y x).getD (i + 1) 0 =
        MUL_MOD (y.getD (N / 2 + i) 0) (chirp.getD i 0) q := by
      rw [g (i + 1), if_neg (by omega), if_pos (by omega)]
      rfl
    exact ⟨e, fun hw => by rw [e, MUL_MOD_eq q hw]⟩
  · intro D
    obtain ⟨a, b, hf, hb⟩ := hD D
    refine ⟨⟨a, b, hf, hb⟩, ?_, ?_, ?_, ?_⟩
    · rw [hf]; exact (Bluestein_complete_spec n q N _ _ x hn hl).1
    · rw [hb]; exact (Bluestein_complete_spec n q N _ _ x hn hl).1
    · rw [hf]
      exact Bluestein_complete_lt n q N _ _ x hn hl hq (Bluestein_x_crt_lt _ _ _ _ _ _ _ _ _ _ hq _)
    · rw [hb]
      exact Bluestein_complete_lt n q N _ _ x hn hl hq (Bluestein_x_crt_lt _ _ _ _ _ _ _ _ _ _ hq _)

theorem bluestein_complete_step_witness :
    ((∃ k, 1024 = 2 ^ k) ∧ 2 * 337 ≤ 1024 ∧ ∀ k, 2 * 337 ≤ 2 ^ k → 1024 ≤ 2 ^ k) ∧
    (Bluestein_complete 337 32353 1024 (List.replicate 337 3) (List.replicate 1024 7)
      (List.replicate 337 1)).getD 0 0 = (List.replicate 1024 7).getD (1024 / 2 - 1) 0 ∧
    (∀ c ∈ Bluestein_forward 337 sampleBluestein (List.replicate 337 1), c < 32353) ∧
    (∀ c ∈ Bluestein_backward 337 sampleBluestein (List.replicate 337 1), c < 32353) :=
  have h := bluestein_complete_step 337 32353 1024 (by decide) (List.replicate 337 3)
    (List.replicate 1024 7) (List.replicate 337 1) (List.length_replicate _ _)
  ⟨h.1, h.2.2.2.2.1, (h.2.2.2.2.2.2 sampleBluestein).2.2.2.1,
    (h.2.2.2.2.2.2 sampleBluestein).2.2.2.2⟩

/-- C32. The constant by which each `_FFT_backward_<n>_<q>` scales is the inverse of `n` modulo
`q`: `1024*40921 = 1 mod 40961`, `512*25551 = 1 mod 25601`, `337*32257 = 1 mod 32353`,
`433*35425 = 1 mod 35507`, `739*47233 = 1 mod 47297`; and the constants `Ninvq0`, `Ninvq1` of
the Bluestein transforms are the inverses of the working length `N` modulo `q0` and `q1`:
`1024*8808031 = 1 mod 8816641`, `1024*17616061 = 1 mod 17633281`,
`2048*8812336 = 1 mod 8816641`, `2048*17624671 = 1 mod 17633281`. -/
theorem scaling_constants_inverse :
    ((∀ T x, _FFT_backward_1024_40961 T x =
        scale 1024 40961 40921 (FFT_twisted_backward 1024 40961 T.W_rev T.W_sqrt_rev x)) ∧
      (1024 * 40921) % 40961 = 1 ∧ MUL_MOD 1024 40921 40961 = 1) ∧
    ((∀ T x, _FFT_backward_512_25601 T x =
        scale 512 25601 25551 (FFT_twisted_backward 512 25601 T.W_rev T.W_sqrt_rev x)) ∧
      (512 * 25551) % 25601 = 1 ∧ MUL_MOD 512 25551 25601 = 1) ∧
    ((∀ D x, _FFT_backward_337_32353 D x = scale 337 32353 32257 (FFT_backward_337_32353 D x)) ∧
      (337 * 32257) % 32353 = 1 ∧ MUL_MOD 337 32257 32353 = 1) ∧
    ((∀ D x, _FFT_backward_433_35507 D x = scale 433 35507 35425 (FFT_backward_433_35507 D x)) ∧
      (433 * 35425) % 35507 = 1 ∧ MUL_MOD 433 35425 35507 = 1) ∧
    ((∀ D x, _FFT_backward_739_47297 D x = scale 739 47297 47233 (FFT_backward_739_47297 D x)) ∧
      (739 * 47233) % 47297 = 1 ∧ MUL_MOD 739 47233 47297 = 1) ∧
    ((∀ D x, FFT_forward_337_32353 D x = Bluestein_complete 337 32353 1024 D.mul
        (Bluestein_x_crt 337 32353 1024 8808031 17616061 D.mul D.roots_fft_q0 D.roots_fft_q1
          D x) x) ∧
      (∀ D x, FFT_backward_337_32353 D x = Bluestein_complete 337 32353 1024 D.mul_inv
        (Bluestein_x_crt 337 32353 1024 8808031 17616061 D.mul_inv D.roots_inv_fft_q0
          D.roots_inv_fft_q1 D x) x) ∧
      (∀ D x, FFT_forward_433_35507 D x = Bluestein_complete 433 35507 1024 D.mul
        (Bluestein_x_crt 433 35507 1024 8808031 17616061 D.mul D.roots_fft_q0 D.roots_fft_q1
          D x) x) ∧
      (∀ D x, FFT_backward_433_35507 D x = Bluestein_complete 433 35507 1024 D.mul_inv
        (Bluestein_x_crt 433 35507 1024 8808031 17616061 D.mul_inv D.roots_inv_fft_q0
          D.roots_inv_fft_q1 D x) x) ∧
      (1024 * 8808031) % Bluestein_q0 = 1 ∧ MUL_MOD 1024 8808031 Bluestein_q0 = 1 ∧
      (1024 * 17616061) % Bluestein_q1 = 1 ∧ MUL_MOD 1024 17616061 Bluestein_q1 = 1) ∧
    ((∀ D x, FFT_forward_739_47297 D x = Bluestein_complete 739 47297 2048 D.mul
        (Bluestein_x_crt 739 47297 2048 8812336 17624671 D.mul D.roots_fft_q0 D.roots_fft_q1
          D x) x) ∧
      (∀ D x, FFT_backward_739_47297 D x = Bluestein_complete 739 47297 2048 D.mul_inv
        (Bluestein_x_crt 739 47297 2048 8812336 17624671 D.mul_inv D.roots_inv_fft_q0
          D.roots_inv_fft_q1 D x) x) ∧
      (2048 * 8812336) % Bluestein_q0 = 1 ∧ MUL_MOD 2048 8812336 Bluestein_q0 = 1 ∧
      (2048 * 17624671) % Bluestein_q1 = 1 ∧ MUL_MOD 2048 17624671 Bluestein_q1 = 1) ∧
    Bluestein_q0 = 8816641 ∧ Bluestein_q1 = 17633281 :=
  ⟨⟨fun _ _ => rfl, by decide, by decide⟩, ⟨fun _ _ => rfl, by decide, by decide⟩,
    ⟨fun _ _ => rfl, by decide, by decide⟩, ⟨fun _ _ => rfl, by decide, by decide⟩,
    ⟨fun _ _ => rfl, by decide, by decide⟩,
    ⟨fun _ _ => rfl, fun _ _ => rfl, fun _ _ => rfl, fun _ _ => rfl, by decide, by decide,
      by decide, by decide⟩,
    ⟨fun _ _ => rfl, fun _ _ => rfl, by decide, by decide, by decide, by decide⟩, rfl, rfl⟩

theorem sum_padded_le (t : Nat → Nat) (n B : Nat) (h1 : ∀ j, t j ≤ B)
    (h0 : ∀ j, n ≤ j → t j = 0) : ∀ N, ((List.range N).map t).sum ≤ n * B := by
  have h : ∀ N, ((List.range N).map t).sum ≤ min N n * B := by
    intro N
    induction N with
    | zero => simp
    | succ N ih =>
      have hr : List.range (N + 1) = List.range N ++ [N] := List.range_succ N
      rw [hr, List.map_append, List.sum_append]
      simp only [List.map_cons, List.map_nil, List.sum_cons, List.sum_nil, Nat.add_zero]
      by_cases hN : N < n
      · rw [Nat.min_eq_left (by omega)] at ih
        rw [Nat.min_eq_left (by omega), Nat.succ_mul]
        have := h1 N
        omega
      · rw [Nat.min_eq_right (by omega)] at ih
        rw [Nat.min_eq_right (by omega), h0 N (by omega)]
        omega
  intro N
  exact le_trans (h N) (Nat.mul_le_mul_right B (Nat.min_le_right N n))

theorem cyclic_conv_le (n q N : Nat) (f g : List Nat) (hq : 0 < q)
    (hf : ∀ j, f.getD j 0 < q) (hg : ∀ j, g.getD j 0 < q)
    (hpad : ∀ j, n ≤ j → f.getD j 0 = 0) (k : Nat) :
    cyclic_conv N f g k ≤ n * (q - 1) ^ 2 := by
  unfold cyclic_conv
  apply sum_padded_le
  · intro j
    rw [Nat.pow_two]
    exact Nat.mul_le_mul (by have := hf j; omega) (by have := hg ((k + N - j) % N); omega)
  · intro j hj
    rw [hpad j hj, Nat.zero_mul]

theorem CRT_combine_exact (c : Nat) (hc : c < Bluestein_q0q1) :
    CRT_combine (c % Bluestein_q0) (c % Bluestein_q1) = c := by
  obtain ⟨hlt, hm0, hm1⟩ := CRT_combine_mod (c % Bluestein_q0) (c % Bluestein_q1)
    (Nat.mod_lt _ (by decide)) (Nat.mod_lt _ (by decide))
  have hprod : Bluestein_q0q1 = Bluestein_q0 * Bluestein_q1 := by decide
  exact Nat.ModEq.eq_of_lt_of_lt
    ((Nat.modEq_and_modEq_iff_modEq_mul Bluestein_coprime).1 ⟨hm0, hm1⟩) hlt (by rw [← hprod]; exact hc)

/-- C33. For each Bluestein set of the source, `n*(q-1)^2 < q0*q1 = 155466308229121`; so every
entry of the integer cyclic convolution (of the working length `N`) of a sequence `f` with
entries in `[0,q)` that is zero from index `n` on, as the padded input is, with a sequence `g`
with entries in `[0,q)` is at most `n*(q-1)^2`, hence below `q0*q1`, and the CRT statements
applied to its residues modulo `q0` and `q1` give the entry itself, so that the final
reduction gives its residue modulo `q`. -/
theorem crt_recovers_convolution (n q N : Nat) (hset : (n, q, N) ∈ Bluestein_sets)
    (f g : List Nat) (hf : ∀ j, f.getD j 0 < q) (hg : ∀ j, g.getD j 0 < q)
    (hpad : ∀ j, n ≤ j → f.getD j 0 = 0) (k : Nat) :
    n * (q - 1) ^ 2 < Bluestein_q0q1 ∧ Bluestein_q0q1 = Bluestein_q0 * Bluestein_q1 ∧
    Bluestein_q0q1 = 155466308229121 ∧
    cyclic_conv N f g k ≤ n * (q - 1) ^ 2 ∧ cyclic_conv N f g k < Bluestein_q0q1 ∧
    CRT_combine (cyclic_conv N f g k % Bluestein_q0) (cyclic_conv N f g k % Bluestein_q1) =
      cyclic_conv N f g k ∧
    CRT_combine (cyclic_conv N f g k % Bluestein_q0) (cyclic_conv N f g k % Bluestein_q1) % q =
      cyclic_conv N f g k % q := by
  have facts : 0 < q ∧ n * (q - 1) ^ 2 < Bluestein_q0q1 := by
    simp only [Bluestein_sets, List.mem_cons, Prod.mk.injEq, List.mem_singleton,
      List.not_mem_nil, or_false] at hset
    rcases hset with ⟨rfl, rfl, rfl⟩ | ⟨rfl, rfl, rfl⟩ | ⟨rfl, rfl, rfl⟩
    · exact ⟨by norm_num, by decide⟩
    · exact ⟨by norm_num, by decide⟩
    · exact ⟨by norm_num, by decide⟩
  obtain ⟨hq, hlt⟩ := facts
  have hle := cyclic_conv_le n q N f g hq hf hg hpad k
  have hc : cyclic_conv N f g k < Bluestein_q0q1 := lt_of_le_of_lt hle hlt
  have he := CRT_combine_exact _ hc
  exact ⟨hlt, by decide, rfl, hle, hc, he, by rw [he]⟩

theorem crt_recovers_convolution_witness :
    337 * (32353 - 1) ^ 2 < Bluestein_q0q1 ∧
    cyclic_conv 1024 (List.replicate 337 32352) (List.replicate 1024 32352) 400 <
      Bluestein_q0q1 ∧
    CRT_combine
        (cyclic_conv 1024 (List.replicate 337 32352) (List.replicate 1024 32352) 400 %
          Bluestein_q0)
        (cyclic_conv 1024 (List.replicate 337 32352) (List.replicate 1024 32352) 400 %
          Bluestein_q1) =
      cyclic_conv 1024 (List.replicate 337 32352) (List.replicate 1024 32352) 400 :=
  have hb : ∀ (m j : Nat), (List.replicate m 32352).getD j 0 < 32353 := fun m j => by
    rw [getD_replicate]; split <;> norm_num
  have h := crt_recovers_convolution 337 32353 1024 (by decide) (List.replicate 337 32352)
    (List.replicate 1024 32352) (hb 337) (hb 1024)
    (fun j hj => by rw [getD_replicate, if_neg (by omega)]) 400
  ⟨h.1, h.2.2.2.2.1, h.2.2.2.2.2.1⟩

/-! ### Claims C36 and C37: rejected input and the flag `keys_set` -/

theorem o2i_RLWE_PUB_target_spec (C : Consts) (target : Option RLWE_PUB) (inp : List Nat) :
    ((o2i_RLWE_PUB C target inp).1 = none → o2i_RLWE_PUB_target C target inp = target) ∧
    (∀ pub, (o2i_RLWE_PUB C target inp).1 = some pub →
      o2i_RLWE_PUB_target C target inp = some pub) := by
  unfold o2i_RLWE_PUB o2i_RLWE_PUB_target
  by_cases h1 : inp.length < 32
  · rw [if_pos h1, if_pos h1]
    exact ⟨fun _ => rfl, fun _ h => absurd h (by simp)⟩
  rw [if_neg h1, if_neg h1]
  simp only
  by_cases h2 : RLWE_get_nid_from_descriptor C inp = 0
  · rw [if_pos h2, if_pos h2]
    exact ⟨fun _ => rfl, fun _ h => absurd h (by simp)⟩
  rw [if_neg h2, if_neg h2]
  rcases RLWE_CTX_new C (RLWE_get_nid_from_descriptor C inp) with ⟨_ | ctx, errs⟩
  · exact ⟨fun _ => rfl, fun _ h => absurd h (by simp)⟩
  simp only
  by_cases h3 : inp.length ≠
      (32 + (C.param ctx.param_data).m % 2 ^ 32 * n_ringelt_bytes (C.param ctx.param_data).q) %
        2 ^ 32
  · rw [if_pos h3, if_pos h3]
    exact ⟨fun _ => rfl, fun _ h => absurd h (by simp)⟩
  rw [if_neg h3, if_neg h3]
  rcases target with _ | old
  · exact ⟨fun h => absurd h (by simp), fun _ h => by simpa using h⟩
  simp only
  by_cases h4 : some ctx.param_data ≠ old.param_data
  · rw [if_pos h4, if_pos h4]
    exact ⟨fun _ => rfl, fun _ h => absurd h (by simp)⟩
  rw [if_neg h4, if_neg h4]
  exact ⟨fun h => absurd h (by simp), fun _ h => by simpa using h⟩

theorem o2i_RLWE_SEC_target_spec (C : Consts) (target : Option RLWE_PAIR) (inp : List Nat) :
    ((o2i_RLWE_SEC C target inp).1 = none → o2i_RLWE_SEC_target C target inp = target) ∧
    (∀ pair, (o2i_RLWE_SEC C target inp).1 = some pair →
      o2i_RLWE_SEC_target C target inp = some pair) := by
  unfold o2i_RLWE_SEC o2i_RLWE_SEC_target
  by_cases h1 : inp.length < 32
  · rw [if_pos h1, if_pos h1]
    exact ⟨fun _ => rfl, fun _ h => absurd h (by simp)⟩
  rw [if_neg h1, if_neg h1]
  simp only
  by_cases h2 : RLWE_get_nid_from_descriptor C inp = 0
  · rw [if_pos h2, if_pos h2]
    exact ⟨fun _ => rfl, fun _ h => absurd h (by simp)⟩
  rw [if_neg h2, if_neg h2]
  rcases RLWE_CTX_new C (RLWE_get_nid_from_descriptor C inp) with ⟨_ | ctx, errs⟩
  · exact ⟨fun _ => rfl, fun _ h => absurd h (by simp)⟩
  simp only
  by_cases h3 : inp.length ≠
      (32 + (C.param ctx.param_data).m % 2 ^ 32 * n_ringelt_bytes (C.param ctx.param_data).q) %
        2 ^ 32
  · rw [if_pos h3, if_pos h3]
    exact ⟨fun _ => rfl, fun _ h => absurd h (by simp)⟩
  rw [if_neg h3, if_neg h3]
  rcases target with _ | old
  · exact ⟨fun h => absurd h (by simp), fun _ h => by simpa using h⟩
  simp only
  by_cases h4 : some ctx.param_data ≠ old.param_data
  · rw [if_pos h4, if_pos h4]
    exact ⟨fun _ => rfl, fun _ h => absurd h (by simp)⟩
  rw [if_neg h4, if_neg h4]
  exact ⟨fun h => absurd h (by simp), fun _ h => by simpa using h⟩

/-- C36. Whenever `o2i_RLWE_PUB` or `o2i_RLWE_SEC` returns null, `*pub` or `*pair` and the key it
points to, coefficients included, are after the call what they were before it: the length
check, the descriptor lookup and the comparison with the parameter record of an existing
target all come before the first coefficient is written.  When the call returns a key, that
key is what the target holds. -/
theorem o2i_null_keeps_target (C : Consts) (pub_target : Option RLWE_PUB)
    (pair_target : Option RLWE_PAIR) (inp : List Nat) :
    ((o2i_RLWE_PUB C pub_target inp).1 = none →
      o2i_RLWE_PUB_target C pub_target inp = pub_target) ∧
    ((o2i_RLWE_SEC C pair_target inp).1 = none →
      o2i_RLWE_SEC_target C pair_target inp = pair_target) ∧
    (∀ pub, (o2i_RLWE_PUB C pub_target inp).1 = some pub →
      o2i_RLWE_PUB_target C pub_target inp = some pub) ∧
    (∀ pair, (o2i_RLWE_SEC C pair_target inp).1 = some pair →
      o2i_RLWE_SEC_target C pair_target inp = some pair) :=
  ⟨(o2i_RLWE_PUB_target_spec C pub_target inp).1, (o2i_RLWE_SEC_target_spec C pair_target inp).1,
    (o2i_RLWE_PUB_target_spec C pub_target inp).2, (o2i_RLWE_SEC_target_spec C pair_target inp).2⟩

theorem o2i_null_keeps_target_witness :
    (o2i_RLWE_PUB sampleConsts (some samplePub) [82, 76, 87, 69]).1 = none ∧
    o2i_RLWE_PUB_target sampleConsts (some samplePub) [82, 76, 87, 69] = some samplePub ∧
    (o2i_RLWE_SEC sampleConsts (some samplePair) [82, 76, 87, 69]).1 = none ∧
    o2i_RLWE_SEC_target sampleConsts (some samplePair) [82, 76, 87, 69] = some samplePair :=
  have h := o2i_null_keeps_target sampleConsts (some samplePub) (some samplePair) [82, 76, 87, 69]
  ⟨rfl, h.1 rfl, rfl, h.2.1 rfl⟩

theorem o2i_RLWE_SEC_keys_set (C : Consts) (target : Option RLWE_PAIR) (inp : List Nat)
    (pair : RLWE_PAIR) (h : (o2i_RLWE_SEC C target inp).1 = some pair) :
    (∀ old, target = some old → pair.keys_set = old.keys_set) ∧
    (target = none → pair.keys_set = 0) := by
  unfold o2i_RLWE_SEC at h
  by_cases h1 : inp.length < 32
  · rw [if_pos h1] at h
    exact absurd h (by simp)
  rw [if_neg h1] at h
  simp only at h
  by_cases h2 : RLWE_get_nid_from_descriptor C inp = 0
  · rw [if_pos h2] at h
    exact absurd h (by simp)
  rw [if_neg h2] at h
  generalize RLWE_CTX_new C (RLWE_get_nid_from_descriptor C inp) = r at h
  rcases r with ⟨_ | ctx, errs⟩
  · exact absurd h (by simp)
  simp only at h
  by_cases h3 : inp.length ≠
      (32 + (C.param ctx.param_data).m % 2 ^ 32 * n_ringelt_bytes (C.param ctx.param_data).q) %
        2 ^ 32
  · rw [if_pos h3] at h
    exact absurd h (by simp)
  rw [if_neg h3] at h
  rcases target with _ | old
  · simp only [Option.some.injEq] at h
    rw [← h]
    exact ⟨fun _ ho => absurd ho (by simp), fun _ => rfl⟩
  simp only at h
  by_cases h4 : some ctx.param_data ≠ old.param_data
  · rw [if_pos h4] at h
    exact absurd h (by simp)
  rw [if_neg h4] at h
  simp only [Option.some.injEq] at h
  rw [← h]
  exact ⟨fun _ ho => by rw [Option.some.inj ho], fun ho => absurd ho (by simp)⟩

theorem generate_key_cases (C : Consts) (fuel : Nat) (kp : RLWE_PAIR) (rs : RandomSource)
    (ret : Int) (kp' : Option RLWE_PAIR) (errs : List RlweError) (rs' : RandomSource)
    (h : RLWE_PAIR_generate_key C fuel (some kp) rs = some (ret, kp', errs, rs')) :
    (ret = 0 ∧ kp' = some kp ∧ errs ≠ []) ∨
    (ret = 1 ∧ errs = [] ∧ ∃ k, kp' = some k ∧ k.keys_set = 1 ∧ k.param_data = kp.param_data ∧
      k.descriptor = kp.descriptor) := by
  unfold RLWE_PAIR_generate_key at h
  simp only at h
  rcases hp : kp.pub with _ | pub
  · rw [hp] at h
    simp only [Option.some.injEq, Prod.mk.injEq] at h
    exact Or.inl ⟨h.1.symm, h.2.1.symm, by rw [← h.2.2.1]; simp⟩
  rw [hp] at h
  simp only at h
  rcases hd : kp.param_data with _ | p
  · rw [hd] at h
    simp only [Option.some.injEq, Prod.mk.injEq] at h
    exact Or.inl ⟨h.1.symm, h.2.1.symm, by rw [← h.2.2.1]; simp⟩
  rcases hd2 : pub.param_data with _ | p2
  · rw [hd, hd2] at h
    simp only [Option.some.injEq, Prod.mk.injEq] at h
    exact Or.inl ⟨h.1.symm, h.2.1.symm, by rw [← h.2.2.1]; simp⟩
  rw [hd, hd2] at h
  simp only at h
  rcases hg : KEM1_Generate fuel (C.param p) rs with _ | ⟨⟨s, b⟩, rs2⟩
  · rw [hg] at h
    exact absurd h (by simp)
  rw [hg] at h
  simp only [Option.some.injEq, Prod.mk.injEq] at h
  exact Or.inr ⟨h.1.symm, h.2.2.1.symm, _, h.2.1.symm, rfl, rfl, rfl⟩

theorem RLWE_PAIR_dup_keys_set (C : Consts) (src dest : RLWE_PAIR) (errs : List RlweError)
    (h : RLWE_PAIR_dup C (some src) = (some dest, errs)) : dest.keys_set = src.keys_set := by
  unfold RLWE_PAIR_dup at h
  simp only at h
  generalize RLWE_PUB_dup C src.pub = r at h
  rcases r with ⟨_ | pub, e⟩
  · exact absurd h (by simp)
  · simp only [Prod.mk.injEq, Option.some.injEq] at h
    rw [← h.1]

theorem oversizeInput_parse_sec :
    o2i_RLWE_SEC sampleConsts none oversizeInput = (some oversizePair, []) := by
  have hlen : oversizeInput.length = 32 + 256 * 2 := by
    unfold oversizeInput
    rw [List.length_append, descriptor_of_length, List.length_replicate]
  rw [sampleConsts_wf.o2i_RLWE_SEC_of_set .s256_15361 none oversizeInput (by rw [hlen]; omega)
    (sampleConsts_wf.get_nid_descriptor .s256_15361 _)]
  rw [if_neg (by rw [hlen]; exact not_not_intro rfl)]
  rfl

/-- C37. The flag `keys_set` over the key-pair operations: it is 0 in the pair returned by
`RLWE_PAIR_new`; `RLWE_PAIR_dup` copies it; `RLWE_PAIR_generate_key` either fails, returning 0
and leaving the pair as it was, or succeeds, returning 1 with `keys_set = 1`; `o2i_RLWE_SEC`
leaves it as it was in an existing pair and at 0 in a pair it creates.
`RLWE_PAIR_get_publickey` returns the public key of the pair when `keys_set` is not 0 and null
when it is 0, and `RLWE_PAIR_has_privatekey` returns the flag.  So for a pair newly created by
`o2i_RLWE_SEC`, `RLWE_PAIR_has_privatekey` returns 0 and `RLWE_PAIR_get_publickey` returns null
although the coefficients of `s1` were loaded from the input. -/
theorem keys_set_flag (C : Consts) (hC : C.WF) :
    (∀ ctx, (RLWE_PAIR_new C ctx).keys_set = 0) ∧
    (∀ src dest errs, RLWE_PAIR_dup C (some src) = (some dest, errs) →
      dest.keys_set = src.keys_set) ∧
    (∀ fuel kp rs ret kp' errs rs',
      RLWE_PAIR_generate_key C fuel (some kp) rs = some (ret, kp', errs, rs') →
      (ret = 0 ∧ kp' = some kp ∧ errs ≠ []) ∨
      (ret = 1 ∧ errs = [] ∧ ∃ k, kp' = some k ∧ k.keys_set = 1)) ∧
    (∀ old inp pair, (o2i_RLWE_SEC C (some old) inp).1 = some pair →
      pair.keys_set = old.keys_set) ∧
    (∀ pair : RLWE_PAIR,
      (pair.keys_set ≠ 0 → RLWE_PAIR_get_publickey (some pair) = pair.pub) ∧
      (pair.keys_set = 0 → RLWE_PAIR_get_publickey (some pair) = none) ∧
      RLWE_PAIR_has_privatekey pair = pair.keys_set) ∧
    (∀ inp pair, (∀ k, inp.getD k 0 < 256) → (o2i_RLWE_SEC C none inp).1 = some pair →
      pair.keys_set = 0 ∧ RLWE_PAIR_has_privatekey pair = 0 ∧
      RLWE_PAIR_get_publickey (some pair) = none ∧
      ∃ s, pair.param_data = some s ∧ ∀ i, i < s.m →
        pair.s.getD (s.m + i) 0 = 256 * inp.getD (32 + 2 * i) 0 + inp.getD (32 + 2 * i + 1) 0) := by
  refine ⟨fun _ => rfl, fun src dest errs h => RLWE_PAIR_dup_keys_set C src dest errs h, ?_,
    fun old inp pair h => (o2i_RLWE_SEC_keys_set C (some old) inp pair h).1 old rfl,
    fun pair => ?_, ?_⟩
  · intro fuel kp rs ret kp' errs rs' h
    rcases generate_key_cases C fuel kp rs ret kp' errs rs' h with h0 | ⟨h1, h2, k, h3, h4, _⟩
    · exact Or.inl h0
    · exact Or.inr ⟨h1, h2, k, h3, h4⟩
  · refine ⟨fun h => ?_, fun h => ?_, rfl⟩
    · unfold RLWE_PAIR_get_publickey
      simp only
      rw [if_neg h]
    · unfold RLWE_PAIR_get_publickey
      simp only
      rw [if_pos h]
  · intro inp pair hb h
    have hk : pair.keys_set = 0 := (o2i_RLWE_SEC_keys_set C none inp pair h).2 rfl
    obtain ⟨s, hs, hcoef⟩ := o2i_RLWE_SEC_stored hC inp hb none pair
      (fun old ho => absurd ho (by simp)) h
    refine ⟨hk, hk, ?_, s, hs, fun i hi => (hcoef i hi).1⟩
    unfold RLWE_PAIR_get_publickey
    simp only
    rw [if_pos hk]

theorem keys_set_flag_witness :
    (o2i_RLWE_SEC sampleConsts none oversizeInput).1 = some oversizePair ∧
    oversizePair.keys_set = 0 ∧ RLWE_PAIR_has_privatekey oversizePair = 0 ∧
    RLWE_PAIR_get_publickey (some oversizePair) = none ∧
    ∃ s, oversizePair.param_data = some s ∧ ∀ i, i < s.m →
      oversizePair.s.getD (s.m + i) 0 =
        256 * oversizeInput.getD (32 + 2 * i) 0 + oversizeInput.getD (32 + 2 * i + 1) 0 :=
  have hp : (o2i_RLWE_SEC sampleConsts none oversizeInput).1 = some oversizePair := by
    rw [oversizeInput_parse_sec]
  have hb : ∀ k, oversizeInput.getD k 0 < 256 := fun k =>
    getD_lt_of_forall (by decide) (fun w hw => by
      unfold oversizeInput at hw
      rcases List.mem_append.1 hw with h | h
      · exact descriptor_of_lt sampleConsts .s256_15361 w h
      · rw [List.eq_of_mem_replicate h]; decide) k
  ⟨hp, (keys_set_flag sampleConsts sampleConsts_wf).2.2.2.2.2 oversizeInput oversizePair hb hp⟩

/-! ### The `n` coefficients returned by the transform entry points -/

end RingLWE
